import Mathlib

/-!
# Entry resolution in `TChain` (tree/tree/src/TChain.cxx)

A shallow embedding of the offset table of a `TChain` and of the operations
that read and write it: `AddFile`, `Add(TChain*)`, `LoadTree`, `GetEntries`,
`InvalidateCurrentTree` and `Reset`.

Conventions of the embedding.

* `Long64_t` and `Int_t` values are integers (`Int`) and their operations are those
  of the integers; counts that the code only ever obtains as a size are
  natural numbers.  The embedding thus describes the runs in which no sum
  leaves the range of `Long64_t`; for `AddFile` the sums reduced to 64 bits are given
  by `AddFile64`.
* `fTreeOffset` is the list of the slots of the C++ array that have been
  assigned so far.  Reading a slot that was never assigned has no defined
  value in C++; the embedded operations return `none` in that case.
* The files on disk, the sentinel `TTree::kMaxEntries` and the file-name parser
  are collected in an environment `Env`; the content of a file does not change
  during a run.
* A registered notifier is represented by the value its `Notify()` returns.
* The recursion of `LoadTree` is a tail call; `LoadTreeStep` is the body of the
  function up to that call and `LoadTreeAux` iterates it.
* A branch of an opened tree is represented by its name, the address bound to
  it and whether it is processed; an element of the list `fStatus` by its name,
  its status, its address and the slot its branch pointer refers to.  Addresses
  are natural numbers, `0` being the null pointer.
* The clone lists and the formula leaves are left out of the state.  The type
  check of an address (`CheckBranchAddressType`) is declared outside the file:
  of what follows it the flag `SetCheckedType(true)` of the element is
  represented; the decomposed-object mode, which is the `MakeClass` mode of the
  branch after that check, is not.
-/

set_option autoImplicit false

/-- A branch of an opened `TTree`: its name, the user address bound to it (`0`:
none) and whether it is processed (`SetBranchStatus`). -/
structure TBranch where
  fName : String
  fAddress : Nat
  processed : Bool
  deriving DecidableEq, Repr

/-- The part of an opened `TTree` that the chain consults: its number of
entries, its read cursor, its packet size, whether it carries a friend list,
whether one of those friend elements is marked as updated, and its branches. -/
structure TTree where
  fEntries : Nat
  fReadEntry : Int
  fPacketSize : Int
  hasFriends : Bool
  friendUpdated : Bool
  branches : List TBranch := []
  deriving DecidableEq, Repr

/-- Modelled from the spec: `TTree::LoadTree` of a single tree is declared outside
the excerpt; the partition handle's `PositionAt(localIndex)` returns the local
index, or a failure when the index is not inside the tree.  The failure value
is the one `TChain::LoadTree` documents for an out-of-range entry. -/
def TTree.LoadTree (t : TTree) (entry : Int) : Int × TTree :=
  if 0 ≤ entry ∧ entry < (t.fEntries : Int) then
    (entry, { t with fReadEntry := entry })
  else
    (-2, { t with fReadEntry := -1 })

/-- Modelled from the spec: `TTree::GetBranch` is declared outside the excerpt; the
column of the partition handle that carries the name, the first one when
several do. -/
def TTree.GetBranch (t : TTree) (name : String) : Option TBranch :=
  t.branches.find? fun br => decide (br.fName = name)

/-- Modelled from the spec: `TBranch::SetAddress` is declared outside the excerpt;
the column is rebound to the user-supplied memory location. -/
def TBranch.SetAddress (br : TBranch) (addr : Nat) : TBranch :=
  { br with fAddress := addr }

/-- The call `br->SetAddress(addr)` on the branch `br` that `GetBranch(name)` has
found among `brs`. -/
def setAddressOf : List TBranch → String → Nat → List TBranch
  | [], _, _ => []
  | br :: rest, name, addr =>
    if br.fName = name then br.SetAddress addr :: rest
    else br :: setAddressOf rest name addr

/-- The tree after `GetBranch(name)->SetAddress(addr)`. -/
def TTree.SetAddressOf (t : TTree) (name : String) (addr : Nat) : TTree :=
  { t with branches := setAddressOf t.branches name addr }

/-- Modelled from the spec: `TTree::SetBranchStatus` is declared outside the
excerpt; `SetEnabled` supports exact names and one wildcard-all name, and a
status other than `0` means that the branch is processed. -/
def TTree.SetBranchStatus (t : TTree) (bname : String) (status : Int) : TTree :=
  { t with branches := t.branches.map fun br =>
      if bname = "*" ∨ br.fName = bname then { br with processed := decide (status ≠ 0) }
      else br }

/-- One `TChainElement` of `fFiles`: tree name (`GetName`), file name
(`GetTitle`), recorded number of entries, packet size and last load result. -/
structure TChainElement where
  fName : String
  fTitle : String
  fEntries : Int
  fPacketSize : Int
  fLoadResult : Int
  deriving DecidableEq, Repr

/-- One `TChainElement` of `fStatus`: the branch name (`GetName`), the status
given by the user (`-1`: none), the user address (`0`: none), the branch
pointer registered with the address: `none` when there is no such pointer,
otherwise what the slot it points to holds, the name of a branch of the
current tree or `none` for a null pointer; and the flag `GetCheckedType()`, set
once the type of the address has been checked against a branch. -/
structure TStatusElement where
  fName : String
  fStatus : Int
  fBaddress : Nat
  fBranchPtr : Option (Option String)
  fCheckedType : Bool := false
  deriving DecidableEq, Repr

/-- One friend of the chain: its name, whether `GetTree()` yields a tree, and
the global entries it has been asked to load, oldest first. -/
structure TFriendElement where
  fName : String
  hasTree : Bool
  loads : List Int
  deriving DecidableEq, Repr

/-- An opened `TFile`: `Get` looks a tree up by name. -/
structure TFile where
  Get : String → Option TTree

/-- The pieces a file name is split into by `ParseTreeFilename`. -/
structure ParsedName where
  basename : String
  treename : String
  query : String
  deriving DecidableEq, Repr

/-- What the chain code takes from its surroundings: the sentinel
`TTree::kMaxEntries`, `TFile::Open` (a file that cannot be opened or is a
zombie gives `none`) and `ParseTreeFilename`. -/
structure Env where
  kMaxEntries : Int
  Open : String → Option TFile
  ParseTreeFilename : String → ParsedName

/-- The fields of a `TChain` that entry resolution reads and writes.  `fFile`
records whether a file is held, `fFriendLockStatus` is the `kLoadTree` bit,
`opens` lists the file names passed to `TFile::Open` so far, oldest first, and
`fStatus` is the list of the branch statuses and addresses given by the user. -/
@[ext] structure TChain where
  fName : String
  fNtrees : Nat
  fTreeNumber : Int
  fTreeOffset : List Int
  fEntries : Int
  fReadEntry : Int
  fTree : Option TTree
  fFile : Bool
  fFiles : List TChainElement
  fNotify : Option Bool
  fFriendLockStatus : Bool
  fFriends : List TFriendElement
  opens : List String
  fStatus : List TStatusElement := []
  deriving DecidableEq, Repr

namespace TChain

/-- The constructor `TChain(name, title, mode)`: no tree, `fTreeNumber = -1`,
`fTreeOffset[0] = 0`, empty lists `fFiles` and `fStatus`.  The members inherited
from `TTree` start at their defaults (`fEntries = 0`, `fReadEntry = -1`, no
notifier, no friend). -/
def init (name : String) : TChain :=
  { fName := name, fNtrees := 0, fTreeNumber := -1, fTreeOffset := [0],
    fEntries := 0, fReadEntry := -1, fTree := none, fFile := false,
    fFiles := [], fNotify := none, fFriendLockStatus := false,
    fFriends := [], opens := [], fStatus := [] }

/-- Read of `fTreeOffset[i]`; `none` when the slot was never assigned. -/
def offsetAt (off : List Int) (i : Int) : Option Int :=
  if 0 ≤ i then off[i.toNat]? else none

/-- Write of `fTreeOffset[i] = v`: an assigned slot is overwritten, the first
unassigned slot is appended; a write further out would leave a gap of
unassigned slots and is not represented. -/
def offsetSet (off : List Int) (i : Nat) (v : Int) : Option (List Int) :=
  if i < off.length then some (off.set i v)
  else if i = off.length then some (off ++ [v])
  else none

/-- `TChain::InvalidateCurrentTree`: forget the current tree. -/
def InvalidateCurrentTree (s : TChain) : TChain :=
  { s with fTreeNumber := -1, fTree := none }

/-- The block `if (nentries > 0) { ... } else { Warning(...) }` of `AddFile`: a
positive count extends the offset table by one slot (the sentinel, or the last
boundary plus the count), updates the total and appends a chain element
recording the count; otherwise nothing is added.  The two sums are taken
over the integers (`connect64` has them in `Long64_t`). -/
def connect (E : Env) (s : TChain) (treename filename : String) (n pksize : Int) :
    Option TChain :=
  if 0 < n then
    let newOff : Option (List Int) :=
      if n ≠ E.kMaxEntries then
        match offsetAt s.fTreeOffset s.fNtrees with
        | none => none
        | some last => offsetSet s.fTreeOffset (s.fNtrees + 1) (last + n)
      else offsetSet s.fTreeOffset (s.fNtrees + 1) E.kMaxEntries
    match newOff with
    | none => none
    | some off =>
      some { s with
        fTreeOffset := off
        fEntries := if n ≠ E.kMaxEntries then s.fEntries + n else E.kMaxEntries
        fNtrees := s.fNtrees + 1
        fFiles := s.fFiles ++ [{ fName := treename, fTitle := filename, fEntries := n,
                                 fPacketSize := pksize, fLoadResult := 0 }] }
  else some s

/-- `TChain::AddFile(name, nentries, tname)`.  Returns the function result and
the new chain.  With `nentries <= 0` the file is opened to read the count (and
`0` is returned when the file or the tree is missing); with `nentries > 0` the
count is recorded without opening the file. -/
def AddFile (E : Env) (s : TChain) (name : String) (nentries : Int) (tname : String) :
    Option (Int × TChain) :=
  if name = "" then some (0, s)
  else
    let p := E.ParseTreeFilename name
    let treename0 := if tname.length > 0 then tname else s.fName
    let treename := if p.treename = "" then treename0 else p.treename
    let filename := p.basename ++ p.query
    if nentries ≤ 0 then
      -- Open the file to get the number of entries.
      let s1 := { s with opens := s.opens ++ [filename] }
      match E.Open filename with
      | none => some (0, s1)
      | some f =>
        match f.Get treename with
        | none => some (0, s1)
        | some t =>
          match connect E s1 treename filename (t.fEntries : Int) t.fPacketSize with
          | none => none
          | some s2 => some (1, s2)
    else
      match connect E s treename filename nentries 0 with
      | none => none
      | some s2 => some (1, s2)

/-- The linear search of `LoadTree`:
`for (treenum = 0; treenum < fNtrees; treenum++) if (entry < fTreeOffset[treenum+1]) break;`
started at `treenum` with `left` iterations to go. -/
def searchFrom (off : List Int) (entry : Int) : Nat → Nat → Option Nat
  | 0, treenum => some treenum
  | left + 1, treenum =>
    match off[treenum + 1]? with
    | none => none
    | some b => if entry < b then some treenum else searchFrom off entry left (treenum + 1)

/-- The tree number `LoadTree` selects for `entry`: the current tree when the
entry lies inside its range and is not the probe `kMaxEntries - 1`, otherwise
the result of the linear search (which is `fNtrees` when nothing is found). -/
def locate (E : Env) (s : TChain) (entry : Int) : Option Nat :=
  if s.fTreeNumber = -1 then searchFrom s.fTreeOffset entry s.fNtrees 0
  else
    match offsetAt s.fTreeOffset s.fTreeNumber with
    | none => none
    | some a =>
      if entry < a then searchFrom s.fTreeOffset entry s.fNtrees 0
      else
        match offsetAt s.fTreeOffset (s.fTreeNumber + 1) with
        | none => none
        | some b =>
          if entry ≥ b then searchFrom s.fTreeOffset entry s.fNtrees 0
          else if entry = E.kMaxEntries - 1 then searchFrom s.fTreeOffset entry s.fNtrees 0
          else some s.fTreeNumber.toNat

/-- Outcome of one pass through the body of `LoadTree`: either the function
returns `ret`, or it reaches `return LoadTree(entry)`. -/
inductive Step where
  | done (ret : Int) (s : TChain)
  | retry (s : TChain)
  deriving DecidableEq, Repr

/-- The chain friends are asked to load the global entry: `LoadTreeFriend(entry, this)`
(or `LoadTree(entry)`) on each friend whose tree is available. -/
def loadFriends (fs : List TFriendElement) (entry : Int) : List TFriendElement :=
  fs.map fun fe => if fe.hasTree then { fe with loads := fe.loads ++ [entry] } else fe

/-- `element->SetNumberEntries(n)` on the element at position `i` of `fFiles`. -/
def setNumberEntries (fs : List TChainElement) (i : Nat) (n : Int) : List TChainElement :=
  fs.modify (fun e => { e with fEntries := n }) i

/-- `element->SetLoadResult(r)` on the element at position `i` of `fFiles`. -/
def setLoadResult (fs : List TChainElement) (i : Nat) (r : Int) : List TChainElement :=
  fs.modify (fun e => { e with fLoadResult := r }) i

/-- What the loops over `fStatus` do with one element that carries an address:
the slot of its branch pointer (if any) receives the branch of that name in
the tree, or null; when there is such a branch, the element is marked as
checked (`SetCheckedType(true)`) and the branch is bound to the address. -/
def setBranchAddress (e : TStatusElement) (t : TTree) : TStatusElement × TTree :=
  let br := t.GetBranch e.fName
  ({ e with fBranchPtr := e.fBranchPtr.map fun _ => br.map fun b => b.fName,
            fCheckedType := e.fCheckedType || br.isSome },
   if br.isSome then t.SetAddressOf e.fName e.fBaddress else t)

/-- The loop of `LoadTree` that sets the branch statuses for the newly opened
file: every element with a status given by the user applies it to the tree. -/
def setBranchStatuses : List TStatusElement → TTree → TTree
  | [], t => t
  | e :: rest, t =>
    setBranchStatuses rest (if e.fStatus ≠ -1 then t.SetBranchStatus e.fName e.fStatus else t)

/-- The loop of `LoadTree` that sets the branch addresses for the newly opened
file: every element with a non-null address is applied to the tree.  Yields
the elements and the tree afterwards. -/
def setBranchAddresses : List TStatusElement → TTree → List TStatusElement × TTree
  | [], t => ([], t)
  | e :: rest, t =>
    if e.fBaddress ≠ 0 then
      let r := setBranchAddress e t
      let r2 := setBranchAddresses rest r.2
      (r.1 :: r2.1, r2.2)
    else
      let r2 := setBranchAddresses rest t
      (e :: r2.1, r2.2)

/-- The loop of `RefreshFriendAddresses` over `fStatus`: each element applies its
status (when the user gave one) and then its address (when not null). -/
def refreshElements : List TStatusElement → TTree → List TStatusElement × TTree
  | [], t => ([], t)
  | e :: rest, t =>
    let t0 := if e.fStatus ≠ -1 then t.SetBranchStatus e.fName e.fStatus else t
    if e.fBaddress ≠ 0 then
      let r := setBranchAddress e t0
      let r2 := refreshElements rest r.2
      (r.1 :: r2.1, r2.2)
    else
      let r2 := refreshElements rest t0
      (e :: r2.1, r2.2)

/-- The path of `LoadTree` taken when the entry belongs to the current tree
(`fTree && treenum == fTreeNumber`): position the tree, align the friends,
refresh the friend addresses (which, when a friend element was marked as
updated, applies the elements of `fStatus` to the tree and notifies) and
return the local entry.  A friend without a tree would be dereferenced here,
which has no defined behaviour. -/
def sameTree (s : TChain) (t : TTree) (entry treeReadEntry : Int) : Option Step :=
  let t1 := (t.LoadTree treeReadEntry).2
  if s.fFriends ≠ [] ∨ t1.hasFriends = true then
    if s.fFriends.all (fun fe => fe.hasTree) then
      let fr := loadFriends s.fFriends entry
      -- RefreshFriendAddresses
      let needUpdate := t1.hasFriends && t1.friendUpdated
      let t2 := { t1 with friendUpdated := if t1.hasFriends then false else t1.friendUpdated }
      let b := if needUpdate then refreshElements s.fStatus t2 else (s.fStatus, t2)
      let s1 := { s with fTree := some b.2, fFriends := fr, fStatus := b.1 }
      if needUpdate ∧ s.fNotify = some false then some (Step.done (-6) s1)
      else some (Step.done treeReadEntry s1)
    else none
  else some (Step.done treeReadEntry { s with fTree := some t1 })

/-- The part of `LoadTree` that deletes the current tree before a new file is
opened: when a file is held and a tree is loaded the current tree is
invalidated, and the file is released.  (When the file owns the chain the
file is kept instead; it is replaced by the newly opened file right after.) -/
def teardown (s : TChain) : TChain :=
  if s.fFile then
    if s.fTree.isSome then { (InvalidateCurrentTree s) with fFile := false }
    else { s with fFile := false }
  else s

/-- The block of `LoadTree` that checks whether `fTreeOffset` has really been
set, for the selected tree number `treenum`, the chain element at position
`eidx` and the number of entries `nentries` of the opened tree (`0` when no
tree was found).  When `fTreeOffset[treenum+1]` differs from
`fTreeOffset[treenum] + nentries` that slot is rewritten, the total is re-read
from `fTreeOffset[fNtrees]` and the element records `nentries`; if the entry
now lies at or beyond the rewritten slot, either the next tree is tried (the
load result is recorded first) or the local entry becomes `-2`.  Yields the
chain, the local entry and whether the next tree is to be tried. -/
def repair (s : TChain) (entry treeReadEntry : Int) (treenum eidx : Nat)
    (nentries returnCode : Int) : Option (TChain × Int × Bool) :=
  match offsetAt s.fTreeOffset (treenum : Int), offsetAt s.fTreeOffset ((treenum : Int) + 1) with
  | some a, some b =>
    if b ≠ a + nentries then
      let off := s.fTreeOffset.set (treenum + 1) (a + nentries)
      match offsetAt off (s.fNtrees : Int) with
      | none => none
      | some total =>
        let s2 := { s with fTreeOffset := off, fEntries := total,
                           fFiles := setNumberEntries s.fFiles eidx nentries }
        if entry ≥ a + nentries then
          if (treenum : Int) < (s2.fNtrees : Int) - 1 then
            match offsetAt off ((treenum : Int) + 2) with
            | none => none
            | some c =>
              if entry < c then
                some ({ s2 with fFiles := setLoadResult s2.fFiles eidx returnCode },
                      treeReadEntry, true)
              else some ({ s2 with fReadEntry := -2 }, -2, false)
          else some ({ s2 with fReadEntry := -2 }, -2, false)
        else some (s2, treeReadEntry, false)
    else some (s, treeReadEntry, false)
  | _, _ => none

/-- The end of `LoadTree` once the offset table has been checked: without a
tree the chain forgets its tree number, records the failure code on the
element and returns it; with a tree the tree is positioned at the local entry
(the element records `0`, or `-5` when the tree answers something else), the
chain friends are asked to load the global entry, the branch statuses and the
branch addresses of `fStatus` are set on the tree, the notifier is called, and
the local entry is returned. -/
def finishSwitch (s : TChain) (entry treeReadEntry : Int) (eidx : Nat) (returnCode : Int) :
    Step :=
  match s.fTree with
  | none =>
    Step.done returnCode
      { s with fTreeNumber := -1, fFiles := setLoadResult s.fFiles eidx returnCode }
  | some t =>
    let r := t.LoadTree treeReadEntry
    let res : Int := if r.1 = treeReadEntry then 0 else -5
    let anyFriend := s.fFriends.any (fun fe => fe.hasTree)
    let t1 := { r.2 with hasFriends := r.2.hasFriends || anyFriend }
    let b := setBranchAddresses s.fStatus (setBranchStatuses s.fStatus t1)
    let s3 := { s with fTree := some b.2, fFiles := setLoadResult s.fFiles eidx res,
                       fFriends := loadFriends s.fFriends entry, fStatus := b.1 }
    if s3.fNotify = some false then Step.done (-6) s3
    else Step.done treeReadEntry s3

/-- `Long64_t nentries = 0; if (fTree) nentries = fTree->GetEntries();` -/
def entriesOf (tree : Option TTree) : Int :=
  match tree with
  | some t => (t.fEntries : Int)
  | none => 0

/-- The part of `LoadTree` after `TFile::Open` for the selected tree number
`treenum`, with `eidx` the position of the chain element in use, `tree` the tree
found in the file (or `none`) and `returnCode` the code of the failure (`0` when
the tree was found): set `fTree`, `fFile` and `fTreeNumber`, check the offset
table, then either notify and retry with the next tree, or finish. -/
def afterOpen (s : TChain) (entry treeReadEntry : Int) (treenum eidx : Nat)
    (tree : Option TTree) (returnCode : Int) : Option Step :=
  let s1 := { s with fTree := tree, fFile := tree.isSome, fTreeNumber := (treenum : Int) }
  match repair s1 entry treeReadEntry treenum eidx (entriesOf tree) returnCode with
  | none => none
  | some (s2, _, true) =>
    if s2.fNotify = some false then some (Step.done (-6) s2) else some (Step.retry s2)
  | some (s2, tre, false) => some (finishSwitch s2 entry tre eidx returnCode)

/-- The file of a chain element is opened and its tree is looked up: the tree
and return code `0`, or no tree and `-3` (the file cannot be opened) or `-4`
(the file holds no tree of that name). -/
def openElement (E : Env) (element : TChainElement) : Option TTree × Int :=
  match E.Open element.fTitle with
  | none => (none, -3)
  | some f =>
    match f.Get element.fName with
    | none => (none, -4)
    | some t => (some t, 0)

/-- The body of `TChain::LoadTree(entry)` up to its recursive call. -/
def LoadTreeStep (E : Env) (s : TChain) (entry : Int) : Option Step :=
  if s.fFriendLockStatus then some (Step.done 0 s)
  else if s.fNtrees = 0 then some (Step.done (-1) s)
  else if entry < 0 ∨ (entry > 0 ∧ (entry ≥ s.fEntries ∧ entry ≠ E.kMaxEntries - 1)) then
    some (Step.done (-2)
      { s with fTree := s.fTree.map (fun t => (t.LoadTree (-1)).2), fReadEntry := -1 })
  else
    match locate E s entry with
    | none => none
    | some treenum =>
      match offsetAt s.fTreeOffset (treenum : Int) with
      | none => none
      | some a =>
        let treeReadEntry := entry - a
        let s1 := { s with fReadEntry := entry }
        match (if (treenum : Int) = s1.fTreeNumber then s1.fTree else none) with
        | some t => sameTree s1 t entry treeReadEntry
        | none =>
          let s2 := teardown s1
          let pick : Option (Nat × TChainElement) :=
            match s2.fFiles[treenum]? with
            | some e => some (treenum, e)
            | none =>
              if treeReadEntry ≠ 0 then none
              else
                match s2.fFiles[0]? with
                | some e => some (0, e)
                | none => none
          match pick with
          | none => some (Step.done (-4) s2)
          | some (eidx, element) =>
            let s3 := { s2 with opens := s2.opens ++ [element.fTitle] }
            let o := openElement E element
            afterOpen s3 entry treeReadEntry treenum eidx o.1 o.2

/-- Iteration of `LoadTreeStep` along the recursive calls, at most `fuel`
passes; `none` when the passes are used up or a pass is undefined. -/
def LoadTreeAux (E : Env) : Nat → TChain → Int → Option (Int × TChain)
  | 0, _, _ => none
  | fuel + 1, s, entry =>
    match LoadTreeStep E s entry with
    | none => none
    | some (Step.done ret s1) => some (ret, s1)
    | some (Step.retry s1) => LoadTreeAux E fuel s1 entry

/-- `TChain::LoadTree(entry)`: the returned value and the chain afterwards.
Every pass but the first selects its tree by the linear search and a retry
moves to the next tree number, so `fNtrees + 2` passes are never used up. -/
def LoadTree (E : Env) (s : TChain) (entry : Int) : Option (Int × TChain) :=
  LoadTreeAux E (s.fNtrees + 2) s entry

/-- `TChain::GetEntries()`: when the total is the sentinel, load the probe entry
`kMaxEntries - 1` to compute the offset table, invalidate the current tree and
go back to the entry that was being read. -/
def GetEntries (E : Env) (s : TChain) : Option (Int × TChain) :=
  if s.fEntries = E.kMaxEntries then
    if s.fFriendLockStatus then some (s.fEntries, s)
    else
      let readEntry := s.fReadEntry
      match LoadTree E s (E.kMaxEntries - 1) with
      | none => none
      | some (_, s1) =>
        let s2 := InvalidateCurrentTree s1
        if readEntry ≥ 0 then
          match LoadTree E s2 readEntry with
          | none => none
          | some (_, s3) => some (s3.fEntries, s3)
        else some (s2.fEntries, { s2 with fReadEntry := readEntry })
  else some (s.fEntries, s)

/-- The loop of `Add(TChain*)` over the elements of the other chain. -/
def addElements (E : Env) : List TChainElement → TChain → Nat → Option (Nat × TChain)
  | [], s, nf => some (nf, s)
  | element :: rest, s, nf =>
    let nentries := element.fEntries
    match offsetAt s.fTreeOffset s.fNtrees with
    | none => none
    | some last =>
      match offsetSet s.fTreeOffset (s.fNtrees + 1)
              (if last = E.kMaxEntries then E.kMaxEntries else last + nentries) with
      | none => none
      | some off =>
        addElements E rest
          { s with fTreeOffset := off
                   fNtrees := s.fNtrees + 1
                   fEntries := s.fEntries + nentries
                   fFiles := s.fFiles ++ [{ fName := element.fName, fTitle := element.fTitle,
                                            fEntries := nentries,
                                            fPacketSize := element.fPacketSize,
                                            fLoadResult := 0 }] }
          (nf + 1)

/-- `TChain::Add(TChain* chain)` for a non-null `chain` that is another object than this
chain: the other chain computes its entries, then its elements are copied.
Returns the number of files added, this chain and the other chain afterwards.
(With `chain == this` the loop of the source walks the list it is appending to;
two chains of equal value are two objects here.) -/
def Add (E : Env) (s other : TChain) : Option (Nat × TChain × TChain) :=
  match GetEntries E other with
  | none => none
  | some (_, other1) =>
    match addElements E other1.fFiles s 0 with
    | none => none
    | some (nf, s1) => some (nf, s1, other1)

/-- `TChain::Reset()`.  The list `fStatus` is emptied and receives one new element
named `*`.  The call of `TTree::Reset()` at its end puts the inherited members
`fEntries` and `fReadEntry` back to `0` and `-1`. -/
def Reset (s : TChain) : TChain :=
  { s with fFile := false, fNtrees := 0, fTreeNumber := -1, fTree := none, fFiles := [],
           fStatus := [{ fName := "*", fStatus := -1, fBaddress := 0, fBranchPtr := none }],
           fTreeOffset := (match s.fTreeOffset with
             | [] => [0]
             | _ :: rest => 0 :: rest),
           fEntries := 0, fReadEntry := -1 }

/-- `TChain::Add(TChain* chain)` with a pointer that may be null:
`if (!chain) return 0;`, otherwise as `Add`. -/
def AddPointer (E : Env) (s : TChain) (chain : Option TChain) :
    Option (Nat × TChain × Option TChain) :=
  match chain with
  | none => some (0, s, none)
  | some other =>
    match Add E s other with
    | none => none
    | some (nf, s1, other1) => some (nf, s1, some other1)

/-- `TChain::GetChainEntryNumber(entry)`: `entry + fTreeOffset[fTreeNumber]`. -/
def GetChainEntryNumber (s : TChain) (entry : Int) : Option Int :=
  match offsetAt s.fTreeOffset s.fTreeNumber with
  | none => none
  | some a => some (entry + a)

/-- The number of times a call of `LoadTree(entry)` reaches its recursive call
`return LoadTree(entry)`, counted along at most `fuel` passes; `none` when the
passes are used up or a pass is undefined. -/
def retries (E : Env) : Nat → TChain → Int → Option Nat
  | 0, _, _ => none
  | fuel + 1, s, entry =>
    match LoadTreeStep E s entry with
    | none => none
    | some (Step.done _ _) => some 0
    | some (Step.retry s1) =>
      match retries E fuel s1 entry with
      | none => none
      | some n => some (n + 1)

/-- `fStatus->FindObject(bname)` followed by an update `f` of the element found;
when there is none, `new TChainElement(bname, "")` is added to the list first
(no status, no address, no branch pointer). -/
def updateStatus :
    List TStatusElement → String → (TStatusElement → TStatusElement) → List TStatusElement
  | [], bname, f => [f { fName := bname, fStatus := -1, fBaddress := 0, fBranchPtr := none }]
  | e :: rest, bname, f =>
    if e.fName = bname then f e :: rest else e :: updateStatus rest bname f

/-- `TChain::SetBranchAddress(bname, add, ptr)`, with `ptr` telling whether a branch
pointer is passed.  The element of `fStatus` records the address and the
pointer; when nothing has been loaded yet the first tree is loaded; then, with
a current tree, the slot of the pointer receives the branch of that name (or
null), and when there is such a branch the element is marked as checked and
the branch is bound to the address; without a current tree the slot receives
null.  The status code the function returns is not represented. -/
def SetBranchAddress (E : Env) (s : TChain) (bname : String) (add : Nat) (ptr : Bool) :
    Option TChain :=
  let s1 := { s with fStatus := updateStatus s.fStatus bname fun e =>
    { e with fBaddress := add, fBranchPtr := if ptr then some none else none } }
  let loaded : Option TChain :=
    if s1.fTree = none ∧ s1.fReadEntry = -1 ∧ s1.fTreeNumber = -1 then
      match LoadTree E s1 0 with
      | none => none
      | some (_, s2) => some s2
    else some s1
  match loaded with
  | none => none
  | some s2 =>
    if s2.fTreeNumber ≥ 0 then
      match s2.fTree with
      | none => none
      | some t =>
        let br := t.GetBranch bname
        let st :=
          if ptr then
            updateStatus s2.fStatus bname fun e =>
              { e with fBranchPtr := some (br.map fun b => b.fName) }
          else s2.fStatus
        if br.isSome then
          some { s2 with
            fStatus := updateStatus st bname fun e => { e with fCheckedType := true },
            fTree := some (t.SetAddressOf bname add) }
        else some { s2 with fStatus := st }
    else
      some { s2 with fStatus :=
        if ptr then updateStatus s2.fStatus bname fun e => { e with fBranchPtr := some none }
        else s2.fStatus }

end TChain

/-! ## Chains, files and true counts -/

open TChain

/-- The tree a chain element stands for: the file `GetTitle()` is opened and the
tree `GetName()` is looked up in it. -/
def treeOf (E : Env) (e : TChainElement) : Option TTree :=
  (E.Open e.fTitle).bind fun f => f.Get e.fName

/-- The number of entries really held by the tree of a chain element (`0` when
the file or the tree is missing). -/
def trueCount (E : Env) (e : TChainElement) : Nat :=
  match treeOf E e with
  | some t => t.fEntries
  | none => 0

/-- Sum of the first `i` counts: the first global entry of tree number `i`. -/
def sumBefore (counts : List Nat) (i : Nat) : Int :=
  (((counts.take i).sum : Nat) : Int)

/-- A sequence of `AddFile(name, nentries, tname)` calls. -/
def addFiles (E : Env) : TChain → List (String × Int × String) → Option TChain
  | s, [] => some s
  | s, (name, nentries, tname) :: rest =>
    match TChain.AddFile E s name nentries tname with
    | none => none
    | some (_, s1) => addFiles E s1 rest

/-- A sequence of `LoadTree(entry)` calls. -/
def runLoads (E : Env) : TChain → List Int → Option TChain
  | s, [] => some s
  | s, entry :: rest =>
    match TChain.LoadTree E s entry with
    | none => none
    | some (_, s1) => runLoads E s1 rest

/-- State of a chain whose trees hold `counts` entries, in which the first `K`
boundaries after `fTreeOffset[0]` have been set to the true sums and the later
ones still hold a value of at least `kMaxEntries`; no friend, no notifier, and
the current tree (if any) lies among the trees with a set boundary. -/
structure Resolved (E : Env) (counts : List Nat) (K : Nat) (s : TChain) : Prop where
  ntrees : s.fNtrees = counts.length
  hK : K ≤ counts.length
  offLen : s.fTreeOffset.length = counts.length + 1
  known : ∀ i, i ≤ K → s.fTreeOffset[i]? = some (sumBefore counts i)
  unknown : ∀ i, K < i → i ≤ counts.length →
    ∃ v, s.fTreeOffset[i]? = some v ∧ E.kMaxEntries ≤ v
  total : s.fTreeOffset[counts.length]? = some s.fEntries
  filesLen : s.fFiles.length = counts.length
  files : ∀ i (h : i < counts.length),
    ∃ e t, s.fFiles[i]? = some e ∧ treeOf E e = some t ∧ t.fEntries = counts[i]
  lock : s.fFriendLockStatus = false
  notify : s.fNotify = none
  friends : s.fFriends = []
  current : s.fTreeNumber = -1 ∨
    ∃ k : Nat, s.fTreeNumber = (k : Int) ∧ k + 1 ≤ K ∧ s.fTree.isSome = true

/-- State of a chain on which only `AddFile` has been called: every boundary is
the sentinel when the element was declared with the sentinel and the previous
boundary plus the declared count otherwise, the total is the last boundary,
and nothing has been loaded. -/
structure Built (E : Env) (s : TChain) : Prop where
  filesLen : s.fFiles.length = s.fNtrees
  offLen : s.fTreeOffset.length = s.fNtrees + 1
  off0 : s.fTreeOffset[0]? = some 0
  offs : ∀ (i : Nat) (e : TChainElement), s.fFiles[i]? = some e →
    ∃ a, s.fTreeOffset[i]? = some a ∧
      s.fTreeOffset[i + 1]? =
        some (if e.fEntries = E.kMaxEntries then E.kMaxEntries else a + e.fEntries)
  total : s.fTreeOffset[s.fNtrees]? = some s.fEntries
  lock : s.fFriendLockStatus = false
  notify : s.fNotify = none
  friends : s.fFriends = []
  current : s.fTreeNumber = -1
  tree : s.fTree = none

/-- A tree with `n` entries, no friend, cursor not set. -/
def plainTree (n : Nat) : TTree :=
  { fEntries := n, fReadEntry := -1, fPacketSize := 0, hasFriends := false,
    friendUpdated := false }

/-- A file holding, under every name, a tree with `n` entries. -/
def plainFile (n : Nat) : TFile := ⟨fun _ => some (plainTree n)⟩

/-- An environment with the sentinel at 1000000000000 in which `p0.root` holds
3 entries, `p1.root` holds 2, `empty.root` holds none, `big.root` holds 5 and no
other file can be opened; file names are taken as they are. -/
def envA : Env where
  kMaxEntries := 1000000000000
  Open := fun f =>
    if f = "p0.root" then some (plainFile 3)
    else if f = "p1.root" then some (plainFile 2)
    else if f = "empty.root" then some (plainFile 0)
    else if f = "big.root" then some (plainFile 5)
    else none
  ParseTreeFilename := fun n => ⟨n, "", ""⟩

/-- The chain `T` after `AddFile("p0.root")` (count unknown) and
`AddFile("p1.root", 2)`. -/
def chainA : TChain :=
  { fName := "T", fNtrees := 2, fTreeNumber := -1,
    fTreeOffset := [0, 1000000000000, 1000000000002],
    fEntries := 1000000000002, fReadEntry := -1, fTree := none, fFile := false,
    fFiles := [⟨"T", "p0.root", 1000000000000, 0, 0⟩, ⟨"T", "p1.root", 2, 0, 0⟩],
    fNotify := none, fFriendLockStatus := false, fFriends := [], opens := [] }

/-- The chain carried by the outcome of a pass. -/
def TChain.Step.chain : TChain.Step → TChain
  | TChain.Step.done _ s => s
  | TChain.Step.retry s => s

/-- The elements of `fs1` stand for the same trees as those of `fs`, position by
position. -/
def KeepsFiles (E : Env) (fs fs1 : List TChainElement) : Prop :=
  fs1.length = fs.length ∧
    ∀ (i : Nat) (e : TChainElement), fs[i]? = some e →
      ∃ e1, fs1[i]? = some e1 ∧ treeOf E e1 = treeOf E e

/-- Every tree of the chain has room in the offset table: its provisional count
`fTreeOffset[i+1] - fTreeOffset[i]` is at least the number of entries the tree
really holds. -/
def Room (E : Env) (s : TChain) : Prop :=
  s.fFiles.length = s.fNtrees ∧
    ∀ (i : Nat) (e : TChainElement), s.fFiles[i]? = some e →
      ∃ a b, s.fTreeOffset[i]? = some a ∧ s.fTreeOffset[i + 1]? = some b ∧
        a + (trueCount E e : Int) ≤ b

/-- The boundaries of the chain are non-decreasing:
`fTreeOffset[i] <= fTreeOffset[i+1]` for all `0 <= i < fNtrees`. -/
def NonDecreasing (s : TChain) : Prop :=
  ∀ i : Nat, i < s.fNtrees →
    ∃ a b, s.fTreeOffset[i]? = some a ∧ s.fTreeOffset[i + 1]? = some b ∧ a ≤ b

/-- The states a chain can reach from its construction by `AddFile`,
`Add(TChain*)`, `LoadTree`, `GetEntries` and `Reset`. -/
inductive Reachable (E : Env) : TChain → Prop
  | init (name : String) : Reachable E (TChain.init name)
  | addFile {s : TChain} (name : String) (n : Int) (tname : String) (r : Int) (s1 : TChain) :
      Reachable E s → TChain.AddFile E s name n tname = some (r, s1) → Reachable E s1
  | add {s other : TChain} (nf : Nat) (s1 other1 : TChain) :
      Reachable E s → Reachable E other → TChain.Add E s other = some (nf, s1, other1) →
      Reachable E s1
  | loadTree {s : TChain} (g r : Int) (s1 : TChain) :
      Reachable E s → TChain.LoadTree E s g = some (r, s1) → Reachable E s1
  | getEntries {s : TChain} (r : Int) (s1 : TChain) :
      Reachable E s → TChain.GetEntries E s = some (r, s1) → Reachable E s1
  | reset {s : TChain} : Reachable E s → Reachable E (TChain.Reset s)

/-- The states a chain can reach by the same operations when every `AddFile` and
`Add(TChain*)` call leaves room in the offset table for the entries that the
trees really hold. -/
inductive ReachableWithRoom (E : Env) : TChain → Prop
  | init (name : String) : ReachableWithRoom E (TChain.init name)
  | addFile {s : TChain} (name : String) (n : Int) (tname : String) (r : Int) (s1 : TChain) :
      ReachableWithRoom E s → TChain.AddFile E s name n tname = some (r, s1) → Room E s1 →
      ReachableWithRoom E s1
  | add {s other : TChain} (nf : Nat) (s1 other1 : TChain) :
      ReachableWithRoom E s → TChain.Add E s other = some (nf, s1, other1) → Room E s1 →
      ReachableWithRoom E s1
  | loadTree {s : TChain} (g r : Int) (s1 : TChain) :
      ReachableWithRoom E s → TChain.LoadTree E s g = some (r, s1) → ReachableWithRoom E s1
  | getEntries {s : TChain} (r : Int) (s1 : TChain) :
      ReachableWithRoom E s → TChain.GetEntries E s = some (r, s1) → ReachableWithRoom E s1
  | reset {s : TChain} : ReachableWithRoom E s → ReachableWithRoom E (TChain.Reset s)

/-- The chain `T` after `AddFile("p0.root")` (count unknown). -/
def chainP : TChain :=
  { fName := "T", fNtrees := 1, fTreeNumber := -1, fTreeOffset := [0, 1000000000000],
    fEntries := 1000000000000, fReadEntry := -1, fTree := none, fFile := false,
    fFiles := [⟨"T", "p0.root", 1000000000000, 0, 0⟩],
    fNotify := none, fFriendLockStatus := false, fFriends := [], opens := [] }

/-- The chain `chainA` after `LoadTree(0)`. -/
def chainA1 : TChain :=
  { fName := "T", fNtrees := 2, fTreeNumber := 0, fTreeOffset := [0, 3, 1000000000002],
    fEntries := 1000000000002, fReadEntry := 0,
    fTree := some { fEntries := 3, fReadEntry := 0, fPacketSize := 0, hasFriends := false,
                    friendUpdated := false },
    fFile := true,
    fFiles := [⟨"T", "p0.root", 3, 0, 0⟩, ⟨"T", "p1.root", 2, 0, 0⟩],
    fNotify := none, fFriendLockStatus := false, fFriends := [], opens := ["p0.root"] }

/-- The chain `T` after `AddFile("nope.root", 3)`: the file cannot be opened. -/
def chainN : TChain :=
  { fName := "T", fNtrees := 1, fTreeNumber := -1, fTreeOffset := [0, 3],
    fEntries := 3, fReadEntry := -1, fTree := none, fFile := false,
    fFiles := [⟨"T", "nope.root", 3, 0, 0⟩],
    fNotify := none, fFriendLockStatus := false, fFriends := [], opens := [] }

/-- The chain `T` after `AddFile("nope.root", 3)` and `AddFile("p1.root", 2)`: the
first file cannot be opened, the second holds the 2 entries declared. -/
def chainF : TChain :=
  { fName := "T", fNtrees := 2, fTreeNumber := -1, fTreeOffset := [0, 3, 5],
    fEntries := 5, fReadEntry := -1, fTree := none, fFile := false,
    fFiles := [⟨"T", "nope.root", 3, 0, 0⟩, ⟨"T", "p1.root", 2, 0, 0⟩],
    fNotify := none, fFriendLockStatus := false, fFriends := [], opens := [] }

/-- The chain `chainP` with one friend whose tree is not available (`GetTree()`
yields no tree). -/
def chainFr : TChain :=
  { chainP with fFriends := [⟨"fr", false, []⟩] }

/-- The shape of a chain that every operation keeps: the friend lock is not
held, the slot `fTreeOffset[fNtrees]` has been assigned and `fFiles` holds one
element per tree. -/
def Shaped (s : TChain) : Prop :=
  s.fFriendLockStatus = false ∧ s.fNtrees < s.fTreeOffset.length ∧ s.fFiles.length = s.fNtrees

/-- State of a chain between two passes of `LoadTree(entry)`, after a pass on the
tree `k` that the linear search had selected: `k` is the tree number and not
the last tree, every boundary up to `fTreeOffset[k+1]` lies at or below the
entry and `fTreeOffset[k+2]` lies above it. -/
def Passed (s : TChain) (entry : Int) (k : Nat) : Prop :=
  s.fTreeNumber = (k : Int) ∧ k + 1 < s.fNtrees ∧
    (∀ j, j ≤ k → ∃ v, s.fTreeOffset[j + 1]? = some v ∧ v ≤ entry) ∧
    ∃ c, s.fTreeOffset[k + 2]? = some c ∧ entry < c

/-- State of a chain after any pass of `LoadTree(entry)` that ended in the
recursive call: the tree number is that of a tree other than the last one and
the boundary after that tree lies at or below the entry. -/
def Retried (s : TChain) (entry : Int) : Prop :=
  0 < s.fNtrees ∧ ∃ (k : Nat) (v : Int), s.fTreeNumber = (k : Int) ∧ k + 1 < s.fNtrees ∧
    s.fTreeOffset[k + 1]? = some v ∧ v ≤ entry

/-- The chain `chainA` after `LoadTree(4)`: both files have been opened. -/
def chainA4 : TChain :=
  { fName := "T", fNtrees := 2, fTreeNumber := 1, fTreeOffset := [0, 3, 5],
    fEntries := 5, fReadEntry := 4,
    fTree := some { fEntries := 2, fReadEntry := 1, fPacketSize := 0, hasFriends := false,
                    friendUpdated := false },
    fFile := true,
    fFiles := [⟨"T", "p0.root", 3, 0, 0⟩, ⟨"T", "p1.root", 2, 0, 0⟩],
    fNotify := none, fFriendLockStatus := false, fFriends := [],
    opens := ["p0.root", "p1.root"] }

/-- The chain `T` after `AddFile("p0.root")`, `AddFile("empty.root")` (both with the
count unknown) and `AddFile("p1.root", 2)`: the second file holds an empty tree. -/
def chainZ : TChain :=
  { fName := "T", fNtrees := 3, fTreeNumber := -1,
    fTreeOffset := [0, 1000000000000, 1000000000000, 1000000000002],
    fEntries := 1000000000002, fReadEntry := -1, fTree := none, fFile := false,
    fFiles := [⟨"T", "p0.root", 1000000000000, 0, 0⟩, ⟨"T", "empty.root", 1000000000000, 0, 0⟩,
               ⟨"T", "p1.root", 2, 0, 0⟩],
    fNotify := none, fFriendLockStatus := false, fFriends := [], opens := [] }

/-- The address bound to the branch that `GetBranch(name)` finds in the tree, if
the tree has a branch of that name. -/
def TTree.addressOf (t : TTree) (name : String) : Option Nat :=
  (t.GetBranch name).map fun br => br.fAddress

/-- The tree without its branches. -/
def TTree.bare (t : TTree) : TTree := { t with branches := [] }

/-- The chain without the list `fStatus` and without the branches of its current
tree: everything entry resolution reads and writes besides the statuses and
addresses of branches. -/
def TChain.bare (s : TChain) : TChain :=
  { s with fStatus := [], fTree := s.fTree.map TTree.bare }

/-- Two outcomes of a pass of `LoadTree`, the second on a chain whose list `fStatus`
has been replaced by `st`, agree: both are undefined, or both end in the
recursive call with chains that differ in `fStatus` only, or both return the
same value with chains that differ in `fStatus` and in the branches of the
current tree only. -/
def TChain.Step.agree (st : List TStatusElement) : Option TChain.Step → Option TChain.Step → Prop
  | none, none => True
  | some (TChain.Step.retry a), some (TChain.Step.retry b) => b = { a with fStatus := st }
  | some (TChain.Step.done r a), some (TChain.Step.done r1 b) => r = r1 ∧ b.bare = a.bare
  | _, _ => False

/-- A tree with `n` entries and one branch per name, none of them bound. -/
def branchTree (n : Nat) (names : List String) : TTree :=
  { fEntries := n, fReadEntry := -1, fPacketSize := 0, hasFriends := false,
    friendUpdated := false, branches := names.map fun nm => ⟨nm, 0, true⟩ }

/-- An environment in which `b0.root` holds a tree of 3 entries with the branches
`x` and `y`, `b1.root` a tree of 2 entries with the branch `x` only, and no other
file can be opened. -/
def envB : Env where
  kMaxEntries := 1000000000000
  Open := fun f =>
    if f = "b0.root" then some ⟨fun _ => some (branchTree 3 ["x", "y"])⟩
    else if f = "b1.root" then some ⟨fun _ => some (branchTree 2 ["x"])⟩
    else none
  ParseTreeFilename := fun n => ⟨n, "", ""⟩

/-- Scenario E: the chain `T` on which `SetBranchAddress("x", 7, ptr)` and
`SetBranchAddress("y", 9, ptr)` have been called before any file was added, and
then `AddFile("b0.root")` and `AddFile("b1.root")` with the count unknown. -/
def chainE : TChain :=
  { fName := "T", fNtrees := 2, fTreeNumber := -1,
    fTreeOffset := [0, 1000000000000, 1000000000000],
    fEntries := 1000000000000, fReadEntry := -1, fTree := none, fFile := false,
    fFiles := [⟨"T", "b0.root", 1000000000000, 0, 0⟩, ⟨"T", "b1.root", 1000000000000, 0, 0⟩],
    fNotify := none, fFriendLockStatus := false, fFriends := [], opens := [],
    fStatus := [⟨"x", -1, 7, some none, false⟩, ⟨"y", -1, 9, some none, false⟩] }

/-- The chain `chainE` after `LoadTree(0)`: the tree of `b0.root` is the current tree,
its branches `x` and `y` are bound. -/
def chainE0 : TChain :=
  { fName := "T", fNtrees := 2, fTreeNumber := 0,
    fTreeOffset := [0, 3, 1000000000000],
    fEntries := 1000000000000, fReadEntry := 0,
    fTree := some { fEntries := 3, fReadEntry := 0, fPacketSize := 0, hasFriends := false,
                    friendUpdated := false,
                    branches := [⟨"x", 7, true⟩, ⟨"y", 9, true⟩] },
    fFile := true,
    fFiles := [⟨"T", "b0.root", 3, 0, 0⟩, ⟨"T", "b1.root", 1000000000000, 0, 0⟩],
    fNotify := none, fFriendLockStatus := false, fFriends := [], opens := ["b0.root"],
    fStatus := [⟨"x", -1, 7, some (some "x"), true⟩, ⟨"y", -1, 9, some (some "y"), true⟩] }

/-- The chain `chainE0` after `LoadTree(4)`: the tree of `b1.root` is the current
tree; it has no branch `y`. -/
def chainE4 : TChain :=
  { fName := "T", fNtrees := 2, fTreeNumber := 1,
    fTreeOffset := [0, 3, 5],
    fEntries := 5, fReadEntry := 4,
    fTree := some { fEntries := 2, fReadEntry := 1, fPacketSize := 0, hasFriends := false,
                    friendUpdated := false,
                    branches := [⟨"x", 7, true⟩] },
    fFile := true,
    fFiles := [⟨"T", "b0.root", 3, 0, 0⟩, ⟨"T", "b1.root", 2, 0, 0⟩],
    fNotify := none, fFriendLockStatus := false, fFriends := [],
    opens := ["b0.root", "b1.root"],
    fStatus := [⟨"x", -1, 7, some (some "x"), true⟩, ⟨"y", -1, 9, some none, true⟩] }

/-- The element with the slot of its branch pointer, when it has one, set to
null. -/
def TStatusElement.nullSlot (e : TStatusElement) : TStatusElement :=
  { e with fBranchPtr := e.fBranchPtr.map fun _ => none }

/-- The list `st1` is the list `st` in which each element whose branch is absent
from the tree `t` is unchanged or has just the slot of its branch pointer set
to null. -/
def TChain.OnlySlots (t : TTree) (st st1 : List TStatusElement) : Prop :=
  List.Forall₂ (fun e e1 => t.GetBranch e.fName = none → e1 = e ∨ e1 = e.nullSlot) st st1

/-- The outcome of a pass on a chain whose list `fStatus` was `st`: a pass that ends
in the recursive call leaves the list as it was, a pass that returns with a
current tree has changed nothing but slots of elements whose branch the tree
lacks. -/
def TChain.Step.keeps (st : List TStatusElement) : TChain.Step → Prop
  | TChain.Step.done _ s1 => ∀ t, s1.fTree = some t → TChain.OnlySlots t st s1.fStatus
  | TChain.Step.retry s1 => s1.fStatus = st

/-- The current tree of `chainE4`: the tree of `b1.root` at local entry 1, its branch
`x` bound to the address 7. -/
def treeE4 : TTree :=
  { fEntries := 2, fReadEntry := 1, fPacketSize := 0, hasFriends := false,
    friendUpdated := false, branches := [⟨"x", 7, true⟩] }

/-- The chain `chainA` with a registered notifier whose `Notify()` returns false. -/
def chainNf : TChain := { chainA with fNotify := some false }

/-- The chain `chainNf` after `LoadTree(0)`: the tree of `p0.root` is the current tree. -/
def chainNf0 : TChain :=
  { chainA1 with fNotify := some false }

/-- Scenario D: the chain of `p0.root`, `p1.root` and `big.root`, all added with the
count unknown, with two friends whose trees are available. -/
def chainD : TChain :=
  { fName := "T", fNtrees := 3, fTreeNumber := -1,
    fTreeOffset := [0, 1000000000000, 1000000000000, 1000000000000],
    fEntries := 1000000000000, fReadEntry := -1, fTree := none, fFile := false,
    fFiles := [⟨"T", "p0.root", 1000000000000, 0, 0⟩, ⟨"T", "p1.root", 1000000000000, 0, 0⟩,
               ⟨"T", "big.root", 1000000000000, 0, 0⟩],
    fNotify := none, fFriendLockStatus := false,
    fFriends := [⟨"f1", true, []⟩, ⟨"f2", true, []⟩], opens := [] }

/-- The chain `chainD` after `LoadTree(7)`: the three files have been opened, the
tree of `big.root` is the current tree at local entry 2, and both friends have
been asked for the global entry 7. -/
def chainD7 : TChain :=
  { fName := "T", fNtrees := 3, fTreeNumber := 2, fTreeOffset := [0, 3, 5, 10],
    fEntries := 10, fReadEntry := 7,
    fTree := some { fEntries := 5, fReadEntry := 2, fPacketSize := 0, hasFriends := true,
                    friendUpdated := false },
    fFile := true,
    fFiles := [⟨"T", "p0.root", 3, 0, 0⟩, ⟨"T", "p1.root", 2, 0, 0⟩, ⟨"T", "big.root", 5, 0, 0⟩],
    fNotify := none, fFriendLockStatus := false,
    fFriends := [⟨"f1", true, [7]⟩, ⟨"f2", true, [7]⟩],
    opens := ["p0.root", "p1.root", "big.root"] }

/-- A chain of four trees whose tree number is 2 while no tree is loaded, with
boundaries that are not in order: `fTreeOffset = [0, 50, 10, 20, 30]`.  The file of the
third element, `empty.root`, holds an empty tree. -/
def chainW : TChain :=
  { fName := "T", fNtrees := 4, fTreeNumber := 2, fTreeOffset := [0, 50, 10, 20, 30],
    fEntries := 30, fReadEntry := -1, fTree := none, fFile := false,
    fFiles := [⟨"T", "p0.root", 50, 0, 0⟩, ⟨"T", "p1.root", 2, 0, 0⟩,
               ⟨"T", "empty.root", 10, 0, 0⟩, ⟨"T", "big.root", 10, 0, 0⟩],
    fNotify := none, fFriendLockStatus := false, fFriends := [], opens := [] }

/-- The chain `chainA` between the two passes of `LoadTree(4)`: the file `p0.root` has been
opened, its boundary has been set to 3, and the recursive call is about to
start. -/
def chainA4r : TChain :=
  { fName := "T", fNtrees := 2, fTreeNumber := 0, fTreeOffset := [0, 3, 1000000000002],
    fEntries := 1000000000002, fReadEntry := 4,
    fTree := some { fEntries := 3, fReadEntry := -1, fPacketSize := 0, hasFriends := false,
                    friendUpdated := false },
    fFile := true,
    fFiles := [⟨"T", "p0.root", 3, 0, 0⟩, ⟨"T", "p1.root", 2, 0, 0⟩],
    fNotify := none, fFriendLockStatus := false, fFriends := [], opens := ["p0.root"] }

/-- What identifies an element of `fStatus` and what the user has given for it: its
name, its status, its address and whether a branch pointer is registered.
(The branch a registered pointer currently forwards and the flag of the type
check are left aside.) -/
def TStatusElement.view (e : TStatusElement) : String × Int × Nat × Bool :=
  (e.fName, e.fStatus, e.fBaddress, e.fBranchPtr.isSome)

/-- An upsert on a list of views, in the words of the specification: the entry
named `bname` is changed by `f`; when there is none, a new entry named `bname`, without
status, address or branch pointer, is changed by `f` and added at the end. -/
def upsert (vs : List (String × Int × Nat × Bool)) (bname : String)
    (f : String × Int × Nat × Bool → String × Int × Nat × Bool) :
    List (String × Int × Nat × Bool) :=
  if bname ∈ vs.map (fun v => v.1) then vs.map (fun v => if v.1 = bname then f v else v)
  else vs ++ [f (bname, -1, 0, false)]

/-- `fStatus->Remove(element)` for the element that `FindObject(bname)` finds: the first
element of that name leaves the list. -/
def TChain.removeStatus : List TStatusElement → String → List TStatusElement
  | [], _ => []
  | e :: rest, bname => if e.fName = bname then rest else e :: TChain.removeStatus rest bname

/-- `TChain::SetBranchStatus(bname, status)`: the element of that name is taken out of
`fStatus`, or created when there is none, put at the end of the list and given the
status; with a tree number the status is also set in the current tree (which
is dereferenced without a check). -/
def TChain.SetBranchStatus (s : TChain) (bname : String) (status : Bool) : Option TChain :=
  let element : TStatusElement :=
    match s.fStatus.find? (fun e => decide (e.fName = bname)) with
    | some e => e
    | none => { fName := bname, fStatus := -1, fBaddress := 0, fBranchPtr := none }
  let st := TChain.removeStatus s.fStatus bname ++
    [{ element with fStatus := if status then 1 else 0 }]
  if s.fTreeNumber ≥ 0 then
    match s.fTree with
    | none => none
    | some t =>
      some { s with fStatus := st,
                    fTree := some (t.SetBranchStatus bname (if status then 1 else 0)) }
  else some { s with fStatus := st }

/-- `TChain::SetBranchAddress(bname, add, ptr, realClass, datatype, isptr)`: the element is
looked up or created and records the type and the branch pointer; then as
`SetBranchAddress(bname, add, ptr)`.  The type is not represented. -/
def TChain.SetBranchAddressTyped (E : Env) (s : TChain) (bname : String) (add : Nat)
    (ptr : Bool) : Option TChain :=
  TChain.SetBranchAddress E
    { s with fStatus := TChain.updateStatus s.fStatus bname fun e =>
        { e with fBranchPtr := if ptr then some none else none } }
    bname add ptr

/-- `TChain::SetBranchAddress(bname, addr, ptr, ptrClass, datatype, isptr, suppressMissingBranchError)`:
an element is created when there is none of that name; then as the overload
with the type.  The flag of the new element is not represented. -/
def TChain.SetBranchAddressDelayed (E : Env) (s : TChain) (bname : String) (add : Nat)
    (ptr : Bool) : Option TChain :=
  TChain.SetBranchAddressTyped E
    { s with fStatus := TChain.updateStatus s.fStatus bname fun e => e } bname add ptr

/-- A call that writes to the list `fStatus`: one of the three overloads of
`SetBranchAddress`, or `SetBranchStatus`. -/
inductive StatusCall where
  | address (bname : String) (add : Nat) (ptr : Bool)
  | typed (bname : String) (add : Nat) (ptr : Bool)
  | delayed (bname : String) (add : Nat) (ptr : Bool)
  | status (bname : String) (b : Bool)
  deriving DecidableEq, Repr

/-- One call on the chain. -/
def StatusCall.run (E : Env) (s : TChain) : StatusCall → Option TChain
  | StatusCall.address bname add ptr => TChain.SetBranchAddress E s bname add ptr
  | StatusCall.typed bname add ptr => TChain.SetBranchAddressTyped E s bname add ptr
  | StatusCall.delayed bname add ptr => TChain.SetBranchAddressDelayed E s bname add ptr
  | StatusCall.status bname b => TChain.SetBranchStatus s bname b

/-- A sequence of `SetBranchAddress` and `SetBranchStatus` calls. -/
def runStatusCalls (E : Env) : TChain → List StatusCall → Option TChain
  | s, [] => some s
  | s, c :: rest =>
    match c.run E s with
    | none => none
    | some s1 => runStatusCalls E s1 rest

/-- The status that the elements of `fStatus` give a branch named `bname` when they are
applied in the order of the list: that of the last element which has a status
given by the user and is named `*` or `bname`. -/
def lastStatus : List TStatusElement → String → Option Int
  | [], _ => none
  | e :: rest, bname =>
    match lastStatus rest bname with
    | some v => some v
    | none => if e.fStatus ≠ -1 ∧ (e.fName = "*" ∨ e.fName = bname) then some e.fStatus else none

/-- The chain `chainE4`, whose current tree has no branch `y`, after
`SetBranchAddress("y", 11, ptr)`: the element `y` records the new address. -/
def chainE4y : TChain :=
  { chainE4 with fStatus := [⟨"x", -1, 7, some (some "x"), true⟩, ⟨"y", -1, 11, some none, true⟩] }

/-- The chain `chainE` after `SetBranchStatus("*", false)`. -/
def chainS1 : TChain :=
  { chainE with fStatus := [⟨"x", -1, 7, some none, false⟩, ⟨"y", -1, 9, some none, false⟩,
                             ⟨"*", 0, 0, none, false⟩] }

/-- The chain `chainS1` after `SetBranchStatus("x", true)`: the element `x` has become the
last one. -/
def chainS2 : TChain :=
  { chainE with fStatus := [⟨"y", -1, 9, some none, false⟩, ⟨"*", 0, 0, none, false⟩,
                             ⟨"x", 1, 7, some none, false⟩] }

/-- The tree of `b0.root` as `LoadTree(0)` leaves it in the chain `chainS2`: the branch `x` is
processed, the branch `y` is not. -/
def treeS0 : TTree :=
  { fEntries := 3, fReadEntry := 0, fPacketSize := 0, hasFriends := false,
    friendUpdated := false, branches := [⟨"x", 7, true⟩, ⟨"y", 9, false⟩] }

/-- The chain `chainS2` after `LoadTree(0)`. -/
def chainS0 : TChain :=
  { chainE0 with fTree := some treeS0,
                 fStatus := [⟨"y", -1, 9, some (some "y"), true⟩, ⟨"*", 0, 0, none, false⟩,
                             ⟨"x", 1, 7, some (some "x"), true⟩] }

/-- State of a chain during a scan of its entries in increasing order: the first
`K` boundaries are set (`Resolved`), the tree number is `K - 1`, the file names of the
elements are `titles`, and the files opened since the scan began, when the list
`opens` was `base`, are those of the first `K` elements, in their order. -/
structure Scanned (E : Env) (counts : List Nat) (titles base : List String) (K : Nat)
    (s : TChain) : Prop where
  res : Resolved E counts K s
  front : s.fTreeNumber = (K : Int) - 1
  names : s.fFiles.map (fun e => e.fTitle) = titles
  opened : s.opens = base ++ titles.take K

/-- The chain `T` after `AddFile("p0.root")`, `AddFile("empty.root")` and `AddFile("p1.root")`, all with the
count unknown: the files hold 3, 0 and 2 entries. -/
def chainQ : TChain :=
  { fName := "T", fNtrees := 3, fTreeNumber := -1,
    fTreeOffset := [0, 1000000000000, 1000000000000, 1000000000000],
    fEntries := 1000000000000, fReadEntry := -1, fTree := none, fFile := false,
    fFiles := [⟨"T", "p0.root", 1000000000000, 0, 0⟩, ⟨"T", "empty.root", 1000000000000, 0, 0⟩,
               ⟨"T", "p1.root", 1000000000000, 0, 0⟩],
    fNotify := none, fFriendLockStatus := false, fFriends := [], opens := [] }

/-- The chain on which the nested call number `n` of `LoadTree(entry)` starts, the
call from outside being the call number 0: `none` when fewer than `n` recursive
calls are made. -/
def TChain.nestedCall (E : Env) (entry : Int) : Nat → TChain → Option TChain
  | 0, s => some s
  | n + 1, s =>
    match TChain.LoadTreeStep E s entry with
    | some (TChain.Step.retry s1) => TChain.nestedCall E entry n s1
    | _ => none

/-- What the operations of the chain leave of the current tree: there is no tree
number, or the tree with that number is loaded, or (after a notifier has
refused the move to the next tree behind a file that held no tree) the tree
with that number counts no entries in the offset table. -/
def TChain.Current (s : TChain) : Prop :=
  s.fTreeNumber = -1 ∨ s.fTree.isSome = true ∨
    ∃ (k : Nat) (a : Int), s.fTreeNumber = (k : Int) ∧ k < s.fNtrees ∧
      s.fTreeOffset[k]? = some a ∧ s.fTreeOffset[k + 1]? = some a


/-- The value a `Long64_t` holds when the integer result of an addition is `x`: the
integer congruent to `x` modulo `2^64` that lies between `-2^63` and `2^63 - 1`. -/
def Long64.wrap (x : Int) : Int :=
  (x + 9223372036854775808) % 18446744073709551616 - 9223372036854775808

/-- The integer `x` is the value of a `Long64_t`: it lies between `-2^63` and `2^63 - 1`. -/
def Long64.fits (x : Int) : Prop :=
  -9223372036854775808 ≤ x ∧ x ≤ 9223372036854775807

/-- The block `if (nentries > 0) { ... }` of `AddFile` with its two sums,
`fTreeOffset[fNtrees] + nentries` and `fEntries += nentries`, taken in `Long64_t`: a sum that does
not fit is reduced modulo `2^64`.  Everything else is as in `connect`. -/
def TChain.connect64 (E : Env) (s : TChain) (treename filename : String) (n pksize : Int) :
    Option TChain :=
  if 0 < n then
    let newOff : Option (List Int) :=
      if n ≠ E.kMaxEntries then
        match TChain.offsetAt s.fTreeOffset s.fNtrees with
        | none => none
        | some last => TChain.offsetSet s.fTreeOffset (s.fNtrees + 1) (Long64.wrap (last + n))
      else TChain.offsetSet s.fTreeOffset (s.fNtrees + 1) E.kMaxEntries
    match newOff with
    | none => none
    | some off =>
      some { s with
        fTreeOffset := off
        fEntries := if n ≠ E.kMaxEntries then Long64.wrap (s.fEntries + n) else E.kMaxEntries
        fNtrees := s.fNtrees + 1
        fFiles := s.fFiles ++ [{ fName := treename, fTitle := filename, fEntries := n,
                                 fPacketSize := pksize, fLoadResult := 0 }] }
  else some s

/-- `TChain::AddFile(name, nentries, tname)` with the sums of its last block taken in
`Long64_t` (`connect64`); the function is otherwise as `AddFile`, with which it agrees
whenever the two sums fit in a `Long64_t`. -/
def TChain.AddFile64 (E : Env) (s : TChain) (name : String) (nentries : Int) (tname : String) :
    Option (Int × TChain) :=
  if name = "" then some (0, s)
  else
    let p := E.ParseTreeFilename name
    let treename0 := if tname.length > 0 then tname else s.fName
    let treename := if p.treename = "" then treename0 else p.treename
    let filename := p.basename ++ p.query
    if nentries ≤ 0 then
      let s1 := { s with opens := s.opens ++ [filename] }
      match E.Open filename with
      | none => some (0, s1)
      | some f =>
        match f.Get treename with
        | none => some (0, s1)
        | some t =>
          match TChain.connect64 E s1 treename filename (t.fEntries : Int) t.fPacketSize with
          | none => none
          | some s2 => some (1, s2)
    else
      match TChain.connect64 E s treename filename nentries 0 with
      | none => none
      | some s2 => some (1, s2)


/-! ## The linear search -/

theorem searchFrom_eq (off : List Int) (entry : Int) :
    ∀ (left t k : Nat), t ≤ k → k < t + left →
      (∀ j, t ≤ j → j < k → ∃ v, off[j + 1]? = some v ∧ v ≤ entry) →
      (∃ v, off[k + 1]? = some v ∧ entry < v) →
      TChain.searchFrom off entry left t = some k := by
  intro left
  induction left with
  | zero => intro t k h1 h2; omega
  | succ n ih =>
    intro t k h1 h2 hlow hk
    rcases Nat.eq_or_lt_of_le h1 with h | h
    · subst h
      obtain ⟨v, hv, hlt⟩ := hk
      simp [TChain.searchFrom, hv, hlt]
    · obtain ⟨v, hv, hle⟩ := hlow t (le_refl _) h
      have hnot : ¬ entry < v := by omega
      simp only [TChain.searchFrom, hv, hnot, if_false]
      exact ih (t + 1) k (by omega) (by omega)
        (fun j hj1 hj2 => hlow j (by omega) hj2) hk

theorem sumBefore_zero (counts : List Nat) : sumBefore counts 0 = 0 := by
  simp [sumBefore]

theorem sumBefore_succ (counts : List Nat) (i : Nat) (h : i < counts.length) :
    sumBefore counts (i + 1) = sumBefore counts i + (counts[i] : Int) := by
  have h1 : (counts.take (i + 1)).sum = (counts.take i).sum + counts[i] := by
    rw [List.take_succ, List.getElem?_eq_getElem h, List.sum_append]
    simp [Option.toList]
  unfold sumBefore
  rw [h1]
  push_cast
  rfl

theorem sumBefore_mono (counts : List Nat) (i j : Nat) (h : i ≤ j) :
    sumBefore counts i ≤ sumBefore counts j := by
  induction j with
  | zero =>
    have : i = 0 := by omega
    subst this; exact le_refl _
  | succ n ih =>
    rcases Nat.eq_or_lt_of_le h with h1 | h1
    · subst h1; exact le_refl _
    · have h2 := ih (by omega)
      by_cases hn : n < counts.length
      · rw [sumBefore_succ counts n hn]; omega
      · have : sumBefore counts (n + 1) = sumBefore counts n := by
          unfold sumBefore
          rw [List.take_of_length_le (by omega), List.take_of_length_le (by omega)]
        omega

/-! ## Resolution of a global entry in a chain with accurate or unknown counts -/

theorem Resolved.search {E : Env} {counts : List Nat} {K : Nat} {s : TChain}
    (h : Resolved E counts K s) (hsum : sumBefore counts counts.length < E.kMaxEntries - 1)
    (g : Int) (p : Nat) (hp : p < counts.length)
    (hlo : sumBefore counts p ≤ g) (hhi : g < sumBefore counts (p + 1)) :
    TChain.searchFrom s.fTreeOffset g s.fNtrees 0 = some (min p K) := by
  rw [h.ntrees]
  apply searchFrom_eq
  · omega
  · have : min p K ≤ p := Nat.min_le_left _ _
    omega
  · intro j _ hj
    have hjK : j + 1 ≤ K := by have := Nat.min_le_right p K; omega
    have hjp : j + 1 ≤ p := by have := Nat.min_le_left p K; omega
    refine ⟨_, h.known (j + 1) hjK, ?_⟩
    have := sumBefore_mono counts (j + 1) p hjp
    omega
  · by_cases hpK : p < K
    · have : min p K = p := Nat.min_eq_left (by omega)
      rw [this]
      exact ⟨_, h.known (p + 1) (by omega), hhi⟩
    · have : min p K = K := Nat.min_eq_right (by omega)
      rw [this]
      obtain ⟨v, hv, hge⟩ := h.unknown (K + 1) (by omega) (by omega)
      refine ⟨v, hv, ?_⟩
      have := sumBefore_mono counts (p + 1) counts.length (by omega)
      omega

theorem Resolved.locate {E : Env} {counts : List Nat} {K : Nat} {s : TChain}
    (h : Resolved E counts K s) (hsum : sumBefore counts counts.length < E.kMaxEntries - 1)
    (g : Int) (p : Nat) (hp : p < counts.length)
    (hlo : sumBefore counts p ≤ g) (hhi : g < sumBefore counts (p + 1)) :
    TChain.locate E s g = some (min p K) := by
  have hs := h.search hsum g p hp hlo hhi
  have hgk : g ≠ E.kMaxEntries - 1 := by
    have := sumBefore_mono counts (p + 1) counts.length (by omega)
    omega
  rcases h.current with hc | ⟨k, hk, hkK, _⟩
  · simp [TChain.locate, hc, hs]
  · have hne : s.fTreeNumber ≠ -1 := by omega
    have ha : TChain.offsetAt s.fTreeOffset s.fTreeNumber = some (sumBefore counts k) := by
      simp [TChain.offsetAt, hk, h.known k (by omega)]
    have hb : TChain.offsetAt s.fTreeOffset (s.fTreeNumber + 1)
        = some (sumBefore counts (k + 1)) := by
      have : (k : Int) + 1 = ((k + 1 : Nat) : Int) := by push_cast; rfl
      rw [hk, this]
      simp only [TChain.offsetAt, Int.toNat_ofNat, Int.ofNat_nonneg, if_true]
      exact h.known (k + 1) hkK
    simp only [TChain.locate, hne, if_false, ha, hb, hs]
    by_cases h1 : g < sumBefore counts k
    · simp [h1]
    · by_cases h2 : g ≥ sumBefore counts (k + 1)
      · simp [h1, h2]
      · simp only [h1, h2, hgk, if_false]
        -- the entry lies in the current tree, which is then its owner
        have hkp : k = p := by
          by_contra hne2
          rcases Nat.lt_or_gt_of_ne hne2 with hlt | hgt
          · have := sumBefore_mono counts (k + 1) p (by omega)
            omega
          · have := sumBefore_mono counts (p + 1) k (by omega)
            omega
        subst hkp
        have : min k K = k := Nat.min_eq_left (by omega)
        simp [hk, this]

/-! ## The two paths of one pass of `LoadTree` -/

@[simp] theorem teardown_fFiles (s : TChain) : (TChain.teardown s).fFiles = s.fFiles := by
  unfold TChain.teardown TChain.InvalidateCurrentTree; split_ifs <;> rfl

@[simp] theorem teardown_opens (s : TChain) : (TChain.teardown s).opens = s.opens := by
  unfold TChain.teardown TChain.InvalidateCurrentTree; split_ifs <;> rfl

@[simp] theorem teardown_fTreeOffset (s : TChain) :
    (TChain.teardown s).fTreeOffset = s.fTreeOffset := by
  unfold TChain.teardown TChain.InvalidateCurrentTree; split_ifs <;> rfl

@[simp] theorem teardown_fNtrees (s : TChain) : (TChain.teardown s).fNtrees = s.fNtrees := by
  unfold TChain.teardown TChain.InvalidateCurrentTree; split_ifs <;> rfl

@[simp] theorem teardown_fEntries (s : TChain) : (TChain.teardown s).fEntries = s.fEntries := by
  unfold TChain.teardown TChain.InvalidateCurrentTree; split_ifs <;> rfl

@[simp] theorem teardown_fReadEntry (s : TChain) :
    (TChain.teardown s).fReadEntry = s.fReadEntry := by
  unfold TChain.teardown TChain.InvalidateCurrentTree; split_ifs <;> rfl

@[simp] theorem teardown_fNotify (s : TChain) : (TChain.teardown s).fNotify = s.fNotify := by
  unfold TChain.teardown TChain.InvalidateCurrentTree; split_ifs <;> rfl

@[simp] theorem teardown_fFriends (s : TChain) : (TChain.teardown s).fFriends = s.fFriends := by
  unfold TChain.teardown TChain.InvalidateCurrentTree; split_ifs <;> rfl

@[simp] theorem teardown_fFriendLockStatus (s : TChain) :
    (TChain.teardown s).fFriendLockStatus = s.fFriendLockStatus := by
  unfold TChain.teardown TChain.InvalidateCurrentTree; split_ifs <;> rfl

@[simp] theorem teardown_fName (s : TChain) : (TChain.teardown s).fName = s.fName := by
  unfold TChain.teardown TChain.InvalidateCurrentTree; split_ifs <;> rfl

@[simp] theorem teardown_fStatus (s : TChain) : (TChain.teardown s).fStatus = s.fStatus := by
  unfold TChain.teardown TChain.InvalidateCurrentTree; split_ifs <;> rfl

/-- One pass of `LoadTree` on the path of the current tree. -/
theorem LoadTreeStep_sameTree (E : Env) (s : TChain) (g : Int) (k : Nat) (a : Int) (t : TTree)
    (hlock : s.fFriendLockStatus = false) (hn : s.fNtrees ≠ 0)
    (hrange : ¬ (g < 0 ∨ (g > 0 ∧ (g ≥ s.fEntries ∧ g ≠ E.kMaxEntries - 1))))
    (hloc : TChain.locate E s g = some k)
    (ha : TChain.offsetAt s.fTreeOffset (k : Int) = some a)
    (hcur : s.fTreeNumber = (k : Int)) (ht : s.fTree = some t) :
    TChain.LoadTreeStep E s g
      = TChain.sameTree { s with fReadEntry := g } t g (g - a) := by
  unfold TChain.LoadTreeStep
  simp only [hlock, hn, hrange, hloc, ha, hcur, ht, if_false, if_true, Bool.false_eq_true]

/-- One pass of `LoadTree` on the path that opens the file of element `k`. -/
theorem LoadTreeStep_switch (E : Env) (s : TChain) (g : Int) (k : Nat) (a : Int)
    (e : TChainElement)
    (hlock : s.fFriendLockStatus = false) (hn : s.fNtrees ≠ 0)
    (hrange : ¬ (g < 0 ∨ (g > 0 ∧ (g ≥ s.fEntries ∧ g ≠ E.kMaxEntries - 1))))
    (hloc : TChain.locate E s g = some k)
    (ha : TChain.offsetAt s.fTreeOffset (k : Int) = some a)
    (hsw : s.fTreeNumber ≠ (k : Int) ∨ s.fTree = none)
    (he : s.fFiles[k]? = some e) :
    TChain.LoadTreeStep E s g
      = TChain.afterOpen
          { TChain.teardown { s with fReadEntry := g } with opens := s.opens ++ [e.fTitle] }
          g (g - a) k k (TChain.openElement E e).1 (TChain.openElement E e).2 := by
  unfold TChain.LoadTreeStep
  have hm : (if (k : Int) = s.fTreeNumber then s.fTree else none) = none := by
    rcases hsw with h | h
    · have : ¬ (k : Int) = s.fTreeNumber := fun h2 => h h2.symm
      simp [this]
    · simp [h]
  simp only [hlock, hn, hrange, hloc, ha, if_false, Bool.false_eq_true, hm, teardown_fFiles, he,
    teardown_opens]

theorem treeOf_setLoadResult (E : Env) (fs : List TChainElement) (j : Nat) (r : Int) (i : Nat)
    (e : TChainElement) (h : fs[i]? = some e) :
    ∃ e1, (TChain.setLoadResult fs j r)[i]? = some e1 ∧ treeOf E e1 = treeOf E e := by
  unfold TChain.setLoadResult
  rw [List.getElem?_modify, h]
  by_cases hji : j = i
  · exact ⟨{ e with fLoadResult := r }, by simp [hji], rfl⟩
  · exact ⟨e, by simp [hji], rfl⟩

theorem treeOf_setNumberEntries (E : Env) (fs : List TChainElement) (j : Nat) (n : Int) (i : Nat)
    (e : TChainElement) (h : fs[i]? = some e) :
    ∃ e1, (TChain.setNumberEntries fs j n)[i]? = some e1 ∧ treeOf E e1 = treeOf E e := by
  unfold TChain.setNumberEntries
  rw [List.getElem?_modify, h]
  by_cases hji : j = i
  · exact ⟨{ e with fEntries := n }, by simp [hji], rfl⟩
  · exact ⟨e, by simp [hji], rfl⟩

@[simp] theorem length_setLoadResult (fs : List TChainElement) (j : Nat) (r : Int) :
    (TChain.setLoadResult fs j r).length = fs.length := by
  simp [TChain.setLoadResult]

@[simp] theorem length_setNumberEntries (fs : List TChainElement) (j : Nat) (n : Int) :
    (TChain.setNumberEntries fs j n).length = fs.length := by
  simp [TChain.setNumberEntries]

/-- Without friends and without a notifier the path of the current tree returns
the local entry and only replaces the tree handle. -/
theorem sameTree_plain (s : TChain) (t : TTree) (g tre : Int)
    (hf : s.fFriends = []) (hn : s.fNotify = none) :
    ∃ t1 st, TChain.sameTree s t g tre
      = some (Step.done tre { s with fTree := some t1, fStatus := st }) := by
  rcases s with ⟨n, nt, tn, off, en, re, tr, fl, fs, no, lk, fr, ops, st⟩
  simp only at hf hn
  subst hf hn
  by_cases h : (t.LoadTree tre).2.hasFriends = true
  · exact ⟨(if (t.LoadTree tre).2.friendUpdated = true then
        TChain.refreshElements st { (t.LoadTree tre).2 with friendUpdated := false }
      else (st, { (t.LoadTree tre).2 with friendUpdated := false })).2,
      (if (t.LoadTree tre).2.friendUpdated = true then
        TChain.refreshElements st { (t.LoadTree tre).2 with friendUpdated := false }
      else (st, { (t.LoadTree tre).2 with friendUpdated := false })).1, by
      simp [TChain.sameTree, TChain.loadFriends, h]⟩
  · exact ⟨(t.LoadTree tre).2, st, by simp [TChain.sameTree, h]⟩

/-- With a tree, no friend and no notifier the end of the switch returns the
local entry; the element records a load result and the tree handle is set. -/
theorem finishSwitch_plain (s : TChain) (t : TTree) (g tre : Int) (eidx : Nat) (rc : Int)
    (ht : s.fTree = some t) (hf : s.fFriends = []) (hn : s.fNotify = none) :
    ∃ t1 res st, TChain.finishSwitch s g tre eidx rc
      = Step.done tre { s with fTree := some t1,
                               fFiles := TChain.setLoadResult s.fFiles eidx res,
                               fStatus := st } := by
  rcases s with ⟨n, nt, tn, off, en, re, tr, fl, fs, no, lk, fr, ops, st⟩
  simp only at ht hf hn
  subst ht hf hn
  exact ⟨(TChain.setBranchAddresses st (TChain.setBranchStatuses st (t.LoadTree tre).2)).2,
    if (t.LoadTree tre).1 = tre then 0 else -5,
    (TChain.setBranchAddresses st (TChain.setBranchStatuses st (t.LoadTree tre).2)).1, by
    simp [TChain.finishSwitch, TChain.loadFriends]⟩

/-! ## The check of the offset table -/

/-- The slot already agrees with the tree: nothing is written. -/
theorem repair_keep (s : TChain) (g tre : Int) (k eidx : Nat) (n rc a : Int)
    (ha : TChain.offsetAt s.fTreeOffset (k : Int) = some a)
    (hb : TChain.offsetAt s.fTreeOffset ((k : Int) + 1) = some (a + n)) :
    TChain.repair s g tre k eidx n rc = some (s, tre, false) := by
  simp [TChain.repair, ha, hb]

/-- The slot is rewritten and the entry lies below it: the local entry stands. -/
theorem repair_write_inside (s : TChain) (g tre : Int) (k eidx : Nat) (n rc a b total : Int)
    (ha : TChain.offsetAt s.fTreeOffset (k : Int) = some a)
    (hb : TChain.offsetAt s.fTreeOffset ((k : Int) + 1) = some b) (hne : b ≠ a + n)
    (ht : TChain.offsetAt (s.fTreeOffset.set (k + 1) (a + n)) (s.fNtrees : Int) = some total)
    (hg : g < a + n) :
    TChain.repair s g tre k eidx n rc
      = some ({ s with fTreeOffset := s.fTreeOffset.set (k + 1) (a + n), fEntries := total,
                       fFiles := TChain.setNumberEntries s.fFiles eidx n }, tre, false) := by
  have hg2 : ¬ g ≥ a + n := by omega
  simp [TChain.repair, ha, hb, hne, ht, hg2]

/-- The slot is rewritten, the entry lies at or beyond it and below the next
slot: the load result is recorded and the next tree is to be tried. -/
theorem repair_write_next (s : TChain) (g tre : Int) (k eidx : Nat) (n rc a b total c : Int)
    (ha : TChain.offsetAt s.fTreeOffset (k : Int) = some a)
    (hb : TChain.offsetAt s.fTreeOffset ((k : Int) + 1) = some b) (hne : b ≠ a + n)
    (ht : TChain.offsetAt (s.fTreeOffset.set (k + 1) (a + n)) (s.fNtrees : Int) = some total)
    (hg : g ≥ a + n) (hk : (k : Int) < (s.fNtrees : Int) - 1)
    (hc : TChain.offsetAt (s.fTreeOffset.set (k + 1) (a + n)) ((k : Int) + 2) = some c)
    (hgc : g < c) :
    TChain.repair s g tre k eidx n rc
      = some ({ s with fTreeOffset := s.fTreeOffset.set (k + 1) (a + n), fEntries := total,
                       fFiles := TChain.setLoadResult
                         (TChain.setNumberEntries s.fFiles eidx n) eidx rc }, tre, true) := by
  simp [TChain.repair, ha, hb, hne, ht, hg, hk, hc, hgc]

/-- The slot is rewritten, the entry lies at or beyond it and there is no next
tree: the local entry becomes `-2`. -/
theorem repair_write_last (s : TChain) (g tre : Int) (k eidx : Nat) (n rc a b total : Int)
    (ha : TChain.offsetAt s.fTreeOffset (k : Int) = some a)
    (hb : TChain.offsetAt s.fTreeOffset ((k : Int) + 1) = some b) (hne : b ≠ a + n)
    (ht : TChain.offsetAt (s.fTreeOffset.set (k + 1) (a + n)) (s.fNtrees : Int) = some total)
    (hg : g ≥ a + n) (hk : ¬ (k : Int) < (s.fNtrees : Int) - 1) :
    TChain.repair s g tre k eidx n rc
      = some ({ s with fTreeOffset := s.fTreeOffset.set (k + 1) (a + n), fEntries := total,
                       fFiles := TChain.setNumberEntries s.fFiles eidx n,
                       fReadEntry := -2 }, -2, false) := by
  simp [TChain.repair, ha, hb, hne, ht, hg, hk]

/-- The slot is rewritten and the entry lies at or beyond the next slot as
well: the local entry becomes `-2`. -/
theorem repair_write_beyond (s : TChain) (g tre : Int) (k eidx : Nat) (n rc a b total c : Int)
    (ha : TChain.offsetAt s.fTreeOffset (k : Int) = some a)
    (hb : TChain.offsetAt s.fTreeOffset ((k : Int) + 1) = some b) (hne : b ≠ a + n)
    (ht : TChain.offsetAt (s.fTreeOffset.set (k + 1) (a + n)) (s.fNtrees : Int) = some total)
    (hg : g ≥ a + n) (hk : (k : Int) < (s.fNtrees : Int) - 1)
    (hc : TChain.offsetAt (s.fTreeOffset.set (k + 1) (a + n)) ((k : Int) + 2) = some c)
    (hgc : ¬ g < c) :
    TChain.repair s g tre k eidx n rc
      = some ({ s with fTreeOffset := s.fTreeOffset.set (k + 1) (a + n), fEntries := total,
                       fFiles := TChain.setNumberEntries s.fFiles eidx n,
                       fReadEntry := -2 }, -2, false) := by
  simp [TChain.repair, ha, hb, hne, ht, hg, hk, hc, hgc]

theorem offsetAt_nat (off : List Int) (i : Nat) : TChain.offsetAt off (i : Int) = off[i]? := by
  simp [TChain.offsetAt]

theorem offsetAt_nat_succ (off : List Int) (i : Nat) :
    TChain.offsetAt off ((i : Int) + 1) = off[i + 1]? := by
  have : (i : Int) + 1 = ((i + 1 : Nat) : Int) := by push_cast; rfl
  rw [this, offsetAt_nat]

theorem offsetAt_nat_succ2 (off : List Int) (i : Nat) :
    TChain.offsetAt off ((i : Int) + 2) = off[i + 2]? := by
  have : (i : Int) + 2 = ((i + 2 : Nat) : Int) := by push_cast; rfl
  rw [this, offsetAt_nat]

theorem openElement_of_treeOf (E : Env) (e : TChainElement) (t : TTree)
    (h : treeOf E e = some t) : TChain.openElement E e = (some t, 0) := by
  unfold treeOf at h
  unfold TChain.openElement
  cases hO : E.Open e.fTitle with
  | none => simp [hO] at h
  | some f =>
    simp only [hO, Option.some_bind] at h
    simp [h]

/-- The invariant survives a change of the read cursor and of the tree handle. -/
theorem Resolved.same {E : Env} {counts : List Nat} {K : Nat} {s : TChain}
    (h : Resolved E counts K s) (g : Int) (t1 : TTree) (k : Nat)
    (hk : s.fTreeNumber = (k : Int)) (hkK : k + 1 ≤ K) :
    Resolved E counts K { s with fReadEntry := g, fTree := some t1 } :=
  { ntrees := h.ntrees, hK := h.hK, offLen := h.offLen, known := h.known,
    unknown := h.unknown, total := h.total, filesLen := h.filesLen, files := h.files,
    lock := h.lock, notify := h.notify, friends := h.friends,
    current := Or.inr ⟨k, hk, hkK, rfl⟩ }

/-- The invariant does not depend on the list `fStatus`. -/
theorem Resolved.withStatus {E : Env} {counts : List Nat} {K : Nat} {s : TChain}
    (h : Resolved E counts K s) (st : List TStatusElement) :
    Resolved E counts K { s with fStatus := st } :=
  { ntrees := h.ntrees, hK := h.hK, offLen := h.offLen, known := h.known,
    unknown := h.unknown, total := h.total, filesLen := h.filesLen, files := h.files,
    lock := h.lock, notify := h.notify, friends := h.friends, current := h.current }

/-- The invariant after a switch to tree `k` whose boundary was already set. -/
theorem Resolved.switched {E : Env} {counts : List Nat} {K : Nat} {s : TChain}
    (h : Resolved E counts K s) (g : Int) (t1 : TTree) (k : Nat) (res : Int) (ops : List String)
    (fl : Bool) (hkK : k + 1 ≤ K) :
    Resolved E counts K
      { s with fReadEntry := g, fTree := some t1, fTreeNumber := (k : Int), fFile := fl,
               opens := ops, fFiles := TChain.setLoadResult s.fFiles k res } :=
  { ntrees := h.ntrees, hK := h.hK, offLen := h.offLen, known := h.known,
    unknown := h.unknown, total := h.total,
    filesLen := by simp [h.filesLen],
    files := by
      intro i hi
      obtain ⟨e, t, he, ht, hc⟩ := h.files i hi
      obtain ⟨e1, he1, ht1⟩ := treeOf_setLoadResult E s.fFiles k res i e he
      exact ⟨e1, t, he1, by rw [ht1, ht], hc⟩
    lock := h.lock, notify := h.notify, friends := h.friends,
    current := Or.inr ⟨k, rfl, hkK, rfl⟩ }

/-- The invariant after the boundary of tree `K` has been rewritten to the true
sum, whatever is recorded on the elements. -/
theorem Resolved.repaired {E : Env} {counts : List Nat} {K : Nat} {s : TChain}
    (h : Resolved E counts K s) (hK : K < counts.length)
    (g : Int) (t1 : TTree) (ops : List String) (fl : Bool) (total : Int)
    (fs : List TChainElement) (hfl : fs.length = s.fFiles.length)
    (hfs : ∀ (i : Nat) (e : TChainElement), s.fFiles[i]? = some e →
      ∃ e1, fs[i]? = some e1 ∧ treeOf E e1 = treeOf E e)
    (htot : (s.fTreeOffset.set (K + 1) (sumBefore counts (K + 1)))[counts.length]? = some total) :
    Resolved E counts (K + 1)
      { s with fReadEntry := g, fTree := some t1, fTreeNumber := (K : Int), fFile := fl,
               opens := ops, fFiles := fs,
               fTreeOffset := s.fTreeOffset.set (K + 1) (sumBefore counts (K + 1)),
               fEntries := total } :=
  { ntrees := h.ntrees, hK := hK,
    offLen := by simp [h.offLen],
    known := by
      intro i hi
      show (s.fTreeOffset.set (K + 1) (sumBefore counts (K + 1)))[i]? = _
      rw [List.getElem?_set]
      by_cases hi2 : K + 1 = i
      · subst hi2
        have : K + 1 < s.fTreeOffset.length := by rw [h.offLen]; omega
        simp [this]
      · simp only [hi2, if_false]
        exact h.known i (by omega)
    unknown := by
      intro i hi1 hi2
      show ∃ v, (s.fTreeOffset.set (K + 1) (sumBefore counts (K + 1)))[i]? = some v ∧ _
      rw [List.getElem?_set]
      have hne : ¬ K + 1 = i := by omega
      simp only [hne, if_false]
      exact h.unknown i (by omega) hi2
    total := htot,
    filesLen := by show fs.length = _; rw [hfl, h.filesLen],
    files := by
      intro i hi
      obtain ⟨e, t, he, ht, hc⟩ := h.files i hi
      obtain ⟨e1, he1, ht1⟩ := hfs i e he
      exact ⟨e1, t, he1, by rw [ht1, ht], hc⟩
    lock := h.lock, notify := h.notify, friends := h.friends,
    current := Or.inr ⟨K, rfl, le_refl _, rfl⟩ }

theorem Resolved.weaken {E : Env} {counts : List Nat} {K K1 : Nat} {s : TChain}
    (h : Resolved E counts K s) (hK : K1 = K) : Resolved E counts K1 s := by
  subst hK; exact h

theorem Resolved.entries_gt {E : Env} {counts : List Nat} {K : Nat} {s : TChain}
    (h : Resolved E counts K s) (hsum : sumBefore counts counts.length < E.kMaxEntries - 1)
    (g : Int) (hg : g < sumBefore counts counts.length) : g < s.fEntries := by
  rcases Nat.lt_or_ge K counts.length with hK | hK
  · obtain ⟨v, hv, hge⟩ := h.unknown counts.length hK (le_refl _)
    rw [h.total] at hv
    have hv2 : s.fEntries = v := Option.some.inj hv
    omega
  · have := h.known counts.length hK
    rw [h.total] at this
    have hv2 : s.fEntries = sumBefore counts counts.length := Option.some.inj this
    omega

/-- One pass of `LoadTree` in a chain with accurate or unknown counts, for an
entry owned by tree `p`: either the pass returns the local entry with `p` as
the current tree, or the boundary of tree `K` has been set and the next tree
is tried. -/
theorem Resolved.step {E : Env} {counts : List Nat} {K : Nat} {s : TChain}
    (h : Resolved E counts K s) (hsum : sumBefore counts counts.length < E.kMaxEntries - 1)
    (g : Int) (p : Nat) (hp : p < counts.length)
    (hlo : sumBefore counts p ≤ g) (hhi : g < sumBefore counts (p + 1)) (h0 : 0 ≤ g) :
    (∃ s1, TChain.LoadTreeStep E s g = some (Step.done (g - sumBefore counts p) s1) ∧
        s1.fTreeNumber = (p : Int) ∧ Resolved E counts (max K (p + 1)) s1) ∨
    (K < p ∧ ∃ s1, TChain.LoadTreeStep E s g = some (Step.retry s1) ∧
        Resolved E counts (K + 1) s1) := by
  have hloc := h.locate hsum g p hp hlo hhi
  obtain ⟨k, hkdef⟩ : ∃ k, k = min p K := ⟨_, rfl⟩
  rw [← hkdef] at hloc
  have hkK : k ≤ K := by rw [hkdef]; exact Nat.min_le_right _ _
  have hkp : k ≤ p := by rw [hkdef]; exact Nat.min_le_left _ _
  have hkcase : (k < K → k = p) ∧ (¬ k < K → k = K) := by
    rcases Nat.le_total p K with h1 | h1
    · have := Nat.min_eq_left h1; omega
    · have := Nat.min_eq_right h1; omega
  clear hkdef
  have ha : TChain.offsetAt s.fTreeOffset (k : Int) = some (sumBefore counts k) := by
    rw [offsetAt_nat]; exact h.known _ hkK
  have hn : s.fNtrees ≠ 0 := by rw [h.ntrees]; omega
  have hTN := sumBefore_mono counts (p + 1) counts.length (by omega)
  have hgE := h.entries_gt hsum g (by omega)
  have hrange : ¬ (g < 0 ∨ (g > 0 ∧ (g ≥ s.fEntries ∧ g ≠ E.kMaxEntries - 1))) := by
    intro hr
    rcases hr with hr | ⟨_, hr, _⟩
    · omega
    · omega
  by_cases hcur : s.fTreeNumber = (k : Int)
  · -- the entry belongs to the current tree
    left
    rcases h.current with hc | ⟨k1, hk, hk1, hsome⟩
    · omega
    · have hkk : k1 = k := by omega
      subst hkk
      have hpk : k1 = p := hkcase.1 (by omega)
      subst hpk
      obtain ⟨t, ht⟩ := Option.isSome_iff_exists.mp hsome
      rw [LoadTreeStep_sameTree E s g _ _ t h.lock hn hrange hloc ha hcur ht]
      obtain ⟨t1, st, h1⟩ := sameTree_plain { s with fReadEntry := g } t g
        (g - sumBefore counts k1) h.friends h.notify
      rw [h1]
      exact ⟨_, rfl, hcur, ((h.same g t1 k1 hk hk1).withStatus st).weaken (by omega)⟩
  · -- the file of the selected tree is opened
    obtain ⟨e, t, he, ht, hcnt⟩ := h.files k (by omega)
    rw [LoadTreeStep_switch E s g _ _ e h.lock hn hrange hloc ha (Or.inl hcur) he,
      openElement_of_treeOf E e t ht]
    unfold TChain.afterOpen
    simp only [Option.isSome_some, TChain.entriesOf]
    by_cases hlt : k < K
    · -- the boundary of the selected tree is already set
      left
      have hpk : k = p := hkcase.1 hlt
      subst hpk
      have hb := h.known (k + 1) (by omega)
      rw [sumBefore_succ counts k hp, ← hcnt] at hb
      rw [repair_keep _ g _ k k _ 0 (sumBefore counts k)
        (by simpa using ha) (by rw [offsetAt_nat_succ]; simpa using hb)]
      simp only
      obtain ⟨t1, res, st, h1⟩ := finishSwitch_plain
        { TChain.teardown { s with fReadEntry := g } with
            opens := s.opens ++ [e.fTitle], fTree := some t, fFile := true,
            fTreeNumber := (k : Int) } t g (g - sumBefore counts k) k 0 rfl
        (by simp [h.friends]) (by simp [h.notify])
      rw [h1]
      refine ⟨_, rfl, rfl, ?_⟩
      have := ((h.switched g t1 k res (s.opens ++ [e.fTitle]) true (by omega)).withStatus
        st).weaken (by omega : max K (k + 1) = K)
      convert this using 1
      apply TChain.ext <;> simp
    · -- the boundary of the selected tree is rewritten
      have hkK2 : k = K := hkcase.2 hlt
      subst hkK2
      have hKN : k < counts.length := by omega
      obtain ⟨b, hb, hbge⟩ := h.unknown (k + 1) (by omega) (by omega)
      have hsucc := sumBefore_succ counts k hKN
      rw [← hcnt] at hsucc
      have hT1 := sumBefore_mono counts (k + 1) counts.length (by omega)
      have hne : b ≠ sumBefore counts k + (t.fEntries : Int) := by omega
      obtain ⟨total, htot⟩ : ∃ total,
          (s.fTreeOffset.set (k + 1) (sumBefore counts (k + 1)))[counts.length]? = some total :=
        ⟨_, List.getElem?_eq_getElem (by simp [h.offLen])⟩
      have hfs : ∀ (res : Int) (i : Nat) (e0 : TChainElement), s.fFiles[i]? = some e0 →
          ∃ e1, (TChain.setLoadResult (TChain.setNumberEntries s.fFiles k (t.fEntries : Int))
            k res)[i]? = some e1 ∧ treeOf E e1 = treeOf E e0 := by
        intro res i e0 h0
        obtain ⟨e1, he1, ht1⟩ := treeOf_setNumberEntries E s.fFiles k (t.fEntries : Int) i e0 h0
        obtain ⟨e2, he2, ht2⟩ := treeOf_setLoadResult E _ k res i e1 he1
        exact ⟨e2, he2, by rw [ht2, ht1]⟩
      by_cases hin : g < sumBefore counts (k + 1)
      · -- the entry lies in this tree
        left
        have hpk : k = p := by
          by_contra hne2
          have := sumBefore_mono counts (k + 1) p (by omega)
          omega
        subst hpk
        rw [repair_write_inside _ g _ k k _ 0 (sumBefore counts k) b total
          (by simpa using ha) (by rw [offsetAt_nat_succ]; simpa using hb) hne
          (by rw [← hsucc]; simp only [teardown_fTreeOffset, teardown_fNtrees]
              rw [h.ntrees, offsetAt_nat]; exact htot)
          (by omega)]
        simp only
        obtain ⟨t1, res, st, h1⟩ := finishSwitch_plain
          { TChain.teardown { s with fReadEntry := g } with
              opens := s.opens ++ [e.fTitle], fTree := some t, fFile := true,
              fTreeNumber := (k : Int),
              fTreeOffset := s.fTreeOffset.set (k + 1) (sumBefore counts k + (t.fEntries : Int)),
              fEntries := total,
              fFiles := TChain.setNumberEntries s.fFiles k (t.fEntries : Int) }
          t g (g - sumBefore counts k) k 0 rfl
          (by simp [h.friends]) (by simp [h.notify])
        have hfin := (h.repaired hKN g t1 (s.opens ++ [e.fTitle]) true total _
          (by simp) (hfs res) htot).withStatus st
        refine ⟨_, ?_, ?_, hfin.weaken (by omega)⟩
        · simp only [teardown_fTreeOffset, teardown_fNtrees, teardown_fFiles,
            teardown_opens] at h1 ⊢
          rw [h1]
          congr 2
          apply TChain.ext <;> simp [hsucc]
        · rfl
      · -- the entry lies beyond this tree: the next tree is tried
        right
        have hKp : k < p := by
          by_contra hne2
          have : k = p := by omega
          subst this
          omega
        refine ⟨hKp, ?_⟩
        obtain ⟨c, hc, hcge⟩ := h.unknown (k + 2) (by omega) (by omega)
        rw [repair_write_next _ g _ k k _ 0 (sumBefore counts k) b total c
          (by simpa using ha) (by rw [offsetAt_nat_succ]; simpa using hb) hne
          (by rw [← hsucc]; simp only [teardown_fTreeOffset, teardown_fNtrees]
              rw [h.ntrees, offsetAt_nat]; exact htot)
          (by omega)
          (by simp only [teardown_fNtrees]; rw [h.ntrees]; omega)
          (by rw [offsetAt_nat_succ2]
              simp only [teardown_fTreeOffset]
              rw [List.getElem?_set_ne (by omega)]; exact hc)
          (by omega)]
        simp only [teardown_fNotify, h.notify, reduceCtorEq, if_false]
        have hfin := h.repaired hKN g t (s.opens ++ [e.fTitle]) true total _
          (by simp) (hfs 0) htot
        refine ⟨_, rfl, ?_⟩
        convert hfin using 1
        apply TChain.ext <;> simp [hsucc, h.notify]

/-! ## Chains built by `AddFile` -/

theorem Built.init (E : Env) (name : String) : Built E (TChain.init name) :=
  { filesLen := rfl, offLen := rfl, off0 := rfl,
    offs := by intro i e h; simp [TChain.init] at h,
    total := rfl, lock := rfl, notify := rfl, friends := rfl, current := rfl, tree := rfl }

theorem Built.opens {E : Env} {s : TChain} (h : Built E s) (ops : List String) :
    Built E { s with opens := ops } :=
  { filesLen := h.filesLen, offLen := h.offLen, off0 := h.off0, offs := h.offs,
    total := h.total, lock := h.lock, notify := h.notify, friends := h.friends,
    current := h.current, tree := h.tree }

/-- Appending one element with recorded count `n` keeps the shape of the table. -/
theorem Built.append {E : Env} {s : TChain} (h : Built E s) (n : Int) (el : TChainElement)
    (hel : el.fEntries = n) :
    ∃ off last, s.fTreeOffset[s.fNtrees]? = some last ∧
      TChain.offsetSet s.fTreeOffset (s.fNtrees + 1)
        (if n = E.kMaxEntries then E.kMaxEntries else last + n) = some off ∧
      Built E { s with fTreeOffset := off,
                       fEntries := if n ≠ E.kMaxEntries then s.fEntries + n else E.kMaxEntries,
                       fNtrees := s.fNtrees + 1,
                       fFiles := s.fFiles ++ [el] } := by
  have hlen := h.offLen
  refine ⟨s.fTreeOffset ++ [if n = E.kMaxEntries then E.kMaxEntries else s.fEntries + n],
    s.fEntries, h.total, ?_, ?_⟩
  · simp [TChain.offsetSet, hlen]
  · refine { filesLen := by simp [h.filesLen], offLen := by simp [hlen], off0 := ?_,
             offs := ?_, total := ?_, lock := h.lock, notify := h.notify,
             friends := h.friends, current := h.current, tree := h.tree }
    · show (s.fTreeOffset ++ _)[0]? = some 0
      rw [List.getElem?_append_left (by omega)]
      exact h.off0
    · intro i e hi
      show ∃ a, (s.fTreeOffset ++ _)[i]? = some a ∧ (s.fTreeOffset ++ _)[i + 1]? = _
      have hi2 : (s.fFiles ++ [el])[i]? = some e := hi
      rcases Nat.lt_or_ge i s.fFiles.length with hlt | hge
      · rw [List.getElem?_append_left hlt] at hi2
        obtain ⟨a, ha1, ha2⟩ := h.offs i e hi2
        have hfl := h.filesLen
        refine ⟨a, ?_, ?_⟩
        · rw [List.getElem?_append_left (by omega)]; exact ha1
        · rw [List.getElem?_append_left (by omega)]; exact ha2
      · have hfl := h.filesLen
        have hie : i = s.fFiles.length := by
          by_contra hne
          have : (s.fFiles ++ [el])[i]? = none := by
            apply List.getElem?_eq_none
            simp; omega
          rw [this] at hi2
          cases hi2
        subst hie
        have hee : e = el := by
          rw [List.getElem?_append_right (le_refl _)] at hi2
          simpa using hi2.symm
        subst hee
        refine ⟨s.fEntries, ?_, ?_⟩
        · rw [List.getElem?_append_left (by omega), hfl]; exact h.total
        · rw [List.getElem?_append_right (by omega)]
          simp [hlen, hfl, hel]
    · show (s.fTreeOffset ++ _)[s.fNtrees + 1]? = some _
      rw [List.getElem?_append_right (by omega)]
      by_cases hn : n = E.kMaxEntries <;> simp [hlen, hn]

theorem Built.connect {E : Env} {s : TChain} (h : Built E s) (treename filename : String)
    (n pksize : Int) :
    ∃ s1, TChain.connect E s treename filename n pksize = some s1 ∧ Built E s1 := by
  unfold TChain.connect
  by_cases hn : 0 < n
  · obtain ⟨off, last, hlast, hset, hB⟩ := h.append n
      { fName := treename, fTitle := filename, fEntries := n, fPacketSize := pksize,
        fLoadResult := 0 } rfl
    by_cases hk : n = E.kMaxEntries
    · subst hk
      simp only [if_true] at hset
      simp only [hn, if_true, ne_eq, not_true_eq_false, if_false, hset]
      refine ⟨_, rfl, ?_⟩
      simpa using hB
    · simp only [hk, if_false] at hset
      simp only [hn, if_true, hk, ne_eq, not_false_eq_true, offsetAt_nat, hlast, hset]
      refine ⟨_, rfl, ?_⟩
      simpa [hk] using hB
  · simp only [hn, if_false]
    exact ⟨s, rfl, h⟩

theorem Built.addFile {E : Env} {s : TChain} (h : Built E s) (name : String) (n : Int)
    (tname : String) :
    ∃ r s1, TChain.AddFile E s name n tname = some (r, s1) ∧ Built E s1 := by
  unfold TChain.AddFile
  by_cases hname : name = ""
  · simp only [hname, if_true]
    exact ⟨_, _, rfl, h⟩
  · simp only [hname, if_false]
    by_cases hn : n ≤ 0
    · simp only [hn, if_true]
      cases hO : E.Open ((E.ParseTreeFilename name).basename ++ (E.ParseTreeFilename name).query) with
      | none => exact ⟨_, _, rfl, h.opens _⟩
      | some f =>
        simp only
        cases hG : f.Get (if (E.ParseTreeFilename name).treename = "" then
            (if tname.length > 0 then tname else s.fName)
            else (E.ParseTreeFilename name).treename) with
        | none => exact ⟨_, _, rfl, h.opens _⟩
        | some t =>
          simp only
          obtain ⟨s1, h1, hB⟩ := (h.opens (s.opens ++ [(E.ParseTreeFilename name).basename ++
            (E.ParseTreeFilename name).query])).connect
            (if (E.ParseTreeFilename name).treename = "" then
              (if tname.length > 0 then tname else s.fName)
              else (E.ParseTreeFilename name).treename)
            ((E.ParseTreeFilename name).basename ++ (E.ParseTreeFilename name).query)
            (t.fEntries : Int) t.fPacketSize
          rw [h1]
          exact ⟨_, _, rfl, hB⟩
    · simp only [hn, if_false]
      obtain ⟨s1, h1, hB⟩ := h.connect
        (if (E.ParseTreeFilename name).treename = "" then
          (if tname.length > 0 then tname else s.fName)
          else (E.ParseTreeFilename name).treename)
        ((E.ParseTreeFilename name).basename ++ (E.ParseTreeFilename name).query) n 0
      rw [h1]
      exact ⟨_, _, rfl, hB⟩

theorem Built.afterAddFiles {E : Env} :
    ∀ (calls : List (String × Int × String)) (s : TChain), Built E s →
      ∃ s1, addFiles E s calls = some s1 ∧ Built E s1
  | [], s, h => ⟨s, rfl, h⟩
  | (name, n, tname) :: rest, s, h => by
    obtain ⟨r, s1, h1, hB⟩ := h.addFile name n tname
    obtain ⟨s2, h2, hB2⟩ := Built.afterAddFiles rest s1 hB
    exact ⟨s2, by simp [addFiles, h1, h2], hB2⟩

/-- Every in-range global entry has an owner among the trees. -/
theorem owner_exists (counts : List Nat) (g : Int) (h0 : 0 ≤ g) :
    ∀ n, g < sumBefore counts n →
      ∃ p, p < n ∧ sumBefore counts p ≤ g ∧ g < sumBefore counts (p + 1) := by
  intro n
  induction n with
  | zero =>
    intro h
    rw [sumBefore_zero] at h
    omega
  | succ m ih =>
    intro h
    by_cases hm : g < sumBefore counts m
    · obtain ⟨p, hp, h1, h2⟩ := ih hm
      exact ⟨p, by omega, h1, h2⟩
    · exact ⟨m, by omega, by omega, h⟩

theorem owner_lt_length (counts : List Nat) (g : Int) (p : Nat)
    (hlo : sumBefore counts p ≤ g) (hhi : g < sumBefore counts (p + 1)) :
    p < counts.length := by
  by_contra hge
  have : sumBefore counts (p + 1) = sumBefore counts p := by
    unfold sumBefore
    rw [List.take_of_length_le (by omega), List.take_of_length_le (by omega)]
  omega

/-- A chain built by `AddFile` whose declared counts are the sentinel or the
true count has its first boundaries set to the true sums and the others at the
sentinel or above. -/
theorem Built.resolved {E : Env} {s : TChain} (h : Built E s)
    (hacc : ∀ e ∈ s.fFiles, ∃ t, treeOf E e = some t ∧
      (e.fEntries = E.kMaxEntries ∨ e.fEntries = (t.fEntries : Int))) :
    ∃ K, Resolved E (s.fFiles.map (trueCount E)) K s := by
  have hN : (s.fFiles.map (trueCount E)).length = s.fNtrees := by simp [h.filesLen]
  -- the boundaries up to `n`
  have key : ∀ n, n ≤ s.fNtrees → ∃ K, K ≤ n ∧
      (∀ i, i ≤ K → s.fTreeOffset[i]? = some (sumBefore (s.fFiles.map (trueCount E)) i)) ∧
      (∀ i, K < i → i ≤ n → ∃ v, s.fTreeOffset[i]? = some v ∧ E.kMaxEntries ≤ v) := by
    intro n
    induction n with
    | zero =>
      intro _
      refine ⟨0, le_refl _, ?_, ?_⟩
      · intro i hi
        have : i = 0 := by omega
        subst this
        rw [sumBefore_zero]; exact h.off0
      · intro i h1 h2; omega
    | succ m ih =>
      intro hm
      obtain ⟨K, hK, hkn, hun⟩ := ih (by omega)
      have hmf : m < s.fFiles.length := by rw [h.filesLen]; omega
      obtain ⟨a, ha, hb⟩ := h.offs m s.fFiles[m] (List.getElem?_eq_getElem hmf)
      obtain ⟨t, ht, hdecl⟩ := hacc s.fFiles[m] (List.getElem_mem _)
      have hm2 : m < (s.fFiles.map (trueCount E)).length := by simp; omega
      have hcount : (s.fFiles.map (trueCount E))[m] = t.fEntries := by
        simp [trueCount, ht]
      have hsucc := sumBefore_succ (s.fFiles.map (trueCount E)) m hm2
      rw [hcount] at hsucc
      by_cases hk : s.fFiles[m].fEntries = E.kMaxEntries
      · -- declared with the sentinel
        simp only [hk, if_true] at hb
        refine ⟨K, by omega, hkn, ?_⟩
        intro i h1 h2
        rcases Nat.lt_or_ge i (m + 1) with h3 | h3
        · exact hun i h1 (by omega)
        · have : i = m + 1 := by omega
          subst this
          exact ⟨_, hb, le_refl _⟩
      · simp only [hk, if_false] at hb
        have hdecl2 : s.fFiles[m].fEntries = (t.fEntries : Int) := by
          rcases hdecl with h1 | h1
          · exact absurd h1 hk
          · exact h1
        rw [hdecl2] at hb
        rcases Nat.lt_or_ge K m with hKm | hKm
        · -- an earlier boundary is still unknown
          obtain ⟨v, hv, hvge⟩ := hun m hKm (le_refl _)
          rw [ha] at hv
          have hav : a = v := Option.some.inj hv
          refine ⟨K, by omega, hkn, ?_⟩
          intro i h1 h2
          rcases Nat.lt_or_ge i (m + 1) with h3 | h3
          · exact hun i h1 (by omega)
          · have : i = m + 1 := by omega
            subst this
            exact ⟨_, hb, by omega⟩
        · -- all boundaries so far are set
          have hKm2 : K = m := by omega
          subst hKm2
          have ha2 := hkn K (le_refl _)
          rw [ha] at ha2
          have haT : a = sumBefore (s.fFiles.map (trueCount E)) K := Option.some.inj ha2
          refine ⟨K + 1, le_refl _, ?_, ?_⟩
          · intro i hi
            rcases Nat.lt_or_ge i (K + 1) with h3 | h3
            · exact hkn i (by omega)
            · have : i = K + 1 := by omega
              subst this
              rw [hb, hsucc, haT]
          · intro i h1 h2; omega
  obtain ⟨K, hK, hkn, hun⟩ := key s.fNtrees (le_refl _)
  refine ⟨K, ?_⟩
  exact
    { ntrees := hN.symm, hK := by rw [hN]; exact hK,
      offLen := by rw [hN]; exact h.offLen,
      known := hkn,
      unknown := by intro i h1 h2; exact hun i h1 (by rw [← hN]; exact h2),
      total := by rw [hN]; exact h.total,
      filesLen := by rw [hN]; exact h.filesLen,
      files := by
        intro i hi
        have hif : i < s.fFiles.length := by simpa using hi
        obtain ⟨t, ht, _⟩ := hacc s.fFiles[i] (List.getElem_mem _)
        exact ⟨s.fFiles[i], t, List.getElem?_eq_getElem hif, ht, by simp [trueCount, ht]⟩
      lock := h.lock, notify := h.notify, friends := h.friends,
      current := Or.inl h.current }

/-- The passes of `LoadTree` in a chain with accurate or unknown counts end with
the local entry of the owner `p`, within `counts.length - K + 1` passes. -/
theorem Resolved.aux {E : Env} {counts : List Nat}
    (hsum : sumBefore counts counts.length < E.kMaxEntries - 1)
    (g : Int) (p : Nat) (hp : p < counts.length)
    (hlo : sumBefore counts p ≤ g) (hhi : g < sumBefore counts (p + 1)) (h0 : 0 ≤ g) :
    ∀ (fuel K : Nat) (s : TChain), Resolved E counts K s → counts.length - K < fuel →
      ∃ s1 K1, TChain.LoadTreeAux E fuel s g = some (g - sumBefore counts p, s1) ∧
        s1.fTreeNumber = (p : Int) ∧ Resolved E counts K1 s1 := by
  intro fuel
  induction fuel with
  | zero => intro K s _ hf; omega
  | succ f ih =>
    intro K s h hf
    rcases h.step hsum g p hp hlo hhi h0 with ⟨s1, h1, h2, h3⟩ | ⟨hKp, s1, h1, h3⟩
    · exact ⟨s1, _, by simp [TChain.LoadTreeAux, h1], h2, h3⟩
    · obtain ⟨s2, K2, h4, h5, h6⟩ := ih (K + 1) s1 h3 (by omega)
      exact ⟨s2, K2, by simp [TChain.LoadTreeAux, h1, h4], h5, h6⟩

theorem Resolved.loadTree {E : Env} {counts : List Nat} {K : Nat} {s : TChain}
    (h : Resolved E counts K s)
    (hsum : sumBefore counts counts.length < E.kMaxEntries - 1)
    (g : Int) (h0 : 0 ≤ g) (h1 : g < sumBefore counts counts.length) :
    ∃ p s1 K1, p < counts.length ∧ sumBefore counts p ≤ g ∧ g < sumBefore counts (p + 1) ∧
      TChain.LoadTree E s g = some (g - sumBefore counts p, s1) ∧
      s1.fTreeNumber = (p : Int) ∧ Resolved E counts K1 s1 := by
  obtain ⟨p, hp, hlo, hhi⟩ := owner_exists counts g h0 counts.length h1
  obtain ⟨s1, K1, h2, h3, h4⟩ := Resolved.aux hsum g p hp hlo hhi h0
    (s.fNtrees + 2) K s h (by rw [h.ntrees]; omega)
  exact ⟨p, s1, K1, hp, hlo, hhi, h2, h3, h4⟩

theorem Resolved.afterLoads {E : Env} {counts : List Nat}
    (hsum : sumBefore counts counts.length < E.kMaxEntries - 1) :
    ∀ (loads : List Int) (K : Nat) (s : TChain), Resolved E counts K s →
      (∀ g ∈ loads, 0 ≤ g ∧ g < sumBefore counts counts.length) →
      ∃ s1 K1, runLoads E s loads = some s1 ∧ Resolved E counts K1 s1
  | [], K, s, h, _ => ⟨s, K, rfl, h⟩
  | g :: rest, K, s, h, hl => by
    obtain ⟨h0, h1⟩ := hl g (List.mem_cons_self _ _)
    obtain ⟨p, s1, K1, _, _, _, h2, _, h4⟩ := h.loadTree hsum g h0 h1
    obtain ⟨s2, K2, h5, h6⟩ := Resolved.afterLoads hsum rest K1 s1 h4
      (fun g1 hg1 => hl g1 (List.mem_cons_of_mem _ hg1))
    exact ⟨s2, K2, by simp [runLoads, h2, h5], h6⟩

/-- C1. In a chain built by `AddFile` calls in which every declared count is the
sentinel `kMaxEntries` or the true count, every file opens with its tree and the
true counts sum up to less than `kMaxEntries - 1`, after any sequence of
`LoadTree` calls with in-range entries, `LoadTree(g)` for `0 <= g < total`
returns `g` minus the sum of the true counts of the trees before `p` and leaves
`fTreeNumber = p`, where `p` is the tree whose true range contains `g`. -/
theorem LoadTree_resolves_global_entry (E : Env) (name : String)
    (calls : List (String × Int × String)) (s0 : TChain)
    (hbuild : addFiles E (TChain.init name) calls = some s0)
    (hacc : ∀ e ∈ s0.fFiles, ∃ t, treeOf E e = some t ∧
      (e.fEntries = E.kMaxEntries ∨ e.fEntries = (t.fEntries : Int)))
    (hsum : sumBefore (s0.fFiles.map (trueCount E)) s0.fNtrees < E.kMaxEntries - 1)
    (loads : List Int)
    (hloads : ∀ g ∈ loads, 0 ≤ g ∧ g < sumBefore (s0.fFiles.map (trueCount E)) s0.fNtrees)
    (g : Int) (hg0 : 0 ≤ g) (hg1 : g < sumBefore (s0.fFiles.map (trueCount E)) s0.fNtrees) :
    ∃ s, runLoads E s0 loads = some s ∧
      ∃ p s1, p < s0.fNtrees ∧
        sumBefore (s0.fFiles.map (trueCount E)) p ≤ g ∧
        g < sumBefore (s0.fFiles.map (trueCount E)) (p + 1) ∧
        TChain.LoadTree E s g = some (g - sumBefore (s0.fFiles.map (trueCount E)) p, s1) ∧
        s1.fTreeNumber = (p : Int) := by
  obtain ⟨s0b, hb1, hB⟩ := Built.afterAddFiles calls (TChain.init name) (Built.init E name)
  rw [hbuild] at hb1
  have hs : s0 = s0b := Option.some.inj hb1
  subst hs
  obtain ⟨K, hR⟩ := hB.resolved hacc
  have hN : (s0.fFiles.map (trueCount E)).length = s0.fNtrees := hR.ntrees.symm
  rw [← hN] at hsum hloads hg1
  obtain ⟨s, K1, hrun, hR1⟩ := Resolved.afterLoads hsum loads K s0 hR hloads
  obtain ⟨p, s1, _, hp, hlo, hhi, hload, hnum, _⟩ := hR1.loadTree hsum g hg0 hg1
  exact ⟨s, hrun, p, s1, by rw [← hN]; exact hp, hlo, hhi, hload, hnum⟩

theorem chainA_built :
    addFiles envA (TChain.init "T")
      [("p0.root", 1000000000000, ""), ("p1.root", 2, "")] = some chainA := by
  decide

theorem chainA_accurate :
    ∀ e ∈ chainA.fFiles, ∃ t, treeOf envA e = some t ∧
      (e.fEntries = envA.kMaxEntries ∨ e.fEntries = (t.fEntries : Int)) := by
  intro e he
  simp only [chainA, List.mem_cons, List.mem_singleton, List.not_mem_nil, or_false] at he
  rcases he with rfl | rfl
  · exact ⟨plainTree 3, by decide, Or.inl (by decide)⟩
  · exact ⟨plainTree 2, by decide, Or.inr (by decide)⟩

/-- Scenario A: after `LoadTree(0)` on `p0.root` (count unknown, 3 entries) and
`p1.root` (declared 2), `LoadTree(4)` resolves to its owner. -/
theorem LoadTree_resolves_global_entry_witness :
    ∃ s, runLoads envA chainA [0] = some s ∧
      ∃ p s1, p < chainA.fNtrees ∧
        sumBefore (chainA.fFiles.map (trueCount envA)) p ≤ 4 ∧
        4 < sumBefore (chainA.fFiles.map (trueCount envA)) (p + 1) ∧
        TChain.LoadTree envA s 4
          = some (4 - sumBefore (chainA.fFiles.map (trueCount envA)) p, s1) ∧
        s1.fTreeNumber = (p : Int) :=
  LoadTree_resolves_global_entry envA "T"
    [("p0.root", 1000000000000, ""), ("p1.root", 2, "")] chainA chainA_built
    chainA_accurate (by decide) [0] (by decide) 4 (by decide) (by decide)

/-! ## What a pass writes into the offset table -/

theorem finishSwitch_fTreeOffset (s : TChain) (g tre : Int) (eidx : Nat) (rc : Int) :
    (TChain.finishSwitch s g tre eidx rc).chain.fTreeOffset = s.fTreeOffset := by
  unfold TChain.finishSwitch
  cases s.fTree with
  | none => rfl
  | some t => simp only; split_ifs <;> rfl

theorem finishSwitch_fEntries (s : TChain) (g tre : Int) (eidx : Nat) (rc : Int) :
    (TChain.finishSwitch s g tre eidx rc).chain.fEntries = s.fEntries := by
  unfold TChain.finishSwitch
  cases s.fTree with
  | none => rfl
  | some t => simp only; split_ifs <;> rfl

theorem finishSwitch_fNtrees (s : TChain) (g tre : Int) (eidx : Nat) (rc : Int) :
    (TChain.finishSwitch s g tre eidx rc).chain.fNtrees = s.fNtrees := by
  unfold TChain.finishSwitch
  cases s.fTree with
  | none => rfl
  | some t => simp only; split_ifs <;> rfl

/-- When the slot of the selected tree disagrees with the tree, the check
rewrites exactly that slot and re-reads the total, whichever way it goes on. -/
theorem repair_writes (s : TChain) (g tre : Int) (k eidx : Nat) (n rc a b : Int)
    (ha : s.fTreeOffset[k]? = some a) (hb : s.fTreeOffset[k + 1]? = some b)
    (hne : b ≠ a + n) (hN : s.fNtrees < s.fTreeOffset.length) :
    ∃ s2 tre2 again total, TChain.repair s g tre k eidx n rc = some (s2, tre2, again) ∧
      s2.fTreeOffset = s.fTreeOffset.set (k + 1) (a + n) ∧
      (s.fTreeOffset.set (k + 1) (a + n))[s.fNtrees]? = some total ∧
      s2.fEntries = total ∧ s2.fNtrees = s.fNtrees := by
  obtain ⟨total, htot⟩ : ∃ total,
      (s.fTreeOffset.set (k + 1) (a + n))[s.fNtrees]? = some total :=
    ⟨_, List.getElem?_eq_getElem (by simpa using hN)⟩
  have ha1 : TChain.offsetAt s.fTreeOffset (k : Int) = some a := by rw [offsetAt_nat]; exact ha
  have hb1 : TChain.offsetAt s.fTreeOffset ((k : Int) + 1) = some b := by
    rw [offsetAt_nat_succ]; exact hb
  have ht1 : TChain.offsetAt (s.fTreeOffset.set (k + 1) (a + n)) (s.fNtrees : Int)
      = some total := by rw [offsetAt_nat]; exact htot
  by_cases hg : g < a + n
  · exact ⟨_, _, _, total, repair_write_inside s g tre k eidx n rc a b total ha1 hb1 hne ht1 hg,
      rfl, htot, rfl, rfl⟩
  · by_cases hk : (k : Int) < (s.fNtrees : Int) - 1
    · obtain ⟨c, hc⟩ : ∃ c, (s.fTreeOffset.set (k + 1) (a + n))[k + 2]? = some c :=
        ⟨_, List.getElem?_eq_getElem (by simp; omega)⟩
      have hc1 : TChain.offsetAt (s.fTreeOffset.set (k + 1) (a + n)) ((k : Int) + 2)
          = some c := by rw [offsetAt_nat_succ2]; exact hc
      by_cases hgc : g < c
      · exact ⟨_, _, _, total,
          repair_write_next s g tre k eidx n rc a b total c ha1 hb1 hne ht1 (by omega) hk hc1 hgc,
          rfl, htot, rfl, rfl⟩
      · exact ⟨_, _, _, total,
          repair_write_beyond s g tre k eidx n rc a b total c ha1 hb1 hne ht1 (by omega) hk hc1
            hgc,
          rfl, htot, rfl, rfl⟩
    · exact ⟨_, _, _, total,
        repair_write_last s g tre k eidx n rc a b total ha1 hb1 hne ht1 (by omega) hk,
        rfl, htot, rfl, rfl⟩

/-- After the check of the offset table, the rest of the pass leaves the table
and the total as the check left them. -/
theorem afterOpen_of_repair (s : TChain) (g tre : Int) (k eidx : Nat) (tree : Option TTree)
    (rc : Int) (s2 : TChain) (tre2 : Int) (again : Bool)
    (h : TChain.repair
      { s with fTree := tree, fFile := tree.isSome, fTreeNumber := (k : Int) } g tre k eidx
      (TChain.entriesOf tree) rc = some (s2, tre2, again)) :
    ∃ r, TChain.afterOpen s g tre k eidx tree rc = some r ∧
      r.chain.fTreeOffset = s2.fTreeOffset ∧ r.chain.fEntries = s2.fEntries ∧
      r.chain.fNtrees = s2.fNtrees := by
  unfold TChain.afterOpen
  simp only [h]
  cases again with
  | true =>
    simp only
    split_ifs
    · exact ⟨_, rfl, rfl, rfl, rfl⟩
    · exact ⟨_, rfl, rfl, rfl, rfl⟩
  | false =>
    exact ⟨_, rfl, finishSwitch_fTreeOffset _ _ _ _ _, finishSwitch_fEntries _ _ _ _ _,
      finishSwitch_fNtrees _ _ _ _ _⟩

theorem repair_cases (s : TChain) (g tre : Int) (k eidx : Nat) (n rc : Int)
    (r : TChain × Int × Bool) (h : TChain.repair s g tre k eidx n rc = some r) :
    ∃ a b, s.fTreeOffset[k]? = some a ∧ s.fTreeOffset[k + 1]? = some b ∧
      ((b = a + n ∧ r = (s, tre, false)) ∨
       (b ≠ a + n ∧ ∃ total,
          (s.fTreeOffset.set (k + 1) (a + n))[s.fNtrees]? = some total ∧
          (r = ({ s with fTreeOffset := s.fTreeOffset.set (k + 1) (a + n), fEntries := total,
                         fFiles := TChain.setNumberEntries s.fFiles eidx n }, tre, false) ∧
              g < a + n ∨
           r = ({ s with fTreeOffset := s.fTreeOffset.set (k + 1) (a + n), fEntries := total,
                         fFiles := TChain.setLoadResult
                           (TChain.setNumberEntries s.fFiles eidx n) eidx rc }, tre, true) ∧
              a + n ≤ g ∧ k + 1 < s.fNtrees ∨
           r = ({ s with fTreeOffset := s.fTreeOffset.set (k + 1) (a + n), fEntries := total,
                         fFiles := TChain.setNumberEntries s.fFiles eidx n,
                         fReadEntry := -2 }, -2, false) ∧ a + n ≤ g))) := by
  unfold TChain.repair at h
  rw [offsetAt_nat, offsetAt_nat_succ] at h
  cases ha : s.fTreeOffset[k]? with
  | none => simp [ha] at h
  | some a =>
    cases hb : s.fTreeOffset[k + 1]? with
    | none => simp [ha, hb] at h
    | some b =>
      refine ⟨a, b, rfl, rfl, ?_⟩
      simp only [ha, hb] at h
      by_cases hne : b = a + n
      · left
        simp only [hne, ne_eq, not_true_eq_false, if_false, Option.some.injEq] at h
        exact ⟨hne, h.symm⟩
      · right
        refine ⟨hne, ?_⟩
        simp only [ne_eq, hne, not_false_eq_true, if_true, offsetAt_nat] at h
        cases htot : (s.fTreeOffset.set (k + 1) (a + n))[s.fNtrees]? with
        | none => simp [htot] at h
        | some total =>
          refine ⟨total, rfl, ?_⟩
          simp only [htot] at h
          by_cases hg : g ≥ a + n
          · simp only [hg, if_true] at h
            by_cases hk : (k : Int) < (s.fNtrees : Int) - 1
            · simp only [hk, if_true, offsetAt_nat_succ2] at h
              cases hc : (s.fTreeOffset.set (k + 1) (a + n))[k + 2]? with
              | none => simp [hc] at h
              | some c =>
                simp only [hc] at h
                by_cases hgc : g < c
                · simp only [hgc, if_true, Option.some.injEq] at h
                  exact Or.inr (Or.inl ⟨h.symm, hg, by omega⟩)
                · simp only [hgc, if_false, Option.some.injEq] at h
                  exact Or.inr (Or.inr ⟨h.symm, hg⟩)
            · simp only [hk, if_false, Option.some.injEq] at h
              exact Or.inr (Or.inr ⟨h.symm, hg⟩)
          · simp only [hg, if_false, Option.some.injEq] at h
            exact Or.inl ⟨h.symm, by omega⟩

theorem LoadTreeStep_locked (E : Env) (s : TChain) (g : Int)
    (hlock : s.fFriendLockStatus = true) : TChain.LoadTreeStep E s g = some (Step.done 0 s) := by
  unfold TChain.LoadTreeStep
  simp only [hlock, if_true]

theorem LoadTreeStep_empty (E : Env) (s : TChain) (g : Int)
    (hlock : s.fFriendLockStatus = false) (hn : s.fNtrees = 0) :
    TChain.LoadTreeStep E s g = some (Step.done (-1) s) := by
  unfold TChain.LoadTreeStep
  simp only [hlock, hn, if_true, if_false, Bool.false_eq_true]

theorem LoadTreeStep_range (E : Env) (s : TChain) (g : Int)
    (hlock : s.fFriendLockStatus = false) (hn : s.fNtrees ≠ 0)
    (hrange : g < 0 ∨ (g > 0 ∧ (g ≥ s.fEntries ∧ g ≠ E.kMaxEntries - 1))) :
    TChain.LoadTreeStep E s g = some (Step.done (-2)
      { s with fTree := s.fTree.map (fun t => (t.LoadTree (-1)).2), fReadEntry := -1 }) := by
  unfold TChain.LoadTreeStep
  simp only [hlock, hn, hrange, if_true, if_false, Bool.false_eq_true]

theorem LoadTreeStep_unlocated (E : Env) (s : TChain) (g : Int)
    (hlock : s.fFriendLockStatus = false) (hn : s.fNtrees ≠ 0)
    (hrange : ¬ (g < 0 ∨ (g > 0 ∧ (g ≥ s.fEntries ∧ g ≠ E.kMaxEntries - 1))))
    (hloc : TChain.locate E s g = none) : TChain.LoadTreeStep E s g = none := by
  unfold TChain.LoadTreeStep
  simp only [hlock, hn, hrange, hloc, if_false, Bool.false_eq_true]

theorem LoadTreeStep_unassigned (E : Env) (s : TChain) (g : Int) (k : Nat)
    (hlock : s.fFriendLockStatus = false) (hn : s.fNtrees ≠ 0)
    (hrange : ¬ (g < 0 ∨ (g > 0 ∧ (g ≥ s.fEntries ∧ g ≠ E.kMaxEntries - 1))))
    (hloc : TChain.locate E s g = some k)
    (ha : TChain.offsetAt s.fTreeOffset (k : Int) = none) : TChain.LoadTreeStep E s g = none := by
  unfold TChain.LoadTreeStep
  simp only [hlock, hn, hrange, hloc, ha, if_false, Bool.false_eq_true]

/-- One pass of `LoadTree` when the selected tree number has no chain element:
`-4`, unless the local entry is 0 and the first element can stand in. -/
theorem LoadTreeStep_noElement (E : Env) (s : TChain) (g : Int) (k : Nat) (a : Int)
    (hlock : s.fFriendLockStatus = false) (hn : s.fNtrees ≠ 0)
    (hrange : ¬ (g < 0 ∨ (g > 0 ∧ (g ≥ s.fEntries ∧ g ≠ E.kMaxEntries - 1))))
    (hloc : TChain.locate E s g = some k)
    (ha : TChain.offsetAt s.fTreeOffset (k : Int) = some a)
    (hsw : s.fTreeNumber ≠ (k : Int) ∨ s.fTree = none)
    (he : s.fFiles[k]? = none) (hz : g - a ≠ 0 ∨ s.fFiles[0]? = none) :
    TChain.LoadTreeStep E s g
      = some (Step.done (-4) (TChain.teardown { s with fReadEntry := g })) := by
  unfold TChain.LoadTreeStep
  have hm : (if (k : Int) = s.fTreeNumber then s.fTree else none) = none := by
    rcases hsw with h | h
    · have : ¬ (k : Int) = s.fTreeNumber := fun h2 => h h2.symm
      simp [this]
    · simp [h]
  rcases hz with hz | hz
  · simp only [hlock, hn, hrange, hloc, ha, if_false, Bool.false_eq_true, hm, teardown_fFiles, he,
      hz, ne_eq, not_false_eq_true, if_true]
  · by_cases hz2 : g - a ≠ 0
    · simp only [hlock, hn, hrange, hloc, ha, if_false, Bool.false_eq_true, hm, teardown_fFiles,
        he, hz2, ne_eq, not_false_eq_true, if_true]
    · simp only [hlock, hn, hrange, hloc, ha, if_false, Bool.false_eq_true, hm, teardown_fFiles,
        he, hz2, hz]

/-- One pass of `LoadTree` when the selected tree number has no chain element,
the local entry is 0 and the first element stands in. -/
theorem LoadTreeStep_firstElement (E : Env) (s : TChain) (g : Int) (k : Nat) (a : Int)
    (e : TChainElement)
    (hlock : s.fFriendLockStatus = false) (hn : s.fNtrees ≠ 0)
    (hrange : ¬ (g < 0 ∨ (g > 0 ∧ (g ≥ s.fEntries ∧ g ≠ E.kMaxEntries - 1))))
    (hloc : TChain.locate E s g = some k)
    (ha : TChain.offsetAt s.fTreeOffset (k : Int) = some a)
    (hsw : s.fTreeNumber ≠ (k : Int) ∨ s.fTree = none)
    (he : s.fFiles[k]? = none) (hz : g - a = 0) (he0 : s.fFiles[0]? = some e) :
    TChain.LoadTreeStep E s g
      = TChain.afterOpen
          { TChain.teardown { s with fReadEntry := g } with opens := s.opens ++ [e.fTitle] }
          g (g - a) k 0 (TChain.openElement E e).1 (TChain.openElement E e).2 := by
  unfold TChain.LoadTreeStep
  have hm : (if (k : Int) = s.fTreeNumber then s.fTree else none) = none := by
    rcases hsw with h | h
    · have : ¬ (k : Int) = s.fTreeNumber := fun h2 => h h2.symm
      simp [this]
    · simp [h]
  have hz2 : ¬ g - a ≠ 0 := by omega
  simp only [hlock, hn, hrange, hloc, ha, if_false, Bool.false_eq_true, hm, teardown_fFiles, he,
    hz2, he0, teardown_opens]

/-- The ways a pass of `LoadTree` can go. -/
theorem LoadTreeStep_cases (E : Env) (s : TChain) (g : Int) (r : TChain.Step)
    (h : TChain.LoadTreeStep E s g = some r) :
    (s.fFriendLockStatus = true ∧ r = Step.done 0 s) ∨
    (s.fFriendLockStatus = false ∧ s.fNtrees = 0 ∧ r = Step.done (-1) s) ∨
    (s.fFriendLockStatus = false ∧ s.fNtrees ≠ 0 ∧
      (g < 0 ∨ (g > 0 ∧ (g ≥ s.fEntries ∧ g ≠ E.kMaxEntries - 1))) ∧
      r = Step.done (-2)
        { s with fTree := s.fTree.map (fun t => (t.LoadTree (-1)).2), fReadEntry := -1 }) ∨
    (s.fFriendLockStatus = false ∧ s.fNtrees ≠ 0 ∧
      ¬ (g < 0 ∨ (g > 0 ∧ (g ≥ s.fEntries ∧ g ≠ E.kMaxEntries - 1))) ∧
      ∃ k a, TChain.locate E s g = some k ∧ s.fTreeOffset[k]? = some a ∧
        ((∃ t, s.fTreeNumber = (k : Int) ∧ s.fTree = some t ∧
            TChain.sameTree { s with fReadEntry := g } t g (g - a) = some r) ∨
         ((s.fTreeNumber ≠ (k : Int) ∨ s.fTree = none) ∧
            ((s.fFiles[k]? = none ∧ (g - a ≠ 0 ∨ s.fFiles[0]? = none) ∧
                r = Step.done (-4) (TChain.teardown { s with fReadEntry := g })) ∨
             (∃ eidx e, s.fFiles[eidx]? = some e ∧
                (eidx = k ∨ (s.fFiles[k]? = none ∧ g - a = 0 ∧ eidx = 0)) ∧
                TChain.afterOpen
                  { TChain.teardown { s with fReadEntry := g } with
                      opens := s.opens ++ [e.fTitle] }
                  g (g - a) k eidx (TChain.openElement E e).1 (TChain.openElement E e).2
                  = some r))))) := by
  by_cases hlock : s.fFriendLockStatus = true
  · left
    rw [LoadTreeStep_locked E s g hlock] at h
    exact ⟨hlock, (Option.some.inj h).symm⟩
  · right
    have hlock2 : s.fFriendLockStatus = false := by simpa using hlock
    by_cases hn : s.fNtrees = 0
    · left
      rw [LoadTreeStep_empty E s g hlock2 hn] at h
      exact ⟨hlock2, hn, (Option.some.inj h).symm⟩
    · right
      by_cases hr : (g < 0 ∨ (g > 0 ∧ (g ≥ s.fEntries ∧ g ≠ E.kMaxEntries - 1)))
      · left
        rw [LoadTreeStep_range E s g hlock2 hn hr] at h
        exact ⟨hlock2, hn, hr, (Option.some.inj h).symm⟩
      · right
        refine ⟨hlock2, hn, hr, ?_⟩
        cases hloc : TChain.locate E s g with
        | none => rw [LoadTreeStep_unlocated E s g hlock2 hn hr hloc] at h; cases h
        | some k =>
          cases ha : TChain.offsetAt s.fTreeOffset (k : Int) with
          | none => rw [LoadTreeStep_unassigned E s g k hlock2 hn hr hloc ha] at h; cases h
          | some a =>
            refine ⟨k, a, rfl, by rw [← offsetAt_nat]; exact ha, ?_⟩
            by_cases hsame : s.fTreeNumber = (k : Int) ∧ ∃ t, s.fTree = some t
            · obtain ⟨hcur, t, ht⟩ := hsame
              left
              rw [LoadTreeStep_sameTree E s g k a t hlock2 hn hr hloc ha hcur ht] at h
              exact ⟨t, hcur, ht, h⟩
            · right
              have hsw : s.fTreeNumber ≠ (k : Int) ∨ s.fTree = none := by
                by_cases hcur : s.fTreeNumber = (k : Int)
                · right
                  cases ht : s.fTree with
                  | none => rfl
                  | some t => exact absurd ⟨hcur, t, ht⟩ hsame
                · exact Or.inl hcur
              refine ⟨hsw, ?_⟩
              cases he : s.fFiles[k]? with
              | some e =>
                right
                rw [LoadTreeStep_switch E s g k a e hlock2 hn hr hloc ha hsw he] at h
                exact ⟨k, e, he, Or.inl rfl, h⟩
              | none =>
                by_cases hz : g - a ≠ 0
                · left
                  rw [LoadTreeStep_noElement E s g k a hlock2 hn hr hloc ha hsw he (Or.inl hz)] at h
                  exact ⟨rfl, Or.inl hz, (Option.some.inj h).symm⟩
                · cases he0 : s.fFiles[0]? with
                  | none =>
                    left
                    rw [LoadTreeStep_noElement E s g k a hlock2 hn hr hloc ha hsw he
                      (Or.inr he0)] at h
                    exact ⟨rfl, Or.inr rfl, (Option.some.inj h).symm⟩
                  | some e =>
                    right
                    rw [LoadTreeStep_firstElement E s g k a e hlock2 hn hr hloc ha hsw he
                      (by omega) he0] at h
                    exact ⟨0, e, he0, Or.inr ⟨rfl, by omega, rfl⟩, h⟩

/-! ## What a pass leaves unchanged -/

theorem KeepsFiles.refl (E : Env) (fs : List TChainElement) : KeepsFiles E fs fs :=
  ⟨rfl, fun _ e h => ⟨e, h, rfl⟩⟩

theorem KeepsFiles.trans {E : Env} {fs fs1 fs2 : List TChainElement}
    (h1 : KeepsFiles E fs fs1) (h2 : KeepsFiles E fs1 fs2) : KeepsFiles E fs fs2 := by
  refine ⟨by rw [h2.1, h1.1], ?_⟩
  intro i e he
  obtain ⟨e1, he1, ht1⟩ := h1.2 i e he
  obtain ⟨e2, he2, ht2⟩ := h2.2 i e1 he1
  exact ⟨e2, he2, by rw [ht2, ht1]⟩

theorem KeepsFiles.setLoadResult (E : Env) (fs : List TChainElement) (j : Nat) (r : Int) :
    KeepsFiles E fs (TChain.setLoadResult fs j r) :=
  ⟨by simp, fun i e h => treeOf_setLoadResult E fs j r i e h⟩

theorem KeepsFiles.setNumberEntries (E : Env) (fs : List TChainElement) (j : Nat) (n : Int) :
    KeepsFiles E fs (TChain.setNumberEntries fs j n) :=
  ⟨by simp, fun i e h => treeOf_setNumberEntries E fs j n i e h⟩

theorem trueCount_congr (E : Env) (e e1 : TChainElement) (h : treeOf E e1 = treeOf E e) :
    trueCount E e1 = trueCount E e := by
  unfold trueCount; rw [h]

theorem finishSwitch_fFiles (E : Env) (s : TChain) (g tre : Int) (eidx : Nat) (rc : Int) :
    KeepsFiles E s.fFiles (TChain.finishSwitch s g tre eidx rc).chain.fFiles := by
  unfold TChain.finishSwitch
  cases s.fTree with
  | none => exact KeepsFiles.setLoadResult E _ _ _
  | some t =>
    simp only
    split_ifs <;> exact KeepsFiles.setLoadResult E _ _ _

/-- The path of the current tree changes the tree handle and the friends only. -/
theorem sameTree_frame (s : TChain) (t : TTree) (g tre : Int) (r : TChain.Step)
    (h : TChain.sameTree s t g tre = some r) :
    r.chain.fTreeOffset = s.fTreeOffset ∧ r.chain.fNtrees = s.fNtrees ∧
      r.chain.fFiles = s.fFiles ∧ r.chain.fEntries = s.fEntries ∧
      r.chain.opens = s.opens ∧ r.chain.fTreeNumber = s.fTreeNumber ∧
      r.chain.fReadEntry = s.fReadEntry := by
  unfold TChain.sameTree at h
  simp only at h
  split_ifs at h <;> cases h <;> exact ⟨rfl, rfl, rfl, rfl, rfl, rfl, rfl⟩

/-- The number of entries `LoadTree` takes from the opened element is the true
count of that element. -/
theorem openElement_count (E : Env) (e : TChainElement) :
    TChain.entriesOf (TChain.openElement E e).1 = (trueCount E e : Int) := by
  unfold TChain.entriesOf TChain.openElement trueCount treeOf
  cases hO : E.Open e.fTitle with
  | none => simp
  | some f =>
    cases hG : f.Get e.fName with
    | none => simp [hG]
    | some t => simp [hG]

/-- What the part of a pass after `TFile::Open` does to the offset table, the
total and the elements: nothing, or one slot is rewritten with the boundary
below it plus the number of entries found, and the total is re-read. -/
theorem afterOpen_frame (E : Env) (s : TChain) (g tre : Int) (k eidx : Nat)
    (tree : Option TTree) (rc : Int) (r : TChain.Step)
    (h : TChain.afterOpen s g tre k eidx tree rc = some r) :
    r.chain.fNtrees = s.fNtrees ∧ KeepsFiles E s.fFiles r.chain.fFiles ∧
      r.chain.opens = s.opens ∧
      ∃ a b, s.fTreeOffset[k]? = some a ∧ s.fTreeOffset[k + 1]? = some b ∧
        ((b = a + TChain.entriesOf tree ∧
          r.chain.fTreeOffset = s.fTreeOffset ∧ r.chain.fEntries = s.fEntries) ∨
         (b ≠ a + TChain.entriesOf tree ∧
          r.chain.fTreeOffset = s.fTreeOffset.set (k + 1) (a + TChain.entriesOf tree) ∧
          (s.fTreeOffset.set (k + 1) (a + TChain.entriesOf tree))[s.fNtrees]? = some r.chain.fEntries)) := by
  unfold TChain.afterOpen at h
  cases hrep : TChain.repair
      { s with fTree := tree, fFile := tree.isSome, fTreeNumber := (k : Int) } g tre k eidx
      (TChain.entriesOf tree) rc with
  | none => simp [hrep] at h
  | some res =>
    obtain ⟨s2, tre2, again⟩ := res
    simp only [hrep] at h
    obtain ⟨a, b, ha, hb, hcase⟩ := repair_cases _ g tre k eidx _ rc _ hrep
    -- the rest of the pass after the check
    have hrest : r.chain.fNtrees = s2.fNtrees ∧ KeepsFiles E s2.fFiles r.chain.fFiles ∧
        r.chain.opens = s2.opens ∧ r.chain.fTreeOffset = s2.fTreeOffset ∧
        r.chain.fEntries = s2.fEntries := by
      cases again with
      | true =>
        simp only at h
        split_ifs at h
        · cases h; exact ⟨rfl, KeepsFiles.refl E _, rfl, rfl, rfl⟩
        · cases h; exact ⟨rfl, KeepsFiles.refl E _, rfl, rfl, rfl⟩
      | false =>
        simp only [Option.some.injEq] at h
        subst h
        refine ⟨finishSwitch_fNtrees _ _ _ _ _, finishSwitch_fFiles E _ _ _ _ _, ?_,
          finishSwitch_fTreeOffset _ _ _ _ _, finishSwitch_fEntries _ _ _ _ _⟩
        unfold TChain.finishSwitch
        cases s2.fTree with
        | none => rfl
        | some t => simp only; split_ifs <;> rfl
    obtain ⟨hr1, hr2, hr3, hr4, hr5⟩ := hrest
    refine ⟨?_, ?_, ?_, a, b, ha, hb, ?_⟩
    · rcases hcase with ⟨_, hres⟩ | ⟨_, total, _, hres | hres | hres⟩
      · cases hres; rw [hr1]
      · cases hres.1; rw [hr1]
      · cases hres.1; rw [hr1]
      · cases hres.1; rw [hr1]
    · rcases hcase with ⟨_, hres⟩ | ⟨_, total, _, hres | hres | hres⟩
      · cases hres; exact hr2
      · cases hres.1
        exact (KeepsFiles.setNumberEntries E _ _ _).trans hr2
      · cases hres.1
        exact ((KeepsFiles.setNumberEntries E _ _ _).trans
          (KeepsFiles.setLoadResult E _ _ _)).trans hr2
      · cases hres.1
        exact (KeepsFiles.setNumberEntries E _ _ _).trans hr2
    · rcases hcase with ⟨_, hres⟩ | ⟨_, total, _, hres | hres | hres⟩
      · cases hres; rw [hr3]
      · cases hres.1; rw [hr3]
      · cases hres.1; rw [hr3]
      · cases hres.1; rw [hr3]
    · rcases hcase with ⟨heq, hres⟩ | ⟨hne, total, htot, hres | hres | hres⟩
      · cases hres
        exact Or.inl ⟨heq, hr4, hr5⟩
      · cases hres.1
        exact Or.inr ⟨hne, hr4, by rw [hr5]; exact htot⟩
      · cases hres.1
        exact Or.inr ⟨hne, hr4, by rw [hr5]; exact htot⟩
      · cases hres.1
        exact Or.inr ⟨hne, hr4, by rw [hr5]; exact htot⟩

/-- What one pass of `LoadTree` does to the number of trees, the elements, the
offset table and the total: either the table and the total are left alone, or
the slot after the selected tree `k` is rewritten with the boundary below it
plus the true count `n` of that tree and the total is re-read from the last
boundary. -/
theorem LoadTreeStep_frame (E : Env) (s : TChain) (g : Int) (r : TChain.Step)
    (h : TChain.LoadTreeStep E s g = some r) :
    r.chain.fNtrees = s.fNtrees ∧ KeepsFiles E s.fFiles r.chain.fFiles ∧
      ((r.chain.fTreeOffset = s.fTreeOffset ∧ r.chain.fEntries = s.fEntries) ∨
       ∃ (k : Nat) (a b n : Int), s.fTreeOffset[k]? = some a ∧ s.fTreeOffset[k + 1]? = some b ∧
          b ≠ a + n ∧ 0 ≤ n ∧
          r.chain.fTreeOffset = s.fTreeOffset.set (k + 1) (a + n) ∧
          (s.fTreeOffset.set (k + 1) (a + n))[s.fNtrees]? = some r.chain.fEntries ∧
          (∀ e, s.fFiles[k]? = some e → n = (trueCount E e : Int))) := by
  rcases LoadTreeStep_cases E s g r h with ⟨_, hr⟩ | ⟨_, _, hr⟩ | ⟨_, _, _, hr⟩ |
    ⟨_, _, _, k, a, _, ha, hrest⟩
  · subst hr; exact ⟨rfl, KeepsFiles.refl E _, Or.inl ⟨rfl, rfl⟩⟩
  · subst hr; exact ⟨rfl, KeepsFiles.refl E _, Or.inl ⟨rfl, rfl⟩⟩
  · subst hr; exact ⟨rfl, KeepsFiles.refl E _, Or.inl ⟨rfl, rfl⟩⟩
  · rcases hrest with ⟨t, _, _, hsame⟩ | ⟨_, ⟨_, _, hr⟩ | ⟨eidx, e, he, hidx, hopen⟩⟩
    · obtain ⟨h1, h2, h3, h4, _⟩ := sameTree_frame _ t g _ r hsame
      refine ⟨h2, ?_, Or.inl ⟨h1, h4⟩⟩
      rw [h3]; exact KeepsFiles.refl E _
    · subst hr
      refine ⟨by simp [TChain.Step.chain], ?_, Or.inl ⟨by simp [TChain.Step.chain],
        by simp [TChain.Step.chain]⟩⟩
      simp only [TChain.Step.chain, teardown_fFiles]
      exact KeepsFiles.refl E _
    · obtain ⟨h1, h2, _, a1, b, ha1, hb, hcase⟩ := afterOpen_frame E _ g _ k eidx _ _ r hopen
      simp only [teardown_fNtrees, teardown_fFiles, teardown_fTreeOffset,
        teardown_fEntries] at h1 h2 ha1 hb hcase
      rw [ha] at ha1
      have haa : a = a1 := Option.some.inj ha1
      subst haa
      refine ⟨h1, h2, ?_⟩
      rcases hcase with ⟨_, h3, h4⟩ | ⟨hne, h3, h4⟩
      · exact Or.inl ⟨h3, h4⟩
      · right
        refine ⟨k, a, b, _, ha, hb, hne, ?_, h3, h4, ?_⟩
        · rw [openElement_count]; exact Int.ofNat_nonneg _
        · intro e1 he1
          rw [openElement_count]
          rcases hidx with hk | ⟨hnone, _, _⟩
          · subst hk
            rw [he] at he1
            cases he1; rfl
          · rw [hnone] at he1; cases he1

/-- A pass of `LoadTree` keeps the room of every tree. -/
theorem Room.keptByStep {E : Env} {s : TChain} (hR : Room E s) (g : Int) (r : TChain.Step)
    (h : TChain.LoadTreeStep E s g = some r) : Room E r.chain := by
  obtain ⟨hN, hF, hoff⟩ := LoadTreeStep_frame E s g r h
  refine ⟨by rw [hF.1, hN]; exact hR.1, ?_⟩
  intro i e1 he1
  -- the element of the old chain at the same position
  have hi : i < s.fFiles.length := by
    rcases Nat.lt_or_ge i r.chain.fFiles.length with h1 | h1
    · rw [← hF.1]; exact h1
    · rw [List.getElem?_eq_none h1] at he1; cases he1
  obtain ⟨e2, he2, ht2⟩ := hF.2 i s.fFiles[i] (List.getElem?_eq_getElem hi)
  rw [he1] at he2
  have hee : e1 = e2 := Option.some.inj he2
  subst hee
  rw [trueCount_congr E _ _ ht2]
  obtain ⟨a, b, ha, hb, hab⟩ := hR.2 i s.fFiles[i] (List.getElem?_eq_getElem hi)
  rcases hoff with ⟨h1, _⟩ | ⟨k, a1, b1, n, ha1, hb1, hne, hn0, h1, _, hcount⟩
  · rw [h1]; exact ⟨a, b, ha, hb, hab⟩
  · rw [h1]
    by_cases hik : i = k
    · -- the tree whose slot is rewritten
      subst hik
      rw [ha] at ha1
      have : a = a1 := Option.some.inj ha1
      subst this
      have hn := hcount _ (List.getElem?_eq_getElem hi)
      have hlt : i + 1 < s.fTreeOffset.length := by
        rcases Nat.lt_or_ge (i + 1) s.fTreeOffset.length with h2 | h2
        · exact h2
        · rw [List.getElem?_eq_none h2] at hb; cases hb
      refine ⟨a, a + n, ?_, ?_, by omega⟩
      · rw [List.getElem?_set_ne (by omega)]; exact ha
      · rw [List.getElem?_set]; simp [hlt]
    · by_cases hik2 : i = k + 1
      · -- the tree after it starts lower than before
        subst hik2
        rw [hb1] at ha
        have : b1 = a := Option.some.inj ha
        subst this
        have hk : k < s.fFiles.length := by omega
        obtain ⟨a2, b2, ha2, hb2, hab2⟩ := hR.2 k s.fFiles[k] (List.getElem?_eq_getElem hk)
        rw [ha1] at ha2
        have : a1 = a2 := Option.some.inj ha2
        subst this
        rw [hb1] at hb2
        have : b1 = b2 := Option.some.inj hb2
        subst this
        have hn := hcount _ (List.getElem?_eq_getElem hk)
        have hlt : k + 1 < s.fTreeOffset.length := by
          rcases Nat.lt_or_ge (k + 1) s.fTreeOffset.length with h2 | h2
          · exact h2
          · rw [List.getElem?_eq_none h2] at hb1; cases hb1
        refine ⟨a1 + n, b, ?_, ?_, by omega⟩
        · rw [List.getElem?_set]; simp [hlt]
        · rw [List.getElem?_set_ne (by omega)]; exact hb
      · refine ⟨a, b, ?_, ?_, hab⟩
        · rw [List.getElem?_set_ne (by omega)]; exact ha
        · rw [List.getElem?_set_ne (by omega)]; exact hb

theorem Room.keptByAux {E : Env} (g : Int) :
    ∀ (fuel : Nat) (s : TChain) (ret : Int) (s1 : TChain), Room E s →
      TChain.LoadTreeAux E fuel s g = some (ret, s1) → Room E s1 := by
  intro fuel
  induction fuel with
  | zero => intro s ret s1 _ h; simp [TChain.LoadTreeAux] at h
  | succ f ih =>
    intro s ret s1 hR h
    unfold TChain.LoadTreeAux at h
    cases hs : TChain.LoadTreeStep E s g with
    | none => simp [hs] at h
    | some r =>
      have hR1 := hR.keptByStep g r hs
      cases r with
      | done ret2 s2 =>
        simp only [hs, Option.some.injEq, Prod.mk.injEq] at h
        rw [← h.2]; exact hR1
      | retry s2 =>
        simp only [hs] at h
        exact ih s2 ret s1 hR1 h

theorem Room.keptByLoadTree {E : Env} {s : TChain} (hR : Room E s) (g ret : Int) (s1 : TChain)
    (h : TChain.LoadTree E s g = some (ret, s1)) : Room E s1 :=
  Room.keptByAux g _ s ret s1 hR h

theorem Room.invalidate {E : Env} {s : TChain} (hR : Room E s) :
    Room E (TChain.InvalidateCurrentTree s) := hR

theorem Room.getEntries {E : Env} {s : TChain} (hR : Room E s) (ret : Int) (s1 : TChain)
    (h : TChain.GetEntries E s = some (ret, s1)) : Room E s1 := by
  unfold TChain.GetEntries at h
  by_cases h1 : s.fEntries = E.kMaxEntries
  · simp only [h1, if_true] at h
    by_cases h2 : s.fFriendLockStatus = true
    · simp only [h2, if_true, Option.some.injEq, Prod.mk.injEq] at h
      rw [← h.2]; exact hR
    · have h2b : s.fFriendLockStatus = false := by simpa using h2
      simp only [h2b, Bool.false_eq_true, if_false] at h
      cases hl : TChain.LoadTree E s (E.kMaxEntries - 1) with
      | none => simp [hl] at h
      | some res =>
        obtain ⟨ret1, s2⟩ := res
        have hR2 := (hR.keptByLoadTree _ _ _ hl).invalidate
        simp only [hl] at h
        by_cases h3 : s.fReadEntry ≥ 0
        · simp only [h3, if_true] at h
          cases hl2 : TChain.LoadTree E (TChain.InvalidateCurrentTree s2) s.fReadEntry with
          | none => simp [hl2] at h
          | some res2 =>
            obtain ⟨ret2, s3⟩ := res2
            simp only [hl2, Option.some.injEq, Prod.mk.injEq] at h
            rw [← h.2]
            exact hR2.keptByLoadTree _ _ _ hl2
        · simp only [h3, if_false, Option.some.injEq, Prod.mk.injEq] at h
          rw [← h.2]
          exact hR2
  · simp only [h1, if_false, Option.some.injEq, Prod.mk.injEq] at h
    rw [← h.2]; exact hR

theorem Room.reset (E : Env) (s : TChain) : Room E (TChain.Reset s) :=
  ⟨rfl, fun i e h => by simp [TChain.Reset] at h⟩

theorem Room.nonDecreasing {E : Env} {s : TChain} (hR : Room E s) : NonDecreasing s := by
  intro i hi
  have hi2 : i < s.fFiles.length := by rw [hR.1]; exact hi
  obtain ⟨a, b, ha, hb, hab⟩ := hR.2 i s.fFiles[i] (List.getElem?_eq_getElem hi2)
  exact ⟨a, b, ha, hb, by omega⟩

/-! ## Properties kept by every operation -/

/-- A property of chains kept by every pass is kept by the iteration. -/
theorem LoadTreeAux_preserves (E : Env) (P : TChain → Prop)
    (hstep : ∀ (s : TChain) (g : Int) (r : TChain.Step),
      P s → TChain.LoadTreeStep E s g = some r → P r.chain) (g : Int) :
    ∀ (fuel : Nat) (s : TChain) (ret : Int) (s1 : TChain), P s →
      TChain.LoadTreeAux E fuel s g = some (ret, s1) → P s1 := by
  intro fuel
  induction fuel with
  | zero => intro s ret s1 _ h; simp [TChain.LoadTreeAux] at h
  | succ f ih =>
    intro s ret s1 hP h
    unfold TChain.LoadTreeAux at h
    cases hs : TChain.LoadTreeStep E s g with
    | none => simp [hs] at h
    | some r =>
      have hP1 := hstep s g r hP hs
      cases r with
      | done ret2 s2 =>
        simp only [hs, Option.some.injEq, Prod.mk.injEq] at h
        rw [← h.2]; exact hP1
      | retry s2 =>
        simp only [hs] at h
        exact ih s2 ret s1 hP1 h

/-- A property of chains kept by `LoadTree`, by `InvalidateCurrentTree` and by
a change of the read cursor is kept by `GetEntries`. -/
theorem GetEntries_preserves (E : Env) (P : TChain → Prop)
    (hload : ∀ (s : TChain) (g ret : Int) (s1 : TChain),
      P s → TChain.LoadTree E s g = some (ret, s1) → P s1)
    (hinv : ∀ s : TChain, P s → P (TChain.InvalidateCurrentTree s))
    (hread : ∀ (s : TChain) (x : Int), P s → P { s with fReadEntry := x })
    (s : TChain) (ret : Int) (s1 : TChain) (hP : P s)
    (h : TChain.GetEntries E s = some (ret, s1)) : P s1 := by
  unfold TChain.GetEntries at h
  by_cases h1 : s.fEntries = E.kMaxEntries
  · simp only [h1, if_true] at h
    by_cases h2 : s.fFriendLockStatus = true
    · simp only [h2, if_true, Option.some.injEq, Prod.mk.injEq] at h
      rw [← h.2]; exact hP
    · have h2b : s.fFriendLockStatus = false := by simpa using h2
      simp only [h2b, Bool.false_eq_true, if_false] at h
      cases hl : TChain.LoadTree E s (E.kMaxEntries - 1) with
      | none => simp [hl] at h
      | some res =>
        obtain ⟨ret1, s2⟩ := res
        have hP2 := hinv _ (hload _ _ _ _ hP hl)
        simp only [hl] at h
        by_cases h3 : s.fReadEntry ≥ 0
        · simp only [h3, if_true] at h
          cases hl2 : TChain.LoadTree E (TChain.InvalidateCurrentTree s2) s.fReadEntry with
          | none => simp [hl2] at h
          | some res2 =>
            obtain ⟨ret2, s3⟩ := res2
            simp only [hl2, Option.some.injEq, Prod.mk.injEq] at h
            rw [← h.2]
            exact hload _ _ _ _ hP2 hl2
        · simp only [h3, if_false, Option.some.injEq, Prod.mk.injEq] at h
          rw [← h.2]
          exact hread _ _ hP2
  · simp only [h1, if_false, Option.some.injEq, Prod.mk.injEq] at h
    rw [← h.2]; exact hP

theorem offsetSet_zero (off off1 : List Int) (i : Nat) (v : Int)
    (h : TChain.offsetSet off (i + 1) v = some off1) : off1[0]? = off[0]? := by
  unfold TChain.offsetSet at h
  split_ifs at h with h1 h2
  · cases h; rw [List.getElem?_set_ne (by omega)]
  · cases h; rw [List.getElem?_append_left (by omega)]

theorem connect_zero (E : Env) (s s1 : TChain) (treename filename : String) (n pksize : Int)
    (h : TChain.connect E s treename filename n pksize = some s1) :
    s1.fTreeOffset[0]? = s.fTreeOffset[0]? := by
  unfold TChain.connect at h
  split_ifs at h with h1 h2
  · cases ha : TChain.offsetAt s.fTreeOffset (s.fNtrees : Int) with
    | none => simp [ha] at h
    | some last =>
      simp only [ha] at h
      cases ho : TChain.offsetSet s.fTreeOffset (s.fNtrees + 1) (last + n) with
      | none => simp [ho] at h
      | some off =>
        simp only [ho, Option.some.injEq] at h
        subst h
        exact offsetSet_zero _ _ _ _ ho
  · cases ho : TChain.offsetSet s.fTreeOffset (s.fNtrees + 1) E.kMaxEntries with
    | none => simp [ho] at h
    | some off =>
      simp only [ho, Option.some.injEq] at h
      subst h
      exact offsetSet_zero _ _ _ _ ho
  · cases h; rfl

theorem AddFile_zero (E : Env) (s : TChain) (name : String) (n : Int) (tname : String)
    (r : Int) (s1 : TChain) (h : TChain.AddFile E s name n tname = some (r, s1)) :
    s1.fTreeOffset[0]? = s.fTreeOffset[0]? := by
  unfold TChain.AddFile at h
  by_cases hname : name = ""
  · simp only [hname, if_true, Option.some.injEq, Prod.mk.injEq] at h
    rw [← h.2]
  · simp only [hname, if_false] at h
    generalize (E.ParseTreeFilename name).basename ++ (E.ParseTreeFilename name).query
      = filename at h
    generalize (if (E.ParseTreeFilename name).treename = "" then
      (if tname.length > 0 then tname else s.fName)
      else (E.ParseTreeFilename name).treename) = treename at h
    by_cases hn : n ≤ 0
    · simp only [hn, if_true] at h
      cases hO : E.Open filename with
      | none =>
        simp only [hO, Option.some.injEq, Prod.mk.injEq] at h
        rw [← h.2]
      | some f =>
        simp only [hO] at h
        cases hG : f.Get treename with
        | none =>
          simp only [hG, Option.some.injEq, Prod.mk.injEq] at h
          rw [← h.2]
        | some t =>
          simp only [hG] at h
          cases hc : TChain.connect E { s with opens := s.opens ++ [filename] } treename filename
              (t.fEntries : Int) t.fPacketSize with
          | none => simp [hc] at h
          | some s2 =>
            simp only [hc, Option.some.injEq, Prod.mk.injEq] at h
            rw [← h.2]
            exact connect_zero E { s with opens := s.opens ++ [filename] } _ _ _ _ _ hc
    · simp only [hn, if_false] at h
      cases hc : TChain.connect E s treename filename n 0 with
      | none => simp [hc] at h
      | some s2 =>
        simp only [hc, Option.some.injEq, Prod.mk.injEq] at h
        rw [← h.2]
        exact connect_zero E _ _ _ _ _ _ hc

theorem addElements_zero (E : Env) :
    ∀ (els : List TChainElement) (s : TChain) (nf nf1 : Nat) (s1 : TChain),
      TChain.addElements E els s nf = some (nf1, s1) → s1.fTreeOffset[0]? = s.fTreeOffset[0]?
  | [], s, nf, nf1, s1, h => by
    simp only [TChain.addElements, Option.some.injEq, Prod.mk.injEq] at h
    rw [← h.2]
  | el :: rest, s, nf, nf1, s1, h => by
    unfold TChain.addElements at h
    simp only at h
    cases ha : TChain.offsetAt s.fTreeOffset (s.fNtrees : Int) with
    | none => simp [ha] at h
    | some last =>
      simp only [ha] at h
      cases ho : TChain.offsetSet s.fTreeOffset (s.fNtrees + 1)
          (if last = E.kMaxEntries then E.kMaxEntries else last + el.fEntries) with
      | none => simp [ho] at h
      | some off =>
        simp only [ho] at h
        have := addElements_zero E rest _ _ _ _ h
        rw [this]
        exact offsetSet_zero _ _ _ _ ho

theorem LoadTreeStep_zero (E : Env) (s : TChain) (g : Int) (r : TChain.Step)
    (h : TChain.LoadTreeStep E s g = some r) :
    r.chain.fTreeOffset[0]? = s.fTreeOffset[0]? := by
  obtain ⟨_, _, hoff⟩ := LoadTreeStep_frame E s g r h
  rcases hoff with ⟨h1, _⟩ | ⟨k, a, b, n, _, _, _, _, h1, _⟩
  · rw [h1]
  · rw [h1, List.getElem?_set_ne (by omega)]

theorem LoadTree_zero (E : Env) (s : TChain) (g ret : Int) (s1 : TChain)
    (h0 : s.fTreeOffset[0]? = some 0) (h : TChain.LoadTree E s g = some (ret, s1)) :
    s1.fTreeOffset[0]? = some 0 :=
  LoadTreeAux_preserves E (fun c => c.fTreeOffset[0]? = some 0)
    (fun c g1 r hc hr => (LoadTreeStep_zero E c g1 r hr).trans hc) g _ s ret s1 h0 h

theorem GetEntries_zero (E : Env) (s : TChain) (ret : Int) (s1 : TChain)
    (h0 : s.fTreeOffset[0]? = some 0) (h : TChain.GetEntries E s = some (ret, s1)) :
    s1.fTreeOffset[0]? = some 0 :=
  GetEntries_preserves E (fun c => c.fTreeOffset[0]? = some 0)
    (fun c g r c1 hc hl => LoadTree_zero E c g r c1 hc hl) (fun _ hc => hc) (fun _ _ hc => hc)
    s ret s1 h0 h

theorem Reset_zero (s : TChain) : (TChain.Reset s).fTreeOffset[0]? = some 0 := by
  unfold TChain.Reset
  cases s.fTreeOffset <;> simp

theorem Reachable.zero {E : Env} {s : TChain} (h : Reachable E s) :
    s.fTreeOffset[0]? = some 0 := by
  induction h with
  | init name => rfl
  | addFile name n tname r s1 _ hadd ih => rw [AddFile_zero E _ name n tname r s1 hadd]; exact ih
  | add nf s1 other1 _ _ hadd ih _ =>
    unfold TChain.Add at hadd
    split at hadd
    · cases hadd
    · split at hadd
      · cases hadd
      · rename_i hel
        cases hadd
        rw [addElements_zero E _ _ _ _ _ hel]; exact ih
  | loadTree g r s1 _ hl ih => exact LoadTree_zero E _ g r s1 ih hl
  | getEntries r s1 _ hg ih => exact GetEntries_zero E _ r s1 ih hg
  | reset _ _ => exact Reset_zero _

theorem ReachableWithRoom.room {E : Env} {s : TChain} (h : ReachableWithRoom E s) :
    Room E s := by
  induction h with
  | init name => exact ⟨rfl, fun i e h => by simp [TChain.init] at h⟩
  | addFile name n tname r s1 _ _ hroom _ => exact hroom
  | add nf s1 other1 _ _ hroom _ => exact hroom
  | loadTree g r s1 _ hl ih => exact ih.keptByLoadTree g r s1 hl
  | getEntries r s1 _ hg ih => exact ih.getEntries r s1 hg
  | reset _ _ => exact Room.reset E _

theorem Reachable.ofAddFiles {E : Env} :
    ∀ (calls : List (String × Int × String)) (s s1 : TChain), Reachable E s →
      addFiles E s calls = some s1 → Reachable E s1
  | [], s, s1, h, hc => by
    simp only [addFiles, Option.some.injEq] at hc
    rw [← hc]; exact h
  | (name, n, tname) :: rest, s, s1, h, hc => by
    unfold addFiles at hc
    cases ha : TChain.AddFile E s name n tname with
    | none => simp [ha] at hc
    | some res =>
      obtain ⟨r, s2⟩ := res
      simp only [ha] at hc
      exact Reachable.ofAddFiles rest s2 s1 (Reachable.addFile name n tname r s2 h ha) hc

theorem chainA1_reachable : Reachable envA chainA1 :=
  Reachable.loadTree 0 0 chainA1
    (Reachable.ofAddFiles [("p0.root", 1000000000000, ""), ("p1.root", 2, "")]
      (TChain.init "T") chainA (Reachable.init "T") chainA_built)
    (by decide)

/-- C4 at its failing input: on the chain built by `AddFile("p0.root")` (count
unknown, 3 entries in the file) and `AddFile("p1.root", 2)`, `GetEntries()`
returns `kMaxEntries + 2` and opens no file, because `AddFile` has added 2 to the
sentinel total, which `GetEntries` then no longer recognises. -/
theorem GetEntries_skips_discovery :
    TChain.GetEntries envA chainA = some (1000000000002, chainA) ∧
      chainA.opens = [] ∧
      sumBefore (chainA.fFiles.map (trueCount envA)) chainA.fNtrees = 5 := by
  decide

/-! ## Entries out of range -/

/-- C10 (as amended). On a non-empty chain whose friend lock is not held,
`LoadTree(g)` returns `-2` whenever `g < 0`, or `g > 0`, `g >= fEntries` and
`g != kMaxEntries - 1`; no file is opened and nothing changes but the read
cursor, which becomes `-1` (in the chain and in the current tree, if any). -/
theorem LoadTree_rejects_out_of_range (E : Env) (s : TChain) (g : Int)
    (hlock : s.fFriendLockStatus = false) (hn : s.fNtrees ≠ 0)
    (hrange : g < 0 ∨ (g > 0 ∧ (g ≥ s.fEntries ∧ g ≠ E.kMaxEntries - 1))) :
    ∃ s1, TChain.LoadTree E s g = some (-2, s1) ∧
      s1 = { s with fTree := s.fTree.map (fun t => { t with fReadEntry := -1 }),
                    fReadEntry := -1 } ∧
      s1.opens = s.opens ∧ s1.fNtrees = s.fNtrees ∧ s1.fTreeOffset = s.fTreeOffset ∧
      s1.fEntries = s.fEntries ∧ s1.fTreeNumber = s.fTreeNumber ∧ s1.fFiles = s.fFiles ∧
      s1.fReadEntry = -1 := by
  refine ⟨_, ?_, rfl, rfl, rfl, rfl, rfl, rfl, rfl, rfl⟩
  unfold TChain.LoadTree TChain.LoadTreeAux
  rw [LoadTreeStep_range E s g hlock hn hrange]
  simp only [Option.some.injEq, Prod.mk.injEq, true_and]
  cases s.fTree with
  | none => rfl
  | some t => simp [TTree.LoadTree]

/-- An entry beyond the total of Scenario A, after `LoadTree(0)`. -/
theorem LoadTree_rejects_out_of_range_witness :
    ∃ s1, TChain.LoadTree envA chainA1 1000000000005 = some (-2, s1) ∧
      s1 = { chainA1 with fTree := chainA1.fTree.map (fun t => { t with fReadEntry := -1 }),
                          fReadEntry := -1 } ∧
      s1.opens = chainA1.opens ∧ s1.fNtrees = chainA1.fNtrees ∧
      s1.fTreeOffset = chainA1.fTreeOffset ∧
      s1.fEntries = chainA1.fEntries ∧ s1.fTreeNumber = chainA1.fTreeNumber ∧
      s1.fFiles = chainA1.fFiles ∧ s1.fReadEntry = -1 :=
  LoadTree_rejects_out_of_range envA chainA1 1000000000005 (by decide) (by decide) (by decide)

/-- C10, as stated, fails while the friend lock is held: `LoadTree(-1)` returns 0,
not `-2`, and leaves the read cursor alone. -/
theorem LoadTree_under_friend_lock :
    TChain.LoadTree envA { chainA1 with fFriendLockStatus := true } (-1)
      = some (0, { chainA1 with fFriendLockStatus := true }) := by
  decide

/-! ## A declared count larger than the true count -/

theorem AddFile_concrete (E : Env) (s : TChain) (f : String) (d : Int) (tname : String)
    (r : Int) (s0 : TChain) (last : Int)
    (h : TChain.AddFile E s f d tname = some (r, s0)) (hf : f ≠ "") (hd : 0 < d)
    (hk : d ≠ E.kMaxEntries) (hlast : s.fTreeOffset[s.fNtrees]? = some last)
    (hlen : s.fTreeOffset.length = s.fNtrees + 1) :
    ∃ treename filename, r = 1 ∧
      s0 = { s with fTreeOffset := s.fTreeOffset ++ [last + d], fEntries := s.fEntries + d,
                    fNtrees := s.fNtrees + 1,
                    fFiles := s.fFiles ++ [⟨treename, filename, d, 0, 0⟩] } := by
  unfold TChain.AddFile at h
  have hd2 : ¬ d ≤ 0 := by omega
  simp only [hf, if_false, hd2] at h
  unfold TChain.connect at h
  simp only [hd, if_true, hk, ne_eq, not_false_eq_true, offsetAt_nat, hlast, TChain.offsetSet,
    hlen, lt_self_iff_false, if_false, Option.some.injEq, Prod.mk.injEq] at h
  exact ⟨_, _, h.1.symm, h.2.symm⟩

/-- C9. On a chain with the single file `f` added with a concrete declared count
`d`, whose tree really holds `n < d` entries, `LoadTree(g)` for every
`n <= g < d` returns the negative code `-2`, never a local entry. -/
theorem LoadTree_beyond_true_count (E : Env) (name f : String) (d : Int) (tname : String)
    (r : Int) (s0 : TChain) (n : Nat) (g : Int)
    (hbuild : TChain.AddFile E (TChain.init name) f d tname = some (r, s0))
    (hf : f ≠ "") (hd : 0 < d) (hk : d ≠ E.kMaxEntries)
    (hfile : ∀ e, s0.fFiles[0]? = some e → ∃ t, treeOf E e = some t ∧ t.fEntries = n)
    (hn : (n : Int) < d) (hg1 : (n : Int) ≤ g) (hg2 : g < d) :
    (TChain.LoadTree E s0 g).map Prod.fst = some (-2) := by
  obtain ⟨treename, filename, _, hs0⟩ := AddFile_concrete E (TChain.init name) f d tname r s0 0
    hbuild hf hd hk rfl rfl
  simp only [TChain.init, List.nil_append, zero_add, List.singleton_append] at hs0
  subst hs0
  obtain ⟨t, ht, htn⟩ := hfile ⟨treename, filename, d, 0, 0⟩ rfl
  have hg0 : 0 ≤ g := by omega
  have hrange : ¬ (g < 0 ∨ (g > 0 ∧ (g ≥ d ∧ g ≠ E.kMaxEntries - 1))) := by
    intro h
    rcases h with h | ⟨_, h, _⟩ <;> omega
  have hne : ¬ d = (n : Int) := by omega
  have hge : (n : Int) ≤ g := hg1
  have hoe := openElement_of_treeOf E _ t ht
  simp [TChain.LoadTree, TChain.LoadTreeAux, TChain.LoadTreeStep, TChain.locate,
    TChain.searchFrom, TChain.offsetAt, TChain.teardown, TChain.afterOpen, TChain.repair,
    TChain.entriesOf, TChain.finishSwitch, TChain.loadFriends, TTree.LoadTree,
      TChain.setBranchAddresses, TChain.setBranchStatuses, TChain.refreshElements,
    hrange, hg2, hoe, htn, hne, hge]

/-- Scenario B: `p0.root` holds 3 entries and is added with declared count 5;
`LoadTree(4)` returns `-2`. -/
theorem LoadTree_beyond_true_count_witness :
    (TChain.LoadTree envA
        { fName := "T", fNtrees := 1, fTreeNumber := -1, fTreeOffset := [0, 5],
          fEntries := 5, fReadEntry := -1, fTree := none, fFile := false,
          fFiles := [⟨"T", "p0.root", 5, 0, 0⟩],
          fNotify := none, fFriendLockStatus := false, fFriends := [], opens := [] } 4).map
      Prod.fst = some (-2) :=
  LoadTree_beyond_true_count envA "T" "p0.root" 5 "" 1 _ 3 4 (by decide) (by decide)
    (by decide) (by decide)
    (fun e he => ⟨plainTree 3, by
      simp only [List.getElem?_cons_zero, Option.some.injEq] at he
      subst he
      decide, rfl⟩)
    (by decide) (by decide) (by decide)

/-! ## Files that cannot be opened -/

theorem chainF_built :
    addFiles envA (TChain.init "T") [("nope.root", 3, ""), ("p1.root", 2, "")] = some chainF := by
  decide

theorem chainN_built :
    addFiles envA (TChain.init "T") [("nope.root", 3, "")] = some chainN := by
  decide

/-- The part of a pass after `TFile::Open` when no tree was obtained and the pass
does not move on to the next tree: the failure code is returned and recorded
on the element, the chain forgets its tree number, and the boundary after the
selected tree is set to the boundary before it (the tree counts 0 entries). -/
theorem afterOpen_failed (s : TChain) (g tre : Int) (k eidx : Nat) (rc a b : Int)
    (ha : s.fTreeOffset[k]? = some a) (hb : s.fTreeOffset[k + 1]? = some b)
    (hN : s.fNtrees < s.fTreeOffset.length)
    (hstay : s.fNtrees ≤ k + 1 ∨ b = a ∨ ∃ c, s.fTreeOffset[k + 2]? = some c ∧ c ≤ g) :
    ∃ s2, TChain.afterOpen s g tre k eidx none rc = some (Step.done rc s2) ∧
      s2.fTreeNumber = -1 ∧ s2.fTree = none ∧ s2.fNtrees = s.fNtrees ∧ s2.opens = s.opens ∧
      ((b = a ∧ s2.fTreeOffset = s.fTreeOffset ∧ s2.fEntries = s.fEntries ∧
          s2.fFiles = TChain.setLoadResult s.fFiles eidx rc) ∨
       (b ≠ a ∧ s2.fTreeOffset = s.fTreeOffset.set (k + 1) a ∧
          (s.fTreeOffset.set (k + 1) a)[s.fNtrees]? = some s2.fEntries ∧
          s2.fFiles = TChain.setLoadResult (TChain.setNumberEntries s.fFiles eidx 0) eidx rc)) := by
  unfold TChain.afterOpen
  have ha1 : TChain.offsetAt s.fTreeOffset (k : Int) = some a := by rw [offsetAt_nat]; exact ha
  have hb1 : TChain.offsetAt s.fTreeOffset ((k : Int) + 1) = some b := by
    rw [offsetAt_nat_succ]; exact hb
  simp only [TChain.entriesOf, Option.isSome_none]
  by_cases hba : b = a
  · subst hba
    rw [repair_keep { s with fTree := none, fFile := false, fTreeNumber := (k : Int) } g tre k eidx 0 rc b ha1 (by simpa using hb1)]
    exact ⟨_, rfl, rfl, rfl, rfl, rfl, Or.inl ⟨rfl, rfl, rfl, rfl⟩⟩
  · obtain ⟨total, htot⟩ : ∃ total, (s.fTreeOffset.set (k + 1) a)[s.fNtrees]? = some total :=
      ⟨_, List.getElem?_eq_getElem (by simpa using hN)⟩
    have ht1 : TChain.offsetAt (s.fTreeOffset.set (k + 1) (a + 0)) (s.fNtrees : Int)
        = some total := by rw [offsetAt_nat]; simpa using htot
    have hne : b ≠ a + 0 := by simpa using hba
    by_cases hg : g < a + 0
    · rw [repair_write_inside { s with fTree := none, fFile := false, fTreeNumber := (k : Int) } g tre k eidx 0 rc a b total ha1 hb1 hne ht1 hg]
      refine ⟨_, rfl, rfl, rfl, rfl, rfl, Or.inr ⟨hba, ?_, ?_, rfl⟩⟩
      · simp [TChain.finishSwitch, TChain.Step.chain]
      · simpa using htot
    · by_cases hk : (k : Int) < (s.fNtrees : Int) - 1
      · rcases hstay with h1 | h1 | ⟨c, hc, hcg⟩
        · omega
        · exact absurd h1 hba
        · have hc1 : TChain.offsetAt (s.fTreeOffset.set (k + 1) (a + 0)) ((k : Int) + 2)
              = some c := by
            rw [offsetAt_nat_succ2, List.getElem?_set_ne (by omega)]; exact hc
          rw [repair_write_beyond { s with fTree := none, fFile := false, fTreeNumber := (k : Int) } g tre k eidx 0 rc a b total c ha1 hb1 hne ht1 (by omega) hk
            hc1 (by omega)]
          refine ⟨_, rfl, rfl, rfl, rfl, rfl, Or.inr ⟨hba, ?_, ?_, rfl⟩⟩
          · simp [TChain.finishSwitch, TChain.Step.chain]
          · simpa using htot
      · rw [repair_write_last { s with fTree := none, fFile := false, fTreeNumber := (k : Int) } g tre k eidx 0 rc a b total ha1 hb1 hne ht1 (by omega) hk]
        refine ⟨_, rfl, rfl, rfl, rfl, rfl, Or.inr ⟨hba, ?_, ?_, rfl⟩⟩
        · simp [TChain.finishSwitch, TChain.Step.chain]
        · simpa using htot

theorem openElement_of_failure (E : Env) (e : TChainElement) (rc : Int)
    (hfail : (E.Open e.fTitle = none ∧ rc = -3) ∨
      (∃ f, E.Open e.fTitle = some f ∧ f.Get e.fName = none ∧ rc = -4)) :
    TChain.openElement E e = (none, rc) := by
  unfold TChain.openElement
  rcases hfail with ⟨h1, h2⟩ | ⟨f, h1, h2, h3⟩
  · simp [h1, h2]
  · simp [h1, h2, h3]

/-- The call of `LoadTree` on a chain whose selected file fails and which does
not move on to the next tree. -/
theorem LoadTree_failed (E : Env) (s : TChain) (g : Int) (k : Nat) (e : TChainElement)
    (a b rc : Int)
    (hlock : s.fFriendLockStatus = false) (hn : s.fNtrees ≠ 0)
    (hrange : ¬ (g < 0 ∨ (g > 0 ∧ (g ≥ s.fEntries ∧ g ≠ E.kMaxEntries - 1))))
    (hloc : TChain.locate E s g = some k)
    (hsw : s.fTreeNumber ≠ (k : Int) ∨ s.fTree = none)
    (he : s.fFiles[k]? = some e)
    (ha : s.fTreeOffset[k]? = some a) (hb : s.fTreeOffset[k + 1]? = some b)
    (hN : s.fNtrees < s.fTreeOffset.length)
    (hfail : (E.Open e.fTitle = none ∧ rc = -3) ∨
      (∃ f, E.Open e.fTitle = some f ∧ f.Get e.fName = none ∧ rc = -4))
    (hstay : s.fNtrees ≤ k + 1 ∨ b = a ∨ ∃ c, s.fTreeOffset[k + 2]? = some c ∧ c ≤ g) :
    ∃ s1, TChain.LoadTree E s g = some (rc, s1) ∧
      s1.fTreeNumber = -1 ∧ s1.fNtrees = s.fNtrees ∧
      ((b = a ∧ s1.fTreeOffset = s.fTreeOffset ∧ s1.fEntries = s.fEntries ∧
          s1.fFiles = TChain.setLoadResult s.fFiles k rc) ∨
       (b ≠ a ∧ s1.fTreeOffset = s.fTreeOffset.set (k + 1) a ∧
          (s.fTreeOffset.set (k + 1) a)[s.fNtrees]? = some s1.fEntries ∧
          s1.fFiles = TChain.setLoadResult (TChain.setNumberEntries s.fFiles k 0) k rc)) := by
  have ha1 : TChain.offsetAt s.fTreeOffset (k : Int) = some a := by rw [offsetAt_nat]; exact ha
  obtain ⟨s2, h1, h2, _, h3, _, h4⟩ := afterOpen_failed
    { TChain.teardown { s with fReadEntry := g } with opens := s.opens ++ [e.fTitle] }
    g (g - a) k k rc a b (by simpa using ha) (by simpa using hb) (by simpa using hN)
    (by simpa using hstay)
  simp only [teardown_fNtrees, teardown_fTreeOffset, teardown_fEntries, teardown_fFiles]
    at h3 h4
  refine ⟨s2, ?_, h2, h3, h4⟩
  unfold TChain.LoadTree TChain.LoadTreeAux
  rw [LoadTreeStep_switch E s g k a e hlock hn hrange hloc ha1 hsw he,
    openElement_of_failure E e rc hfail, h1]

/-- C6, as stated, fails: on `nope.root` (declared 3, cannot be opened) followed by
`p1.root` (declared 2), `LoadTree(0)` selects `nope.root`, records `-3` on it,
and moves on to `p1.root`: it returns 0, not `-3`. -/
theorem LoadTree_moves_on_after_failed_open :
    (TChain.LoadTree envA chainF 0).map
        (fun r => (r.1, r.2.fTreeNumber, r.2.fFiles.map (fun e => e.fLoadResult)))
      = some (0, 1, [-3, 0]) ∧
      TChain.locate envA chainF 0 = some 0 ∧
      (envA.Open "nope.root").isNone = true := by
  decide

/-- C7 (as amended). After `LoadTree` has hit an open failure or a missing tree on
tree `i` with a provisional count `fTreeOffset[i+1] - fTreeOffset[i]` other than
0, without moving on to the next tree, `fTreeOffset[i+1]` equals
`fTreeOffset[i]` (the failed tree counts 0 entries, not its declared count),
every other boundary is unchanged, and the total has been re-read from the
last boundary. -/
theorem LoadTree_failed_open_counts_zero (E : Env) (s : TChain) (g : Int) (k : Nat)
    (e : TChainElement) (a b rc : Int)
    (hlock : s.fFriendLockStatus = false) (hn : s.fNtrees ≠ 0)
    (hrange : ¬ (g < 0 ∨ (g > 0 ∧ (g ≥ s.fEntries ∧ g ≠ E.kMaxEntries - 1))))
    (hloc : TChain.locate E s g = some k)
    (hsw : s.fTreeNumber ≠ (k : Int) ∨ s.fTree = none)
    (he : s.fFiles[k]? = some e)
    (ha : s.fTreeOffset[k]? = some a) (hb : s.fTreeOffset[k + 1]? = some b)
    (hN : s.fNtrees < s.fTreeOffset.length)
    (hfail : (E.Open e.fTitle = none ∧ rc = -3) ∨
      (∃ f, E.Open e.fTitle = some f ∧ f.Get e.fName = none ∧ rc = -4))
    (hcount : b - a ≠ 0)
    (hstay : s.fNtrees ≤ k + 1 ∨ ∃ c, s.fTreeOffset[k + 2]? = some c ∧ c ≤ g) :
    ∃ s1, TChain.LoadTree E s g = some (rc, s1) ∧
      s1.fTreeOffset[k + 1]? = some a ∧
      (∀ j : Nat, j ≠ k + 1 → s1.fTreeOffset[j]? = s.fTreeOffset[j]?) ∧
      s1.fTreeOffset[s1.fNtrees]? = some s1.fEntries := by
  obtain ⟨s1, h1, _, h3, h4⟩ := LoadTree_failed E s g k e a b rc hlock hn hrange hloc hsw he ha
    hb hN hfail (by
      rcases hstay with h | h
      · exact Or.inl h
      · exact Or.inr (Or.inr h))
  refine ⟨s1, h1, ?_⟩
  rcases h4 with ⟨hba, _⟩ | ⟨_, hoff, htot, _⟩
  · omega
  · have hlt : k + 1 < s.fTreeOffset.length := by
      rcases Nat.lt_or_ge (k + 1) s.fTreeOffset.length with h | h
      · exact h
      · rw [List.getElem?_eq_none h] at hb; cases hb
    refine ⟨?_, ?_, ?_⟩
    · rw [hoff, List.getElem?_set]; simp [hlt]
    · intro j hj
      rw [hoff, List.getElem?_set_ne (fun h => hj h.symm)]
    · rw [h3, hoff]; exact htot

/-- The single file `nope.root`, declared with 3 entries, cannot be opened: after
`LoadTree(0)` its boundary is 0. -/
theorem LoadTree_failed_open_counts_zero_witness :
    ∃ s1, TChain.LoadTree envA chainN 0 = some (-3, s1) ∧
      s1.fTreeOffset[0 + 1]? = some 0 ∧
      (∀ j : Nat, j ≠ 0 + 1 → s1.fTreeOffset[j]? = chainN.fTreeOffset[j]?) ∧
      s1.fTreeOffset[s1.fNtrees]? = some s1.fEntries :=
  LoadTree_failed_open_counts_zero envA chainN 0 0 ⟨"T", "nope.root", 3, 0, 0⟩ 0 3 (-3)
    (by decide) (by decide) (by decide) (by decide) (by decide) (by decide) (by decide)
    (by decide) (by decide) (Or.inl ⟨rfl, rfl⟩) (by decide) (Or.inl (by decide))

/-- C7, as stated, fails: `nope.root` is declared with 3 entries and cannot be
opened; after `LoadTree(0)` the boundaries are `[0, 0]` and the total is 0, not
`[0, 3]` and 3. -/
theorem LoadTree_failed_open_drops_count :
    (TChain.LoadTree envA chainN 0).map (fun r => (r.1, r.2.fTreeOffset, r.2.fEntries))
      = some (-3, [0, 0], 0) := by
  decide

theorem AddFile_positive (E : Env) (s : TChain) (f : String) (d : Int) (tname : String)
    (r : Int) (s0 : TChain) (last : Int)
    (h : TChain.AddFile E s f d tname = some (r, s0)) (hf : f ≠ "") (hd : 0 < d)
    (hlast : s.fTreeOffset[s.fNtrees]? = some last)
    (hlen : s.fTreeOffset.length = s.fNtrees + 1) :
    ∃ treename filename, r = 1 ∧
      s0 = { s with
        fTreeOffset := s.fTreeOffset ++ [if d = E.kMaxEntries then E.kMaxEntries else last + d],
        fEntries := if d = E.kMaxEntries then E.kMaxEntries else s.fEntries + d,
        fNtrees := s.fNtrees + 1,
        fFiles := s.fFiles ++ [⟨treename, filename, d, 0, 0⟩] } := by
  by_cases hk : d = E.kMaxEntries
  · subst hk
    unfold TChain.AddFile at h
    have hd2 : ¬ E.kMaxEntries ≤ 0 := by omega
    simp only [hf, if_false, hd2] at h
    unfold TChain.connect at h
    simp only [hd, if_true, ne_eq, not_true_eq_false, if_false, TChain.offsetSet,
      hlen, lt_self_iff_false, Option.some.injEq, Prod.mk.injEq] at h
    refine ⟨(if (E.ParseTreeFilename f).treename = "" then
        (if tname.length > 0 then tname else s.fName) else (E.ParseTreeFilename f).treename),
      (E.ParseTreeFilename f).basename ++ (E.ParseTreeFilename f).query, h.1.symm, ?_⟩
    rw [← h.2]
    simp
  · obtain ⟨tn, fn, h1, h2⟩ := AddFile_concrete E s f d tname r s0 last h hf hd hk hlast hlen
    refine ⟨tn, fn, h1, ?_⟩
    rw [h2]
    simp [hk]

/-- C5 at its failing input: the chain of `p0.root` has a friend whose tree is not
available.  `LoadTree(0)` opens the file, skips that friend and returns 0; the
immediately following `LoadTree(0)` takes the path of the current tree, whose
friend loop calls `LoadTreeFriend` on the missing tree, so the call has no
defined result. -/
theorem LoadTree_twice_with_missing_friend_tree :
    (TChain.LoadTree envA chainFr 0).map (fun r => (r.1, r.2.fTreeNumber, r.2.opens))
        = some (0, 0, ["p0.root"]) ∧
      (TChain.LoadTree envA chainFr 0).bind (fun r => TChain.LoadTree envA r.2 0) = none := by
  decide

/-- A second way for the second call to differ: after `Add(TChain*)` on a chain
whose last boundary is the sentinel the total is no longer the last boundary;
`LoadTree(kMaxEntries + 1)` then returns 1 and re-reads the total, and the same
call repeated returns `-2`. -/
theorem LoadTree_twice_with_stale_total :
    ((addFiles envA (TChain.init "T")
        [("p0.root", 1000000000000, ""), ("p1.root", 5, ""), ("p0.root", 1000000000000, "")]).bind
      fun s => (addFiles envA (TChain.init "T") [("p1.root", 2, "")]).bind
      fun o => (TChain.Add envA s o).bind
      fun r => (TChain.LoadTree envA r.2.1 1000000000001).bind
      fun x => (TChain.LoadTree envA x.2 1000000000001).map
      fun y => (x.1, y.1)) = some (1, -2) := by
  decide

/-- Without friends the second call is the first one again: in a state of a
chain built by `AddFile` with accurate or unknown counts, an in-range
`LoadTree(g)` followed at once by `LoadTree(g)` returns the same local entry, opens
no file the second time and leaves the number of trees, the boundaries, the
total and the current tree number as they were. -/
theorem Resolved.loadTree_twice {E : Env} {counts : List Nat} {K : Nat} {s : TChain}
    (h : Resolved E counts K s)
    (hsum : sumBefore counts counts.length < E.kMaxEntries - 1)
    (g : Int) (h0 : 0 ≤ g) (h1 : g < sumBefore counts counts.length) :
    ∃ l s1 s2, 0 ≤ l ∧ TChain.LoadTree E s g = some (l, s1) ∧
      TChain.LoadTree E s1 g = some (l, s2) ∧
      s2.opens = s1.opens ∧ s2.fNtrees = s1.fNtrees ∧ s2.fTreeOffset = s1.fTreeOffset ∧
      s2.fEntries = s1.fEntries ∧ s2.fTreeNumber = s1.fTreeNumber ∧ s2.fFiles = s1.fFiles := by
  obtain ⟨p, s1, K1, hp, hlo, hhi, hl, hnum, hR⟩ := h.loadTree hsum g h0 h1
  have hcur : ∃ t, s1.fTree = some t ∧ p + 1 ≤ K1 := by
    rcases hR.current with hc | ⟨k, hk, hkK, ht⟩
    · rw [hnum] at hc; omega
    · have hkp : k = p := by rw [hnum] at hk; omega
      subst hkp
      cases hft : s1.fTree with
      | none => rw [hft] at ht; simp at ht
      | some t => exact ⟨t, rfl, hkK⟩
  obtain ⟨t, ht, hpK⟩ := hcur
  have hloc := hR.locate hsum g p hp hlo hhi
  rw [Nat.min_eq_left (by omega)] at hloc
  have ha : TChain.offsetAt s1.fTreeOffset (p : Int) = some (sumBefore counts p) := by
    rw [offsetAt_nat]; exact hR.known _ (by omega)
  have hgE := hR.entries_gt hsum g h1
  have hrange : ¬ (g < 0 ∨ (g > 0 ∧ (g ≥ s1.fEntries ∧ g ≠ E.kMaxEntries - 1))) := by
    intro hx
    rcases hx with hx | ⟨_, hx, _⟩ <;> omega
  have hn : s1.fNtrees ≠ 0 := by rw [hR.ntrees]; omega
  have hstep := LoadTreeStep_sameTree E s1 g p _ t hR.lock hn hrange hloc ha hnum ht
  obtain ⟨t1, st, ht1⟩ := sameTree_plain { s1 with fReadEntry := g } t g
    (g - sumBefore counts p) hR.friends hR.notify
  rw [ht1] at hstep
  have hl2 : TChain.LoadTree E s1 g
      = some (g - sumBefore counts p,
          { s1 with fReadEntry := g, fTree := some t1, fStatus := st }) := by
    unfold TChain.LoadTree TChain.LoadTreeAux
    rw [hstep]
  exact ⟨g - sumBefore counts p, s1, { s1 with fReadEntry := g, fTree := some t1, fStatus := st },
    by omega, hl, hl2, rfl, rfl, rfl, rfl, rfl, rfl⟩

/-! ## The friend lock and the assigned slots -/

theorem sameTree_lock (s : TChain) (t : TTree) (g tre : Int) (r : TChain.Step)
    (h : TChain.sameTree s t g tre = some r) :
    r.chain.fFriendLockStatus = s.fFriendLockStatus ∧ r.chain.fNotify = s.fNotify := by
  unfold TChain.sameTree at h
  simp only at h
  split_ifs at h <;> cases h <;> exact ⟨rfl, rfl⟩

theorem finishSwitch_lock (s : TChain) (g tre : Int) (eidx : Nat) (rc : Int) :
    (TChain.finishSwitch s g tre eidx rc).chain.fFriendLockStatus = s.fFriendLockStatus ∧
      (TChain.finishSwitch s g tre eidx rc).chain.fNotify = s.fNotify := by
  unfold TChain.finishSwitch
  cases s.fTree with
  | none => exact ⟨rfl, rfl⟩
  | some t => simp only; split_ifs <;> exact ⟨rfl, rfl⟩

theorem afterOpen_lock (s : TChain) (g tre : Int) (k eidx : Nat)
    (tree : Option TTree) (rc : Int) (r : TChain.Step)
    (h : TChain.afterOpen s g tre k eidx tree rc = some r) :
    r.chain.fFriendLockStatus = s.fFriendLockStatus ∧ r.chain.fNotify = s.fNotify := by
  unfold TChain.afterOpen at h
  cases hrep : TChain.repair
      { s with fTree := tree, fFile := tree.isSome, fTreeNumber := (k : Int) } g tre k eidx
      (TChain.entriesOf tree) rc with
  | none => simp [hrep] at h
  | some res =>
    obtain ⟨s2, tre2, again⟩ := res
    simp only [hrep] at h
    obtain ⟨a, b, ha, hb, hcase⟩ := repair_cases _ g tre k eidx _ rc _ hrep
    have h2 : s2.fFriendLockStatus = s.fFriendLockStatus ∧ s2.fNotify = s.fNotify := by
      rcases hcase with ⟨_, hres⟩ | ⟨_, total, _, hres | hres | hres⟩
      · cases hres; exact ⟨rfl, rfl⟩
      · cases hres.1; exact ⟨rfl, rfl⟩
      · cases hres.1; exact ⟨rfl, rfl⟩
      · cases hres.1; exact ⟨rfl, rfl⟩
    cases again with
    | true =>
      simp only at h
      split_ifs at h <;> cases h <;> exact h2
    | false =>
      simp only [Option.some.injEq] at h
      subst h
      have h3 := finishSwitch_lock s2 g tre2 eidx rc
      exact ⟨h3.1.trans h2.1, h3.2.trans h2.2⟩

/-- A pass of `LoadTree` leaves the friend lock and the notifier as they are. -/
theorem LoadTreeStep_lock (E : Env) (s : TChain) (g : Int) (r : TChain.Step)
    (h : TChain.LoadTreeStep E s g = some r) :
    r.chain.fFriendLockStatus = s.fFriendLockStatus ∧ r.chain.fNotify = s.fNotify := by
  rcases LoadTreeStep_cases E s g r h with ⟨_, hr⟩ | ⟨_, _, hr⟩ | ⟨_, _, _, hr⟩ |
    ⟨_, _, _, k, a, _, ha, hrest⟩
  · subst hr; exact ⟨rfl, rfl⟩
  · subst hr; exact ⟨rfl, rfl⟩
  · subst hr; exact ⟨rfl, rfl⟩
  · rcases hrest with ⟨t, _, _, hsame⟩ | ⟨_, ⟨_, _, hr⟩ | ⟨eidx, e, he, hidx, hopen⟩⟩
    · exact sameTree_lock { s with fReadEntry := g } t g _ r hsame
    · subst hr
      simp [TChain.Step.chain]
    · have := afterOpen_lock _ g _ k eidx _ _ r hopen
      simpa using this

/-- A pass of `LoadTree` leaves the number of assigned slots as it is. -/
theorem LoadTreeStep_slots (E : Env) (s : TChain) (g : Int) (r : TChain.Step)
    (h : TChain.LoadTreeStep E s g = some r) :
    r.chain.fNtrees = s.fNtrees ∧ r.chain.fTreeOffset.length = s.fTreeOffset.length := by
  obtain ⟨h1, _, hoff⟩ := LoadTreeStep_frame E s g r h
  refine ⟨h1, ?_⟩
  rcases hoff with ⟨h2, _⟩ | ⟨k, a, b, n, _, _, _, _, h2, _⟩
  · rw [h2]
  · rw [h2, List.length_set]

theorem offsetSet_slots (off off1 : List Int) (i : Nat) (v : Int)
    (h : TChain.offsetSet off (i + 1) v = some off1) (hi : i < off.length) :
    i + 1 < off1.length := by
  unfold TChain.offsetSet at h
  split_ifs at h with h1 h2
  · cases h; simpa using h1
  · cases h; simp; omega

theorem connect_shaped (E : Env) (s s1 : TChain) (treename filename : String) (n pksize : Int)
    (h : TChain.connect E s treename filename n pksize = some s1) (hs : Shaped s) :
    Shaped s1 := by
  obtain ⟨hl, hN, hF⟩ := hs
  unfold TChain.connect at h
  split_ifs at h with h1 h2
  · cases ha : TChain.offsetAt s.fTreeOffset (s.fNtrees : Int) with
    | none => simp [ha] at h
    | some last =>
      simp only [ha] at h
      cases ho : TChain.offsetSet s.fTreeOffset (s.fNtrees + 1) (last + n) with
      | none => simp [ho] at h
      | some off =>
        simp only [ho, Option.some.injEq] at h
        subst h
        exact ⟨hl, offsetSet_slots _ _ _ _ ho hN, by simp [hF]⟩
  · cases ho : TChain.offsetSet s.fTreeOffset (s.fNtrees + 1) E.kMaxEntries with
    | none => simp [ho] at h
    | some off =>
      simp only [ho, Option.some.injEq] at h
      subst h
      exact ⟨hl, offsetSet_slots _ _ _ _ ho hN, by simp [hF]⟩
  · cases h; exact ⟨hl, hN, hF⟩

theorem AddFile_shaped (E : Env) (s : TChain) (name : String) (n : Int) (tname : String)
    (r : Int) (s1 : TChain) (h : TChain.AddFile E s name n tname = some (r, s1))
    (hs : Shaped s) : Shaped s1 := by
  unfold TChain.AddFile at h
  by_cases hname : name = ""
  · simp only [hname, if_true, Option.some.injEq, Prod.mk.injEq] at h
    rw [← h.2]; exact hs
  · simp only [hname, if_false] at h
    generalize (E.ParseTreeFilename name).basename ++ (E.ParseTreeFilename name).query
      = filename at h
    generalize (if (E.ParseTreeFilename name).treename = "" then
      (if tname.length > 0 then tname else s.fName)
      else (E.ParseTreeFilename name).treename) = treename at h
    have hs1 : Shaped { s with opens := s.opens ++ [filename] } := hs
    by_cases hn : n ≤ 0
    · simp only [hn, if_true] at h
      cases hO : E.Open filename with
      | none =>
        simp only [hO, Option.some.injEq, Prod.mk.injEq] at h
        rw [← h.2]; exact hs1
      | some f =>
        simp only [hO] at h
        cases hG : f.Get treename with
        | none =>
          simp only [hG, Option.some.injEq, Prod.mk.injEq] at h
          rw [← h.2]; exact hs1
        | some t =>
          simp only [hG] at h
          cases hc : TChain.connect E { s with opens := s.opens ++ [filename] } treename filename
              (t.fEntries : Int) t.fPacketSize with
          | none => simp [hc] at h
          | some s2 =>
            simp only [hc, Option.some.injEq, Prod.mk.injEq] at h
            rw [← h.2]
            exact connect_shaped E { s with opens := s.opens ++ [filename] } _ _ _ _ _ hc hs1
    · simp only [hn, if_false] at h
      cases hc : TChain.connect E s treename filename n 0 with
      | none => simp [hc] at h
      | some s2 =>
        simp only [hc, Option.some.injEq, Prod.mk.injEq] at h
        rw [← h.2]
        exact connect_shaped E _ _ _ _ _ _ hc hs

theorem addElements_shaped (E : Env) :
    ∀ (els : List TChainElement) (s : TChain) (nf nf1 : Nat) (s1 : TChain),
      TChain.addElements E els s nf = some (nf1, s1) → Shaped s → Shaped s1
  | [], s, nf, nf1, s1, h, hs => by
    simp only [TChain.addElements, Option.some.injEq, Prod.mk.injEq] at h
    rw [← h.2]; exact hs
  | el :: rest, s, nf, nf1, s1, h, hs => by
    unfold TChain.addElements at h
    simp only at h
    cases ha : TChain.offsetAt s.fTreeOffset (s.fNtrees : Int) with
    | none => simp [ha] at h
    | some last =>
      simp only [ha] at h
      cases ho : TChain.offsetSet s.fTreeOffset (s.fNtrees + 1)
          (if last = E.kMaxEntries then E.kMaxEntries else last + el.fEntries) with
      | none => simp [ho] at h
      | some off =>
        simp only [ho] at h
        refine addElements_shaped E rest _ _ _ _ h ?_
        exact ⟨hs.1, offsetSet_slots _ _ _ _ ho hs.2.1, by simp [hs.2.2]⟩

theorem LoadTreeStep_shaped (E : Env) (s : TChain) (g : Int) (r : TChain.Step)
    (hs : Shaped s) (h : TChain.LoadTreeStep E s g = some r) : Shaped r.chain := by
  obtain ⟨h1, h2⟩ := LoadTreeStep_slots E s g r h
  obtain ⟨_, h3, _⟩ := LoadTreeStep_frame E s g r h
  refine ⟨(LoadTreeStep_lock E s g r h).1.trans hs.1, by rw [h1, h2]; exact hs.2.1, ?_⟩
  rw [h3.1, h1]; exact hs.2.2

theorem LoadTree_shaped (E : Env) (s : TChain) (g ret : Int) (s1 : TChain)
    (hs : Shaped s) (h : TChain.LoadTree E s g = some (ret, s1)) : Shaped s1 :=
  LoadTreeAux_preserves E Shaped (fun c g1 r hc hr => LoadTreeStep_shaped E c g1 r hc hr)
    g _ s ret s1 hs h

theorem GetEntries_shaped (E : Env) (s : TChain) (ret : Int) (s1 : TChain)
    (hs : Shaped s) (h : TChain.GetEntries E s = some (ret, s1)) : Shaped s1 :=
  GetEntries_preserves E Shaped
    (fun c g r c1 hc hl => LoadTree_shaped E c g r c1 hc hl) (fun _ hc => hc) (fun _ _ hc => hc)
    s ret s1 hs h

theorem Reset_shaped (s : TChain) (hs : Shaped s) : Shaped (TChain.Reset s) := by
  refine ⟨hs.1, ?_, rfl⟩
  unfold TChain.Reset
  cases s.fTreeOffset <;> simp

theorem Add_shaped (E : Env) (s other : TChain) (nf : Nat) (s1 other1 : TChain)
    (h : TChain.Add E s other = some (nf, s1, other1)) (hs : Shaped s) : Shaped s1 := by
  unfold TChain.Add at h
  cases hg : TChain.GetEntries E other with
  | none => simp [hg] at h
  | some res =>
    obtain ⟨r0, o1⟩ := res
    simp only [hg] at h
    cases ha : TChain.addElements E o1.fFiles s 0 with
    | none => simp [ha] at h
    | some res2 =>
      obtain ⟨nf2, s2⟩ := res2
      simp only [ha, Option.some.injEq, Prod.mk.injEq] at h
      rw [← h.2.1]
      exact addElements_shaped E _ _ _ _ _ ha hs

/-- Every state a chain can reach has the shape. -/
theorem Reachable.shaped {E : Env} {s : TChain} (h : Reachable E s) : Shaped s := by
  induction h with
  | init name => exact ⟨rfl, by simp [TChain.init], rfl⟩
  | addFile name n tname r s1 _ hadd ih => exact AddFile_shaped E _ name n tname r s1 hadd ih
  | add nf s1 other1 _ _ hadd ih _ => exact Add_shaped E _ _ nf s1 other1 hadd ih
  | loadTree g r s1 _ hl ih => exact LoadTree_shaped E _ g r s1 ih hl
  | getEntries r s1 _ hg ih => exact GetEntries_shaped E _ r s1 ih hg
  | reset _ ih => exact Reset_shaped _ ih

/-! ## The empty chain -/

/-- C11. In every state a chain can reach by `AddFile`, `Add(TChain*)`, `LoadTree`,
`GetEntries` and `Reset`, when the chain has no tree (`fNtrees = 0`), `LoadTree(g)`
returns `-1` for every `g` and changes no state. -/
theorem LoadTree_on_empty_chain (E : Env) (s : TChain) (g : Int)
    (hr : Reachable E s) (hn : s.fNtrees = 0) :
    TChain.LoadTree E s g = some (-1, s) := by
  unfold TChain.LoadTree TChain.LoadTreeAux
  rw [LoadTreeStep_empty E s g hr.shaped.1 hn]

/-- A chain to which nothing has been added. -/
theorem LoadTree_on_empty_chain_witness :
    TChain.LoadTree envA (TChain.init "T") 5 = some (-1, TChain.init "T") :=
  LoadTree_on_empty_chain envA (TChain.init "T") 5 (Reachable.init "T") rfl

/-- The guard of the friend lock comes first: while the lock is held, `LoadTree`
returns 0 whatever the number of trees. -/
theorem LoadTree_locked (E : Env) (s : TChain) (g : Int)
    (hlock : s.fFriendLockStatus = true) : TChain.LoadTree E s g = some (0, s) := by
  unfold TChain.LoadTree TChain.LoadTreeAux
  rw [LoadTreeStep_locked E s g hlock]

/-! ## `AddFile` with a count -/

theorem offsetSet_spec (off : List Int) (i : Nat) (v : Int) (hi : i < off.length) :
    ∃ off1, TChain.offsetSet off (i + 1) v = some off1 ∧ off1[i + 1]? = some v ∧
      ∀ j, j ≤ i → off1[j]? = off[j]? := by
  unfold TChain.offsetSet
  by_cases h1 : i + 1 < off.length
  · refine ⟨off.set (i + 1) v, by simp [h1], by simp [h1], ?_⟩
    intro j hj
    rw [List.getElem?_set_ne (by omega)]
  · have h2 : i + 1 = off.length := by omega
    refine ⟨off ++ [v], by simp [h1, h2], ?_, ?_⟩
    · rw [h2]; simp
    · intro j hj
      rw [List.getElem?_append_left (by omega)]

theorem Long64.wrap_of_fits (x : Int) (h : Long64.fits x) : Long64.wrap x = x := by
  unfold Long64.fits at h
  unfold Long64.wrap
  omega

theorem Long64.fits_wrap (x : Int) : Long64.fits (Long64.wrap x) := by
  unfold Long64.fits Long64.wrap
  omega

/-- Where the two sums fit in a `Long64_t`, or none is taken, the block of `AddFile` does
the same with sums in `Long64_t` as with sums over the integers. -/
theorem connect64_eq (E : Env) (s : TChain) (treename filename : String) (n pksize : Int)
    (h : n = E.kMaxEntries ∨ n ≤ 0 ∨
      (Long64.fits (s.fEntries + n) ∧
        ∀ last, s.fTreeOffset[s.fNtrees]? = some last → Long64.fits (last + n))) :
    TChain.connect64 E s treename filename n pksize
      = TChain.connect E s treename filename n pksize := by
  unfold TChain.connect64 TChain.connect
  by_cases hn : 0 < n
  · by_cases hk : n = E.kMaxEntries
    · simp [hn, hk]
    · rcases h with h | h | ⟨h1, h2⟩
      · exact absurd h hk
      · omega
      · simp only [hn, if_true, ne_eq, hk, not_false_eq_true, Long64.wrap_of_fits _ h1]
        cases ha : TChain.offsetAt s.fTreeOffset (s.fNtrees : Int) with
        | none => rfl
        | some last =>
          rw [offsetAt_nat] at ha
          simp only [Long64.wrap_of_fits _ (h2 last ha)]
  · simp [hn]

/-- C14 (as amended). In every state in which the slot `fTreeOffset[fNtrees]` is assigned
(`Reachable.shaped`: every state the operations lead to), `AddFile(name, n)` with a non-empty
name and `n > 0` opens no file, returns 1 and appends one element recording the
count `n`: `fNtrees` grows by one, the boundaries up to `fTreeOffset[fNtrees]` stay as they
are and nothing else changes but the new boundary and the total.  For
`n = kMaxEntries` the new boundary and the total both become `kMaxEntries`.  For another `n`
the new boundary is the last boundary plus `n` when that sum fits in a `Long64_t`,
and the total grows by `n` when that sum fits; a sum that does not fit is
stored reduced modulo `2^64`.  Where both sums fit the embedding of `AddFile` over
the integers gives the same. -/
theorem AddFile_appends_descriptor (E : Env) (s : TChain) (name : String) (n : Int)
    (tname : String) (hN : s.fNtrees < s.fTreeOffset.length) (hname : name ≠ "") (hn : 0 < n) :
    ∃ s1 e, TChain.AddFile64 E s name n tname = some (1, s1) ∧
      s1 = { s with fTreeOffset := s1.fTreeOffset, fEntries := s1.fEntries,
                    fNtrees := s.fNtrees + 1, fFiles := s.fFiles ++ [e] } ∧
      e.fEntries = n ∧
      e.fTitle = (E.ParseTreeFilename name).basename ++ (E.ParseTreeFilename name).query ∧
      (∀ i, i ≤ s.fNtrees → s1.fTreeOffset[i]? = s.fTreeOffset[i]?) ∧
      (n = E.kMaxEntries →
        s1.fTreeOffset[s.fNtrees + 1]? = some E.kMaxEntries ∧ s1.fEntries = E.kMaxEntries ∧
        TChain.AddFile E s name n tname = some (1, s1)) ∧
      (n ≠ E.kMaxEntries → ∃ last, s.fTreeOffset[s.fNtrees]? = some last ∧
        s1.fTreeOffset[s.fNtrees + 1]? = some (Long64.wrap (last + n)) ∧
        s1.fEntries = Long64.wrap (s.fEntries + n) ∧
        (Long64.fits (last + n) → s1.fTreeOffset[s.fNtrees + 1]? = some (last + n)) ∧
        (Long64.fits (s.fEntries + n) → s1.fEntries = s.fEntries + n) ∧
        (Long64.fits (last + n) → Long64.fits (s.fEntries + n) →
          TChain.AddFile E s name n tname = some (1, s1))) := by
  have hn2 : ¬ n ≤ 0 := by omega
  obtain ⟨last, hlast⟩ : ∃ last, s.fTreeOffset[s.fNtrees]? = some last :=
    ⟨_, List.getElem?_eq_getElem hN⟩
  obtain ⟨el, hel⟩ : ∃ el : TChainElement, el =
      { fName := if (E.ParseTreeFilename name).treename = "" then
          (if tname.length > 0 then tname else s.fName)
          else (E.ParseTreeFilename name).treename,
        fTitle := (E.ParseTreeFilename name).basename ++ (E.ParseTreeFilename name).query,
        fEntries := n, fPacketSize := 0, fLoadResult := 0 } := ⟨_, rfl⟩
  have he1 : el.fEntries = n := by rw [hel]
  have he2 : el.fTitle
      = (E.ParseTreeFilename name).basename ++ (E.ParseTreeFilename name).query := by rw [hel]
  by_cases hk : n = E.kMaxEntries
  · subst hk
    obtain ⟨off1, ho, hv, hkeep⟩ := offsetSet_spec s.fTreeOffset s.fNtrees E.kMaxEntries hN
    refine ⟨{ s with fTreeOffset := off1, fEntries := E.kMaxEntries, fNtrees := s.fNtrees + 1,
                     fFiles := s.fFiles ++ [el] }, el, ?_, ?_, ?_, ?_, hkeep, ?_, ?_⟩
    · simp only [TChain.AddFile64, hname, if_false, hn2, TChain.connect64, hn, if_true,
        ne_eq, not_true_eq_false, ho, hel]
    · rfl
    · exact he1
    · exact he2
    · intro _
      refine ⟨hv, rfl, ?_⟩
      simp only [TChain.AddFile, hname, if_false, hn2, TChain.connect, hn, if_true,
        ne_eq, not_true_eq_false, ho, hel]
    · intro h; exact absurd rfl h
  · obtain ⟨off1, ho, hv, hkeep⟩ :=
      offsetSet_spec s.fTreeOffset s.fNtrees (Long64.wrap (last + n)) hN
    refine ⟨{ s with fTreeOffset := off1, fEntries := Long64.wrap (s.fEntries + n),
                     fNtrees := s.fNtrees + 1,
                     fFiles := s.fFiles ++ [el] }, el, ?_, ?_, ?_, ?_, hkeep, ?_, ?_⟩
    · simp only [TChain.AddFile64, hname, if_false, hn2, TChain.connect64, hn, if_true, hk,
        ne_eq, not_false_eq_true, offsetAt_nat, hlast, ho, hel]
    · rfl
    · exact he1
    · exact he2
    · intro h; exact absurd h hk
    · intro _
      refine ⟨last, hlast, hv, rfl, ?_, ?_, ?_⟩
      · intro hf; rw [hv, Long64.wrap_of_fits _ hf]
      · intro hf; exact Long64.wrap_of_fits _ hf
      · intro hf1 hf2
        rw [Long64.wrap_of_fits _ hf1] at ho
        simp only [TChain.AddFile, hname, if_false, hn2, TChain.connect, hn, if_true, hk,
          ne_eq, not_false_eq_true, offsetAt_nat, hlast, ho, hel, Long64.wrap_of_fits _ hf2]

/-- Scenario A: the second `AddFile` of the chain, with a concrete count. -/
theorem AddFile_appends_descriptor_witness :
    ∃ s1 e, TChain.AddFile64 envA chainP "p1.root" 2 "" = some (1, s1) ∧
      s1 = { chainP with fTreeOffset := s1.fTreeOffset, fEntries := s1.fEntries,
                         fNtrees := chainP.fNtrees + 1, fFiles := chainP.fFiles ++ [e] } ∧
      e.fEntries = 2 ∧
      e.fTitle = (envA.ParseTreeFilename "p1.root").basename
        ++ (envA.ParseTreeFilename "p1.root").query ∧
      (∀ i, i ≤ chainP.fNtrees → s1.fTreeOffset[i]? = chainP.fTreeOffset[i]?) ∧
      (2 = envA.kMaxEntries →
        s1.fTreeOffset[chainP.fNtrees + 1]? = some envA.kMaxEntries ∧
          s1.fEntries = envA.kMaxEntries ∧
          TChain.AddFile envA chainP "p1.root" 2 "" = some (1, s1)) ∧
      (2 ≠ envA.kMaxEntries → ∃ last, chainP.fTreeOffset[chainP.fNtrees]? = some last ∧
        s1.fTreeOffset[chainP.fNtrees + 1]? = some (Long64.wrap (last + 2)) ∧
        s1.fEntries = Long64.wrap (chainP.fEntries + 2) ∧
        (Long64.fits (last + 2) → s1.fTreeOffset[chainP.fNtrees + 1]? = some (last + 2)) ∧
        (Long64.fits (chainP.fEntries + 2) → s1.fEntries = chainP.fEntries + 2) ∧
        (Long64.fits (last + 2) → Long64.fits (chainP.fEntries + 2) →
          TChain.AddFile envA chainP "p1.root" 2 "" = some (1, s1))) :=
  AddFile_appends_descriptor envA chainP "p1.root" 2 "" (by decide) (by decide) (by decide)

/-- C14, as stated, fails where a sum leaves the range of `Long64_t`: after
`AddFile("p0.root", 9223372036854775807)` the last boundary and the total are `2^63 - 1`; `AddFile("p1.root", 1)`
returns 1 and stores `-2^63` as the new last boundary and as the total, not the
last boundary plus 1. -/
theorem AddFile_sum_leaves_Long64 :
    ((TChain.AddFile64 envA (TChain.init "T") "p0.root" 9223372036854775807 "").bind fun r =>
      (TChain.AddFile64 envA r.2 "p1.root" 1 "").map fun r1 =>
        (r.2.fTreeOffset, r.2.fEntries, r1.1, r1.2.fTreeOffset, r1.2.fEntries))
      = some ([0, 9223372036854775807], 9223372036854775807, 1,
              [0, 9223372036854775807, -9223372036854775808], -9223372036854775808) ∧
    ¬ Long64.fits (9223372036854775807 + 1) := by
  refine ⟨by decide, ?_⟩
  unfold Long64.fits
  omega

/-! ## `AddFile` without a name -/

/-- C15. `AddFile` with no file name (a null pointer or an empty string, both
represented by the empty string) returns 0 and leaves the chain as it is:
`fNtrees`, the boundaries, the total and the list of elements are unchanged. -/
theorem AddFile_rejects_empty_name (E : Env) (s : TChain) (n : Int) (tname : String) :
    TChain.AddFile E s "" n tname = some (0, s) := by
  simp [TChain.AddFile]

/-! ## `Add(TChain*)` -/

/-- The loop of `Add(TChain*)` appends one element per element of the other
chain, with the same tree name, file name, count and packet size, and leaves
the boundaries of this chain as they are. -/
theorem addElements_spec (E : Env) :
    ∀ (els : List TChainElement) (s : TChain) (nf nf1 : Nat) (s1 : TChain),
      TChain.addElements E els s nf = some (nf1, s1) →
      nf1 = nf + els.length ∧ s1.fNtrees = s.fNtrees + els.length ∧
        s1.fFiles = s.fFiles ++ els.map (fun e => { e with fLoadResult := 0 }) ∧
        s1.opens = s.opens ∧
        (s.fNtrees < s.fTreeOffset.length →
          ∀ i, i ≤ s.fNtrees → s1.fTreeOffset[i]? = s.fTreeOffset[i]?)
  | [], s, nf, nf1, s1, h => by
    simp only [TChain.addElements, Option.some.injEq, Prod.mk.injEq] at h
    rw [← h.1, ← h.2]
    simp
  | el :: rest, s, nf, nf1, s1, h => by
    unfold TChain.addElements at h
    simp only at h
    cases ha : TChain.offsetAt s.fTreeOffset (s.fNtrees : Int) with
    | none => simp [ha] at h
    | some last =>
      simp only [ha] at h
      cases ho : TChain.offsetSet s.fTreeOffset (s.fNtrees + 1)
          (if last = E.kMaxEntries then E.kMaxEntries else last + el.fEntries) with
      | none => simp [ho] at h
      | some off =>
        simp only [ho] at h
        obtain ⟨h1, h2, h3, h4, h5⟩ := addElements_spec E rest _ _ _ _ h
        simp only at h2 h3 h4 h5
        refine ⟨by rw [h1]; simp; omega, by rw [h2]; simp; omega, by rw [h3]; simp, h4, ?_⟩
        intro hN i hi
        obtain ⟨off2, ho2, _, hkeep⟩ := offsetSet_spec s.fTreeOffset s.fNtrees
          (if last = E.kMaxEntries then E.kMaxEntries else last + el.fEntries) hN
        rw [ho] at ho2
        cases ho2
        rw [h5 (offsetSet_slots _ _ _ _ ho hN) i (by omega)]
        exact hkeep i hi

/-- What `Add(TChain*)` does: the other chain runs `GetEntries()`, then one element
is appended per element of the other chain as it stands after that call, in
the same order, with the same tree name, file name, recorded count and packet
size; the number of elements is returned, and the elements and boundaries
that this chain had are unchanged.  A null pointer adds nothing. -/
theorem AddPointer_spec (E : Env) (s : TChain) (chain : Option TChain) (nf : Nat)
    (s1 : TChain) (chain1 : Option TChain)
    (h : TChain.AddPointer E s chain = some (nf, s1, chain1)) :
    (chain = none → nf = 0 ∧ s1 = s ∧ chain1 = none) ∧
    (∀ other, chain = some other → ∃ ret other1, chain1 = some other1 ∧
      TChain.GetEntries E other = some (ret, other1) ∧
      nf = other1.fFiles.length ∧ s1.fNtrees = s.fNtrees + nf ∧
      s1.fFiles = s.fFiles ++ other1.fFiles.map (fun e => { e with fLoadResult := 0 }) ∧
      (s.fNtrees < s.fTreeOffset.length →
        ∀ i, i ≤ s.fNtrees → s1.fTreeOffset[i]? = s.fTreeOffset[i]?)) := by
  cases chain with
  | none =>
    simp only [TChain.AddPointer, Option.some.injEq, Prod.mk.injEq] at h
    refine ⟨fun _ => ⟨h.1.symm, h.2.1.symm, h.2.2.symm⟩, ?_⟩
    intro other ho; cases ho
  | some other =>
    refine ⟨fun hc => (by cases hc), ?_⟩
    intro o ho
    cases ho
    unfold TChain.AddPointer TChain.Add at h
    simp only at h
    cases hg : TChain.GetEntries E other with
    | none => simp [hg] at h
    | some res =>
      obtain ⟨r0, o1⟩ := res
      simp only [hg] at h
      cases ha : TChain.addElements E o1.fFiles s 0 with
      | none => simp [ha] at h
      | some res2 =>
        obtain ⟨nf2, s2⟩ := res2
        simp only [ha, Option.some.injEq, Prod.mk.injEq] at h
        obtain ⟨h1, h2, h3, _, h5⟩ := addElements_spec E _ _ _ _ _ ha
        obtain ⟨e1, e2, e3⟩ := h
        subst e1 e2 e3
        exact ⟨r0, o1, rfl, rfl, by omega, by rw [h2]; omega, h3, h5⟩

/-- C16 at its failing input: the other chain is the chain of `AddFile("p0.root")`
(count unknown, 3 entries in the file) and `AddFile("p1.root", 2)`; its total is
`kMaxEntries + 2`, so its `GetEntries()` opens nothing, and `Add` copies the count
`kMaxEntries` for `p0.root` instead of the 3 entries the file holds. -/
theorem Add_copies_unresolved_count :
    (TChain.AddPointer envA (TChain.init "T") (some chainA)).map
        (fun r => (r.1, r.2.1.fFiles.map (fun e => (e.fTitle, e.fEntries)),
          r.2.1.fTreeOffset, r.2.2.map (fun o => o.opens)))
      = some (2, [("p0.root", 1000000000000), ("p1.root", 2)],
          [0, 1000000000000, 1000000000000], some []) ∧
      chainA.fFiles.map (trueCount envA) = [3, 2] ∧
      TChain.AddPointer envA (TChain.init "T") none = some (0, TChain.init "T", none) :=
  ⟨by decide, by decide, by decide⟩

/-! ## Boundaries after an unknown one -/

/-- C17 at its failing input: after `AddFile("p0.root")` (count unknown) and
`AddFile("p1.root", 2)` the boundary `fTreeOffset[1]` is `kMaxEntries` and the later
boundary `fTreeOffset[2]` is `kMaxEntries + 2`, where `Add(TChain*)`, given the same
chain and a chain of `p1.root` with 2 entries, writes `kMaxEntries`. -/
theorem AddFile_adds_to_the_sentinel :
    (addFiles envA (TChain.init "T") [("p0.root", 1000000000000, ""), ("p1.root", 2, "")]).map
        (fun s => s.fTreeOffset) = some [0, envA.kMaxEntries, envA.kMaxEntries + 2] ∧
      ((addFiles envA (TChain.init "T") [("p0.root", 1000000000000, "")]).bind fun s =>
        (addFiles envA (TChain.init "T") [("p1.root", 2, "")]).bind fun o =>
          (TChain.Add envA s o).map fun r => r.2.1.fTreeOffset)
        = some [0, envA.kMaxEntries, envA.kMaxEntries] := by
  decide

theorem NonDecreasing.le {s : TChain} (h : NonDecreasing s) :
    ∀ (j i : Nat) (a b : Int), i ≤ j → j ≤ s.fNtrees →
      s.fTreeOffset[i]? = some a → s.fTreeOffset[j]? = some b → a ≤ b := by
  intro j
  induction j with
  | zero =>
    intro i a b hij _ ha hb
    have : i = 0 := by omega
    subst this
    rw [ha] at hb
    have := Option.some.inj hb
    omega
  | succ n ih =>
    intro i a b hij hj ha hb
    rcases Nat.eq_or_lt_of_le hij with h1 | h1
    · subst h1
      rw [ha] at hb
      have := Option.some.inj hb
      omega
    · obtain ⟨c, d, hc, hd, hcd⟩ := h n (by omega)
      rw [hb] at hd
      have hbd := Option.some.inj hd
      have := ih i a c (by omega) (by omega) ha hc
      omega

/-- When every `AddFile` and `Add(TChain*)` call leaves room for the entries that
the trees really hold, a boundary that equals `kMaxEntries` is followed by
boundaries of at least `kMaxEntries`. -/
theorem ReachableWithRoom.afterSentinel {E : Env} {s : TChain} (h : ReachableWithRoom E s)
    (i j : Nat) (hij : i < j) (hj : j ≤ s.fNtrees)
    (hi : s.fTreeOffset[i]? = some E.kMaxEntries) :
    ∃ v, s.fTreeOffset[j]? = some v ∧ E.kMaxEntries ≤ v := by
  have hnd := h.room.nonDecreasing
  obtain ⟨j0, hj0⟩ : ∃ j0, j = j0 + 1 := ⟨j - 1, by omega⟩
  subst hj0
  obtain ⟨c, d, _, hd, _⟩ := hnd j0 (by omega)
  exact ⟨d, hd, hnd.le (j0 + 1) i _ _ (by omega) hj hi hd⟩

/-! ## The pass that tries the next tree -/

/-- The path of the current tree never asks for another pass. -/
theorem sameTree_done (s : TChain) (t : TTree) (g tre : Int) (r : TChain.Step)
    (h : TChain.sameTree s t g tre = some r) :
    ∃ ret s1, r = Step.done ret s1 ∧ (ret = tre ∨ ret = -6) := by
  unfold TChain.sameTree at h
  simp only at h
  split_ifs at h <;> cases h <;>
    first
      | exact ⟨_, _, rfl, Or.inl rfl⟩
      | exact ⟨_, _, rfl, Or.inr rfl⟩

/-- The check of the offset table asks for the next tree only after it has
rewritten the slot of the selected tree to a value at or below the entry,
while the slot after it lies above the entry. -/
theorem repair_next (s : TChain) (g tre : Int) (k eidx : Nat) (n rc : Int)
    (s2 : TChain) (tre2 : Int)
    (h : TChain.repair s g tre k eidx n rc = some (s2, tre2, true)) :
    ∃ a c total, s.fTreeOffset[k]? = some a ∧ a + n ≤ g ∧ k + 1 < s.fNtrees ∧
      k + 1 < s.fTreeOffset.length ∧
      s.fTreeOffset[k + 2]? = some c ∧ g < c ∧
      s2 = { s with fTreeOffset := s.fTreeOffset.set (k + 1) (a + n), fEntries := total,
                    fFiles := TChain.setLoadResult
                      (TChain.setNumberEntries s.fFiles eidx n) eidx rc } := by
  unfold TChain.repair at h
  rw [offsetAt_nat, offsetAt_nat_succ] at h
  cases ha : s.fTreeOffset[k]? with
  | none => simp [ha] at h
  | some a =>
    cases hb : s.fTreeOffset[k + 1]? with
    | none => simp [ha, hb] at h
    | some b =>
      simp only [ha, hb] at h
      have hlen : k + 1 < s.fTreeOffset.length := by
        rcases Nat.lt_or_ge (k + 1) s.fTreeOffset.length with h1 | h1
        · exact h1
        · rw [List.getElem?_eq_none h1] at hb; cases hb
      by_cases hne : b = a + n
      · simp [hne] at h
      · simp only [ne_eq, hne, not_false_eq_true, if_true, offsetAt_nat] at h
        cases htot : (s.fTreeOffset.set (k + 1) (a + n))[s.fNtrees]? with
        | none => simp [htot] at h
        | some total =>
          simp only [htot] at h
          by_cases hg : g ≥ a + n
          · simp only [hg, if_true] at h
            by_cases hk : (k : Int) < (s.fNtrees : Int) - 1
            · simp only [hk, if_true, offsetAt_nat_succ2] at h
              cases hc : (s.fTreeOffset.set (k + 1) (a + n))[k + 2]? with
              | none => simp [hc] at h
              | some c =>
                simp only [hc] at h
                by_cases hgc : g < c
                · simp only [hgc, if_true, Option.some.injEq, Prod.mk.injEq, and_true] at h
                  rw [List.getElem?_set_ne (by omega)] at hc
                  exact ⟨a, c, total, rfl, hg, by omega, hlen, hc, hgc, h.1.symm⟩
                · simp [hgc] at h
            · simp [hk] at h
          · simp [hg] at h

/-- The end of a switch never asks for another pass. -/
theorem finishSwitch_done (s : TChain) (g tre : Int) (eidx : Nat) (rc : Int) :
    ∃ ret s1, TChain.finishSwitch s g tre eidx rc = Step.done ret s1 := by
  unfold TChain.finishSwitch
  cases s.fTree with
  | none => exact ⟨_, _, rfl⟩
  | some t =>
    simp only
    split_ifs <;> exact ⟨_, _, rfl⟩

/-- The part of a pass after `TFile::Open` ends in the recursive call only in
the way `repair_next` describes. -/
theorem afterOpen_retry (s : TChain) (g tre : Int) (k eidx : Nat)
    (tree : Option TTree) (rc : Int) (s1 : TChain)
    (h : TChain.afterOpen s g tre k eidx tree rc = some (Step.retry s1)) :
    ∃ a c total, s.fTreeOffset[k]? = some a ∧ a + TChain.entriesOf tree ≤ g ∧
      k + 1 < s.fNtrees ∧ k + 1 < s.fTreeOffset.length ∧
      s.fTreeOffset[k + 2]? = some c ∧ g < c ∧
      s1 = { s with fTree := tree, fFile := tree.isSome, fTreeNumber := (k : Int),
                    fTreeOffset := s.fTreeOffset.set (k + 1) (a + TChain.entriesOf tree),
                    fEntries := total,
                    fFiles := TChain.setLoadResult
                      (TChain.setNumberEntries s.fFiles eidx (TChain.entriesOf tree)) eidx rc } := by
  unfold TChain.afterOpen at h
  cases hrep : TChain.repair
      { s with fTree := tree, fFile := tree.isSome, fTreeNumber := (k : Int) } g tre k eidx
      (TChain.entriesOf tree) rc with
  | none => simp [hrep] at h
  | some res =>
    obtain ⟨s2, tre2, again⟩ := res
    simp only [hrep] at h
    cases again with
    | false =>
      simp only [Option.some.injEq] at h
      obtain ⟨ret, s3, hf⟩ := finishSwitch_done s2 g tre2 eidx rc
      rw [hf] at h
      cases h
    | true =>
      simp only at h
      obtain ⟨a2, c, total, ha2, hle, hk, hlen, hc, hgc, hs2⟩ :=
        repair_next _ g _ k eidx _ _ s2 tre2 hrep
      split_ifs at h with hnot
      · cases h
      · simp only [Option.some.injEq, TChain.Step.retry.injEq] at h
        subst h
        exact ⟨a2, c, total, ha2, hle, hk, hlen, hc, hgc, hs2⟩

/-- A pass of `LoadTree` that ends in the recursive call: the file of the
selected tree `k` has been opened, the slot `fTreeOffset[k+1]` has been rewritten
to a value at or below the entry, the entry lies below `fTreeOffset[k+2]`, and
`k` is not the last tree. -/
theorem LoadTreeStep_retry (E : Env) (s : TChain) (g : Int) (s1 : TChain)
    (h : TChain.LoadTreeStep E s g = some (Step.retry s1)) :
    ∃ (k : Nat) (v c : Int), TChain.locate E s g = some k ∧
      (s.fTreeNumber ≠ (k : Int) ∨ s.fTree = none) ∧
      s.fFriendLockStatus = false ∧ s1.fFriendLockStatus = false ∧
      s1.fNtrees = s.fNtrees ∧ s1.fStatus = s.fStatus ∧ s1.fNotify = s.fNotify ∧
      s1.fTreeNumber = (k : Int) ∧ k + 1 < s.fNtrees ∧ k + 1 < s.fTreeOffset.length ∧
      s1.fTreeOffset = s.fTreeOffset.set (k + 1) v ∧ v ≤ g ∧
      s.fTreeOffset[k + 2]? = some c ∧ g < c ∧
      ∃ title, s1.opens = s.opens ++ [title] := by
  rcases LoadTreeStep_cases E s g _ h with ⟨_, hr⟩ | ⟨_, _, hr⟩ | ⟨_, _, _, hr⟩ |
    ⟨hlock, _, _, k, a, hloc, ha, hrest⟩
  · cases hr
  · cases hr
  · cases hr
  · rcases hrest with ⟨t, _, _, hsame⟩ | ⟨hsw, ⟨_, _, hr⟩ | ⟨eidx, e, he, hidx, hopen⟩⟩
    · obtain ⟨ret, s2, hr, _⟩ := sameTree_done { s with fReadEntry := g } t g _ _ hsame
      cases hr
    · cases hr
    · obtain ⟨a2, c, total, ha2, hle, hk, hlen, hc, hgc, hs2⟩ :=
        afterOpen_retry _ g _ k eidx _ _ s1 hopen
      simp only [teardown_fTreeOffset, teardown_fNtrees, teardown_fFiles] at ha2 hk hlen hc hs2
      subst hs2
      exact ⟨k, _, c, hloc, hsw, hlock, by simp [hlock], by simp, by simp, by simp,
        rfl, hk, hlen, rfl, hle, hc, hgc, e.fTitle, rfl⟩

/-! ## The number of passes of one call -/

theorem searchFrom_spec (off : List Int) (entry : Int) :
    ∀ (left t k : Nat), TChain.searchFrom off entry left t = some k →
      t ≤ k ∧ k ≤ t + left ∧
      (∀ j, t ≤ j → j < k → ∃ v, off[j + 1]? = some v ∧ v ≤ entry) ∧
      (k < t + left → ∃ v, off[k + 1]? = some v ∧ entry < v) := by
  intro left
  induction left with
  | zero =>
    intro t k h
    simp only [TChain.searchFrom, Option.some.injEq] at h
    subst h
    exact ⟨le_refl _, by omega, fun j h1 h2 => by omega, fun h => by omega⟩
  | succ n ih =>
    intro t k h
    unfold TChain.searchFrom at h
    cases hb : off[t + 1]? with
    | none => simp [hb] at h
    | some b =>
      simp only [hb] at h
      by_cases hlt : entry < b
      · simp only [hlt, if_true, Option.some.injEq] at h
        subst h
        exact ⟨le_refl _, by omega, fun j h1 h2 => by omega, fun _ => ⟨b, hb, hlt⟩⟩
      · simp only [hlt, if_false] at h
        obtain ⟨h1, h2, h3, h4⟩ := ih (t + 1) k h
        refine ⟨by omega, by omega, ?_, fun hk => h4 (by omega)⟩
        intro j hj1 hj2
        rcases Nat.eq_or_lt_of_le hj1 with he | hl
        · subst he; exact ⟨b, hb, by omega⟩
        · exact h3 j (by omega) hj2

/-- The tree number selected by `LoadTree` is the result of the linear search
unless it is the current tree number. -/
theorem locate_cases (E : Env) (s : TChain) (g : Int) (k : Nat)
    (h : TChain.locate E s g = some k) :
    TChain.searchFrom s.fTreeOffset g s.fNtrees 0 = some k ∨
      (s.fTreeNumber = (k : Int) ∧ ∃ b, s.fTreeOffset[k + 1]? = some b ∧ g < b) := by
  unfold TChain.locate at h
  by_cases h1 : s.fTreeNumber = -1
  · simp only [h1, if_true] at h; exact Or.inl h
  · simp only [h1, if_false] at h
    cases ha : TChain.offsetAt s.fTreeOffset s.fTreeNumber with
    | none => simp [ha] at h
    | some a =>
      simp only [ha] at h
      by_cases h2 : g < a
      · simp only [h2, if_true] at h; exact Or.inl h
      · simp only [h2, if_false] at h
        cases hb : TChain.offsetAt s.fTreeOffset (s.fTreeNumber + 1) with
        | none => simp [hb] at h
        | some b =>
          simp only [hb] at h
          by_cases h3 : g ≥ b
          · simp only [h3, if_true] at h; exact Or.inl h
          · simp only [h3, if_false] at h
            by_cases h4 : g = E.kMaxEntries - 1
            · simp only [h4, if_true] at h
              rw [h4]; exact Or.inl h
            · simp only [h4, if_false, Option.some.injEq] at h
              right
              have hnn : 0 ≤ s.fTreeNumber := by
                by_contra hneg
                simp [TChain.offsetAt, hneg] at ha
              have hk : s.fTreeNumber = (k : Int) := by rw [← h]; omega
              refine ⟨hk, b, ?_, by omega⟩
              rw [hk, offsetAt_nat_succ] at hb
              exact hb

/-- After a pass that ended in the recursive call, the next pass selects its
tree by the linear search. -/
theorem Retried.bySearch {E : Env} {s : TChain} {g : Int} (h : Retried s g) (k : Nat)
    (hloc : TChain.locate E s g = some k) :
    TChain.searchFrom s.fTreeOffset g s.fNtrees 0 = some k := by
  rcases locate_cases E s g k hloc with h1 | ⟨h1, b, hb, hgb⟩
  · exact h1
  · obtain ⟨_, k0, v, hk0, _, hv, hvg⟩ := h
    have : k0 = k := by omega
    subst this
    rw [hv] at hb
    have := Option.some.inj hb
    omega

theorem LoadTreeStep_retried (E : Env) (s : TChain) (g : Int) (s1 : TChain)
    (h : TChain.LoadTreeStep E s g = some (Step.retry s1)) : Retried s1 g := by
  obtain ⟨k, v, c, _, _, _, _, hn, _, _, hnum, hk, hlen, hoff, hv, _, _, _⟩ :=
    LoadTreeStep_retry E s g s1 h
  refine ⟨by omega, k, v, hnum, by omega, ?_, hv⟩
  rw [hoff]
  simp [hlen]

/-- A pass on a tree selected by the linear search that ends in the recursive
call leaves every boundary up to the rewritten one at or below the entry. -/
theorem LoadTreeStep_passed (E : Env) (s : TChain) (g : Int) (s1 : TChain)
    (h : TChain.LoadTreeStep E s g = some (Step.retry s1))
    (hs : ∀ k, TChain.locate E s g = some k →
      TChain.searchFrom s.fTreeOffset g s.fNtrees 0 = some k) :
    ∃ k, Passed s1 g k := by
  obtain ⟨k, v, c, hloc, _, _, _, hn, _, _, hnum, hk, hlen, hoff, hv, hc, hgc, _⟩ :=
    LoadTreeStep_retry E s g s1 h
  obtain ⟨_, _, hbelow, _⟩ := searchFrom_spec _ _ _ _ _ (hs k hloc)
  refine ⟨k, hnum, by omega, ?_, c, ?_, hgc⟩
  · intro j hj
    rw [hoff]
    rcases Nat.eq_or_lt_of_le hj with he | hl
    · subst he
      exact ⟨v, by simp [hlen], hv⟩
    · rw [List.getElem?_set_ne (by omega)]
      exact hbelow j (by omega) hl
  · rw [hoff, List.getElem?_set_ne (by omega)]
    exact hc

/-- Between two passes on trees selected by the linear search the tree number
goes up by one. -/
theorem Passed.next {E : Env} {s : TChain} {g : Int} {k : Nat} (h : Passed s g k)
    (s1 : TChain) (hstep : TChain.LoadTreeStep E s g = some (Step.retry s1)) :
    Passed s1 g (k + 1) := by
  obtain ⟨hnum, hk, hbelow, c, hc, hgc⟩ := h
  have hret : Retried s g := by
    obtain ⟨v, hv, hvg⟩ := hbelow k (le_refl _)
    exact ⟨by omega, k, v, hnum, hk, hv, hvg⟩
  obtain ⟨k1, v1, c1, hloc, _, _, _, hn, _, _, hnum1, hk1, hlen1, hoff1, hv1, hc1, hgc1, _⟩ :=
    LoadTreeStep_retry E s g s1 hstep
  have hsearch := hret.bySearch k1 hloc
  obtain ⟨_, hle, hlow, hup⟩ := searchFrom_spec _ _ _ _ _ hsearch
  have hk1eq : k1 = k + 1 := by
    obtain ⟨w, hw, hgw⟩ := hup (by omega)
    have h1 : k < k1 := by
      by_contra hnot
      obtain ⟨v, hv, hvg⟩ := hbelow k1 (by omega)
      rw [hw] at hv
      have := Option.some.inj hv
      omega
    by_contra hne
    obtain ⟨v, hv, hvg⟩ := hlow (k + 1) (by omega) (by omega)
    rw [hc] at hv
    have := Option.some.inj hv
    omega
  subst hk1eq
  refine ⟨hnum1, by omega, ?_, c1, ?_, hgc1⟩
  · intro j hj
    rw [hoff1]
    rcases Nat.eq_or_lt_of_le hj with he | hl
    · subst he
      exact ⟨v1, by simp [hlen1], hv1⟩
    · rw [List.getElem?_set_ne (by omega)]
      exact hbelow j (by omega)
  · rw [hoff1, List.getElem?_set_ne (by omega)]
    exact hc1

theorem LoadTreeAux_more (E : Env) (g : Int) :
    ∀ (f1 f2 : Nat) (s : TChain) (x : Int × TChain), f1 ≤ f2 →
      TChain.LoadTreeAux E f1 s g = some x → TChain.LoadTreeAux E f2 s g = some x := by
  intro f1
  induction f1 with
  | zero => intro f2 s x _ h; simp [TChain.LoadTreeAux] at h
  | succ f ih =>
    intro f2 s x hle h
    obtain ⟨f3, hf3⟩ : ∃ f3, f2 = f3 + 1 := ⟨f2 - 1, by omega⟩
    subst hf3
    unfold TChain.LoadTreeAux at h ⊢
    cases hs : TChain.LoadTreeStep E s g with
    | none => simp [hs] at h
    | some r =>
      cases r with
      | done ret s2 => simpa [hs] using h
      | retry s2 =>
        simp only [hs] at h ⊢
        exact ih f3 s2 x (by omega) h

/-- The first pass of a call that starts without a tree number or with a tree
loaded selects its tree by the linear search when it ends in the recursive
call. -/
theorem LoadTreeStep_bySearch (E : Env) (s : TChain) (g : Int) (s1 : TChain)
    (hstart : s.fTreeNumber = -1 ∨ s.fTree.isSome = true)
    (h : TChain.LoadTreeStep E s g = some (Step.retry s1)) :
    ∀ k, TChain.locate E s g = some k →
      TChain.searchFrom s.fTreeOffset g s.fNtrees 0 = some k := by
  intro k1 hk1
  obtain ⟨k, _, _, hloc, hsw, _⟩ := LoadTreeStep_retry E s g s1 h
  rcases locate_cases E s g k1 hk1 with h2 | ⟨h2, _⟩
  · exact h2
  · rw [hloc] at hk1
    have hkk : k = k1 := Option.some.inj hk1
    subst hkk
    rcases hstart with h3 | h3
    · omega
    · rcases hsw with h4 | h4
      · exact absurd h2 h4
      · rw [h4] at h3; simp at h3

/-- The two ways the end of a switch can go: without a tree the failure code is
returned and the tree number is forgotten; with a tree the statuses and
addresses of `fStatus` are applied to it and the local entry (or `-6`) is
returned. -/
theorem finishSwitch_cases (s : TChain) (g tre : Int) (eidx : Nat) (rc : Int) (l : Int)
    (s1 : TChain) (h : TChain.finishSwitch s g tre eidx rc = Step.done l s1) :
    (s.fTree = none ∧ l = rc) ∨
    (∃ t1 : TTree, s.fTree.isSome = true ∧ (l = tre ∨ l = -6) ∧
      s1.fTreeNumber = s.fTreeNumber ∧ s1.fTreeOffset = s.fTreeOffset ∧ s1.opens = s.opens ∧
      s1.fTree = some
        (TChain.setBranchAddresses s.fStatus (TChain.setBranchStatuses s.fStatus t1)).2 ∧
      s1.fStatus =
        (TChain.setBranchAddresses s.fStatus (TChain.setBranchStatuses s.fStatus t1)).1) := by
  unfold TChain.finishSwitch at h
  cases ht : s.fTree with
  | none =>
    simp only [ht, TChain.Step.done.injEq] at h
    exact Or.inl ⟨rfl, h.1.symm⟩
  | some t =>
    right
    simp only [ht] at h
    split_ifs at h <;> cases h <;>
      first
        | exact ⟨_, rfl, Or.inl rfl, rfl, rfl, rfl, rfl, rfl⟩
        | exact ⟨_, rfl, Or.inr rfl, rfl, rfl, rfl, rfl, rfl⟩

/-- The part of a pass after `TFile::Open` that returns a local entry: the
opened tree has become the current tree with the selected tree number, the
boundary of that tree is where it was, and the statuses and addresses of
`fStatus` have been applied to the tree. -/
theorem afterOpen_entry (s : TChain) (g tre : Int) (k eidx : Nat)
    (tree : Option TTree) (rc : Int) (l : Int) (s1 : TChain)
    (h : TChain.afterOpen s g tre k eidx tree rc = some (Step.done l s1))
    (hl : 0 ≤ l) (hrc : tree = none → rc < 0) :
    l = tre ∧ s1.fTreeNumber = (k : Int) ∧ s1.fTreeOffset[k]? = s.fTreeOffset[k]? ∧
      s1.opens = s.opens ∧
      ∃ t1 : TTree, s1.fTree = some
          (TChain.setBranchAddresses s.fStatus (TChain.setBranchStatuses s.fStatus t1)).2 ∧
        s1.fStatus =
          (TChain.setBranchAddresses s.fStatus (TChain.setBranchStatuses s.fStatus t1)).1 := by
  unfold TChain.afterOpen at h
  cases hrep : TChain.repair
      { s with fTree := tree, fFile := tree.isSome, fTreeNumber := (k : Int) } g tre k eidx
      (TChain.entriesOf tree) rc with
  | none => simp [hrep] at h
  | some res =>
    obtain ⟨s2, tre2, again⟩ := res
    simp only [hrep] at h
    cases again with
    | true =>
      simp only at h
      split_ifs at h
      · simp only [Option.some.injEq, TChain.Step.done.injEq] at h
        omega
      · cases h
    | false =>
      simp only [Option.some.injEq] at h
      obtain ⟨a, b, ha, hb, hcase⟩ := repair_cases _ g tre k eidx _ rc _ hrep
      have h2 : s2.fTree = tree ∧ s2.fTreeNumber = (k : Int) ∧ s2.fStatus = s.fStatus ∧
          s2.opens = s.opens ∧ s2.fTreeOffset[k]? = s.fTreeOffset[k]? ∧
          (tre2 = tre ∨ tre2 = -2) := by
        rcases hcase with ⟨_, hres⟩ | ⟨_, total, _, hres | hres | hres⟩
        · cases hres; exact ⟨rfl, rfl, rfl, rfl, rfl, Or.inl rfl⟩
        · cases hres.1
          exact ⟨rfl, rfl, rfl, rfl, by simp, Or.inl rfl⟩
        · cases hres.1
        · cases hres.1
          exact ⟨rfl, rfl, rfl, rfl, by simp, Or.inr rfl⟩
      obtain ⟨e1, e2, e3, e4, e5, e6⟩ := h2
      rcases finishSwitch_cases s2 g tre2 eidx rc l s1 h with ⟨hn, hlrc⟩ |
        ⟨t1, _, hlt, f1, f2, f3, f4, f5⟩
      · rw [e1] at hn
        have := hrc hn
        omega
      · refine ⟨?_, by rw [f1, e2], by rw [f2, e5], by rw [f3, e4], t1, ?_, ?_⟩
        · rcases hlt with h3 | h3
          · rcases e6 with h4 | h4
            · rw [h3, h4]
            · omega
          · omega
        · rw [f4, e3]
        · rw [f5, e3]

theorem openElement_code (E : Env) (e : TChainElement) :
    (TChain.openElement E e).1 = none → (TChain.openElement E e).2 < 0 := by
  unfold TChain.openElement
  cases hO : E.Open e.fTitle with
  | none => intro _; simp
  | some f =>
    cases hG : f.Get e.fName with
    | none => intro _; simp [hG]
    | some t => intro h; simp [hG] at h

/-- A pass of `LoadTree(g)` that returns a local entry `l >= 0` while the friend
lock is not held: `l` is `g` minus the boundary of the tree that is current
afterwards; either the tree was current before and no file is opened, or one
file is opened and the statuses and addresses of `fStatus` are applied to the
tree found in it. -/
theorem LoadTreeStep_entry (E : Env) (s : TChain) (g l : Int) (s1 : TChain)
    (h : TChain.LoadTreeStep E s g = some (Step.done l s1))
    (hlock : s.fFriendLockStatus = false) (hl : 0 ≤ l) :
    ∃ (k : Nat) (a : Int), s1.fTreeNumber = (k : Int) ∧ s1.fTreeOffset[k]? = some a ∧
      l = g - a ∧
      ((TChain.locate E s g = some k ∧ s.fTreeNumber = (k : Int) ∧ s.fTree.isSome = true ∧
          s1.opens = s.opens) ∨
       (∃ title t1, s1.opens = s.opens ++ [title] ∧
          s1.fTree = some
            (TChain.setBranchAddresses s.fStatus (TChain.setBranchStatuses s.fStatus t1)).2 ∧
          s1.fStatus =
            (TChain.setBranchAddresses s.fStatus (TChain.setBranchStatuses s.fStatus t1)).1)) := by
  rcases LoadTreeStep_cases E s g _ h with ⟨hlk, _⟩ | ⟨_, _, hr⟩ | ⟨_, _, _, hr⟩ |
    ⟨_, _, _, k, a, hloc, ha, hrest⟩
  · rw [hlock] at hlk; cases hlk
  · simp only [TChain.Step.done.injEq] at hr; omega
  · simp only [TChain.Step.done.injEq] at hr; omega
  · rcases hrest with ⟨t, hcur, ht, hsame⟩ | ⟨hsw, ⟨_, _, hr⟩ | ⟨eidx, e, he, hidx, hopen⟩⟩
    · obtain ⟨ret, s2, hr, hret⟩ := sameTree_done { s with fReadEntry := g } t g _ _ hsame
      simp only [TChain.Step.done.injEq] at hr
      obtain ⟨hr1, hr2⟩ := hr
      obtain ⟨f1, _, _, _, f5, f6, _⟩ := sameTree_frame { s with fReadEntry := g } t g _ _ hsame
      simp only [TChain.Step.chain] at f1 f5 f6
      refine ⟨k, a, by rw [f6]; exact hcur, by rw [f1]; exact ha, ?_,
        Or.inl ⟨hloc, hcur, by rw [ht]; rfl, f5⟩⟩
      rcases hret with h3 | h3
      · omega
      · omega
    · simp only [TChain.Step.done.injEq] at hr; omega
    · obtain ⟨h1, h2, h3, h4, t1, h5, h6⟩ := afterOpen_entry _ g _ k eidx _ _ l s1 hopen hl
        (openElement_code E e)
      simp only [teardown_fTreeOffset, teardown_fStatus] at h3 h4 h5 h6
      exact ⟨k, a, h2, by rw [h3]; exact ha, h1, Or.inr ⟨e.fTitle, t1, h4, h5, h6⟩⟩

/-- A call of `LoadTree(g)` that returns a local entry `l >= 0` while the friend
lock is not held leaves as current tree the tree whose boundary is `g - l`. -/
theorem LoadTreeAux_entry (E : Env) (g l : Int) :
    ∀ (fuel : Nat) (s s1 : TChain), s.fFriendLockStatus = false →
      TChain.LoadTreeAux E fuel s g = some (l, s1) → 0 ≤ l →
      ∃ (k : Nat) (a : Int), s1.fTreeNumber = (k : Int) ∧ s1.fTreeOffset[k]? = some a ∧
        l = g - a := by
  intro fuel
  induction fuel with
  | zero => intro s s1 _ h; simp [TChain.LoadTreeAux] at h
  | succ f ih =>
    intro s s1 hlock h hl
    unfold TChain.LoadTreeAux at h
    cases hs : TChain.LoadTreeStep E s g with
    | none => simp [hs] at h
    | some r =>
      cases r with
      | done ret s2 =>
        simp only [hs, Option.some.injEq, Prod.mk.injEq] at h
        obtain ⟨h1, h2⟩ := h
        subst h1 h2
        obtain ⟨k, a, e1, e2, e3, _⟩ := LoadTreeStep_entry E s g _ _ hs hlock hl
        exact ⟨k, a, e1, e2, e3⟩
      | retry s2 =>
        simp only [hs] at h
        have hlock2 := (LoadTreeStep_lock E s g _ hs).1
        simp only [TChain.Step.chain] at hlock2
        exact ih s2 s1 (hlock2.trans hlock) h hl

/-! ## From a local entry back to the global entry -/

/-- C18. After any `LoadTree(g)` that returns a local entry `l >= 0` while the
friend lock is not held, `GetChainEntryNumber(l)` is `g`: `l + fTreeOffset[fTreeNumber] = g`. -/
theorem GetChainEntryNumber_after_LoadTree (E : Env) (s : TChain) (g l : Int) (s1 : TChain)
    (hlock : s.fFriendLockStatus = false)
    (h : TChain.LoadTree E s g = some (l, s1)) (hl : 0 ≤ l) :
    TChain.GetChainEntryNumber s1 l = some g := by
  obtain ⟨k, a, h1, h2, h3⟩ := LoadTreeAux_entry E g l _ s s1 hlock h hl
  unfold TChain.GetChainEntryNumber
  rw [h1, offsetAt_nat, h2]
  simp only [Option.some.injEq]
  omega

/-- Scenario A: `LoadTree(4)` on the fresh chain returns local entry 1 of the
second tree, and `GetChainEntryNumber(1)` gives 4 back. -/
theorem GetChainEntryNumber_after_LoadTree_witness :
    TChain.LoadTree envA chainA 4 = some (1, chainA4) ∧
      TChain.GetChainEntryNumber chainA4 1 = some 4 :=
  ⟨by decide,
    GetChainEntryNumber_after_LoadTree envA chainA 4 1 chainA4 (by decide) (by decide)
      (by decide)⟩

/-! ## An empty tree between two trees with entries -/

theorem addFiles_cons (E : Env) (s : TChain) (f : String) (d : Int) (t : String)
    (rest : List (String × Int × String)) (s0 : TChain)
    (h : addFiles E s ((f, d, t) :: rest) = some s0) :
    ∃ r s1, TChain.AddFile E s f d t = some (r, s1) ∧ addFiles E s1 rest = some s0 := by
  unfold addFiles at h
  cases hA : TChain.AddFile E s f d t with
  | none => simp [hA] at h
  | some res =>
    obtain ⟨r, s1⟩ := res
    simp only [hA] at h
    exact ⟨r, s1, rfl, h⟩

/-- C13. In a chain of three files added by `AddFile`, the second with the count
unknown and an empty tree, the first and the third with `n0 > 0` and `n2 > 0`
entries, each declared unknown or with its true count (`n0 + n2` below
`kMaxEntries - 1`), after any sequence of in-range `LoadTree` calls, `LoadTree(g)`
for `0 <= g < n0 + n2` returns `g` with the first tree as current tree when
`g < n0`, and `g - n0` with the third tree as current tree otherwise; the
second tree is never the current tree at the end. -/
theorem LoadTree_skips_empty_tree (E : Env) (name f0 f1 f2 : String) (d0 d2 : Int)
    (t0 t1 t2 : String) (s0 : TChain) (n0 n2 : Nat)
    (hbuild : addFiles E (TChain.init name)
      [(f0, d0, t0), (f1, E.kMaxEntries, t1), (f2, d2, t2)] = some s0)
    (hf0 : f0 ≠ "") (hf1 : f1 ≠ "") (hf2 : f2 ≠ "")
    (hd0 : d0 = E.kMaxEntries ∨ d0 = (n0 : Int)) (hd2 : d2 = E.kMaxEntries ∨ d2 = (n2 : Int))
    (hn0 : 0 < n0) (hn2 : 0 < n2)
    (h0 : ∀ e, s0.fFiles[0]? = some e → ∃ t, treeOf E e = some t ∧ t.fEntries = n0)
    (h1 : ∀ e, s0.fFiles[1]? = some e → ∃ t, treeOf E e = some t ∧ t.fEntries = 0)
    (h2 : ∀ e, s0.fFiles[2]? = some e → ∃ t, treeOf E e = some t ∧ t.fEntries = n2)
    (hsum : (n0 : Int) + (n2 : Int) < E.kMaxEntries - 1)
    (loads : List Int) (hloads : ∀ x ∈ loads, 0 ≤ x ∧ x < (n0 : Int) + (n2 : Int))
    (g : Int) (hg0 : 0 ≤ g) (hg1 : g < (n0 : Int) + (n2 : Int)) :
    ∃ s, runLoads E s0 loads = some s ∧ ∃ s1,
      TChain.LoadTree E s g = some (if g < (n0 : Int) then g else g - (n0 : Int), s1) ∧
      s1.fTreeNumber = (if g < (n0 : Int) then 0 else 2) ∧ s1.fTreeNumber ≠ 1 := by
  have hk0 : 0 < E.kMaxEntries := by omega
  have hd0p : 0 < d0 := by rcases hd0 with h | h <;> omega
  have hd2p : 0 < d2 := by rcases hd2 with h | h <;> omega
  obtain ⟨s0b, hb1, hB⟩ := Built.afterAddFiles
    [(f0, d0, t0), (f1, E.kMaxEntries, t1), (f2, d2, t2)] (TChain.init name) (Built.init E name)
  rw [hbuild] at hb1
  have hs : s0b = s0 := (Option.some.inj hb1).symm
  subst hs
  -- the three elements
  obtain ⟨r0, sa, hA0, hrest0⟩ := addFiles_cons E _ f0 d0 t0 _ _ hbuild
  obtain ⟨tn0, fn0, _, hsa⟩ := AddFile_positive E (TChain.init name) f0 d0 t0 r0 sa 0
    hA0 hf0 hd0p rfl rfl
  simp only [TChain.init, List.nil_append, zero_add, List.singleton_append] at hsa
  subst hsa
  obtain ⟨r1, sb, hA1, hrest1⟩ := addFiles_cons E _ f1 E.kMaxEntries t1 _ _ hrest0
  obtain ⟨tn1, fn1, _, hsb⟩ := AddFile_positive E _ f1 E.kMaxEntries t1 r1 sb
    (if d0 = E.kMaxEntries then E.kMaxEntries else d0) hA1 hf1 hk0 rfl rfl
  simp only [if_true, List.cons_append, List.nil_append] at hsb
  subst hsb
  obtain ⟨r2, sc, hA2, hrest2⟩ := addFiles_cons E _ f2 d2 t2 _ _ hrest1
  obtain ⟨tn2, fn2, _, hsc⟩ := AddFile_positive E _ f2 d2 t2 r2 sc
    E.kMaxEntries hA2 hf2 hd2p rfl rfl
  simp only [List.cons_append, List.nil_append] at hsc
  simp only [addFiles, Option.some.injEq] at hrest2
  subst hrest2
  have hfiles : sc.fFiles = [⟨tn0, fn0, d0, 0, 0⟩, ⟨tn1, fn1, E.kMaxEntries, 0, 0⟩,
      ⟨tn2, fn2, d2, 0, 0⟩] := by
    rw [hsc]
  obtain ⟨tr0, htr0, hc0⟩ := h0 ⟨tn0, fn0, d0, 0, 0⟩ (by rw [hfiles]; rfl)
  obtain ⟨tr1, htr1, hc1⟩ := h1 ⟨tn1, fn1, E.kMaxEntries, 0, 0⟩ (by rw [hfiles]; rfl)
  obtain ⟨tr2, htr2, hc2⟩ := h2 ⟨tn2, fn2, d2, 0, 0⟩ (by rw [hfiles]; rfl)
  have hacc : ∀ e ∈ sc.fFiles, ∃ t, treeOf E e = some t ∧
      (e.fEntries = E.kMaxEntries ∨ e.fEntries = (t.fEntries : Int)) := by
    intro e he
    rw [hfiles] at he
    simp only [List.mem_cons, List.mem_singleton, List.not_mem_nil, or_false] at he
    rcases he with he | he | he
    · subst he; exact ⟨tr0, htr0, by rw [hc0]; exact hd0⟩
    · subst he; exact ⟨tr1, htr1, Or.inl rfl⟩
    · subst he; exact ⟨tr2, htr2, by rw [hc2]; exact hd2⟩
  have hcounts : sc.fFiles.map (trueCount E) = [n0, 0, n2] := by
    rw [hfiles]
    simp [trueCount, htr0, htr1, htr2, hc0, hc1, hc2]
  obtain ⟨K, hR⟩ := hB.resolved hacc
  rw [hcounts] at hR
  have hS3 : sumBefore [n0, 0, n2] ([n0, 0, n2] : List Nat).length
      = (n0 : Int) + (n2 : Int) := by
    simp [sumBefore]
  have hsum' : sumBefore [n0, 0, n2] ([n0, 0, n2] : List Nat).length
      < E.kMaxEntries - 1 := by rw [hS3]; exact hsum
  obtain ⟨s, K1, hrun, hR1⟩ := Resolved.afterLoads hsum' loads K sc hR
    (by intro x hx; rw [hS3]; exact hloads x hx)
  obtain ⟨p, s1, _, hp, hlo, hhi, hload, hnum, _⟩ :=
    hR1.loadTree hsum' g hg0 (by rw [hS3]; exact hg1)
  refine ⟨s, hrun, s1, ?_⟩
  have hp3 : p < 3 := by simpa using hp
  by_cases hlt : g < (n0 : Int)
  · have hp0 : p = 0 := by
      rcases Nat.eq_zero_or_pos p with h | h
      · exact h
      · exfalso
        have hp12 : p = 1 ∨ p = 2 := by omega
        rcases hp12 with h | h <;> subst h <;> simp [sumBefore] at hlo <;> omega
    subst hp0
    simp only [hlt, if_true]
    refine ⟨?_, by simpa using hnum, by rw [hnum]; simp⟩
    rw [hload]
    simp [sumBefore]
  · have hp2 : p = 2 := by
      have hp012 : p = 0 ∨ p = 1 ∨ p = 2 := by omega
      rcases hp012 with h | h | h
      · subst h; simp [sumBefore] at hhi; omega
      · subst h; simp [sumBefore] at hlo hhi; omega
      · exact h
    subst hp2
    simp only [hlt, if_false]
    refine ⟨?_, by simpa using hnum, by rw [hnum]; simp⟩
    rw [hload]
    simp [sumBefore]

/-- The chain of `p0.root` (3 entries), `empty.root` (none) and `p1.root` (2 entries):
after `LoadTree(0)`, `LoadTree(4)` returns local entry 1 of the third tree. -/
theorem LoadTree_skips_empty_tree_witness :
    ∃ s, runLoads envA chainZ [0] = some s ∧ ∃ s1,
      TChain.LoadTree envA s 4
        = some (if (4 : Int) < ((3 : Nat) : Int) then 4 else 4 - ((3 : Nat) : Int), s1) ∧
      s1.fTreeNumber = (if (4 : Int) < ((3 : Nat) : Int) then 0 else 2) ∧ s1.fTreeNumber ≠ 1 :=
  LoadTree_skips_empty_tree envA "T" "p0.root" "empty.root" "p1.root" 1000000000000 2 "" "" ""
    chainZ 3 2 (by decide) (by decide) (by decide) (by decide) (Or.inl rfl) (Or.inr rfl)
    (by decide) (by decide)
    (fun e he => by
      simp only [chainZ, List.getElem?_cons_zero, Option.some.injEq] at he
      subst he; exact ⟨plainTree 3, by decide, rfl⟩)
    (fun e he => by
      simp only [chainZ, List.getElem?_cons_succ, List.getElem?_cons_zero,
        Option.some.injEq] at he
      subst he; exact ⟨plainTree 0, by decide, rfl⟩)
    (fun e he => by
      simp only [chainZ, List.getElem?_cons_succ, List.getElem?_cons_zero,
        Option.some.injEq] at he
      subst he; exact ⟨plainTree 2, by decide, rfl⟩)
    (by decide) [0]
    (fun x hx => by
      simp only [List.mem_singleton] at hx
      subst hx; decide)
    4 (by decide) (by decide)

/-! ## The loops over `fStatus` -/

theorem find_setAddressOf_ne (brs : List TBranch) (n n1 : String) (a : Nat) (h : n1 ≠ n) :
    (setAddressOf brs n a).find? (fun br => decide (br.fName = n1))
      = brs.find? (fun br => decide (br.fName = n1)) := by
  induction brs with
  | nil => rfl
  | cons br rest ih =>
    unfold setAddressOf
    by_cases hb : br.fName = n
    · have hb1 : ¬ br.fName = n1 := by rw [hb]; exact fun h2 => h h2.symm
      have hb2 : ¬ n = n1 := fun h2 => h h2.symm
      simp [hb, hb1, hb2, TBranch.SetAddress, List.find?_cons]
    · simp only [hb, if_false, List.find?_cons]
      rw [ih]

theorem find_setAddressOf_eq (brs : List TBranch) (n : String) (a : Nat) :
    (setAddressOf brs n a).find? (fun br => decide (br.fName = n))
      = (brs.find? (fun br => decide (br.fName = n))).map (fun br => br.SetAddress a) := by
  induction brs with
  | nil => rfl
  | cons br rest ih =>
    unfold setAddressOf
    by_cases hb : br.fName = n
    · simp [hb, TBranch.SetAddress]
    · simp only [hb, if_false, List.find?_cons, decide_False]
      rw [ih]

theorem find_map_keepName (brs : List TBranch) (f : TBranch → TBranch)
    (hf : ∀ br, (f br).fName = br.fName) (n : String) :
    (brs.map f).find? (fun br => decide (br.fName = n))
      = (brs.find? (fun br => decide (br.fName = n))).map f := by
  induction brs with
  | nil => rfl
  | cons br rest ih =>
    simp only [List.map_cons, List.find?_cons, hf]
    by_cases hb : br.fName = n
    · simp [hb]
    · simp only [hb, decide_False]
      rw [ih]

/-- `SetBranchStatus` changes no address. -/
theorem addressOf_SetBranchStatus (t : TTree) (bname : String) (status : Int) (n : String) :
    (t.SetBranchStatus bname status).addressOf n = t.addressOf n := by
  unfold TTree.addressOf TTree.GetBranch TTree.SetBranchStatus
  simp only
  rw [find_map_keepName _ _ (by intro br; split_ifs <;> rfl)]
  cases t.branches.find? (fun br => decide (br.fName = n)) with
  | none => rfl
  | some br => simp only [Option.map_some']; split_ifs <;> rfl

/-- What one element with an address does to the addresses of the tree: the
branch of its name, if the tree has one, is bound to its address; the other
branches keep theirs. -/
theorem addressOf_setBranchAddress (e : TStatusElement) (t : TTree) (n : String) :
    (TChain.setBranchAddress e t).2.addressOf n
      = if n = e.fName then (t.addressOf n).map (fun _ => e.fBaddress) else t.addressOf n := by
  unfold TChain.setBranchAddress
  simp only
  by_cases hn : n = e.fName
  · subst hn
    simp only [if_true]
    cases hg : t.GetBranch e.fName with
    | none =>
      simp [TTree.addressOf, hg]
    | some br =>
      simp only [Option.isSome_some, if_true]
      unfold TTree.addressOf TTree.GetBranch TTree.SetAddressOf
      simp only
      rw [find_setAddressOf_eq]
      unfold TTree.GetBranch at hg
      rw [hg]
      rfl
  · simp only [hn, if_false]
    cases hg : (t.GetBranch e.fName).isSome with
    | false => simp
    | true =>
      simp only [if_true]
      unfold TTree.addressOf TTree.GetBranch TTree.SetAddressOf
      simp only
      rw [find_setAddressOf_ne _ _ _ _ hn]

theorem addressOf_setBranchStatuses :
    ∀ (st : List TStatusElement) (t : TTree) (n : String),
      (TChain.setBranchStatuses st t).addressOf n = t.addressOf n
  | [], t, n => rfl
  | e :: rest, t, n => by
    unfold TChain.setBranchStatuses
    rw [addressOf_setBranchStatuses rest]
    split_ifs
    · exact addressOf_SetBranchStatus t _ _ n
    · rfl

/-- After the loop that sets the branch addresses, in a list without repeated
names: the branch named by an element with an address is bound to that
address if the tree has such a branch, and the branches that no element names
keep their address. -/
theorem addressOf_setBranchAddresses :
    ∀ (st : List TStatusElement) (t : TTree), (st.map fun e => e.fName).Nodup →
      (∀ e ∈ st, e.fBaddress ≠ 0 →
        (TChain.setBranchAddresses st t).2.addressOf e.fName
          = (t.addressOf e.fName).map (fun _ => e.fBaddress)) ∧
      (∀ n, n ∉ st.map (fun e => e.fName) →
        (TChain.setBranchAddresses st t).2.addressOf n = t.addressOf n)
  | [], t, _ => ⟨fun e he => by simp at he, fun n _ => rfl⟩
  | e0 :: rest, t, hnd => by
    simp only [List.map_cons, List.nodup_cons] at hnd
    obtain ⟨hnot, hnd2⟩ := hnd
    unfold TChain.setBranchAddresses
    by_cases ha : e0.fBaddress ≠ 0
    · simp only [ha, ne_eq, not_false_eq_true, if_true]
      obtain ⟨ih1, ih2⟩ := addressOf_setBranchAddresses rest (TChain.setBranchAddress e0 t).2 hnd2
      constructor
      · intro e he hea
        rcases List.mem_cons.mp he with h | h
        · subst h
          rw [ih2 _ hnot, addressOf_setBranchAddress]
          simp
        · have hne : e.fName ≠ e0.fName := by
            intro heq
            apply hnot
            rw [← heq]
            exact List.mem_map_of_mem _ h
          rw [ih1 e h hea, addressOf_setBranchAddress]
          simp [hne]
      · intro n hn
        simp only [List.map_cons, List.mem_cons, not_or] at hn
        rw [ih2 n hn.2, addressOf_setBranchAddress]
        simp [hn.1]
    · have ha0 : e0.fBaddress = 0 := by simpa using ha
      simp only [ha0, ne_eq, not_true_eq_false, if_false]
      obtain ⟨ih1, ih2⟩ := addressOf_setBranchAddresses rest t hnd2
      constructor
      · intro e he hea
        rcases List.mem_cons.mp he with h | h
        · subst h; exact absurd hea ha
        · exact ih1 e h hea
      · intro n hn
        simp only [List.map_cons, List.mem_cons, not_or] at hn
        exact ih2 n hn.2

/-- The loop that sets the branch addresses keeps the names, the statuses and
the addresses of the elements. -/
theorem setBranchAddresses_keeps :
    ∀ (st : List TStatusElement) (t : TTree),
      (TChain.setBranchAddresses st t).1.map (fun e => (e.fName, e.fStatus, e.fBaddress))
        = st.map (fun e => (e.fName, e.fStatus, e.fBaddress))
  | [], t => rfl
  | e0 :: rest, t => by
    unfold TChain.setBranchAddresses
    split_ifs
    · simp only [List.map_cons]
      rw [setBranchAddresses_keeps rest]
      rfl
    · simp only [List.map_cons]
      rw [setBranchAddresses_keeps rest]

/-! ## Branch addresses after a switch -/

/-- After a pass that ended in the recursive call, the next pass does not select
the tree number the chain has. -/
theorem Retried.notCurrent {E : Env} {s : TChain} {g : Int} (h : Retried s g) (k : Nat)
    (hloc : TChain.locate E s g = some k) : s.fTreeNumber ≠ (k : Int) := by
  intro hcur
  have hsearch := h.bySearch k hloc
  obtain ⟨_, k0, v, hk0, hlt, hv, hvg⟩ := h
  have hkk : k0 = k := by omega
  subst hkk
  obtain ⟨_, _, _, hup⟩ := searchFrom_spec _ _ _ _ _ hsearch
  obtain ⟨w, hw, hgw⟩ := hup (by omega)
  rw [hv] at hw
  have := Option.some.inj hw
  omega

/-- A call of `LoadTree(g)` that returns a local entry `l >= 0` while the friend
lock is not held either stays on the tree that was current, opening no file,
or ends with a pass that opens a file and applies the statuses and addresses
of `fStatus` to the tree found in it. -/
theorem LoadTreeAux_switch (E : Env) (g l : Int) :
    ∀ (fuel : Nat) (s s1 : TChain), s.fFriendLockStatus = false →
      TChain.LoadTreeAux E fuel s g = some (l, s1) → 0 ≤ l →
      (s1.opens = s.opens ∧ ∃ k : Nat, TChain.locate E s g = some k ∧ s.fTreeNumber = (k : Int)) ∨
      (∃ t1 : TTree, s1.fTree = some
            (TChain.setBranchAddresses s.fStatus (TChain.setBranchStatuses s.fStatus t1)).2 ∧
          s1.fStatus =
            (TChain.setBranchAddresses s.fStatus (TChain.setBranchStatuses s.fStatus t1)).1) := by
  intro fuel
  induction fuel with
  | zero => intro s s1 _ h; simp [TChain.LoadTreeAux] at h
  | succ f ih =>
    intro s s1 hlock h hl
    unfold TChain.LoadTreeAux at h
    cases hs : TChain.LoadTreeStep E s g with
    | none => simp [hs] at h
    | some r =>
      cases r with
      | done ret s2 =>
        simp only [hs, Option.some.injEq, Prod.mk.injEq] at h
        obtain ⟨h1, h2⟩ := h
        subst h1 h2
        obtain ⟨k, a, _, _, _, hcase⟩ := LoadTreeStep_entry E s g _ _ hs hlock hl
        rcases hcase with ⟨hloc, hcur, _, hop⟩ | ⟨title, t1, _, h5, h6⟩
        · exact Or.inl ⟨hop, k, hloc, hcur⟩
        · exact Or.inr ⟨t1, h5, h6⟩
      | retry s2 =>
        simp only [hs] at h
        obtain ⟨_, _, _, _, _, _, hlock2, _, hst, _⟩ := LoadTreeStep_retry E s g s2 hs
        have hR := LoadTreeStep_retried E s g s2 hs
        rcases ih s2 s1 hlock2 h hl with ⟨_, k, hloc, hcur⟩ | ⟨t1, h5, h6⟩
        · exact absurd hcur (hR.notCurrent k hloc)
        · rw [hst] at h5 h6
          exact Or.inr ⟨t1, h5, h6⟩

/-- C19. After every `LoadTree` call that switches to a new tree and returns a
local entry (the friend lock not held, no name twice in `fStatus`), every
element of `fStatus` with a non-null address whose branch exists in the new
tree has that branch bound to its address, whenever and however the element
was registered; the elements keep their names, statuses and addresses. -/
theorem LoadTree_rebinds_branches (E : Env) (s : TChain) (g l : Int) (s1 : TChain)
    (hlock : s.fFriendLockStatus = false)
    (hnames : (s.fStatus.map fun e => e.fName).Nodup)
    (h : TChain.LoadTree E s g = some (l, s1)) (hl : 0 ≤ l) (hsw : s1.opens ≠ s.opens) :
    ∃ t, s1.fTree = some t ∧
      (∀ e ∈ s.fStatus, e.fBaddress ≠ 0 → ∀ br, t.GetBranch e.fName = some br →
        br.fAddress = e.fBaddress) ∧
      s1.fStatus.map (fun e => (e.fName, e.fStatus, e.fBaddress))
        = s.fStatus.map (fun e => (e.fName, e.fStatus, e.fBaddress)) := by
  rcases LoadTreeAux_switch E g l _ s s1 hlock h hl with ⟨hop, _⟩ | ⟨t1, h5, h6⟩
  · exact absurd hop hsw
  · refine ⟨_, h5, ?_, by rw [h6]; exact setBranchAddresses_keeps _ _⟩
    intro e he hea br hbr
    have hb := (addressOf_setBranchAddresses s.fStatus
      (TChain.setBranchStatuses s.fStatus t1) hnames).1 e he hea
    unfold TTree.addressOf at hb
    rw [hbr] at hb
    simp only [Option.map_some'] at hb
    cases hx : Option.map (fun br => br.fAddress)
        ((TChain.setBranchStatuses s.fStatus t1).GetBranch e.fName) with
    | none => rw [hx] at hb; simp at hb
    | some a =>
      rw [hx] at hb
      simp only [Option.map_some', Option.some.injEq] at hb
      exact hb

/-- The chain of Scenario E is what the calls give: both addresses are
registered while the chain has no tree, and no tree is loaded by them. -/
theorem chainE_built :
    ((TChain.SetBranchAddress envB (TChain.init "T") "x" 7 true).bind fun s =>
      (TChain.SetBranchAddress envB s "y" 9 true).bind fun s =>
        addFiles envB s [("b0.root", 1000000000000, ""), ("b1.root", 1000000000000, "")])
      = some chainE := by
  decide

/-- Scenario E: the first `LoadTree(0)` opens `b0.root` and binds its branches `x` and
`y` to the addresses 7 and 9 registered before any file was added. -/
theorem LoadTree_rebinds_branches_witness :
    TChain.LoadTree envB chainE 0 = some (0, chainE0) ∧
    ∃ t, chainE0.fTree = some t ∧
      (∀ e ∈ chainE.fStatus, e.fBaddress ≠ 0 → ∀ br, t.GetBranch e.fName = some br →
        br.fAddress = e.fBaddress) ∧
      chainE0.fStatus.map (fun e => (e.fName, e.fStatus, e.fBaddress))
        = chainE.fStatus.map (fun e => (e.fName, e.fStatus, e.fBaddress)) :=
  ⟨by decide,
    LoadTree_rebinds_branches envB chainE 0 0 chainE0 (by decide) (by decide) (by decide)
      (by decide) (by decide)⟩


/-! ## Entry resolution does not depend on `fStatus` -/

theorem bare_setBranchStatuses :
    ∀ (st : List TStatusElement) (t : TTree), (TChain.setBranchStatuses st t).bare = t.bare
  | [], t => rfl
  | e :: rest, t => by
    unfold TChain.setBranchStatuses
    rw [bare_setBranchStatuses rest]
    split_ifs <;> rfl

theorem bare_setBranchAddress (e : TStatusElement) (t : TTree) :
    (TChain.setBranchAddress e t).2.bare = t.bare := by
  unfold TChain.setBranchAddress
  simp only
  split_ifs <;> rfl

theorem bare_setBranchAddresses :
    ∀ (st : List TStatusElement) (t : TTree), (TChain.setBranchAddresses st t).2.bare = t.bare
  | [], t => rfl
  | e :: rest, t => by
    unfold TChain.setBranchAddresses
    split_ifs
    · simp only
      rw [bare_setBranchAddresses rest, bare_setBranchAddress]
    · simp only
      rw [bare_setBranchAddresses rest]

theorem bare_refreshElements :
    ∀ (st : List TStatusElement) (t : TTree), (TChain.refreshElements st t).2.bare = t.bare
  | [], t => rfl
  | e :: rest, t => by
    unfold TChain.refreshElements
    simp only
    split_ifs
    · simp only
      rw [bare_refreshElements rest, bare_setBranchAddress]; rfl
    · simp only
      rw [bare_refreshElements rest, bare_setBranchAddress]
    · simp only
      rw [bare_refreshElements rest]; rfl
    · simp only
      rw [bare_refreshElements rest]

theorem bare_withStatus (s : TChain) (st : List TStatusElement) :
    ({ s with fStatus := st } : TChain).bare = s.bare := rfl

theorem bare_withTree (s : TChain) (st st1 : List TStatusElement) (t t1 : TTree)
    (h : t.bare = t1.bare) :
    ({ s with fStatus := st, fTree := some t } : TChain).bare
      = ({ s with fStatus := st1, fTree := some t1 } : TChain).bare := by
  unfold TChain.bare
  simp only [Option.map_some', h]

theorem teardown_withStatus (s : TChain) (st : List TStatusElement) :
    TChain.teardown { s with fStatus := st } = { TChain.teardown s with fStatus := st } := by
  unfold TChain.teardown TChain.InvalidateCurrentTree
  simp only
  split_ifs <;> rfl

theorem repair_withStatus (s : TChain) (st : List TStatusElement) (g tre : Int)
    (k eidx : Nat) (n rc : Int) :
    TChain.repair { s with fStatus := st } g tre k eidx n rc
      = (TChain.repair s g tre k eidx n rc).map
          (fun r => ({ r.1 with fStatus := st }, r.2.1, r.2.2)) := by
  unfold TChain.repair
  simp only
  cases TChain.offsetAt s.fTreeOffset (k : Int) with
  | none => rfl
  | some a =>
    cases TChain.offsetAt s.fTreeOffset ((k : Int) + 1) with
    | none => rfl
    | some b =>
      simp only
      by_cases h1 : b = a + n
      · simp only [h1, ne_eq, not_true_eq_false, if_false, Option.map_some']
      · simp only [h1, ne_eq, not_false_eq_true, if_true]
        cases TChain.offsetAt (s.fTreeOffset.set (k + 1) (a + n)) (s.fNtrees : Int) with
        | none => rfl
        | some total =>
          simp only
          by_cases hg : g ≥ a + n
          · simp only [hg, if_true]
            by_cases hk : (k : Int) < (s.fNtrees : Int) - 1
            · simp only [hk, if_true]
              cases TChain.offsetAt (s.fTreeOffset.set (k + 1) (a + n)) ((k : Int) + 2) with
              | none => rfl
              | some c =>
                simp only
                by_cases hgc : g < c
                · simp only [hgc, if_true, Option.map_some']
                · simp only [hgc, if_false, Option.map_some']
            · simp only [hk, if_false, Option.map_some']
          · simp only [hg, if_false, Option.map_some']

/-- The path of the current tree does the same with either list. -/
theorem sameTree_agree (s : TChain) (st : List TStatusElement) (t : TTree) (g tre : Int) :
    TChain.Step.agree st (TChain.sameTree s t g tre)
      (TChain.sameTree { s with fStatus := st } t g tre) := by
  unfold TChain.sameTree
  simp only
  split_ifs <;> simp only [TChain.Step.agree, true_and] <;>
    first
      | trivial
      | rfl
      | simp [TChain.bare, bare_refreshElements]

/-- The end of a switch does the same with either list. -/
theorem finishSwitch_agree (s : TChain) (st : List TStatusElement) (g tre : Int) (eidx : Nat)
    (rc : Int) :
    TChain.Step.agree st (some (TChain.finishSwitch s g tre eidx rc))
      (some (TChain.finishSwitch { s with fStatus := st } g tre eidx rc)) := by
  unfold TChain.finishSwitch
  cases ht : s.fTree with
  | none =>
    simp only [TChain.Step.agree, true_and]
    unfold TChain.bare
    simp [ht]
  | some t =>
    simp only
    split_ifs <;> simp only [TChain.Step.agree, true_and] <;>
      simp [TChain.bare, bare_setBranchAddresses, bare_setBranchStatuses]

theorem teardown_bare_withStatus (s : TChain) (st : List TStatusElement) :
    (TChain.teardown { s with fStatus := st }).bare = (TChain.teardown s).bare := by
  rw [teardown_withStatus]
  rfl

theorem teardown_opens_withStatus (s : TChain) (st : List TStatusElement) (g : Int)
    (title : String) :
    ({ TChain.teardown { ({ s with fStatus := st } : TChain) with fReadEntry := g } with
        opens := s.opens ++ [title] } : TChain)
      = { ({ TChain.teardown { s with fReadEntry := g } with
              opens := s.opens ++ [title] } : TChain) with fStatus := st } := by
  unfold TChain.teardown TChain.InvalidateCurrentTree
  simp only
  split_ifs <;> rfl

/-- The part of a pass after the file has been opened does the same with either
list. -/
theorem afterOpen_agree (s : TChain) (st : List TStatusElement) (g tre : Int) (k eidx : Nat)
    (tree : Option TTree) (rc : Int) :
    TChain.Step.agree st (TChain.afterOpen s g tre k eidx tree rc)
      (TChain.afterOpen { s with fStatus := st } g tre k eidx tree rc) := by
  have h := repair_withStatus
    { s with fTree := tree, fFile := tree.isSome, fTreeNumber := (k : Int) } st g tre k eidx
    (TChain.entriesOf tree) rc
  unfold TChain.afterOpen
  simp only at h ⊢
  rw [h]
  generalize TChain.repair _ g tre k eidx (TChain.entriesOf tree) rc = o
  cases o with
  | none => trivial
  | some r =>
    obtain ⟨s2, tre2, b⟩ := r
    cases b with
    | true =>
      simp only [Option.map_some']
      split_ifs <;> simp only [TChain.Step.agree, true_and]
      · rfl
    | false =>
      simp only [Option.map_some']
      exact finishSwitch_agree s2 st g tre2 eidx rc

theorem afterOpen_teardown_agree (s : TChain) (st : List TStatusElement) (g tre : Int)
    (k eidx : Nat) (title : String) (tree : Option TTree) (rc : Int) :
    TChain.Step.agree st
      (TChain.afterOpen
        { TChain.teardown { s with fReadEntry := g } with opens := s.opens ++ [title] }
        g tre k eidx tree rc)
      (TChain.afterOpen
        { TChain.teardown { ({ s with fStatus := st } : TChain) with fReadEntry := g } with
            opens := s.opens ++ [title] }
        g tre k eidx tree rc) := by
  rw [teardown_opens_withStatus s st g title]
  exact afterOpen_agree
    { TChain.teardown { s with fReadEntry := g } with opens := s.opens ++ [title] }
    st g tre k eidx tree rc

/-- One pass of `LoadTree` does the same on two chains that differ in `fStatus`
only. -/
theorem LoadTreeStep_agree (E : Env) (s : TChain) (st : List TStatusElement) (g : Int) :
    TChain.Step.agree st (TChain.LoadTreeStep E s g)
      (TChain.LoadTreeStep E { s with fStatus := st } g) := by
  by_cases hlock : s.fFriendLockStatus = true
  · rw [LoadTreeStep_locked E s g hlock, LoadTreeStep_locked E { s with fStatus := st } g hlock]
    exact ⟨rfl, rfl⟩
  · have hlock2 : s.fFriendLockStatus = false := by simpa using hlock
    by_cases hn : s.fNtrees = 0
    · rw [LoadTreeStep_empty E s g hlock2 hn,
        LoadTreeStep_empty E { s with fStatus := st } g hlock2 hn]
      exact ⟨rfl, rfl⟩
    · by_cases hr : (g < 0 ∨ (g > 0 ∧ (g ≥ s.fEntries ∧ g ≠ E.kMaxEntries - 1)))
      · rw [LoadTreeStep_range E s g hlock2 hn hr,
          LoadTreeStep_range E { s with fStatus := st } g hlock2 hn hr]
        exact ⟨rfl, rfl⟩
      · cases hloc : TChain.locate E s g with
        | none =>
          rw [LoadTreeStep_unlocated E s g hlock2 hn hr hloc,
            LoadTreeStep_unlocated E { s with fStatus := st } g hlock2 hn hr hloc]
          trivial
        | some k =>
          cases ha : TChain.offsetAt s.fTreeOffset (k : Int) with
          | none =>
            rw [LoadTreeStep_unassigned E s g k hlock2 hn hr hloc ha,
              LoadTreeStep_unassigned E { s with fStatus := st } g k hlock2 hn hr hloc ha]
            trivial
          | some a =>
            by_cases hsame : s.fTreeNumber = (k : Int) ∧ ∃ t, s.fTree = some t
            · obtain ⟨hcur, t, ht⟩ := hsame
              rw [LoadTreeStep_sameTree E s g k a t hlock2 hn hr hloc ha hcur ht,
                LoadTreeStep_sameTree E { s with fStatus := st } g k a t hlock2 hn hr hloc ha
                  hcur ht]
              exact sameTree_agree { s with fReadEntry := g } st t g (g - a)
            · have hsw : s.fTreeNumber ≠ (k : Int) ∨ s.fTree = none := by
                by_cases hcur : s.fTreeNumber = (k : Int)
                · right
                  cases ht : s.fTree with
                  | none => rfl
                  | some t => exact absurd ⟨hcur, t, ht⟩ hsame
                · exact Or.inl hcur
              cases he : s.fFiles[k]? with
              | some e =>
                rw [LoadTreeStep_switch E s g k a e hlock2 hn hr hloc ha hsw he,
                  LoadTreeStep_switch E { s with fStatus := st } g k a e hlock2 hn hr hloc ha
                    hsw he]
                exact afterOpen_teardown_agree s st g (g - a) k k e.fTitle _ _
              | none =>
                by_cases hz : g - a ≠ 0
                · rw [LoadTreeStep_noElement E s g k a hlock2 hn hr hloc ha hsw he (Or.inl hz),
                    LoadTreeStep_noElement E { s with fStatus := st } g k a hlock2 hn hr hloc ha
                      hsw he (Or.inl hz)]
                  exact ⟨rfl, teardown_bare_withStatus { s with fReadEntry := g } st⟩
                · cases he0 : s.fFiles[0]? with
                  | none =>
                    rw [LoadTreeStep_noElement E s g k a hlock2 hn hr hloc ha hsw he (Or.inr he0),
                      LoadTreeStep_noElement E { s with fStatus := st } g k a hlock2 hn hr hloc
                        ha hsw he (Or.inr he0)]
                    exact ⟨rfl, teardown_bare_withStatus { s with fReadEntry := g } st⟩
                  | some e =>
                    have hz2 : g - a = 0 := by omega
                    rw [LoadTreeStep_firstElement E s g k a e hlock2 hn hr hloc ha hsw he hz2 he0,
                      LoadTreeStep_firstElement E { s with fStatus := st } g k a e hlock2 hn hr
                        hloc ha hsw he hz2 he0]
                    exact afterOpen_teardown_agree s st g (g - a) k 0 e.fTitle _ _

theorem LoadTreeAux_succ (E : Env) (fuel : Nat) (s : TChain) (g : Int) :
    TChain.LoadTreeAux E (fuel + 1) s g
      = match TChain.LoadTreeStep E s g with
        | none => none
        | some (Step.done ret s1) => some (ret, s1)
        | some (Step.retry s1) => TChain.LoadTreeAux E fuel s1 g := rfl

/-- The passes of `LoadTree` do the same on two chains that differ in `fStatus`
only: both undefined, or the same returned value and chains that differ in
`fStatus` and in the branches of the current tree only. -/
theorem LoadTreeAux_agree (E : Env) (g : Int) :
    ∀ (fuel : Nat) (s : TChain) (st : List TStatusElement),
      (TChain.LoadTreeAux E fuel { s with fStatus := st } g).map (fun r => (r.1, r.2.bare))
        = (TChain.LoadTreeAux E fuel s g).map (fun r => (r.1, r.2.bare)) := by
  intro fuel
  induction fuel with
  | zero => intro s st; rfl
  | succ f ih =>
    intro s st
    have h := LoadTreeStep_agree E s st g
    rw [LoadTreeAux_succ, LoadTreeAux_succ]
    revert h
    generalize TChain.LoadTreeStep E { s with fStatus := st } g = o2
    generalize TChain.LoadTreeStep E s g = o1
    intro h
    cases o1 with
    | none =>
      cases o2 with
      | none => rfl
      | some r2 => cases r2 <;> simp only [TChain.Step.agree] at h
    | some r1 =>
      cases o2 with
      | none => cases r1 <;> simp only [TChain.Step.agree] at h
      | some r2 =>
        cases r1 with
        | done ret a =>
          cases r2 with
          | done ret2 b =>
            simp only [TChain.Step.agree] at h
            simp only [Option.map_some', h.1, h.2]
          | retry b => simp only [TChain.Step.agree] at h
        | retry a =>
          cases r2 with
          | done ret2 b => simp only [TChain.Step.agree] at h
          | retry b =>
            simp only [TChain.Step.agree] at h
            subst h
            exact ih a st

/-! ## Elements whose branch is absent from the tree -/

theorem GetBranch_eq_none (t : TTree) (n : String) :
    t.GetBranch n = none ↔ n ∉ t.branches.map (fun br => br.fName) := by
  unfold TTree.GetBranch
  simp only [List.find?_eq_none, decide_eq_true_eq, List.mem_map, not_exists, not_and]

theorem names_setAddressOf (brs : List TBranch) (n : String) (a : Nat) :
    (setAddressOf brs n a).map (fun br => br.fName) = brs.map (fun br => br.fName) := by
  induction brs with
  | nil => rfl
  | cons br rest ih =>
    unfold setAddressOf
    split_ifs
    · rfl
    · simp only [List.map_cons, ih]

theorem names_SetBranchStatus (t : TTree) (bname : String) (status : Int) :
    (t.SetBranchStatus bname status).branches.map (fun br => br.fName)
      = t.branches.map (fun br => br.fName) := by
  unfold TTree.SetBranchStatus
  simp only [List.map_map]
  apply List.map_congr_left
  intro br _
  simp only [Function.comp]
  split_ifs <;> rfl

theorem names_setBranchAddress (e : TStatusElement) (t : TTree) :
    (TChain.setBranchAddress e t).2.branches.map (fun br => br.fName)
      = t.branches.map (fun br => br.fName) := by
  unfold TChain.setBranchAddress
  simp only
  split_ifs
  · exact names_setAddressOf _ _ _
  · rfl

theorem names_setBranchStatuses :
    ∀ (st : List TStatusElement) (t : TTree),
      (TChain.setBranchStatuses st t).branches.map (fun br => br.fName)
        = t.branches.map (fun br => br.fName)
  | [], t => rfl
  | e :: rest, t => by
    unfold TChain.setBranchStatuses
    rw [names_setBranchStatuses rest]
    split_ifs
    · exact names_SetBranchStatus _ _ _
    · rfl

theorem names_setBranchAddresses :
    ∀ (st : List TStatusElement) (t : TTree),
      (TChain.setBranchAddresses st t).2.branches.map (fun br => br.fName)
        = t.branches.map (fun br => br.fName)
  | [], t => rfl
  | e :: rest, t => by
    unfold TChain.setBranchAddresses
    split_ifs
    · simp only
      rw [names_setBranchAddresses rest, names_setBranchAddress]
    · simp only
      rw [names_setBranchAddresses rest]

theorem names_refreshElements :
    ∀ (st : List TStatusElement) (t : TTree),
      (TChain.refreshElements st t).2.branches.map (fun br => br.fName)
        = t.branches.map (fun br => br.fName)
  | [], t => rfl
  | e :: rest, t => by
    unfold TChain.refreshElements
    simp only
    split_ifs
    · simp only
      rw [names_refreshElements rest, names_setBranchAddress, names_SetBranchStatus]
    · simp only
      rw [names_refreshElements rest, names_setBranchAddress]
    · simp only
      rw [names_refreshElements rest, names_SetBranchStatus]
    · simp only
      rw [names_refreshElements rest]

/-- What one element with an address becomes when the tree has no branch of its
name: its slot, if any, is null. -/
theorem setBranchAddress_absent (e : TStatusElement) (t : TTree)
    (h : e.fName ∉ t.branches.map (fun br => br.fName)) :
    (TChain.setBranchAddress e t).1 = e.nullSlot := by
  have hg := (GetBranch_eq_none t e.fName).mpr h
  unfold TChain.setBranchAddress TStatusElement.nullSlot
  simp only [hg, Option.map_none', Option.isSome_none, Bool.or_false]

/-- The loop that sets the branch addresses, on the elements whose branch the
tree lacks: an element with an address gets its slot set to null, an element
without one is not touched. -/
theorem setBranchAddresses_absent :
    ∀ (st : List TStatusElement) (t : TTree),
      List.Forall₂
        (fun e e1 => e.fName ∉ t.branches.map (fun br => br.fName) →
          e1 = if e.fBaddress ≠ 0 then e.nullSlot else e)
        st (TChain.setBranchAddresses st t).1
  | [], t => List.Forall₂.nil
  | e :: rest, t => by
    unfold TChain.setBranchAddresses
    by_cases ha : e.fBaddress ≠ 0
    · simp only [ha, ne_eq, not_false_eq_true, if_true]
      refine List.Forall₂.cons
        (fun h => by rw [if_pos ha]; exact setBranchAddress_absent e t h) ?_
      have ih := setBranchAddresses_absent rest (TChain.setBranchAddress e t).2
      rw [names_setBranchAddress] at ih
      exact ih
    · have ha0 : e.fBaddress = 0 := by simpa using ha
      simp only [ha0, ne_eq, not_true_eq_false, if_false]
      refine List.Forall₂.cons (fun _ => ?_) (setBranchAddresses_absent rest t)
      simp only [ha0, ne_eq, not_true_eq_false, if_false]

/-- The loop of `RefreshFriendAddresses`, on the elements whose branch the tree
lacks. -/
theorem refreshElements_absent :
    ∀ (st : List TStatusElement) (t : TTree),
      List.Forall₂
        (fun e e1 => e.fName ∉ t.branches.map (fun br => br.fName) →
          e1 = if e.fBaddress ≠ 0 then e.nullSlot else e)
        st (TChain.refreshElements st t).1
  | [], t => List.Forall₂.nil
  | e :: rest, t => by
    unfold TChain.refreshElements
    simp only
    have hn : (if e.fStatus ≠ -1 then t.SetBranchStatus e.fName e.fStatus else t).branches.map
        (fun br => br.fName) = t.branches.map (fun br => br.fName) := by
      split_ifs
      · exact names_SetBranchStatus _ _ _
      · rfl
    by_cases ha : e.fBaddress ≠ 0
    · simp only [ha, ne_eq, not_false_eq_true, if_true]
      refine List.Forall₂.cons
        (fun h => by rw [if_pos ha]; exact setBranchAddress_absent e _ (by rw [hn]; exact h)) ?_
      have ih := refreshElements_absent rest (TChain.setBranchAddress e
        (if e.fStatus ≠ -1 then t.SetBranchStatus e.fName e.fStatus else t)).2
      rw [names_setBranchAddress, hn] at ih
      exact ih
    · have ha0 : e.fBaddress = 0 := by simpa using ha
      simp only [ha0, ne_eq, not_true_eq_false, if_false]
      refine List.Forall₂.cons (fun _ => ?_) ?_
      · simp only [ha0, ne_eq, not_true_eq_false, if_false]
      · have ih := refreshElements_absent rest
          (if e.fStatus ≠ -1 then t.SetBranchStatus e.fName e.fStatus else t)
        rw [hn] at ih
        exact ih

theorem OnlySlots.unchanged (t : TTree) : ∀ (st : List TStatusElement), TChain.OnlySlots t st st
  | [] => List.Forall₂.nil
  | _ :: rest => List.Forall₂.cons (fun _ => Or.inl rfl) (OnlySlots.unchanged t rest)

/-- A result of one of the loops leaves the list as `OnlySlots` describes, for
every tree with the branch names of the tree the loop ran on. -/
theorem OnlySlots.ofLoop (t t0 : TTree) (st st1 : List TStatusElement)
    (hn : t.branches.map (fun br => br.fName) = t0.branches.map (fun br => br.fName))
    (h : List.Forall₂
        (fun e e1 => e.fName ∉ t0.branches.map (fun br => br.fName) →
          e1 = if e.fBaddress ≠ 0 then e.nullSlot else e) st st1) :
    TChain.OnlySlots t st st1 := by
  unfold TChain.OnlySlots
  refine List.Forall₂.imp ?_ h
  intro e e1 h1 hg
  have hx := h1 (by rw [← hn]; exact (GetBranch_eq_none t e.fName).mp hg)
  by_cases ha : e.fBaddress ≠ 0
  · right; simpa [ha] using hx
  · left; simpa [ha] using hx

/-- The check of the offset table leaves `fStatus` alone. -/
theorem repair_fStatus (s : TChain) (g tre : Int) (k eidx : Nat) (n rc : Int)
    (r : TChain × Int × Bool) (h : TChain.repair s g tre k eidx n rc = some r) :
    r.1.fStatus = s.fStatus := by
  have hw := repair_withStatus s s.fStatus g tre k eidx n rc
  have hs : ({ s with fStatus := s.fStatus } : TChain) = s := rfl
  rw [hs, h] at hw
  simp only [Option.map_some', Option.some.injEq] at hw
  have h1 := congrArg (fun x => x.1.fStatus) hw
  exact h1

theorem sameTree_keeps (s : TChain) (t : TTree) (g tre : Int) (r : TChain.Step)
    (h : TChain.sameTree s t g tre = some r) : TChain.Step.keeps s.fStatus r := by
  unfold TChain.sameTree at h
  simp only at h
  split_ifs at h <;> cases h <;> intro t2 ht2 <;>
    simp only [Option.some.injEq] at ht2 <;> subst ht2 <;>
    first
      | exact OnlySlots.unchanged _ _
      | exact OnlySlots.ofLoop _ _ _ _ (names_refreshElements _ _) (refreshElements_absent _ _)

theorem finishSwitch_keeps (s : TChain) (g tre : Int) (eidx : Nat) (rc : Int) :
    TChain.Step.keeps s.fStatus (TChain.finishSwitch s g tre eidx rc) := by
  unfold TChain.finishSwitch
  cases ht : s.fTree with
  | none =>
    intro t2 ht2
    simp only [ht] at ht2
    cases ht2
  | some t =>
    simp only
    split_ifs <;> intro t2 ht2 <;> simp only [Option.some.injEq] at ht2 <;> subst ht2 <;>
      exact OnlySlots.ofLoop _ _ _ _ (names_setBranchAddresses _ _)
        (setBranchAddresses_absent _ _)

theorem afterOpen_keeps (s : TChain) (g tre : Int) (k eidx : Nat) (tree : Option TTree)
    (rc : Int) (r : TChain.Step) (h : TChain.afterOpen s g tre k eidx tree rc = some r) :
    TChain.Step.keeps s.fStatus r := by
  unfold TChain.afterOpen at h
  simp only at h
  cases hrep : TChain.repair
      { s with fTree := tree, fFile := tree.isSome, fTreeNumber := (k : Int) } g tre k eidx
      (TChain.entriesOf tree) rc with
  | none => simp only [hrep] at h; cases h
  | some x =>
    have hst := repair_fStatus _ g tre k eidx _ rc x hrep
    obtain ⟨s2, tre2, b⟩ := x
    simp only at hst
    simp only [hrep] at h
    cases b with
    | true =>
      simp only at h
      split_ifs at h <;> cases h
      · intro t2 _
        rw [hst]
        exact OnlySlots.unchanged _ _
      · exact hst
    | false =>
      simp only [Option.some.injEq] at h
      rw [← h, ← hst]
      exact finishSwitch_keeps s2 g tre2 eidx rc

theorem keeps_same (s s1 : TChain) (ret : Int) (h : s1.fStatus = s.fStatus) :
    TChain.Step.keeps s.fStatus (Step.done ret s1) := by
  intro t _
  rw [h]
  exact OnlySlots.unchanged _ _

/-- One pass of `LoadTree`: a pass that ends in the recursive call leaves `fStatus`
as it was, a pass that returns has changed nothing but slots of elements
whose branch the current tree lacks. -/
theorem LoadTreeStep_keeps (E : Env) (s : TChain) (g : Int) (r : TChain.Step)
    (h : TChain.LoadTreeStep E s g = some r) : TChain.Step.keeps s.fStatus r := by
  rcases LoadTreeStep_cases E s g _ h with ⟨_, hr⟩ | ⟨_, _, hr⟩ | ⟨_, _, _, hr⟩ |
    ⟨_, _, _, k, a, _, _, hrest⟩
  · subst hr; exact keeps_same s s 0 rfl
  · subst hr; exact keeps_same s s (-1) rfl
  · subst hr; exact keeps_same s _ (-2) rfl
  · rcases hrest with ⟨t, _, _, hsame⟩ | ⟨_, ⟨_, _, hr⟩ | ⟨eidx, e, _, _, hopen⟩⟩
    · exact sameTree_keeps { s with fReadEntry := g } t g (g - a) r hsame
    · subst hr
      exact keeps_same s _ (-4) (teardown_fStatus _)
    · have hk := afterOpen_keeps _ g (g - a) k eidx _ _ r hopen
      simp only [teardown_fStatus] at hk
      exact hk

/-- The passes of `LoadTree`: when the call returns with a current tree, it has
changed nothing in `fStatus` but slots of elements whose branch that tree
lacks. -/
theorem LoadTreeAux_keeps (E : Env) (g : Int) :
    ∀ (fuel : Nat) (s : TChain) (l : Int) (s1 : TChain) (t : TTree),
      TChain.LoadTreeAux E fuel s g = some (l, s1) → s1.fTree = some t →
      TChain.OnlySlots t s.fStatus s1.fStatus := by
  intro fuel
  induction fuel with
  | zero => intro s l s1 t h; simp [TChain.LoadTreeAux] at h
  | succ f ih =>
    intro s l s1 t h ht
    rw [LoadTreeAux_succ] at h
    cases hs : TChain.LoadTreeStep E s g with
    | none => simp [hs] at h
    | some r =>
      have hk := LoadTreeStep_keeps E s g r hs
      cases r with
      | done ret s2 =>
        simp only [hs, Option.some.injEq, Prod.mk.injEq] at h
        obtain ⟨_, h2⟩ := h
        subst h2
        exact hk t ht
      | retry s2 =>
        simp only [hs] at h
        have hst : s2.fStatus = s.fStatus := hk
        rw [← hst]
        exact ih s2 l s1 t h ht

/-- C20. A missing branch does not abort `LoadTree`.  For two chains that differ
in the list `fStatus` only and every `g`, `LoadTree(g)` is defined on both or on
neither, returns the same value and leaves the same `fNtrees`, `fTreeOffset`,
`fEntries` and `fTreeNumber`.  When the call returns with a current tree, an
element of `fStatus` whose branch is absent from that tree is unchanged or has
just the slot of its branch pointer set to null; after a call that switched
to a new tree and returned a local entry (the friend lock not held) every
such element with a non-null address has its slot, if any, set to null. -/
theorem LoadTree_ignores_fStatus (E : Env) (s : TChain) (st : List TStatusElement) (g : Int) :
    (TChain.LoadTree E { s with fStatus := st } g).map
        (fun r => (r.1, r.2.fNtrees, r.2.fTreeOffset, r.2.fEntries, r.2.fTreeNumber))
      = (TChain.LoadTree E s g).map
        (fun r => (r.1, r.2.fNtrees, r.2.fTreeOffset, r.2.fEntries, r.2.fTreeNumber)) ∧
    ∀ (l : Int) (s1 : TChain) (t : TTree),
      TChain.LoadTree E s g = some (l, s1) → s1.fTree = some t →
      List.Forall₂
          (fun e e1 => t.GetBranch e.fName = none →
            e1 = e ∨ e1 = { e with fBranchPtr := e.fBranchPtr.map fun _ => none })
          s.fStatus s1.fStatus ∧
        (s.fFriendLockStatus = false → 0 ≤ l → s1.opens ≠ s.opens →
          List.Forall₂
            (fun e e1 => t.GetBranch e.fName = none → e.fBaddress ≠ 0 →
              e1 = { e with fBranchPtr := e.fBranchPtr.map fun _ => none })
            s.fStatus s1.fStatus) := by
  constructor
  · have h := LoadTreeAux_agree E g (s.fNtrees + 2) s st
    have h2 := congrArg (Option.map (fun p : Int × TChain =>
      (p.1, p.2.fNtrees, p.2.fTreeOffset, p.2.fEntries, p.2.fTreeNumber))) h
    simp only [Option.map_map] at h2
    exact h2
  · intro l s1 t h ht
    refine ⟨LoadTreeAux_keeps E g _ s l s1 t h ht, ?_⟩
    intro hlock hl hsw
    rcases LoadTreeAux_switch E g l _ s s1 hlock h hl with ⟨hop, _⟩ | ⟨t1, h5, h6⟩
    · exact absurd hop hsw
    · rw [ht, Option.some.injEq] at h5
      rw [h6]
      refine List.Forall₂.imp ?_
        (setBranchAddresses_absent s.fStatus (TChain.setBranchStatuses s.fStatus t1))
      intro e e1 h1 hg ha
      have hx := h1 (by
        rw [← names_setBranchAddresses s.fStatus, ← h5]
        exact (GetBranch_eq_none t e.fName).mp hg)
      rw [if_pos ha] at hx
      exact hx

/-- The chain `chainE0`, whose current tree has the branches `x` and `y`, at entry 4,
which lies in `b1.root` where `y` is missing: with the list `fStatus` emptied the
call gives the same value and table; with the list as it is the call switches
to the tree of `b1.root` and the element `y` has its slot set to null. -/
theorem LoadTree_ignores_fStatus_witness :
    ((TChain.LoadTree envB { chainE0 with fStatus := [] } 4).map
        (fun r => (r.1, r.2.fNtrees, r.2.fTreeOffset, r.2.fEntries, r.2.fTreeNumber))
      = (TChain.LoadTree envB chainE0 4).map
        (fun r => (r.1, r.2.fNtrees, r.2.fTreeOffset, r.2.fEntries, r.2.fTreeNumber))) ∧
    TChain.LoadTree envB chainE0 4 = some (1, chainE4) ∧ chainE4.fTree = some treeE4 ∧
    List.Forall₂
      (fun e e1 => treeE4.GetBranch e.fName = none →
        e1 = e ∨ e1 = { e with fBranchPtr := e.fBranchPtr.map fun _ => none })
      chainE0.fStatus chainE4.fStatus ∧
    List.Forall₂
      (fun e e1 => treeE4.GetBranch e.fName = none → e.fBaddress ≠ 0 →
        e1 = { e with fBranchPtr := e.fBranchPtr.map fun _ => none })
      chainE0.fStatus chainE4.fStatus :=
  ⟨(LoadTree_ignores_fStatus envB chainE0 [] 4).1, by decide, by decide,
    ((LoadTree_ignores_fStatus envB chainE0 [] 4).2 1 chainE4 treeE4 (by decide) (by decide)).1,
    ((LoadTree_ignores_fStatus envB chainE0 [] 4).2 1 chainE4 treeE4 (by decide) (by decide)).2
      (by decide) (by decide) (by decide)⟩

/-- In `chainE4` the element `x`, whose branch the tree of `b1.root` has, forwards that
branch, and the element `y`, whose branch is missing, forwards null. -/
theorem chainE4_slots :
    TChain.LoadTree envB chainE0 4 = some (1, chainE4) ∧
    chainE4.fStatus = [⟨"x", -1, 7, some (some "x"), true⟩, ⟨"y", -1, 9, some none, true⟩] ∧
    treeE4.GetBranch "y" = none ∧ (treeE4.GetBranch "x").isSome = true := by
  refine ⟨by decide, by decide, by decide, by decide⟩

/-! ## `Reset` -/

/-- C24. After `Reset()` the chain has no tree (`fNtrees = 0`), no tree number
(`fTreeNumber = -1`), no current tree and no file, the list `fFiles` is empty,
`fTreeOffset[0]` is 0 and the list `fStatus` consists of one element named `*` without
status or address; while the friend lock is not held (it never is between two
calls), `LoadTree(g)` then returns `-1` for every `g` and changes nothing, so it goes
on doing so until a file is added. -/
theorem Reset_empties_chain (E : Env) (s : TChain) :
    (TChain.Reset s).fNtrees = 0 ∧ (TChain.Reset s).fTreeNumber = -1 ∧
    (TChain.Reset s).fTree = none ∧ (TChain.Reset s).fFile = false ∧
    (TChain.Reset s).fFiles = [] ∧ (TChain.Reset s).fTreeOffset[0]? = some 0 ∧
    (TChain.Reset s).fStatus = [⟨"*", -1, 0, none, false⟩] ∧
    (s.fFriendLockStatus = false →
      (∀ g, TChain.LoadTree E (TChain.Reset s) g = some (-1, TChain.Reset s)) ∧
      ∀ gs, runLoads E (TChain.Reset s) gs = some (TChain.Reset s)) := by
  refine ⟨rfl, rfl, rfl, rfl, rfl, Reset_zero s, rfl, ?_⟩
  intro hlock
  have hone : ∀ g, TChain.LoadTree E (TChain.Reset s) g = some (-1, TChain.Reset s) := by
    intro g
    unfold TChain.LoadTree TChain.LoadTreeAux
    rw [LoadTreeStep_empty E (TChain.Reset s) g hlock rfl]
  refine ⟨hone, ?_⟩
  intro gs
  induction gs with
  | nil => rfl
  | cons g rest ih =>
    unfold runLoads
    rw [hone g]
    exact ih

/-- The chain `chainA1`, whose current tree is the tree of `p0.root`, after `Reset()`. -/
theorem Reset_empties_chain_witness :
    (TChain.Reset chainA1).fNtrees = 0 ∧ (TChain.Reset chainA1).fTreeNumber = -1 ∧
    (TChain.Reset chainA1).fTree = none ∧ (TChain.Reset chainA1).fFile = false ∧
    (TChain.Reset chainA1).fFiles = [] ∧ (TChain.Reset chainA1).fTreeOffset[0]? = some 0 ∧
    (TChain.Reset chainA1).fStatus = [⟨"*", -1, 0, none, false⟩] ∧
    (∀ g, TChain.LoadTree envA (TChain.Reset chainA1) g = some (-1, TChain.Reset chainA1)) ∧
      ∀ gs, runLoads envA (TChain.Reset chainA1) gs = some (TChain.Reset chainA1) :=
  ⟨(Reset_empties_chain envA chainA1).1, (Reset_empties_chain envA chainA1).2.1,
   (Reset_empties_chain envA chainA1).2.2.1, (Reset_empties_chain envA chainA1).2.2.2.1,
   (Reset_empties_chain envA chainA1).2.2.2.2.1, (Reset_empties_chain envA chainA1).2.2.2.2.2.1,
   (Reset_empties_chain envA chainA1).2.2.2.2.2.2.1,
   (Reset_empties_chain envA chainA1).2.2.2.2.2.2.2 (by decide)⟩

/-! ## The notifier -/

/-- The check of the offset table touches the offset table, the total, the read
cursor and the elements of `fFiles` only. -/
theorem repair_others (s : TChain) (g tre : Int) (k eidx : Nat) (n rc : Int)
    (r : TChain × Int × Bool) (h : TChain.repair s g tre k eidx n rc = some r) :
    r.1.fNotify = s.fNotify ∧ r.1.fTree = s.fTree ∧ r.1.opens = s.opens ∧
      r.1.fFriends = s.fFriends ∧ r.1.fTreeNumber = s.fTreeNumber ∧
      r.1.fFriendLockStatus = s.fFriendLockStatus ∧ r.1.fNtrees = s.fNtrees := by
  obtain ⟨a, b, _, _, hcase⟩ := repair_cases s g tre k eidx n rc r h
  rcases hcase with ⟨_, hres⟩ | ⟨_, total, _, hres | hres | hres⟩
  · cases hres; exact ⟨rfl, rfl, rfl, rfl, rfl, rfl, rfl⟩
  · cases hres.1; exact ⟨rfl, rfl, rfl, rfl, rfl, rfl, rfl⟩
  · cases hres.1; exact ⟨rfl, rfl, rfl, rfl, rfl, rfl, rfl⟩
  · cases hres.1; exact ⟨rfl, rfl, rfl, rfl, rfl, rfl, rfl⟩

/-- With a notifier that returns false, the end of a switch with a tree returns
`-6`. -/
theorem finishSwitch_notified (s : TChain) (g tre : Int) (eidx : Nat) (rc : Int)
    (hn : s.fNotify = some false) :
    ∃ ret s1, TChain.finishSwitch s g tre eidx rc = Step.done ret s1 ∧
      (s1.fTree.isSome = true → ret = -6) := by
  unfold TChain.finishSwitch
  cases ht : s.fTree with
  | none => exact ⟨_, _, rfl, fun h => by simp [ht] at h⟩
  | some t =>
    simp only [hn, if_true]
    exact ⟨_, _, rfl, fun _ => rfl⟩

/-- With a notifier that returns false, the part of a pass after `TFile::Open`
never reaches the recursive call, and it returns `-6` whenever it leaves a
current tree. -/
theorem afterOpen_notified (s : TChain) (g tre : Int) (k eidx : Nat)
    (tree : Option TTree) (rc : Int) (r : TChain.Step) (hn : s.fNotify = some false)
    (h : TChain.afterOpen s g tre k eidx tree rc = some r) :
    ∃ ret s1, r = Step.done ret s1 ∧ (s1.fTree.isSome = true → ret = -6) := by
  unfold TChain.afterOpen at h
  cases hrep : TChain.repair
      { s with fTree := tree, fFile := tree.isSome, fTreeNumber := (k : Int) } g tre k eidx
      (TChain.entriesOf tree) rc with
  | none => simp [hrep] at h
  | some res =>
    obtain ⟨hn2, _⟩ := repair_others _ g tre k eidx _ rc res hrep
    obtain ⟨s2, tre2, again⟩ := res
    simp only at hn2
    simp only [hrep] at h
    cases again with
    | true =>
      simp only [hn2, hn, if_true, Option.some.injEq] at h
      exact ⟨_, _, h.symm, fun _ => rfl⟩
    | false =>
      simp only [Option.some.injEq] at h
      obtain ⟨ret, s1, hf, hret⟩ := finishSwitch_notified s2 g tre2 eidx rc (hn2.trans hn)
      rw [hf] at h
      exact ⟨ret, s1, h.symm, hret⟩

/-- With a notifier that returns false, a pass of `LoadTree` never reaches the
recursive call, and a pass that has opened a file and leaves a current tree
returns `-6`. -/
theorem LoadTreeStep_notified (E : Env) (s : TChain) (g : Int) (r : TChain.Step)
    (hn : s.fNotify = some false) (h : TChain.LoadTreeStep E s g = some r) :
    ∃ ret s1, r = Step.done ret s1 ∧
      (s1.opens ≠ s.opens → s1.fTree.isSome = true → ret = -6) := by
  rcases LoadTreeStep_cases E s g r h with ⟨_, hr⟩ | ⟨_, _, hr⟩ | ⟨_, _, _, hr⟩ |
    ⟨_, _, _, k, a, _, _, hrest⟩
  · exact ⟨_, _, hr, fun h1 => absurd rfl h1⟩
  · exact ⟨_, _, hr, fun h1 => absurd rfl h1⟩
  · exact ⟨_, _, hr, fun h1 => absurd rfl h1⟩
  · rcases hrest with ⟨t, _, _, hsame⟩ | ⟨_, ⟨_, _, hr⟩ | ⟨eidx, e, _, _, hopen⟩⟩
    · obtain ⟨ret, s1, hr, _⟩ := sameTree_done { s with fReadEntry := g } t g _ _ hsame
      obtain ⟨_, _, _, _, f5, _⟩ := sameTree_frame { s with fReadEntry := g } t g _ _ hsame
      subst hr
      exact ⟨ret, s1, rfl, fun h1 => absurd f5 h1⟩
    · exact ⟨_, _, hr, fun h1 => absurd (teardown_opens _) h1⟩
    · exact afterOpen_notified _ g _ k eidx _ _ r (by simp [hn]) hopen
      |>.imp fun ret hx => hx.imp fun s1 hy => ⟨hy.1, fun _ ht => hy.2 ht⟩

/-- C22. In a chain whose notifier returns false on `Notify()`, every `LoadTree(g)`
that opens a file and finds the tree in it (a file name has been added to
those passed to `TFile::Open` and the chain has a current tree afterwards)
returns `-6`, never the local entry. -/
theorem LoadTree_escalates_failed_notification (E : Env) (s : TChain) (g r : Int)
    (s1 : TChain) (hn : s.fNotify = some false)
    (h : TChain.LoadTree E s g = some (r, s1))
    (hsw : s1.opens ≠ s.opens) (ht : s1.fTree.isSome = true) : r = -6 := by
  unfold TChain.LoadTree at h
  rw [LoadTreeAux_succ] at h
  cases hs : TChain.LoadTreeStep E s g with
  | none => simp [hs] at h
  | some x =>
    obtain ⟨ret, s2, hx, hret⟩ := LoadTreeStep_notified E s g x hn hs
    subst hx
    simp only [hs, Option.some.injEq, Prod.mk.injEq] at h
    obtain ⟨h1, h2⟩ := h
    subst h1 h2
    exact hret hsw ht

/-- The chain `chainNf` at entry 0: the file `p0.root` is opened, its tree becomes the
current tree, and the call returns `-6` instead of the local entry 0. -/
theorem LoadTree_escalates_failed_notification_witness :
    TChain.LoadTree envA chainNf 0 = some (-6, chainNf0) ∧ (-6 : Int) = -6 :=
  ⟨by decide,
   LoadTree_escalates_failed_notification envA chainNf 0 (-6) chainNf0 (by decide) (by decide)
     (by decide) (by decide)⟩

/-- The notification that precedes the recursive call is escalated as well: at
entry 4, which lies beyond the tree of `p0.root`, the call returns `-6` without
going on to `p1.root`. -/
theorem LoadTree_notification_before_next_tree :
    (TChain.LoadTree envA chainNf 4).map (fun r => (r.1, r.2.fTreeNumber, r.2.opens))
      = some (-6, 0, ["p0.root"]) := by
  decide

/-! ## The friends of the chain -/

/-- The path of the current tree asks every friend for the global entry. -/
theorem sameTree_friends (s : TChain) (t : TTree) (g tre : Int) (r : TChain.Step)
    (h : TChain.sameTree s t g tre = some r) :
    r.chain.fFriends = TChain.loadFriends s.fFriends g := by
  unfold TChain.sameTree at h
  simp only at h
  by_cases hf : s.fFriends ≠ [] ∨ (t.LoadTree tre).2.hasFriends = true
  · simp only [hf, if_true] at h
    split_ifs at h <;> cases h <;> rfl
  · simp only [hf, if_false, Option.some.injEq] at h
    have h0 : s.fFriends = [] := by
      by_contra hne
      exact hf (Or.inl hne)
    subst h
    simp [TChain.Step.chain, h0, TChain.loadFriends]

/-- The end of a switch with a tree asks every friend whose tree is available for
the global entry. -/
theorem finishSwitch_friends (s : TChain) (g tre : Int) (eidx : Nat) (rc : Int)
    (ht : s.fTree.isSome = true) :
    (TChain.finishSwitch s g tre eidx rc).chain.fFriends = TChain.loadFriends s.fFriends g := by
  unfold TChain.finishSwitch
  cases hs : s.fTree with
  | none => simp [hs] at ht
  | some t =>
    simp only
    split_ifs <;> rfl

/-- The part of a pass after `TFile::Open` that returns a local entry has asked
every friend whose tree is available for the global entry. -/
theorem afterOpen_friends (s : TChain) (g tre : Int) (k eidx : Nat)
    (tree : Option TTree) (rc : Int) (l : Int) (s1 : TChain)
    (h : TChain.afterOpen s g tre k eidx tree rc = some (Step.done l s1))
    (hl : 0 ≤ l) (hrc : tree = none → rc < 0) :
    s1.fFriends = TChain.loadFriends s.fFriends g := by
  unfold TChain.afterOpen at h
  cases hrep : TChain.repair
      { s with fTree := tree, fFile := tree.isSome, fTreeNumber := (k : Int) } g tre k eidx
      (TChain.entriesOf tree) rc with
  | none => simp [hrep] at h
  | some res =>
    obtain ⟨_, e2, _, e4, _⟩ := repair_others _ g tre k eidx _ rc res hrep
    obtain ⟨s2, tre2, again⟩ := res
    simp only at e2 e4
    simp only [hrep] at h
    cases again with
    | true =>
      simp only at h
      split_ifs at h
      · simp only [Option.some.injEq, TChain.Step.done.injEq] at h
        omega
      · cases h
    | false =>
      simp only [Option.some.injEq] at h
      cases htree : tree with
      | none =>
        rcases finishSwitch_cases s2 g tre2 eidx rc l s1 h with ⟨_, hlrc⟩ | ⟨_, hsome, _⟩
        · have := hrc htree
          omega
        · rw [e2, htree] at hsome
          simp at hsome
      | some t =>
        have hf := finishSwitch_friends s2 g tre2 eidx rc (by rw [e2, htree]; rfl)
        rw [h] at hf
        simp only [TChain.Step.chain] at hf
        rw [hf, e4]

/-- One pass of `LoadTree` while the friend lock is not held: a pass that returns a
local entry has asked every friend whose tree is available for the global
entry, once; a pass that ends in the recursive call has asked no friend. -/
theorem LoadTreeStep_friends (E : Env) (s : TChain) (g : Int) (r : TChain.Step)
    (hlock : s.fFriendLockStatus = false) (h : TChain.LoadTreeStep E s g = some r) :
    (∀ l s1, r = Step.done l s1 → 0 ≤ l → s1.fFriends = TChain.loadFriends s.fFriends g) ∧
    (∀ s1, r = Step.retry s1 → s1.fFriends = s.fFriends) := by
  rcases LoadTreeStep_cases E s g r h with ⟨hlk, _⟩ | ⟨_, _, hr⟩ | ⟨_, _, _, hr⟩ |
    ⟨_, _, _, k, a, _, _, hrest⟩
  · rw [hlock] at hlk; cases hlk
  · subst hr
    exact ⟨fun l s1 h1 hl => by cases h1; omega, fun s1 h1 => by cases h1⟩
  · subst hr
    exact ⟨fun l s1 h1 hl => by cases h1; omega, fun s1 h1 => by cases h1⟩
  · rcases hrest with ⟨t, _, _, hsame⟩ | ⟨_, ⟨_, _, hr⟩ | ⟨eidx, e, _, _, hopen⟩⟩
    · have hf := sameTree_friends { s with fReadEntry := g } t g _ r hsame
      obtain ⟨ret, s2, hr, _⟩ := sameTree_done { s with fReadEntry := g } t g _ _ hsame
      subst hr
      exact ⟨fun l s1 h1 _ => by cases h1; exact hf, fun s1 h1 => by cases h1⟩
    · subst hr
      exact ⟨fun l s1 h1 hl => by cases h1; omega, fun s1 h1 => by cases h1⟩
    · constructor
      · intro l s1 h1 hl
        subst h1
        have := afterOpen_friends _ g _ k eidx _ _ l s1 hopen hl (openElement_code E e)
        simpa using this
      · intro s1 h1
        subst h1
        obtain ⟨a2, c, total, _, _, _, _, _, _, hs2⟩ := afterOpen_retry _ g _ k eidx _ _ s1 hopen
        subst hs2
        simp

/-- A call of `LoadTree(g)` that returns a local entry while the friend lock is not
held has asked every friend whose tree is available for the global entry `g`,
exactly once, whatever the number of passes. -/
theorem LoadTreeAux_friends (E : Env) (g l : Int) :
    ∀ (fuel : Nat) (s s1 : TChain), s.fFriendLockStatus = false →
      TChain.LoadTreeAux E fuel s g = some (l, s1) → 0 ≤ l →
      s1.fFriends = TChain.loadFriends s.fFriends g := by
  intro fuel
  induction fuel with
  | zero => intro s s1 _ h; simp [TChain.LoadTreeAux] at h
  | succ f ih =>
    intro s s1 hlock h hl
    rw [LoadTreeAux_succ] at h
    cases hs : TChain.LoadTreeStep E s g with
    | none => simp [hs] at h
    | some r =>
      obtain ⟨hd, hr⟩ := LoadTreeStep_friends E s g r hlock hs
      cases r with
      | done ret s2 =>
        simp only [hs, Option.some.injEq, Prod.mk.injEq] at h
        obtain ⟨h1, h2⟩ := h
        subst h1 h2
        exact hd _ _ rfl hl
      | retry s2 =>
        simp only [hs] at h
        have hlock2 := (LoadTreeStep_lock E s g _ hs).1
        simp only [TChain.Step.chain] at hlock2
        rw [← hr s2 rfl]
        exact ih s2 s1 (hlock2.trans hlock) h hl

/-- C23. After every `LoadTree(g)` that returns a local entry `l >= 0` (the friend lock
not held), on the path of the current tree as on the path that opens a file
and through any number of re-invocations, each friend of the chain whose tree
is available has been asked once more, for the global entry `g`, and the other
friends are as they were; the chain itself is positioned on `g`: `l` plus the
boundary of the current tree is `g`. -/
theorem LoadTree_aligns_friends (E : Env) (s : TChain) (g l : Int) (s1 : TChain)
    (hlock : s.fFriendLockStatus = false)
    (h : TChain.LoadTree E s g = some (l, s1)) (hl : 0 ≤ l) :
    s1.fFriends
      = s.fFriends.map (fun fe => if fe.hasTree then { fe with loads := fe.loads ++ [g] } else fe) ∧
    ∃ (k : Nat) (a : Int), s1.fTreeNumber = (k : Int) ∧ s1.fTreeOffset[k]? = some a ∧
      l + a = g := by
  refine ⟨LoadTreeAux_friends E g l _ s s1 hlock h hl, ?_⟩
  obtain ⟨k, a, h1, h2, h3⟩ := LoadTreeAux_entry E g l _ s s1 hlock h hl
  exact ⟨k, a, h1, h2, by omega⟩

/-- Scenario D: `LoadTree(7)` on the chain of three files with two friends opens the
three files in turn, returns local entry 2 of the third tree, and both friends
have been asked for entry 7, once. -/
theorem LoadTree_aligns_friends_witness :
    TChain.LoadTree envA chainD 7 = some (2, chainD7) ∧
    chainD7.fFriends
      = chainD.fFriends.map
          (fun fe => if fe.hasTree then { fe with loads := fe.loads ++ [7] } else fe) ∧
    ∃ (k : Nat) (a : Int), chainD7.fTreeNumber = (k : Int) ∧ chainD7.fTreeOffset[k]? = some a ∧
      2 + a = 7 :=
  ⟨by decide,
   LoadTree_aligns_friends envA chainD 7 2 chainD7 (by decide) (by decide) (by decide)⟩

/-- Scenario D, continued on the path of the current tree: `LoadTree(8)` opens no file
and both friends are asked for entry 8. -/
theorem LoadTree_aligns_friends_on_current_tree :
    (TChain.LoadTree envA chainD7 8).map (fun r => (r.1, r.2.opens, r.2.fFriends))
      = some (3, ["p0.root", "p1.root", "big.root"],
          [⟨"f1", true, [7, 8]⟩, ⟨"f2", true, [7, 8]⟩]) := by
  decide

/-! ## The values `LoadTree` returns -/

/-- The boundary of the tree number that `LoadTree` selects for an entry `g >= 0` lies
at or below `g` when `fTreeOffset[0]` is 0: the local entry is never negative. -/
theorem locate_lower (E : Env) (s : TChain) (g : Int) (k : Nat) (a : Int)
    (h0 : s.fTreeOffset[0]? = some 0) (hg : 0 ≤ g)
    (h : TChain.locate E s g = some k) (ha : s.fTreeOffset[k]? = some a) : a ≤ g := by
  have hsearch : TChain.searchFrom s.fTreeOffset g s.fNtrees 0 = some k → a ≤ g := by
    intro hs
    obtain ⟨_, _, hlow, _⟩ := searchFrom_spec _ _ _ _ _ hs
    cases k with
    | zero =>
      rw [h0] at ha
      have := Option.some.inj ha
      omega
    | succ j =>
      obtain ⟨v, hv, hvg⟩ := hlow j (by omega) (by omega)
      rw [ha] at hv
      have := Option.some.inj hv
      omega
  unfold TChain.locate at h
  by_cases h1 : s.fTreeNumber = -1
  · simp only [h1, if_true] at h; exact hsearch h
  · simp only [h1, if_false] at h
    cases hc : TChain.offsetAt s.fTreeOffset s.fTreeNumber with
    | none => simp [hc] at h
    | some c =>
      simp only [hc] at h
      by_cases h2 : g < c
      · simp only [h2, if_true] at h; exact hsearch h
      · simp only [h2, if_false] at h
        cases hb : TChain.offsetAt s.fTreeOffset (s.fTreeNumber + 1) with
        | none => simp [hb] at h
        | some b =>
          simp only [hb] at h
          by_cases h3 : g ≥ b
          · simp only [h3, if_true] at h; exact hsearch h
          · simp only [h3, if_false] at h
            by_cases h4 : g = E.kMaxEntries - 1
            · simp only [h4, if_true] at h
              rw [h4] at hsearch
              rw [h4]
              exact hsearch h
            · simp only [h4, if_false, Option.some.injEq] at h
              have hnn : 0 ≤ s.fTreeNumber := by
                by_contra hneg
                simp [TChain.offsetAt, hneg] at hc
              have hk : s.fTreeNumber = (k : Int) := by rw [← h]; omega
              rw [hk, offsetAt_nat, ha] at hc
              have := Option.some.inj hc
              omega

/-- The code that goes with a failed open is `-3` or `-4`. -/
theorem openElement_failure (E : Env) (e : TChainElement) :
    (TChain.openElement E e).1 = none →
      (TChain.openElement E e).2 = -3 ∨ (TChain.openElement E e).2 = -4 := by
  unfold TChain.openElement
  cases hO : E.Open e.fTitle with
  | none => intro _; exact Or.inl rfl
  | some f =>
    cases hG : f.Get e.fName with
    | none => intro _; simp [hG]
    | some t => intro h; simp [hG] at h

/-- What the part of a pass after `TFile::Open` can return: the local entry, `-2`,
the code of the failed open, or `-6`. -/
theorem afterOpen_code (s : TChain) (g tre : Int) (k eidx : Nat)
    (tree : Option TTree) (rc : Int) (r : Int) (s1 : TChain)
    (h : TChain.afterOpen s g tre k eidx tree rc = some (Step.done r s1))
    (hrc : tree = none → rc = -3 ∨ rc = -4) :
    r = tre ∨ r = -2 ∨ r = -3 ∨ r = -4 ∨ r = -6 := by
  unfold TChain.afterOpen at h
  cases hrep : TChain.repair
      { s with fTree := tree, fFile := tree.isSome, fTreeNumber := (k : Int) } g tre k eidx
      (TChain.entriesOf tree) rc with
  | none => simp [hrep] at h
  | some res =>
    obtain ⟨_, e2, _⟩ := repair_others _ g tre k eidx _ rc res hrep
    obtain ⟨a, b, _, _, hcase⟩ := repair_cases _ g tre k eidx _ rc res hrep
    obtain ⟨s2, tre2, again⟩ := res
    simp only at e2
    simp only [hrep] at h
    cases again with
    | true =>
      simp only at h
      split_ifs at h
      · simp only [Option.some.injEq, TChain.Step.done.injEq] at h
        omega
      · cases h
    | false =>
      simp only [Option.some.injEq] at h
      have htre : tre2 = tre ∨ tre2 = -2 := by
        rcases hcase with ⟨_, hres⟩ | ⟨_, total, _, hres | hres | hres⟩
        · cases hres; exact Or.inl rfl
        · cases hres.1; exact Or.inl rfl
        · cases hres.1
        · cases hres.1; exact Or.inr rfl
      rcases finishSwitch_cases s2 g tre2 eidx rc r s1 h with ⟨hn, hlrc⟩ | ⟨_, _, hlt, _⟩
      · rw [e2] at hn
        rcases hrc hn with h3 | h3 <;> omega
      · rcases hlt with h3 | h3 <;> rcases htre with h4 | h4 <;> omega

/-- What one pass of `LoadTree` can return when `fTreeOffset[0]` is 0: a value `>= 0`, or
one of `-1`, `-2`, `-3`, `-4` and `-6`. -/
theorem LoadTreeStep_code (E : Env) (s : TChain) (g r : Int) (s1 : TChain)
    (h0 : s.fTreeOffset[0]? = some 0)
    (h : TChain.LoadTreeStep E s g = some (Step.done r s1)) :
    0 ≤ r ∨ r = -1 ∨ r = -2 ∨ r = -3 ∨ r = -4 ∨ r = -6 := by
  rcases LoadTreeStep_cases E s g _ h with ⟨_, hr⟩ | ⟨_, _, hr⟩ | ⟨_, _, _, hr⟩ |
    ⟨_, _, hrange, k, a, hloc, ha, hrest⟩
  · cases hr; exact Or.inl (le_refl _)
  · cases hr; exact Or.inr (Or.inl rfl)
  · cases hr; exact Or.inr (Or.inr (Or.inl rfl))
  · have hg : 0 ≤ g := by
      by_contra hneg
      exact hrange (Or.inl (by omega))
    have hle := locate_lower E s g k a h0 hg hloc ha
    rcases hrest with ⟨t, _, _, hsame⟩ | ⟨_, ⟨_, _, hr⟩ | ⟨eidx, e, _, _, hopen⟩⟩
    · obtain ⟨ret, s2, hr, hret⟩ := sameTree_done { s with fReadEntry := g } t g _ _ hsame
      cases hr
      rcases hret with h3 | h3 <;> omega
    · cases hr; omega
    · have := afterOpen_code _ g _ k eidx _ _ r s1 hopen (openElement_failure E e)
      omega

/-- C27. In every state a chain can reach from its construction by `AddFile`,
`Add(TChain*)`, `LoadTree`, `GetEntries` and `Reset`, whatever the number of passes,
`LoadTree(g)` returns a value `>= 0` or one of `-1`, `-2`, `-3`, `-4` and `-6`: never `-5`, never
another negative value; the local entry `g - fTreeOffset[treenum]` computed for an
entry that has passed the range check is never negative. -/
theorem LoadTree_return_values (E : Env) (s : TChain) (g : Int) (hr : Reachable E s) :
    (∀ (fuel : Nat) (r : Int) (s1 : TChain), TChain.LoadTreeAux E fuel s g = some (r, s1) →
      0 ≤ r ∨ r = -1 ∨ r = -2 ∨ r = -3 ∨ r = -4 ∨ r = -6) ∧
    (∀ (k : Nat) (a : Int), 0 ≤ g → TChain.locate E s g = some k →
      s.fTreeOffset[k]? = some a → 0 ≤ g - a) := by
  constructor
  · intro fuel
    have key : ∀ (fuel : Nat) (c : TChain), c.fTreeOffset[0]? = some 0 →
        ∀ (r : Int) (s1 : TChain), TChain.LoadTreeAux E fuel c g = some (r, s1) →
          0 ≤ r ∨ r = -1 ∨ r = -2 ∨ r = -3 ∨ r = -4 ∨ r = -6 := by
      intro fuel
      induction fuel with
      | zero => intro c _ r s1 h; simp [TChain.LoadTreeAux] at h
      | succ f ih =>
        intro c h0 r s1 h
        rw [LoadTreeAux_succ] at h
        cases hs : TChain.LoadTreeStep E c g with
        | none => simp [hs] at h
        | some x =>
          cases x with
          | done ret s2 =>
            simp only [hs, Option.some.injEq, Prod.mk.injEq] at h
            obtain ⟨h1, h2⟩ := h
            subst h1 h2
            exact LoadTreeStep_code E c g _ _ h0 hs
          | retry s2 =>
            simp only [hs] at h
            have hz := LoadTreeStep_zero E c g _ hs
            simp only [TChain.Step.chain] at hz
            exact ih s2 (hz.trans h0) r s1 h
    exact key fuel s hr.zero
  · intro k a hg hloc ha
    have := locate_lower E s g k a hr.zero hg hloc ha
    omega

/-- The chain `chainA1`, reached by two `AddFile` calls and `LoadTree(0)`: `LoadTree(4)` returns
the local entry 1, `LoadTree(7)` returns `-2`. -/
theorem LoadTree_return_values_witness :
    TChain.LoadTree envA chainA1 4 = some (1, chainA4) ∧
    ((0 : Int) ≤ 1 ∨ (1 : Int) = -1 ∨ (1 : Int) = -2 ∨ (1 : Int) = -3 ∨ (1 : Int) = -4 ∨
      (1 : Int) = -6) ∧
    TChain.locate envA chainA1 4 = some 1 ∧ chainA1.fTreeOffset[1]? = some 3 ∧
    (0 : Int) ≤ 4 - 3 :=
  ⟨by decide,
   (LoadTree_return_values envA chainA1 4 chainA1_reachable).1 (chainA1.fNtrees + 2) 1 chainA4
     (by decide),
   by decide, by decide,
   (LoadTree_return_values envA chainA1 4 chainA1_reachable).2 1 3 (by decide) (by decide)
     (by decide)⟩

/-! ## The total and the last boundary -/

/-- The total is the last boundary: `fEntries = fTreeOffset[fNtrees]`.  `AddFile` keeps this. -/
theorem AddFile_keeps_total (E : Env) (s : TChain) (name : String) (n : Int) (tname : String)
    (r : Int) (s1 : TChain) (hlen : s.fNtrees < s.fTreeOffset.length)
    (htot : s.fTreeOffset[s.fNtrees]? = some s.fEntries)
    (h : TChain.AddFile E s name n tname = some (r, s1)) :
    s1.fTreeOffset[s1.fNtrees]? = some s1.fEntries := by
  have hconnect : ∀ (c : TChain) (tn fn : String) (m pk : Int) (c1 : TChain),
      TChain.connect E c tn fn m pk = some c1 →
      c.fNtrees < c.fTreeOffset.length → c.fTreeOffset[c.fNtrees]? = some c.fEntries →
      c1.fTreeOffset[c1.fNtrees]? = some c1.fEntries := by
    intro c tn fn m pk c1 hc hl ht
    unfold TChain.connect at hc
    by_cases hm : 0 < m
    · simp only [hm, if_true] at hc
      by_cases hk : m ≠ E.kMaxEntries
      · simp only [hk, ne_eq, not_false_eq_true, if_true, offsetAt_nat, ht] at hc
        cases ho : TChain.offsetSet c.fTreeOffset (c.fNtrees + 1) (c.fEntries + m) with
        | none => simp [ho] at hc
        | some off =>
          simp only [ho, Option.some.injEq] at hc
          subst hc
          obtain ⟨off1, h1, h2, _⟩ := offsetSet_spec c.fTreeOffset c.fNtrees _ hl
          rw [ho] at h1
          rw [Option.some.inj h1]
          exact h2
      · have hk2 : m = E.kMaxEntries := by simpa using hk
        simp only [hk2, ne_eq, not_true_eq_false, if_false] at hc
        cases ho : TChain.offsetSet c.fTreeOffset (c.fNtrees + 1) E.kMaxEntries with
        | none => simp [ho] at hc
        | some off =>
          simp only [ho, Option.some.injEq] at hc
          subst hc
          obtain ⟨off1, h1, h2, _⟩ := offsetSet_spec c.fTreeOffset c.fNtrees _ hl
          rw [ho] at h1
          rw [Option.some.inj h1]
          exact h2
    · simp only [hm, if_false, Option.some.injEq] at hc
      subst hc
      exact ht
  unfold TChain.AddFile at h
  by_cases hname : name = ""
  · simp only [hname, if_true, Option.some.injEq, Prod.mk.injEq] at h
    rw [← h.2]; exact htot
  · simp only [hname, if_false] at h
    by_cases hn : n ≤ 0
    · simp only [hn, if_true] at h
      cases hO : E.Open ((E.ParseTreeFilename name).basename ++ (E.ParseTreeFilename name).query) with
      | none =>
        simp only [hO, Option.some.injEq, Prod.mk.injEq] at h
        rw [← h.2]; exact htot
      | some f =>
        simp only [hO] at h
        split at h
        · simp only [Option.some.injEq, Prod.mk.injEq] at h
          rw [← h.2]; exact htot
        · split at h
          · cases h
          · rename_i hc
            simp only [Option.some.injEq, Prod.mk.injEq] at h
            rw [← h.2]
            exact hconnect _ _ _ _ _ _ hc hlen htot
    · simp only [hn, if_false] at h
      split at h
      · cases h
      · rename_i hc
        simp only [Option.some.injEq, Prod.mk.injEq] at h
        rw [← h.2]
        exact hconnect _ _ _ _ _ _ hc hlen htot

/-- `LoadTree` keeps the total at the last boundary, whatever it returns. -/
theorem LoadTree_keeps_total (E : Env) (s : TChain) (g r : Int) (s1 : TChain)
    (htot : s.fTreeOffset[s.fNtrees]? = some s.fEntries)
    (h : TChain.LoadTree E s g = some (r, s1)) :
    s1.fTreeOffset[s1.fNtrees]? = some s1.fEntries :=
  LoadTreeAux_preserves E (fun c => c.fTreeOffset[c.fNtrees]? = some c.fEntries)
    (fun c g1 x hc hx => by
      obtain ⟨hn, _, hoff⟩ := LoadTreeStep_frame E c g1 x hx
      rcases hoff with ⟨h1, h2⟩ | ⟨k, a, b, n, _, _, _, _, h1, h2, _⟩
      · rw [h1, h2, hn]; exact hc
      · rw [h1, hn]; exact h2)
    g _ s r s1 htot h

/-- C29 at its failing input: on the chain of `p0.root`, added with the count unknown,
`Add(TChain*)` of a chain that holds `p1.root` with 2 entries returns 1 and leaves two
trees with the boundaries `[0, kMaxEntries, kMaxEntries]`, the last one kept at the
sentinel, while the total has become `kMaxEntries + 2`: the total is not the last
boundary.  (`GetEntries` then does no longer see an unresolved chain.) -/
theorem Add_adds_to_the_sentinel_total :
    ((addFiles envA (TChain.init "T") [("p0.root", 1000000000000, "")]).bind fun s =>
      (addFiles envA (TChain.init "T") [("p1.root", 2, "")]).bind fun o =>
        (TChain.Add envA s o).map fun r =>
          (r.1, r.2.1.fNtrees, r.2.1.fTreeOffset[r.2.1.fNtrees]?, r.2.1.fEntries))
      = some (1, 2, some 1000000000000, 1000000000002) ∧
    ((addFiles envA (TChain.init "T") [("p0.root", 1000000000000, "")]).bind fun s =>
      (addFiles envA (TChain.init "T") [("p1.root", 2, "")]).bind fun o =>
        (TChain.Add envA s o).bind fun r =>
          (TChain.GetEntries envA r.2.1).map fun x => (r.2.1.fTreeOffset, x.1, x.2.opens))
      = some ([0, 1000000000000, 1000000000000], 1000000000002, []) := by
  refine ⟨by decide, by decide⟩

/-! ## Reads of the offset table beyond the last boundary -/

/-- C30 at its failing input: the chain of `empty.root`, added with the count unknown.
The first `LoadTree(0)` opens the file, finds no entry, sets `fTreeOffset[1] = 0` and
returns `-2`.  In the second `LoadTree(0)` the linear search finds no tree and ends
with `treenum = fNtrees = 1`; as the local entry is 0 the first element stands in, its
file is opened, `fTreeNumber` becomes 1 and `fTreeOffset[fTreeNumber + 1]`, the slot 2 that
was never assigned, is read: the call has no defined result. -/
theorem LoadTree_reads_beyond_last_boundary :
    ((addFiles envA (TChain.init "T") [("empty.root", 1000000000000, "")]).bind fun s =>
      (TChain.LoadTree envA s 0).map fun r =>
        (r.1, r.2.fNtrees, r.2.fTreeNumber, r.2.fTreeOffset))
      = some (-2, 1, 0, [0, 0]) ∧
    ((addFiles envA (TChain.init "T") [("empty.root", 1000000000000, "")]).bind fun s =>
      (TChain.LoadTree envA s 0).map fun r =>
        (TChain.locate envA r.2 0, r.2.fFiles[1]?.isSome, r.2.fFiles[0]?.isSome,
          TChain.offsetAt r.2.fTreeOffset 2))
      = some (some 1, false, true, none) ∧
    ((addFiles envA (TChain.init "T") [("empty.root", 1000000000000, "")]).bind fun s =>
      (TChain.LoadTree envA s 0).map fun r => TChain.LoadTree envA r.2 0)
      = some none := by
  refine ⟨by decide, by decide, by decide⟩

/-- The check of the offset table reads `fTreeOffset[treenum + 1]`; on a slot that was
never assigned it has no defined result. -/
theorem repair_unassigned (s : TChain) (g tre : Int) (k eidx : Nat) (n rc : Int)
    (h : TChain.offsetAt s.fTreeOffset ((k : Int) + 1) = none) :
    TChain.repair s g tre k eidx n rc = none := by
  unfold TChain.repair
  rw [h]
  cases TChain.offsetAt s.fTreeOffset (k : Int) <;> rfl

/-! ## The order in which the passes of one call select their trees -/

/-- After a pass on the tree `k` that the linear search had selected and that ended
in the recursive call, the next pass selects the tree `k + 1`. -/
theorem Passed.selects {E : Env} {s : TChain} {g : Int} {k : Nat} (h : Passed s g k)
    (k1 : Nat) (hloc : TChain.locate E s g = some k1) : k1 = k + 1 := by
  obtain ⟨hnum, hk, hbelow, c, hc, hgc⟩ := h
  have hret : Retried s g := by
    obtain ⟨v, hv, hvg⟩ := hbelow k (le_refl _)
    exact ⟨by omega, k, v, hnum, hk, hv, hvg⟩
  have hsearch := hret.bySearch k1 hloc
  obtain ⟨_, hle, hlow, hup⟩ := searchFrom_spec _ _ _ _ _ hsearch
  have h1 : k < k1 := by
    by_contra hnot
    obtain ⟨w, hw, hgw⟩ := hup (by omega)
    obtain ⟨v, hv, hvg⟩ := hbelow k1 (by omega)
    rw [hw] at hv
    have := Option.some.inj hv
    omega
  by_contra hne
  obtain ⟨v, hv, hvg⟩ := hlow (k + 1) (by omega) (by omega)
  rw [hc] at hv
  have := Option.some.inj hv
  omega

/-- A pass that starts without a tree number, with a tree loaded, or as a
recursive call selects its tree by the linear search, unless it stays on the
current tree and returns. -/
theorem LoadTreeStep_searches (E : Env) (s : TChain) (g : Int) (s1 : TChain)
    (hstart : s.fTreeNumber = -1 ∨ s.fTree.isSome = true ∨
      ∃ s0, TChain.LoadTreeStep E s0 g = some (Step.retry s))
    (h : TChain.LoadTreeStep E s g = some (Step.retry s1)) :
    ∀ k, TChain.locate E s g = some k →
      TChain.searchFrom s.fTreeOffset g s.fNtrees 0 = some k := by
  intro k1 hk1
  rcases hstart with h3 | h3 | ⟨s0, h3⟩
  · rcases locate_cases E s g k1 hk1 with h2 | ⟨h2, _⟩
    · exact h2
    · omega
  · obtain ⟨k, _, _, hloc, hsw, _⟩ := LoadTreeStep_retry E s g s1 h
    rcases locate_cases E s g k1 hk1 with h2 | ⟨h2, _⟩
    · exact h2
    · rw [hloc] at hk1
      have hkk : k = k1 := Option.some.inj hk1
      subst hkk
      rcases hsw with h4 | h4
      · exact absurd h2 h4
      · rw [h4] at h3; simp at h3
  · exact (LoadTreeStep_retried E s0 g s h3).bySearch k1 hk1

theorem nestedCall_succ (E : Env) (g : Int) (n : Nat) (s : TChain) :
    TChain.nestedCall E g (n + 1) s
      = match TChain.LoadTreeStep E s g with
        | some (Step.retry s1) => TChain.nestedCall E g n s1
        | _ => none := rfl

/-- A nested call other than the first follows a pass that ended in the
recursive call. -/
theorem nestedCall_step (E : Env) (g : Int) (n : Nat) (s c : TChain)
    (h : TChain.nestedCall E g (n + 1) s = some c) :
    ∃ s1, TChain.LoadTreeStep E s g = some (Step.retry s1) ∧
      TChain.nestedCall E g n s1 = some c := by
  rw [nestedCall_succ] at h
  cases hs : TChain.LoadTreeStep E s g with
  | none => simp [hs] at h
  | some r =>
    cases r with
    | done ret s2 => simp [hs] at h
    | retry s2 => exact ⟨s2, rfl, by simpa [hs] using h⟩

theorem Passed.nested {E : Env} {g : Int} :
    ∀ (n : Nat) (s : TChain) (k : Nat) (c : TChain), Passed s g k →
      TChain.nestedCall E g n s = some c → Passed c g (k + n) ∧ c.fNtrees = s.fNtrees := by
  intro n
  induction n with
  | zero =>
    intro s k c hP h
    simp only [TChain.nestedCall, Option.some.injEq] at h
    subst h
    exact ⟨hP, rfl⟩
  | succ m ih =>
    intro s k c hP h
    obtain ⟨s1, hs, hrest⟩ := nestedCall_step E g m s c h
    obtain ⟨_, _, _, _, _, _, _, hn, _⟩ := LoadTreeStep_retry E s g s1 hs
    obtain ⟨h1, h2⟩ := ih s1 (k + 1) c (hP.next s1 hs) hrest
    refine ⟨?_, h2.trans hn⟩
    have : k + 1 + m = k + (m + 1) := by omega
    rw [← this]; exact h1

/-- The nested calls of one call of `LoadTree` are at most `fNtrees`. -/
theorem nestedCall_le (E : Env) (g : Int) (n : Nat) (s c : TChain)
    (h : TChain.nestedCall E g n s = some c) :
    n ≤ s.fNtrees ∧ ((s.fTreeNumber = -1 ∨ s.fTree.isSome = true) → n ≤ s.fNtrees - 1) := by
  cases n with
  | zero => exact ⟨by omega, fun _ => by omega⟩
  | succ m =>
    obtain ⟨s1, hs, hrest⟩ := nestedCall_step E g m s c h
    obtain ⟨_, _, _, _, _, _, _, hn, _⟩ := LoadTreeStep_retry E s g s1 hs
    have hR := LoadTreeStep_retried E s g s1 hs
    have hstart : (s.fTreeNumber = -1 ∨ s.fTree.isSome = true) → m + 1 ≤ s.fNtrees - 1 := by
      intro hst
      obtain ⟨k, hP⟩ := LoadTreeStep_passed E s g s1 hs (LoadTreeStep_bySearch E s g s1 hst hs)
      obtain ⟨hP2, hn2⟩ := Passed.nested m s1 k c hP hrest
      have := hP2.2.1
      omega
    refine ⟨?_, hstart⟩
    cases m with
    | zero =>
      obtain ⟨_, k, _, _, hk, _⟩ := hR
      omega
    | succ j =>
      obtain ⟨s2, hs2, hrest2⟩ := nestedCall_step E g j s1 c hrest
      obtain ⟨_, _, _, _, _, _, _, hn2, _⟩ := LoadTreeStep_retry E s1 g s2 hs2
      obtain ⟨k, hP⟩ := LoadTreeStep_passed E s1 g s2 hs2 (fun k hk => hR.bySearch k hk)
      obtain ⟨hP2, hn3⟩ := Passed.nested j s2 k c hP hrest2
      have := hP2.2.1
      omega

/-- Among the first `m + 1` calls of a nest there is one whose pass does not end in
the recursive call, unless the call number `m + 1` is made. -/
theorem nestedCall_last (E : Env) (g : Int) :
    ∀ (m : Nat) (s : TChain),
      (∃ n c, n ≤ m ∧ TChain.nestedCall E g n s = some c ∧
        (TChain.LoadTreeStep E c g = none ∨
          ∃ r s1, TChain.LoadTreeStep E c g = some (Step.done r s1) ∧
            TChain.LoadTreeAux E (n + 1) s g = some (r, s1))) ∨
      ∃ c, TChain.nestedCall E g (m + 1) s = some c := by
  intro m
  induction m with
  | zero =>
    intro s
    cases hs : TChain.LoadTreeStep E s g with
    | none => exact Or.inl ⟨0, s, le_refl _, rfl, Or.inl hs⟩
    | some r =>
      cases r with
      | done ret s2 =>
        refine Or.inl ⟨0, s, le_refl _, rfl, Or.inr ⟨ret, s2, hs, ?_⟩⟩
        simp [TChain.LoadTreeAux, hs]
      | retry s2 =>
        refine Or.inr ⟨s2, ?_⟩
        rw [nestedCall_succ, hs]
        rfl
  | succ j ih =>
    intro s
    cases hs : TChain.LoadTreeStep E s g with
    | none => exact Or.inl ⟨0, s, by omega, rfl, Or.inl hs⟩
    | some r =>
      cases r with
      | done ret s2 =>
        refine Or.inl ⟨0, s, by omega, rfl, Or.inr ⟨ret, s2, hs, ?_⟩⟩
        simp [TChain.LoadTreeAux, hs]
      | retry s2 =>
        rcases ih s2 with ⟨n, c, hn, hc, hend⟩ | ⟨c, hc⟩
        · refine Or.inl ⟨n + 1, c, by omega, ?_, ?_⟩
          · rw [nestedCall_succ, hs]; exact hc
          · rcases hend with h1 | ⟨r, s1, h1, h2⟩
            · exact Or.inl h1
            · refine Or.inr ⟨r, s1, h1, ?_⟩
              show TChain.LoadTreeAux E (n + 1 + 1) s g = some (r, s1)
              unfold TChain.LoadTreeAux
              simp only [hs]
              exact h2
        · refine Or.inr ⟨c, ?_⟩
          rw [nestedCall_succ, hs]; exact hc

/-- The nest of calls of `LoadTree(g)` is finite: one of the calls number 0 to `fNtrees` is
the last one, its pass returns, which gives the result of `LoadTree`, or has no
defined behaviour. -/
theorem nestedCall_ends (E : Env) (s : TChain) (g : Int) :
    ∃ n c, n ≤ s.fNtrees ∧ TChain.nestedCall E g n s = some c ∧
      (TChain.LoadTreeStep E c g = none ∨
        ∃ r s1, TChain.LoadTreeStep E c g = some (Step.done r s1) ∧
          TChain.LoadTree E s g = some (r, s1)) := by
  rcases nestedCall_last E g s.fNtrees s with ⟨n, c, hn, hc, hend⟩ | ⟨c, hc⟩
  · refine ⟨n, c, hn, hc, ?_⟩
    rcases hend with h1 | ⟨r, s1, h1, h2⟩
    · exact Or.inl h1
    · exact Or.inr ⟨r, s1, h1, LoadTreeAux_more E g (n + 1) (s.fNtrees + 2) s _ (by omega) h2⟩
  · have := (nestedCall_le E g _ s c hc).1
    omega

/-- The tree number selected by `LoadTree` is the result of the linear search
unless the entry lies between the boundaries of the current tree number. -/
theorem locate_within (E : Env) (s : TChain) (g : Int) (k : Nat)
    (h : TChain.locate E s g = some k) :
    TChain.searchFrom s.fTreeOffset g s.fNtrees 0 = some k ∨
      (s.fTreeNumber = (k : Int) ∧
        ∃ a b, s.fTreeOffset[k]? = some a ∧ s.fTreeOffset[k + 1]? = some b ∧ a ≤ g ∧ g < b) := by
  unfold TChain.locate at h
  by_cases h1 : s.fTreeNumber = -1
  · simp only [h1, if_true] at h; exact Or.inl h
  · simp only [h1, if_false] at h
    cases ha : TChain.offsetAt s.fTreeOffset s.fTreeNumber with
    | none => simp [ha] at h
    | some a =>
      simp only [ha] at h
      by_cases h2 : g < a
      · simp only [h2, if_true] at h; exact Or.inl h
      · simp only [h2, if_false] at h
        cases hb : TChain.offsetAt s.fTreeOffset (s.fTreeNumber + 1) with
        | none => simp [hb] at h
        | some b =>
          simp only [hb] at h
          by_cases h3 : g ≥ b
          · simp only [h3, if_true] at h; exact Or.inl h
          · simp only [h3, if_false] at h
            by_cases h4 : g = E.kMaxEntries - 1
            · simp only [h4, if_true] at h
              rw [h4]; exact Or.inl h
            · simp only [h4, if_false, Option.some.injEq] at h
              right
              have hnn : 0 ≤ s.fTreeNumber := by
                by_contra hneg
                simp [TChain.offsetAt, hneg] at ha
              have hk : s.fTreeNumber = (k : Int) := by rw [← h]; omega
              rw [hk, offsetAt_nat] at ha
              rw [hk, offsetAt_nat_succ] at hb
              exact ⟨hk, a, b, ha, hb, by omega, by omega⟩

/-- In a state that the operations of the chain leave, a pass that ends in the
recursive call has selected its tree by the linear search. -/
theorem TChain.Current.searched {E : Env} {s : TChain} {g : Int} (hc : TChain.Current s)
    (s1 : TChain) (h : TChain.LoadTreeStep E s g = some (Step.retry s1)) :
    ∀ k, TChain.locate E s g = some k →
      TChain.searchFrom s.fTreeOffset g s.fNtrees 0 = some k := by
  rcases hc with h1 | h1 | ⟨k0, a0, hk0, _, ha0, hb0⟩
  · exact LoadTreeStep_bySearch E s g s1 (Or.inl h1) h
  · exact LoadTreeStep_bySearch E s g s1 (Or.inr h1) h
  · intro k hk
    rcases locate_within E s g k hk with h2 | ⟨h2, a, b, ha, hb, hag, hgb⟩
    · exact h2
    · have hkk : k0 = k := by omega
      subst hkk
      rw [ha0] at ha
      rw [hb0] at hb
      have := Option.some.inj ha
      have := Option.some.inj hb
      omega

/-- After a pass on the tree `k` that the linear search had selected and that ended
in the recursive call, the next pass selects the tree `k + 1`. -/
theorem Passed.located {E : Env} {s : TChain} {g : Int} {k : Nat} (h : Passed s g k) :
    TChain.locate E s g = some (k + 1) := by
  obtain ⟨hnum, hk, hbelow, c, hc, hgc⟩ := h
  have hsearch : TChain.searchFrom s.fTreeOffset g s.fNtrees 0 = some (k + 1) := by
    apply searchFrom_eq
    · omega
    · omega
    · intro j _ hj
      exact hbelow j (by omega)
    · exact ⟨c, hc, hgc⟩
  obtain ⟨v, hv, hvg⟩ := hbelow k (le_refl _)
  have hlen : k < s.fTreeOffset.length := by
    rcases Nat.lt_or_ge (k + 1) s.fTreeOffset.length with h1 | h1
    · omega
    · rw [List.getElem?_eq_none h1] at hv; cases hv
  obtain ⟨a, ha⟩ : ∃ a, s.fTreeOffset[k]? = some a := ⟨_, List.getElem?_eq_getElem hlen⟩
  have hne : s.fTreeNumber ≠ -1 := by omega
  have ha1 : TChain.offsetAt s.fTreeOffset s.fTreeNumber = some a := by
    rw [hnum, offsetAt_nat]; exact ha
  have hb1 : TChain.offsetAt s.fTreeOffset (s.fTreeNumber + 1) = some v := by
    rw [hnum, offsetAt_nat_succ]; exact hv
  unfold TChain.locate
  simp only [hne, if_false, ha1, hb1]
  by_cases h1 : g < a
  · simp only [h1, if_true]; exact hsearch
  · have h2 : g ≥ v := hvg
    simp only [h1, if_false, h2, if_true]; exact hsearch

/-- The order of the trees selected along a nest of calls: in a state that the
operations of the chain leave, every recursive call selects the tree right
after the one its caller selected. -/
theorem TChain.Current.ordered {E : Env} {s : TChain} {g : Int} (hcur : TChain.Current s)
    (n : Nat) (c c1 : TChain) (hc : TChain.nestedCall E g n s = some c)
    (hstep : TChain.LoadTreeStep E c g = some (Step.retry c1)) :
    ∃ k, TChain.locate E c g = some k ∧ TChain.locate E c1 g = some (k + 1) ∧
      k + 1 < s.fNtrees := by
  obtain ⟨k, _, _, hloc, _, _, _, hn, _, _, hnum, _⟩ := LoadTreeStep_retry E c g c1 hstep
  have key : c.fNtrees = s.fNtrees ∧ ∀ k1, TChain.locate E c g = some k1 →
      TChain.searchFrom c.fTreeOffset g c.fNtrees 0 = some k1 := by
    cases n with
    | zero =>
      simp only [TChain.nestedCall, Option.some.injEq] at hc
      subst hc
      exact ⟨rfl, hcur.searched c1 hstep⟩
    | succ m =>
      obtain ⟨s1, hs, hrest⟩ := nestedCall_step E g m s c hc
      obtain ⟨_, _, _, _, _, _, _, hn1, _⟩ := LoadTreeStep_retry E s g s1 hs
      obtain ⟨k0, hP⟩ := LoadTreeStep_passed E s g s1 hs (hcur.searched s1 hs)
      obtain ⟨hP2, hn2⟩ := Passed.nested m s1 k0 c hP hrest
      refine ⟨hn2.trans hn1, ?_⟩
      have hR : Retried c g := by
        obtain ⟨h1, h2, h3, _⟩ := hP2
        obtain ⟨v, hv, hvg⟩ := h3 (k0 + m) (le_refl _)
        exact ⟨by omega, k0 + m, v, h1, h2, hv, hvg⟩
      exact fun k1 hk1 => hR.bySearch k1 hk1
  obtain ⟨k2, hP⟩ := LoadTreeStep_passed E c g c1 hstep key.2
  have hkk : k2 = k := by have := hP.1; omega
  subst hkk
  refine ⟨k2, hloc, hP.located, ?_⟩
  have := hP.2.1
  omega

theorem sameTree_loaded (s : TChain) (t : TTree) (g tre : Int) (r : TChain.Step)
    (h : TChain.sameTree s t g tre = some r) : r.chain.fTree.isSome = true := by
  unfold TChain.sameTree at h
  simp only at h
  split_ifs at h <;> cases h <;> rfl

theorem finishSwitch_current (s : TChain) (g tre : Int) (eidx : Nat) (rc : Int) :
    TChain.Current (TChain.finishSwitch s g tre eidx rc).chain := by
  unfold TChain.finishSwitch
  cases s.fTree with
  | none => exact Or.inl rfl
  | some t => simp only; split_ifs <;> exact Or.inr (Or.inl rfl)

theorem teardown_current (s : TChain) (h : TChain.Current s) :
    TChain.Current (TChain.teardown s) := by
  unfold TChain.teardown TChain.InvalidateCurrentTree
  split_ifs
  · exact Or.inl rfl
  · exact h
  · exact h

/-- Whatever the state before, the part of a pass after `TFile::Open` leaves a tree
number only together with its tree, or with a tree that counts no entries. -/
theorem afterOpen_current (s : TChain) (g tre : Int) (k eidx : Nat)
    (tree : Option TTree) (rc : Int) (r : TChain.Step)
    (h : TChain.afterOpen s g tre k eidx tree rc = some r) : TChain.Current r.chain := by
  unfold TChain.afterOpen at h
  cases hrep : TChain.repair
      { s with fTree := tree, fFile := tree.isSome, fTreeNumber := (k : Int) } g tre k eidx
      (TChain.entriesOf tree) rc with
  | none => simp [hrep] at h
  | some res =>
    obtain ⟨s2, tre2, again⟩ := res
    simp only [hrep] at h
    cases again with
    | false =>
      simp only [Option.some.injEq] at h
      subst h
      exact finishSwitch_current s2 g tre2 eidx rc
    | true =>
      obtain ⟨a, c, total, ha, hle, hk, hlen, hc, hgc, hs2⟩ :=
        repair_next _ g _ k eidx _ _ s2 tre2 hrep
      simp only at ha hk hlen hc hs2
      have hcur : TChain.Current s2 := by
        subst hs2
        cases tree with
        | some t => exact Or.inr (Or.inl rfl)
        | none =>
          refine Or.inr (Or.inr ⟨k, a, rfl, by simp only; omega, ?_, ?_⟩)
          · simp only
            rw [List.getElem?_set_ne (by omega)]
            exact ha
          · simp only [TChain.entriesOf, add_zero]
            rw [List.getElem?_set]
            simp [hlen]
      simp only at h
      split_ifs at h <;> cases h <;> exact hcur

/-- A pass of `LoadTree` keeps the chain in a state in which a tree number comes
with its tree, or with a tree that counts no entries. -/
theorem LoadTreeStep_current (E : Env) (s : TChain) (g : Int) (r : TChain.Step)
    (hc : TChain.Current s) (h : TChain.LoadTreeStep E s g = some r) :
    TChain.Current r.chain := by
  rcases LoadTreeStep_cases E s g r h with ⟨_, hr⟩ | ⟨_, _, hr⟩ | ⟨_, _, _, hr⟩ |
    ⟨_, _, _, k, a, _, ha, hrest⟩
  · subst hr; exact hc
  · subst hr; exact hc
  · subst hr
    rcases hc with h1 | h1 | h1
    · exact Or.inl h1
    · refine Or.inr (Or.inl ?_)
      simp only [TChain.Step.chain]
      cases hT : s.fTree with
      | none => rw [hT] at h1; simp at h1
      | some t => rfl
    · exact Or.inr (Or.inr h1)
  · rcases hrest with ⟨t, _, _, hsame⟩ | ⟨_, ⟨_, _, hr⟩ | ⟨eidx, e, he, hidx, hopen⟩⟩
    · exact Or.inr (Or.inl (sameTree_loaded _ t g _ r hsame))
    · subst hr
      exact teardown_current _ hc
    · exact afterOpen_current _ g _ k eidx _ _ r hopen

theorem LoadTree_current (E : Env) (s : TChain) (g ret : Int) (s1 : TChain)
    (hc : TChain.Current s) (h : TChain.LoadTree E s g = some (ret, s1)) : TChain.Current s1 :=
  LoadTreeAux_preserves E TChain.Current
    (fun c g1 r hc1 hr => LoadTreeStep_current E c g1 r hc1 hr) g _ s ret s1 hc h

theorem connect_current (E : Env) (s s1 : TChain) (treename filename : String) (n pksize : Int)
    (h : TChain.connect E s treename filename n pksize = some s1) (hs : Shaped s)
    (hc : TChain.Current s) : TChain.Current s1 := by
  obtain ⟨hl, hN, hF⟩ := hs
  have key : ∀ (off : List Int) (v total : Int) (fs : List TChainElement),
      TChain.offsetSet s.fTreeOffset (s.fNtrees + 1) v = some off →
      TChain.Current { s with fTreeOffset := off, fEntries := total, fNtrees := s.fNtrees + 1,
                              fFiles := fs } := by
    intro off v total fs ho
    obtain ⟨off1, ho1, _, hkeep⟩ := offsetSet_spec s.fTreeOffset s.fNtrees v hN
    rw [ho] at ho1
    have hoo : off = off1 := Option.some.inj ho1
    subst hoo
    rcases hc with h1 | h1 | ⟨k, a, hk, hlt, h2, h3⟩
    · exact Or.inl h1
    · exact Or.inr (Or.inl h1)
    · refine Or.inr (Or.inr ⟨k, a, hk, by simp only; omega, ?_, ?_⟩)
      · simp only; rw [hkeep k (by omega)]; exact h2
      · simp only; rw [hkeep (k + 1) (by omega)]; exact h3
  unfold TChain.connect at h
  split_ifs at h with h1 h2
  · cases ha : TChain.offsetAt s.fTreeOffset (s.fNtrees : Int) with
    | none => simp [ha] at h
    | some last =>
      simp only [ha] at h
      cases ho : TChain.offsetSet s.fTreeOffset (s.fNtrees + 1) (last + n) with
      | none => simp [ho] at h
      | some off =>
        simp only [ho, Option.some.injEq] at h
        subst h
        exact key off _ _ _ ho
  · cases ho : TChain.offsetSet s.fTreeOffset (s.fNtrees + 1) E.kMaxEntries with
    | none => simp [ho] at h
    | some off =>
      simp only [ho, Option.some.injEq] at h
      subst h
      exact key off _ _ _ ho
  · cases h; exact hc

theorem AddFile_current (E : Env) (s : TChain) (name : String) (n : Int) (tname : String)
    (r : Int) (s1 : TChain) (h : TChain.AddFile E s name n tname = some (r, s1))
    (hs : Shaped s) (hc : TChain.Current s) : TChain.Current s1 := by
  unfold TChain.AddFile at h
  by_cases hname : name = ""
  · simp only [hname, if_true, Option.some.injEq, Prod.mk.injEq] at h
    rw [← h.2]; exact hc
  · simp only [hname, if_false] at h
    generalize (E.ParseTreeFilename name).basename ++ (E.ParseTreeFilename name).query
      = filename at h
    generalize (if (E.ParseTreeFilename name).treename = "" then
      (if tname.length > 0 then tname else s.fName)
      else (E.ParseTreeFilename name).treename) = treename at h
    have hs1 : Shaped { s with opens := s.opens ++ [filename] } := hs
    have hc1 : TChain.Current { s with opens := s.opens ++ [filename] } := hc
    by_cases hn : n ≤ 0
    · simp only [hn, if_true] at h
      cases hO : E.Open filename with
      | none =>
        simp only [hO, Option.some.injEq, Prod.mk.injEq] at h
        rw [← h.2]; exact hc1
      | some f =>
        simp only [hO] at h
        cases hG : f.Get treename with
        | none =>
          simp only [hG, Option.some.injEq, Prod.mk.injEq] at h
          rw [← h.2]; exact hc1
        | some t =>
          simp only [hG] at h
          cases hcn : TChain.connect E { s with opens := s.opens ++ [filename] } treename filename
              (t.fEntries : Int) t.fPacketSize with
          | none => simp [hcn] at h
          | some s2 =>
            simp only [hcn, Option.some.injEq, Prod.mk.injEq] at h
            rw [← h.2]
            exact connect_current E { s with opens := s.opens ++ [filename] } _ _ _ _ _ hcn hs1 hc1
    · simp only [hn, if_false] at h
      cases hcn : TChain.connect E s treename filename n 0 with
      | none => simp [hcn] at h
      | some s2 =>
        simp only [hcn, Option.some.injEq, Prod.mk.injEq] at h
        rw [← h.2]
        exact connect_current E _ _ _ _ _ _ hcn hs hc

theorem addElements_current (E : Env) :
    ∀ (els : List TChainElement) (s : TChain) (nf nf1 : Nat) (s1 : TChain),
      TChain.addElements E els s nf = some (nf1, s1) → Shaped s → TChain.Current s →
        TChain.Current s1
  | [], s, nf, nf1, s1, h, _, hc => by
    simp only [TChain.addElements, Option.some.injEq, Prod.mk.injEq] at h
    rw [← h.2]; exact hc
  | el :: rest, s, nf, nf1, s1, h, hs, hc => by
    unfold TChain.addElements at h
    simp only at h
    cases ha : TChain.offsetAt s.fTreeOffset (s.fNtrees : Int) with
    | none => simp [ha] at h
    | some last =>
      simp only [ha] at h
      cases ho : TChain.offsetSet s.fTreeOffset (s.fNtrees + 1)
          (if last = E.kMaxEntries then E.kMaxEntries else last + el.fEntries) with
      | none => simp [ho] at h
      | some off =>
        simp only [ho] at h
        obtain ⟨hl, hN, hF⟩ := hs
        refine addElements_current E rest _ _ nf1 s1 h
          ⟨hl, offsetSet_slots _ _ _ _ ho hN, by simp [hF]⟩ ?_
        obtain ⟨off1, ho1, _, hkeep⟩ := offsetSet_spec s.fTreeOffset s.fNtrees
          (if last = E.kMaxEntries then E.kMaxEntries else last + el.fEntries) hN
        rw [ho] at ho1
        have hoo : off = off1 := Option.some.inj ho1
        subst hoo
        rcases hc with h1 | h1 | ⟨k, a, hk, hlt, h2, h3⟩
        · exact Or.inl h1
        · exact Or.inr (Or.inl h1)
        · refine Or.inr (Or.inr ⟨k, a, hk, by simp only; omega, ?_, ?_⟩)
          · simp only; rw [hkeep k (by omega)]; exact h2
          · simp only; rw [hkeep (k + 1) (by omega)]; exact h3

/-- Every state a chain can reach by `AddFile`, `Add(TChain*)`, `LoadTree`, `GetEntries` and
`Reset` has no tree number or has the tree with that number loaded, or counts no
entry for it. -/
theorem Reachable.current {E : Env} {s : TChain} (h : Reachable E s) : TChain.Current s := by
  induction h with
  | init name => exact Or.inl rfl
  | addFile name n tname r s1 hr hadd ih =>
    exact AddFile_current E _ name n tname r s1 hadd hr.shaped ih
  | add nf s1 other1 hr _ hadd ih _ =>
    unfold TChain.Add at hadd
    split at hadd
    · cases hadd
    · split at hadd
      · cases hadd
      · rename_i hel
        cases hadd
        exact addElements_current E _ _ _ _ _ hel hr.shaped ih
  | loadTree g r s1 _ hl ih => exact LoadTree_current E _ g r s1 ih hl
  | getEntries r s1 _ hg ih =>
    exact GetEntries_preserves E TChain.Current
      (fun c g r c1 hc hl => LoadTree_current E c g r c1 hc hl)
      (fun _ _ => Or.inl rfl) (fun _ _ hc => hc) _ r s1 ih hg
  | reset _ _ => exact Or.inl rfl

/-- Outside the states that the operations of the chain leave the order can
fail.  The chain `chainW` has the tree number 2 but no tree loaded, and its
boundaries are not in order: `LoadTree(15)` keeps the tree number 2 without searching,
opens `empty.root`, rewrites `fTreeOffset[3]` to 10 and calls itself; the recursive call searches
from the start and selects the tree 0.  The call still ends, after this one
recursion, and returns `-2`. -/
theorem LoadTree_recursion_selects_earlier_tree :
    ¬ TChain.Current chainW ∧
    TChain.locate envA chainW 15 = some 2 ∧
    ((TChain.LoadTreeStep envA chainW 15).bind fun r =>
      match r with
      | Step.retry s1 => some (s1.fTreeOffset, s1.opens, TChain.locate envA s1 15)
      | Step.done _ _ => none)
      = some ([0, 50, 10, 10, 30], ["empty.root"], some 0) ∧
    TChain.retries envA 6 chainW 15 = some 1 ∧
    (TChain.LoadTree envA chainW 15).map (fun r => (r.1, r.2.fTreeNumber, r.2.opens))
      = some (-2, 0, ["empty.root", "p0.root"]) := by
  refine ⟨?_, by decide, by decide, by decide, by decide⟩
  rintro (h | h | ⟨k, a, hk, _, h1, h2⟩)
  · exact absurd h (by decide)
  · exact absurd h (by decide)
  · have hk2 : k = 2 := by
      have : chainW.fTreeNumber = 2 := rfl
      omega
    subst hk2
    have e1 : chainW.fTreeOffset[2]? = some 10 := rfl
    have e2 : chainW.fTreeOffset[2 + 1]? = some 20 := rfl
    rw [e1] at h1
    rw [e2] at h2
    have := Option.some.inj h1
    have := Option.some.inj h2
    omega

/-! ## The call that moves on after a failed open -/

theorem getElem?_setLoadResult_ne (fs : List TChainElement) (j : Nat) (r : Int) (i : Nat)
    (h : j ≠ i) : (TChain.setLoadResult fs j r)[i]? = fs[i]? := by
  unfold TChain.setLoadResult
  rw [List.getElem?_modify]
  cases fs[i]? <;> simp [h]

theorem getElem?_setNumberEntries_ne (fs : List TChainElement) (j : Nat) (n : Int) (i : Nat)
    (h : j ≠ i) : (TChain.setNumberEntries fs j n)[i]? = fs[i]? := by
  unfold TChain.setNumberEntries
  rw [List.getElem?_modify]
  cases fs[i]? <;> simp [h]

theorem finishSwitch_files (s : TChain) (g tre : Int) (eidx : Nat) (rc : Int) (j : Nat)
    (hj : eidx ≠ j) :
    (TChain.finishSwitch s g tre eidx rc).chain.fFiles[j]? = s.fFiles[j]? := by
  unfold TChain.finishSwitch
  cases s.fTree with
  | none => exact getElem?_setLoadResult_ne _ _ _ _ hj
  | some t =>
    simp only
    split_ifs <;> exact getElem?_setLoadResult_ne _ _ _ _ hj

/-- The part of a pass after `TFile::Open` writes to no element of `fFiles` but the one
in use. -/
theorem afterOpen_files (s : TChain) (g tre : Int) (k eidx : Nat) (tree : Option TTree)
    (rc : Int) (r : TChain.Step) (h : TChain.afterOpen s g tre k eidx tree rc = some r)
    (j : Nat) (hj : eidx ≠ j) : r.chain.fFiles[j]? = s.fFiles[j]? := by
  unfold TChain.afterOpen at h
  cases hrep : TChain.repair
      { s with fTree := tree, fFile := tree.isSome, fTreeNumber := (k : Int) } g tre k eidx
      (TChain.entriesOf tree) rc with
  | none => simp [hrep] at h
  | some x =>
    obtain ⟨a, b, _, _, hcase⟩ := repair_cases _ g tre k eidx _ rc x hrep
    have hx : x.1.fFiles[j]? = s.fFiles[j]? := by
      rcases hcase with ⟨_, hres⟩ | ⟨_, total, _, hres | hres | hres⟩
      · cases hres; rfl
      · cases hres.1; exact getElem?_setNumberEntries_ne _ _ _ _ hj
      · cases hres.1
        exact (getElem?_setLoadResult_ne _ _ _ _ hj).trans
          (getElem?_setNumberEntries_ne _ _ _ _ hj)
      · cases hres.1; exact getElem?_setNumberEntries_ne _ _ _ _ hj
    obtain ⟨s2, tre2, b2⟩ := x
    simp only at hx
    simp only [hrep] at h
    cases b2 with
    | true =>
      simp only at h
      split_ifs at h <;> cases h <;> exact hx
    | false =>
      simp only [Option.some.injEq] at h
      rw [← h, finishSwitch_files _ _ _ _ _ _ hj, hx]

/-- The part of a pass after `TFile::Open` is defined when the two boundaries of the
selected tree and the slot `fTreeOffset[fNtrees]` are assigned. -/
theorem afterOpen_defined (s : TChain) (g tre : Int) (k eidx : Nat) (tree : Option TTree)
    (rc a b : Int) (ha : s.fTreeOffset[k]? = some a) (hb : s.fTreeOffset[k + 1]? = some b)
    (hN : s.fNtrees < s.fTreeOffset.length) :
    ∃ r, TChain.afterOpen s g tre k eidx tree rc = some r := by
  by_cases hne : b = a + TChain.entriesOf tree
  · have h1 := repair_keep
      { s with fTree := tree, fFile := tree.isSome, fTreeNumber := (k : Int) } g tre k eidx
      (TChain.entriesOf tree) rc a (by rw [offsetAt_nat]; exact ha)
      (by rw [offsetAt_nat_succ, ← hne]; exact hb)
    obtain ⟨r, hr, _⟩ := afterOpen_of_repair s g tre k eidx tree rc _ _ _ h1
    exact ⟨r, hr⟩
  · obtain ⟨s2, tre2, again, total, h1, _⟩ := repair_writes
      { s with fTree := tree, fFile := tree.isSome, fTreeNumber := (k : Int) } g tre k eidx
      (TChain.entriesOf tree) rc a b ha hb hne hN
    obtain ⟨r, hr, _⟩ := afterOpen_of_repair s g tre k eidx tree rc _ _ _ h1
    exact ⟨r, hr⟩

/-- Between two passes on trees selected by the linear search: the next pass is
defined, and it writes to no element and no boundary of the trees up to the
one just passed. -/
theorem Passed.nextPass {E : Env} {s : TChain} {g : Int} {k : Nat} (hP : Passed s g k)
    (hs : Shaped s) :
    ∃ st, TChain.LoadTreeStep E s g = some st ∧
      (∀ j, j ≤ k → st.chain.fFiles[j]? = s.fFiles[j]?) ∧
      (∀ j, j ≤ k + 1 → st.chain.fTreeOffset[j]? = s.fTreeOffset[j]?) := by
  obtain ⟨hlock, hN, hF⟩ := hs
  have hloc : TChain.locate E s g = some (k + 1) := hP.located
  obtain ⟨hnum, hk, hbelow, c, hc, hgc⟩ := hP
  have hn : s.fNtrees ≠ 0 := by omega
  by_cases hrange : (g < 0 ∨ (g > 0 ∧ (g ≥ s.fEntries ∧ g ≠ E.kMaxEntries - 1)))
  · exact ⟨_, LoadTreeStep_range E s g hlock hn hrange, fun j _ => rfl, fun j _ => rfl⟩
  · obtain ⟨v, hv, hvg⟩ := hbelow k (le_refl _)
    obtain ⟨e, he⟩ : ∃ e, s.fFiles[k + 1]? = some e :=
      ⟨_, List.getElem?_eq_getElem (by omega)⟩
    have hsw : s.fTreeNumber ≠ ((k + 1 : Nat) : Int) ∨ s.fTree = none := by
      left; push_cast; omega
    have hstep := LoadTreeStep_switch E s g (k + 1) v e hlock hn hrange hloc
      (by rw [offsetAt_nat]; exact hv) hsw he
    obtain ⟨r, hr⟩ := afterOpen_defined
      { TChain.teardown { s with fReadEntry := g } with opens := s.opens ++ [e.fTitle] }
      g (g - v) (k + 1) (k + 1) (TChain.openElement E e).1 (TChain.openElement E e).2 v c
      (by simpa using hv) (by simpa using hc) (by simpa using hN)
    refine ⟨r, hstep.trans hr, ?_, ?_⟩
    · intro j hj
      have := afterOpen_files _ g _ (k + 1) (k + 1) _ _ r hr j (by omega)
      simpa using this
    · intro j hj
      obtain ⟨_, _, _, a2, b2, _, _, hcase⟩ := afterOpen_frame E _ g _ (k + 1) (k + 1) _ _ r hr
      rcases hcase with ⟨_, h2, _⟩ | ⟨_, h2, _⟩
      · rw [h2]; simp
      · rw [h2]
        simp only [teardown_fTreeOffset]
        rw [List.getElem?_set_ne (by omega)]

/-- After a pass on a tree selected by the linear search that ended in the
recursive call, the rest of the call is defined: it returns within the passes
that are left, and it writes to no element and no boundary of the trees up
to the one just passed. -/
theorem Passed.finishes {E : Env} {g : Int} :
    ∀ (fuel : Nat) (s : TChain) (k : Nat), Passed s g k → Shaped s →
      s.fNtrees ≤ fuel + k + 1 →
      ∃ r s1, TChain.LoadTreeAux E fuel s g = some (r, s1) ∧
        (∀ j, j ≤ k → s1.fFiles[j]? = s.fFiles[j]?) ∧
        (∀ j, j ≤ k + 1 → s1.fTreeOffset[j]? = s.fTreeOffset[j]?) := by
  intro fuel
  induction fuel with
  | zero => intro s k hP _ h; have := hP.2.1; omega
  | succ f ih =>
    intro s k hP hs h
    obtain ⟨st, hst, hfiles, hoff⟩ := hP.nextPass (E := E) hs
    unfold TChain.LoadTreeAux
    cases st with
    | done r s1 =>
      simp only [hst]
      exact ⟨r, s1, rfl, hfiles, hoff⟩
    | retry s2 =>
      simp only [hst]
      obtain ⟨_, _, _, _, _, _, _, hn, _⟩ := LoadTreeStep_retry E s g s2 hst
      obtain ⟨r, s1, h1, h2, h3⟩ := ih s2 (k + 1) (hP.next s2 hst)
        (LoadTreeStep_shaped E s g _ hs hst) (by omega)
      refine ⟨r, s1, h1, ?_, ?_⟩
      · intro j hj
        rw [h2 j (by omega)]
        exact hfiles j hj
      · intro j hj
        rw [h3 j (by omega)]
        exact hoff j hj

/-- The part of a pass after `TFile::Open` when no tree was obtained.  The element in use
records the failure code, and the count 0 when the boundary after the
selected tree had to be rewritten.  Either the pass moves on (the selected tree is
not the last one, it had a provisional count other than 0 and the entry lies
at or beyond its first boundary and below the boundary after the next tree):
then it ends in the recursive call, or returns `-6` when the notifier returns
false.  Or it returns the failure code and the chain forgets its tree
number. -/
theorem afterOpen_without_tree (s : TChain) (g tre : Int) (k eidx : Nat) (rc a b : Int)
    (ha : s.fTreeOffset[k]? = some a) (hb : s.fTreeOffset[k + 1]? = some b)
    (hN : s.fNtrees < s.fTreeOffset.length) :
    ∃ r, TChain.afterOpen s g tre k eidx none rc = some r ∧
      r.chain.fFiles = (if b = a then TChain.setLoadResult s.fFiles eidx rc
        else TChain.setLoadResult (TChain.setNumberEntries s.fFiles eidx 0) eidx rc) ∧
      r.chain.fTreeOffset = (if b = a then s.fTreeOffset else s.fTreeOffset.set (k + 1) a) ∧
      ((k + 1 < s.fNtrees ∧ b ≠ a ∧ a ≤ g ∧ ∃ c, s.fTreeOffset[k + 2]? = some c ∧ g < c) →
        (s.fNotify = some false → r = Step.done (-6) r.chain) ∧
        (s.fNotify ≠ some false → r = Step.retry r.chain)) ∧
      ((s.fNtrees ≤ k + 1 ∨ b = a ∨ g < a ∨ ∃ c, s.fTreeOffset[k + 2]? = some c ∧ c ≤ g) →
        r = Step.done rc r.chain ∧ r.chain.fTreeNumber = -1) := by
  unfold TChain.afterOpen
  have ha1 : TChain.offsetAt s.fTreeOffset (k : Int) = some a := by rw [offsetAt_nat]; exact ha
  have hb1 : TChain.offsetAt s.fTreeOffset ((k : Int) + 1) = some b := by
    rw [offsetAt_nat_succ]; exact hb
  have hlen : k + 1 < s.fTreeOffset.length := by
    rcases Nat.lt_or_ge (k + 1) s.fTreeOffset.length with h1 | h1
    · exact h1
    · rw [List.getElem?_eq_none h1] at hb; cases hb
  simp only [TChain.entriesOf, Option.isSome_none]
  by_cases hba : b = a
  · subst hba
    rw [repair_keep { s with fTree := none, fFile := false, fTreeNumber := (k : Int) } g tre k eidx 0 rc b ha1 (by simpa using hb1)]
    refine ⟨_, rfl, ?_, ?_, ?_, ?_⟩
    · simp [TChain.finishSwitch, TChain.Step.chain]
    · simp [TChain.finishSwitch, TChain.Step.chain]
    · rintro ⟨_, h, _⟩; exact absurd rfl h
    · intro _; exact ⟨rfl, rfl⟩
  · obtain ⟨total, htot⟩ : ∃ total, (s.fTreeOffset.set (k + 1) a)[s.fNtrees]? = some total :=
      ⟨_, List.getElem?_eq_getElem (by simpa using hN)⟩
    have ht1 : TChain.offsetAt (s.fTreeOffset.set (k + 1) (a + 0)) (s.fNtrees : Int)
        = some total := by rw [offsetAt_nat]; simpa using htot
    have hne : b ≠ a + 0 := by simpa using hba
    by_cases hg : g < a + 0
    · rw [repair_write_inside { s with fTree := none, fFile := false, fTreeNumber := (k : Int) } g tre k eidx 0 rc a b total ha1 hb1 hne ht1 hg]
      refine ⟨_, rfl, ?_, ?_, ?_, ?_⟩
      · simp [TChain.finishSwitch, TChain.Step.chain, hba]
      · simp [TChain.finishSwitch, TChain.Step.chain, hba]
      · rintro ⟨_, _, h, _⟩; omega
      · intro _; exact ⟨rfl, rfl⟩
    · by_cases hk : (k : Int) < (s.fNtrees : Int) - 1
      · obtain ⟨c, hc⟩ : ∃ c, s.fTreeOffset[k + 2]? = some c :=
          ⟨_, List.getElem?_eq_getElem (by omega)⟩
        have hc1 : TChain.offsetAt (s.fTreeOffset.set (k + 1) (a + 0)) ((k : Int) + 2)
            = some c := by
          rw [offsetAt_nat_succ2, List.getElem?_set_ne (by omega)]; exact hc
        by_cases hgc : g < c
        · rw [repair_write_next { s with fTree := none, fFile := false, fTreeNumber := (k : Int) } g tre k eidx 0 rc a b total c ha1 hb1 hne ht1 (by omega) hk hc1 hgc]
          simp only
          by_cases hnot : s.fNotify = some false
          · simp only [hnot, if_true]
            refine ⟨_, rfl, ?_, ?_, ?_, ?_⟩
            · simp [TChain.Step.chain, hba]
            · simp [TChain.Step.chain, hba]
            · intro _; exact ⟨fun _ => rfl, fun h => absurd rfl h⟩
            · rintro (h | h | h | ⟨c2, hc2, h⟩)
              · omega
              · exact absurd h hba
              · omega
              · rw [hc] at hc2
                have := Option.some.inj hc2
                omega
          · simp only [hnot, if_false]
            refine ⟨_, rfl, ?_, ?_, ?_, ?_⟩
            · simp [TChain.Step.chain, hba]
            · simp [TChain.Step.chain, hba]
            · intro _; exact ⟨fun h => h.elim, fun _ => rfl⟩
            · rintro (h | h | h | ⟨c2, hc2, h⟩)
              · omega
              · exact absurd h hba
              · omega
              · rw [hc] at hc2
                have := Option.some.inj hc2
                omega
        · rw [repair_write_beyond { s with fTree := none, fFile := false, fTreeNumber := (k : Int) } g tre k eidx 0 rc a b total c ha1 hb1 hne ht1 (by omega) hk hc1 hgc]
          refine ⟨_, rfl, ?_, ?_, ?_, ?_⟩
          · simp [TChain.finishSwitch, TChain.Step.chain, hba]
          · simp [TChain.finishSwitch, TChain.Step.chain, hba]
          · rintro ⟨_, _, _, c2, hc2, h⟩
            rw [hc] at hc2
            have := Option.some.inj hc2
            omega
          · intro _; exact ⟨rfl, rfl⟩
      · rw [repair_write_last { s with fTree := none, fFile := false, fTreeNumber := (k : Int) } g tre k eidx 0 rc a b total ha1 hb1 hne ht1 (by omega) hk]
        refine ⟨_, rfl, ?_, ?_, ?_, ?_⟩
        · simp [TChain.finishSwitch, TChain.Step.chain, hba]
        · simp [TChain.finishSwitch, TChain.Step.chain, hba]
        · rintro ⟨h, _⟩; omega
        · intro _; exact ⟨rfl, rfl⟩

/-- C6 (as amended). On a chain with one or more trees in a state that the
operations of the chain leave (the friend lock is not held, the slot
`fTreeOffset[fNtrees]` is assigned, `fFiles` holds one element per tree, a tree number comes
with its tree), when the file of the tree `k` selected for `g` cannot be opened, or
holds no tree of the expected name, `LoadTree(g)` returns, and at the end of the
call the element `k` records the code `-3`, respectively `-4`, as its load result
and the tree counts no entries (`fTreeOffset[k+1] = fTreeOffset[k]`, the boundary before it
being as it was).  The call returns that code
when it does not move on: the tree is the last one, or its provisional count is already 0,
or `g` lies below its first boundary or not below the boundary after the next
tree.  Otherwise the first pass ends in the recursive call, which selects
the tree `k + 1` and gives the result of the call; with a notifier that returns
false the call returns `-6` instead. -/
theorem LoadTree_reports_failed_open (E : Env) (s : TChain) (g : Int) (k : Nat)
    (e : TChainElement) (a b rc : Int)
    (hs : Shaped s) (hcur : TChain.Current s) (hn : s.fNtrees ≠ 0)
    (hrange : ¬ (g < 0 ∨ (g > 0 ∧ (g ≥ s.fEntries ∧ g ≠ E.kMaxEntries - 1))))
    (hloc : TChain.locate E s g = some k)
    (hsw : s.fTreeNumber ≠ (k : Int) ∨ s.fTree = none)
    (he : s.fFiles[k]? = some e)
    (ha : s.fTreeOffset[k]? = some a) (hb : s.fTreeOffset[k + 1]? = some b)
    (hfail : (E.Open e.fTitle = none ∧ rc = -3) ∨
      (∃ f, E.Open e.fTitle = some f ∧ f.Get e.fName = none ∧ rc = -4)) :
    ∃ r s1 e1, TChain.LoadTree E s g = some (r, s1) ∧
      s1.fFiles[k]? = some e1 ∧ e1.fLoadResult = rc ∧ e1.fTitle = e.fTitle ∧
      e1.fName = e.fName ∧ (b ≠ a → e1.fEntries = 0) ∧
      s1.fTreeOffset[k]? = some a ∧ s1.fTreeOffset[k + 1]? = some a ∧
      ((s.fNtrees ≤ k + 1 ∨ b = a ∨ g < a ∨ ∃ c, s.fTreeOffset[k + 2]? = some c ∧ c ≤ g) →
        r = rc ∧ s1.fTreeNumber = -1) ∧
      ((k + 1 < s.fNtrees ∧ b ≠ a ∧ a ≤ g ∧ ∃ c, s.fTreeOffset[k + 2]? = some c ∧ g < c) →
        (s.fNotify = some false → r = -6) ∧
        (s.fNotify ≠ some false → ∃ s2, TChain.LoadTreeStep E s g = some (Step.retry s2) ∧
          s2.fFiles[k]? = some e1 ∧ s2.fTreeOffset[k + 1]? = some a ∧
          TChain.locate E s2 g = some (k + 1) ∧
          TChain.LoadTreeAux E (s.fNtrees + 1) s2 g = some (r, s1))) := by
  obtain ⟨hlock, hN, hF⟩ := hs
  have ha1 : TChain.offsetAt s.fTreeOffset (k : Int) = some a := by rw [offsetAt_nat]; exact ha
  have hlen : k + 1 < s.fTreeOffset.length := by
    rcases Nat.lt_or_ge (k + 1) s.fTreeOffset.length with h1 | h1
    · exact h1
    · rw [List.getElem?_eq_none h1] at hb; cases hb
  have hstep0 := LoadTreeStep_switch E s g k a e hlock hn hrange hloc ha1 hsw he
  rw [openElement_of_failure E e rc hfail] at hstep0
  obtain ⟨r0, hr0, hfiles, hoff, hmove, hstay⟩ := afterOpen_without_tree
    { TChain.teardown { s with fReadEntry := g } with opens := s.opens ++ [e.fTitle] }
    g (g - a) k k rc a b (by simpa using ha) (by simpa using hb) (by simpa using hN)
  simp only [teardown_fFiles, teardown_fTreeOffset, teardown_fNtrees, teardown_fNotify]
    at hfiles hoff hmove hstay
  have hstep : TChain.LoadTreeStep E s g = some r0 := hstep0.trans hr0
  -- the element and the boundary after the first pass
  obtain ⟨e0, he0, he0r, he0t, he0n, he0c⟩ : ∃ e0, r0.chain.fFiles[k]? = some e0 ∧
      e0.fLoadResult = rc ∧ e0.fTitle = e.fTitle ∧ e0.fName = e.fName ∧
      (b ≠ a → e0.fEntries = 0) := by
    rw [hfiles]
    by_cases hba : b = a
    · refine ⟨{ e with fLoadResult := rc }, ?_, rfl, rfl, rfl, fun h => absurd hba h⟩
      simp [hba, TChain.setLoadResult, he]
    · refine ⟨{ e with fEntries := 0, fLoadResult := rc }, ?_, rfl, rfl, rfl, fun _ => rfl⟩
      simp [hba, TChain.setLoadResult, TChain.setNumberEntries, he]
  have hoff0 : r0.chain.fTreeOffset[k + 1]? = some a := by
    rw [hoff]
    by_cases hba : b = a
    · simp only [hba, if_true]; rw [← hba]; exact hb
    · simp only [hba, if_false]
      rw [List.getElem?_set]
      simp [hlen]
  have hoffk : r0.chain.fTreeOffset[k]? = some a := by
    rw [hoff]
    by_cases hba : b = a
    · simp only [hba, if_true]; exact ha
    · simp only [hba, if_false]
      rw [List.getElem?_set_ne (by omega)]
      exact ha
  by_cases hM : (k + 1 < s.fNtrees ∧ b ≠ a ∧ a ≤ g ∧ ∃ c, s.fTreeOffset[k + 2]? = some c ∧ g < c)
  · have hnostay : ¬ (s.fNtrees ≤ k + 1 ∨ b = a ∨ g < a ∨
        ∃ c, s.fTreeOffset[k + 2]? = some c ∧ c ≤ g) := by
      obtain ⟨h1, h2, h3, c, hc, hgc⟩ := hM
      rintro (h | h | h | ⟨c2, hc2, h⟩)
      · omega
      · exact h2 h
      · omega
      · rw [hc] at hc2
        have := Option.some.inj hc2
        omega
    obtain ⟨hm1, hm2⟩ := hmove hM
    by_cases hnot : s.fNotify = some false
    · have hr := hm1 hnot
      refine ⟨-6, r0.chain, e0, ?_, he0, he0r, he0t, he0n, he0c, hoffk, hoff0,
        fun h => absurd h hnostay, fun _ => ⟨fun _ => rfl, fun h => absurd hnot h⟩⟩
      unfold TChain.LoadTree TChain.LoadTreeAux
      rw [hstep, hr]
      rfl
    · have hr := hm2 hnot
      rw [hr] at hstep
      obtain ⟨k3, _, _, hloc3, _, _, _, hn3, _, _, hnum3, _⟩ :=
        LoadTreeStep_retry E s g r0.chain hstep
      obtain ⟨k2, hP⟩ := LoadTreeStep_passed E s g r0.chain hstep (hcur.searched r0.chain hstep)
      have hk2 : k2 = k := by
        rw [hloc] at hloc3
        have h1 : k = k3 := Option.some.inj hloc3
        have h2 := hP.1
        omega
      subst hk2
      have hsh : Shaped (Step.retry r0.chain).chain :=
        LoadTreeStep_shaped E s g _ ⟨hlock, hN, hF⟩ hstep
      obtain ⟨r, s1, hrun, hf1, ho1⟩ := Passed.finishes (E := E) (s.fNtrees + 1) r0.chain k2 hP hsh
        (by omega)
      refine ⟨r, s1, e0, ?_, ?_, he0r, he0t, he0n, he0c, ?_, ?_,
        fun h => absurd h hnostay,
        fun _ => ⟨fun h => absurd h hnot,
          fun _ => ⟨r0.chain, hstep, he0, hoff0, hP.located, hrun⟩⟩⟩
      · unfold TChain.LoadTree TChain.LoadTreeAux
        simp only [hstep]
        exact hrun
      · rw [hf1 k2 (le_refl _)]; exact he0
      · rw [ho1 k2 (by omega)]; exact hoffk
      · rw [ho1 (k2 + 1) (le_refl _)]; exact hoff0
  · have hst : s.fNtrees ≤ k + 1 ∨ b = a ∨ g < a ∨
        ∃ c, s.fTreeOffset[k + 2]? = some c ∧ c ≤ g := by
      by_cases h1 : s.fNtrees ≤ k + 1
      · exact Or.inl h1
      · by_cases h2 : b = a
        · exact Or.inr (Or.inl h2)
        · by_cases h3 : g < a
          · exact Or.inr (Or.inr (Or.inl h3))
          · obtain ⟨c, hc⟩ : ∃ c, s.fTreeOffset[k + 2]? = some c :=
              ⟨_, List.getElem?_eq_getElem (by omega)⟩
            refine Or.inr (Or.inr (Or.inr ⟨c, hc, ?_⟩))
            by_contra hgc
            exact hM ⟨by omega, h2, by omega, c, hc, by omega⟩
    obtain ⟨hr, hnum⟩ := hstay hst
    refine ⟨rc, r0.chain, e0, ?_, he0, he0r, he0t, he0n, he0c, hoffk, hoff0,
      fun _ => ⟨rfl, hnum⟩, fun h => absurd h hM⟩
    unfold TChain.LoadTree TChain.LoadTreeAux
    rw [hstep, hr]
    rfl

theorem chainF_shaped : Shaped chainF := ⟨rfl, by decide, rfl⟩

/-- Scenario C: `nope.root` (declared 3, cannot be opened) is followed by `p1.root`.
`LoadTree(0)` records `-3` and the count 0 on the first element, sets its boundary to 0,
and moves on: the recursive call selects the tree 1 and returns the local
entry 0. -/
theorem LoadTree_reports_failed_open_witness :
    ∃ r s1 e1, TChain.LoadTree envA chainF 0 = some (r, s1) ∧
      s1.fFiles[0]? = some e1 ∧ e1.fLoadResult = -3 ∧ e1.fTitle = "nope.root" ∧
      e1.fName = "T" ∧ ((3 : Int) ≠ 0 → e1.fEntries = 0) ∧
      s1.fTreeOffset[0]? = some 0 ∧ s1.fTreeOffset[0 + 1]? = some 0 ∧
      ((chainF.fNtrees ≤ 0 + 1 ∨ (3 : Int) = 0 ∨ (0 : Int) < 0 ∨
          ∃ c, chainF.fTreeOffset[0 + 2]? = some c ∧ c ≤ 0) →
        r = -3 ∧ s1.fTreeNumber = -1) ∧
      ((0 + 1 < chainF.fNtrees ∧ (3 : Int) ≠ 0 ∧ (0 : Int) ≤ 0 ∧
          ∃ c, chainF.fTreeOffset[0 + 2]? = some c ∧ 0 < c) →
        (chainF.fNotify = some false → r = -6) ∧
        (chainF.fNotify ≠ some false →
          ∃ s2, TChain.LoadTreeStep envA chainF 0 = some (Step.retry s2) ∧
            s2.fFiles[0]? = some e1 ∧ s2.fTreeOffset[0 + 1]? = some 0 ∧
            TChain.locate envA s2 0 = some (0 + 1) ∧
            TChain.LoadTreeAux envA (chainF.fNtrees + 1) s2 0 = some (r, s1))) :=
  LoadTree_reports_failed_open envA chainF 0 0 ⟨"T", "nope.root", 3, 0, 0⟩ 0 3 (-3)
    chainF_shaped (Or.inl rfl) (by decide) (by decide) (by decide) (by decide) (by decide)
    (by decide) (by decide) (Or.inl ⟨rfl, rfl⟩)

/-! ## The end of a call -/


/-- In a state that the operations of the chain leave, a call of `LoadTree` whose first
pass is defined returns a result: the passes after the first are all
defined. -/
theorem LoadTree_returns (E : Env) (s : TChain) (g : Int) (hs : Shaped s)
    (hcur : TChain.Current s) (st : TChain.Step) (hst : TChain.LoadTreeStep E s g = some st) :
    ∃ r s1, TChain.LoadTree E s g = some (r, s1) := by
  unfold TChain.LoadTree TChain.LoadTreeAux
  cases st with
  | done r s1 => exact ⟨r, s1, by simp only [hst]⟩
  | retry s2 =>
    simp only [hst]
    obtain ⟨_, _, _, _, _, _, _, hn, _⟩ := LoadTreeStep_retry E s g s2 hst
    obtain ⟨k, hP⟩ := LoadTreeStep_passed E s g s2 hst (hcur.searched s2 hst)
    have hsh : Shaped (Step.retry s2).chain := LoadTreeStep_shaped E s g _ hs hst
    obtain ⟨r, s1, hrun, _⟩ := Passed.finishes (E := E) (s.fNtrees + 1) s2 k hP hsh (by omega)
    exact ⟨r, s1, hrun⟩

/-- A pass of `LoadTree` on a chain of the shape that the operations keep has no
defined behaviour only in these cases: the tree number is not that of an
assigned slot followed by an assigned slot; or the entry belongs to the
current tree while a friend of the chain has no tree; or the selected tree
number is followed by no assigned slot (the linear search has run off the
table). -/
theorem LoadTreeStep_undefined (E : Env) (s : TChain) (g : Int) (hs : Shaped s)
    (h : TChain.LoadTreeStep E s g = none) :
    (s.fTreeNumber ≠ -1 ∧
      (TChain.offsetAt s.fTreeOffset s.fTreeNumber = none ∨
        TChain.offsetAt s.fTreeOffset (s.fTreeNumber + 1) = none)) ∨
    (∃ (k : Nat) (t : TTree), TChain.locate E s g = some k ∧ s.fTreeNumber = (k : Int) ∧
      s.fTree = some t ∧ s.fFriends.all (fun fe => fe.hasTree) = false) ∨
    (∃ k : Nat, TChain.locate E s g = some k ∧ s.fTreeOffset.length ≤ k + 1) := by
  obtain ⟨hlock, hN, hF⟩ := hs
  by_cases hn : s.fNtrees = 0
  · rw [LoadTreeStep_empty E s g hlock hn] at h; cases h
  by_cases hrange : (g < 0 ∨ (g > 0 ∧ (g ≥ s.fEntries ∧ g ≠ E.kMaxEntries - 1)))
  · rw [LoadTreeStep_range E s g hlock hn hrange] at h; cases h
  have hsearch : ∃ k, TChain.searchFrom s.fTreeOffset g s.fNtrees 0 = some k := by
    have key : ∀ (left t : Nat), t + left ≤ s.fNtrees →
        ∃ k, TChain.searchFrom s.fTreeOffset g left t = some k := by
      intro left
      induction left with
      | zero => intro t _; exact ⟨t, rfl⟩
      | succ n ih =>
        intro t ht
        unfold TChain.searchFrom
        obtain ⟨b, hb⟩ : ∃ b, s.fTreeOffset[t + 1]? = some b :=
          ⟨_, List.getElem?_eq_getElem (by omega)⟩
        simp only [hb]
        by_cases hlt : g < b
        · exact ⟨t, by simp [hlt]⟩
        · simp only [hlt, if_false]
          exact ih (t + 1) (by omega)
    exact key s.fNtrees 0 (by omega)
  cases hloc : TChain.locate E s g with
  | none =>
    left
    obtain ⟨k0, hk0⟩ := hsearch
    unfold TChain.locate at hloc
    by_cases h1 : s.fTreeNumber = -1
    · simp [h1, hk0] at hloc
    · refine ⟨h1, ?_⟩
      simp only [h1, if_false] at hloc
      cases ha : TChain.offsetAt s.fTreeOffset s.fTreeNumber with
      | none => exact Or.inl rfl
      | some a =>
        right
        simp only [ha] at hloc
        cases hb : TChain.offsetAt s.fTreeOffset (s.fTreeNumber + 1) with
        | none => rfl
        | some b =>
          simp only [hb, hk0] at hloc
          split_ifs at hloc
  | some k =>
    cases ha : TChain.offsetAt s.fTreeOffset (k : Int) with
    | none =>
      right; right
      refine ⟨k, rfl, ?_⟩
      rw [offsetAt_nat] at ha
      rcases Nat.lt_or_ge k s.fTreeOffset.length with h1 | h1
      · rw [List.getElem?_eq_getElem h1] at ha; cases ha
      · omega
    | some a =>
      by_cases hsame : s.fTreeNumber = (k : Int) ∧ ∃ t, s.fTree = some t
      · obtain ⟨hcur, t, ht⟩ := hsame
        right; left
        rw [LoadTreeStep_sameTree E s g k a t hlock hn hrange hloc ha hcur ht] at h
        refine ⟨k, t, rfl, hcur, ht, ?_⟩
        unfold TChain.sameTree at h
        simp only at h
        split_ifs at h with h1 h2
        simpa using h2
      · have hsw : s.fTreeNumber ≠ (k : Int) ∨ s.fTree = none := by
          by_cases hcur : s.fTreeNumber = (k : Int)
          · right
            cases ht : s.fTree with
            | none => rfl
            | some t => exact absurd ⟨hcur, t, ht⟩ hsame
          · exact Or.inl hcur
        right; right
        refine ⟨k, rfl, ?_⟩
        by_contra hlen
        have hlen2 : k + 1 < s.fTreeOffset.length := by omega
        obtain ⟨b, hb⟩ : ∃ b, s.fTreeOffset[k + 1]? = some b :=
          ⟨_, List.getElem?_eq_getElem hlen2⟩
        rw [offsetAt_nat] at ha
        cases he : s.fFiles[k]? with
        | some e =>
          rw [LoadTreeStep_switch E s g k a e hlock hn hrange hloc
            (by rw [offsetAt_nat]; exact ha) hsw he] at h
          obtain ⟨r, hr⟩ := afterOpen_defined
            { TChain.teardown { s with fReadEntry := g } with opens := s.opens ++ [e.fTitle] }
            g (g - a) k k (TChain.openElement E e).1 (TChain.openElement E e).2 a b
            (by simpa using ha) (by simpa using hb) (by simpa using hN)
          rw [hr] at h; cases h
        | none =>
          by_cases hz : g - a ≠ 0
          · rw [LoadTreeStep_noElement E s g k a hlock hn hrange hloc
              (by rw [offsetAt_nat]; exact ha) hsw he (Or.inl hz)] at h
            cases h
          · cases he0 : s.fFiles[0]? with
            | none =>
              rw [LoadTreeStep_noElement E s g k a hlock hn hrange hloc
                (by rw [offsetAt_nat]; exact ha) hsw he (Or.inr he0)] at h
              cases h
            | some e =>
              rw [LoadTreeStep_firstElement E s g k a e hlock hn hrange hloc
                (by rw [offsetAt_nat]; exact ha) hsw he (by omega) he0] at h
              obtain ⟨r, hr⟩ := afterOpen_defined
                { TChain.teardown { s with fReadEntry := g } with opens := s.opens ++ [e.fTitle] }
                g (g - a) k 0 (TChain.openElement E e).1 (TChain.openElement E e).2 a b
                (by simpa using ha) (by simpa using hb) (by simpa using hN)
              rw [hr] at h; cases h

/-- C28. For every chain, every environment and every `g` the nest of calls of
`LoadTree(g)` is finite: at most `fNtrees` recursive calls are made, and one of the calls
number 0 to `fNtrees` is the last one, whose pass returns the result of `LoadTree` (or
performs an operation that has no defined behaviour).  In every state in which
a tree number comes with its loaded tree, or with a tree that counts no
entries, every recursive call selects the tree right after the one its caller
selected; every state a chain can reach by `AddFile`, `Add(TChain*)`, `LoadTree`, `GetEntries`
and `Reset` is such a state.  There the call returns a result whenever its first
pass is defined, and a first pass is not defined only when the tree number
is not that of an assigned slot followed by an assigned slot, when the entry
belongs to the current tree while a friend has no tree, or when the selected
tree number is followed by no assigned slot. -/
theorem LoadTree_recursion_ends (E : Env) (s : TChain) (g : Int) :
    (∃ n c, n ≤ s.fNtrees ∧ TChain.nestedCall E g n s = some c ∧
      (TChain.LoadTreeStep E c g = none ∨
        ∃ r s1, TChain.LoadTreeStep E c g = some (Step.done r s1) ∧
          TChain.LoadTree E s g = some (r, s1))) ∧
    (∀ n c, TChain.nestedCall E g n s = some c → n ≤ s.fNtrees) ∧
    (TChain.Current s → ∀ n c c1, TChain.nestedCall E g n s = some c →
      TChain.LoadTreeStep E c g = some (Step.retry c1) →
      ∃ k, TChain.locate E c g = some k ∧ TChain.locate E c1 g = some (k + 1) ∧
        k + 1 < s.fNtrees) ∧
    (Reachable E s → TChain.Current s ∧ Shaped s) ∧
    (Shaped s → TChain.Current s → ∀ st, TChain.LoadTreeStep E s g = some st →
      ∃ r s1, TChain.LoadTree E s g = some (r, s1)) ∧
    (Shaped s → TChain.LoadTreeStep E s g = none →
      (s.fTreeNumber ≠ -1 ∧
        (TChain.offsetAt s.fTreeOffset s.fTreeNumber = none ∨
          TChain.offsetAt s.fTreeOffset (s.fTreeNumber + 1) = none)) ∨
      (∃ (k : Nat) (t : TTree), TChain.locate E s g = some k ∧ s.fTreeNumber = (k : Int) ∧
        s.fTree = some t ∧ s.fFriends.all (fun fe => fe.hasTree) = false) ∨
      (∃ k : Nat, TChain.locate E s g = some k ∧ s.fTreeOffset.length ≤ k + 1)) :=
  ⟨nestedCall_ends E s g, fun n c h => (nestedCall_le E g n s c h).1,
   fun hcur n c c1 hc hstep => hcur.ordered n c c1 hc hstep,
   fun hr => ⟨hr.current, hr.shaped⟩,
   fun hs hcur st hst => LoadTree_returns E s g hs hcur st hst,
   fun hs h => LoadTreeStep_undefined E s g hs h⟩

/-- The chain `chainA` at entry 4: the call from outside selects the tree 0 and ends in
the recursive call, which selects the tree 1 and returns; there is no second
recursive call. -/
theorem LoadTree_recursion_ends_witness :
    TChain.nestedCall envA 4 0 chainA = some chainA ∧
    TChain.LoadTreeStep envA chainA 4 = some (Step.retry chainA4r) ∧
    (∃ k, TChain.locate envA chainA 4 = some k ∧ TChain.locate envA chainA4r 4 = some (k + 1) ∧
      k + 1 < chainA.fNtrees) ∧
    TChain.locate envA chainA 4 = some 0 ∧
    TChain.nestedCall envA 4 1 chainA = some chainA4r ∧
    TChain.nestedCall envA 4 2 chainA = none ∧
    TChain.LoadTree envA chainA 4 = some (1, chainA4) ∧
    (TChain.Current chainA ∧ Shaped chainA) :=
  ⟨by decide, by decide,
   (LoadTree_recursion_ends envA chainA 4).2.2.1 (Or.inl (by decide)) 0 chainA chainA4r
     (by decide) (by decide),
   by decide, by decide, by decide, by decide,
   (LoadTree_recursion_ends envA chainA 4).2.2.2.1
     (Reachable.addFile "p1.root" 2 "" 1 chainA
       (Reachable.addFile "p0.root" 1000000000000 "" 1 chainP (Reachable.init "T") (by decide))
       (by decide))⟩

/-! ## What the loops over `fStatus` leave of an element -/

theorem view_setBranchAddress (e : TStatusElement) (t : TTree) :
    (TChain.setBranchAddress e t).1.view = e.view := by
  unfold TChain.setBranchAddress TStatusElement.view
  simp only [Option.isSome_map']

theorem view_setBranchAddresses :
    ∀ (st : List TStatusElement) (t : TTree),
      (TChain.setBranchAddresses st t).1.map TStatusElement.view = st.map TStatusElement.view
  | [], t => rfl
  | e :: rest, t => by
    unfold TChain.setBranchAddresses
    split_ifs
    · simp only [List.map_cons]
      rw [view_setBranchAddresses rest, view_setBranchAddress]
    · simp only [List.map_cons]
      rw [view_setBranchAddresses rest]

theorem view_refreshElements :
    ∀ (st : List TStatusElement) (t : TTree),
      (TChain.refreshElements st t).1.map TStatusElement.view = st.map TStatusElement.view
  | [], t => rfl
  | e :: rest, t => by
    unfold TChain.refreshElements
    simp only
    split_ifs
    · simp only [List.map_cons]
      rw [view_refreshElements rest, view_setBranchAddress]
    · simp only [List.map_cons]
      rw [view_refreshElements rest, view_setBranchAddress]
    · simp only [List.map_cons]
      rw [view_refreshElements rest]
    · simp only [List.map_cons]
      rw [view_refreshElements rest]

theorem sameTree_view (s : TChain) (t : TTree) (g tre : Int) (r : TChain.Step)
    (h : TChain.sameTree s t g tre = some r) :
    r.chain.fStatus.map TStatusElement.view = s.fStatus.map TStatusElement.view := by
  unfold TChain.sameTree at h
  simp only at h
  split_ifs at h <;> cases h <;>
    first
      | rfl
      | exact view_refreshElements _ _

theorem finishSwitch_view (s : TChain) (g tre : Int) (eidx : Nat) (rc : Int) :
    (TChain.finishSwitch s g tre eidx rc).chain.fStatus.map TStatusElement.view
      = s.fStatus.map TStatusElement.view := by
  unfold TChain.finishSwitch
  cases s.fTree with
  | none => rfl
  | some t =>
    simp only
    split_ifs <;> exact view_setBranchAddresses _ _

theorem afterOpen_view (s : TChain) (g tre : Int) (k eidx : Nat) (tree : Option TTree)
    (rc : Int) (r : TChain.Step) (h : TChain.afterOpen s g tre k eidx tree rc = some r) :
    r.chain.fStatus.map TStatusElement.view = s.fStatus.map TStatusElement.view := by
  unfold TChain.afterOpen at h
  cases hrep : TChain.repair
      { s with fTree := tree, fFile := tree.isSome, fTreeNumber := (k : Int) } g tre k eidx
      (TChain.entriesOf tree) rc with
  | none => simp [hrep] at h
  | some x =>
    have hst := repair_fStatus _ g tre k eidx _ rc x hrep
    obtain ⟨s2, tre2, b⟩ := x
    simp only at hst
    simp only [hrep] at h
    cases b with
    | true =>
      simp only at h
      split_ifs at h <;> cases h <;> simp only [TChain.Step.chain, hst]
    | false =>
      simp only [Option.some.injEq] at h
      rw [← h, finishSwitch_view, hst]

theorem LoadTreeStep_view (E : Env) (s : TChain) (g : Int) (r : TChain.Step)
    (h : TChain.LoadTreeStep E s g = some r) :
    r.chain.fStatus.map TStatusElement.view = s.fStatus.map TStatusElement.view := by
  rcases LoadTreeStep_cases E s g _ h with ⟨_, hr⟩ | ⟨_, _, hr⟩ | ⟨_, _, _, hr⟩ |
    ⟨_, _, _, k, a, _, _, hrest⟩
  · subst hr; rfl
  · subst hr; rfl
  · subst hr; rfl
  · rcases hrest with ⟨t, _, _, hsame⟩ | ⟨_, ⟨_, _, hr⟩ | ⟨eidx, e, _, _, hopen⟩⟩
    · exact sameTree_view { s with fReadEntry := g } t g (g - a) r hsame
    · subst hr
      simp only [TChain.Step.chain, teardown_fStatus]
    · have hk := afterOpen_view _ g (g - a) k eidx _ _ r hopen
      simp only [teardown_fStatus] at hk
      exact hk

/-- `LoadTree` changes no name, status or address in `fStatus`, adds no element and
removes none, and registers no branch pointer. -/
theorem LoadTree_view (E : Env) (s : TChain) (g r : Int) (s1 : TChain)
    (h : TChain.LoadTree E s g = some (r, s1)) :
    s1.fStatus.map TStatusElement.view = s.fStatus.map TStatusElement.view :=
  LoadTreeAux_preserves E
    (fun c => c.fStatus.map TStatusElement.view = s.fStatus.map TStatusElement.view)
    (fun c g1 x hc hx => (LoadTreeStep_view E c g1 x hx).trans hc) g _ s r s1 rfl h

/-! ## Upserts -/

theorem names_view (st : List TStatusElement) :
    (st.map TStatusElement.view).map (fun v => v.1) = st.map (fun e => e.fName) := by
  simp [List.map_map, Function.comp, TStatusElement.view]

theorem upsert_names (vs : List (String × Int × Nat × Bool)) (bname : String)
    (f : String × Int × Nat × Bool → String × Int × Nat × Bool) (hf : ∀ v, (f v).1 = v.1) :
    (upsert vs bname f).map (fun v => v.1)
      = if bname ∈ vs.map (fun v => v.1) then vs.map (fun v => v.1)
        else vs.map (fun v => v.1) ++ [bname] := by
  unfold upsert
  by_cases hin : bname ∈ vs.map (fun v => v.1)
  · simp only [hin, if_true, List.map_map]
    apply List.map_congr_left
    intro v _
    simp only [Function.comp]
    split_ifs
    · exact hf v
    · rfl
  · simp only [hin, if_false, List.map_append, List.map_cons, List.map_nil, hf]

theorem upsert_nodup (vs : List (String × Int × Nat × Bool)) (bname : String)
    (f : String × Int × Nat × Bool → String × Int × Nat × Bool) (hf : ∀ v, (f v).1 = v.1)
    (hnd : (vs.map (fun v => v.1)).Nodup) :
    ((upsert vs bname f).map (fun v => v.1)).Nodup := by
  rw [upsert_names vs bname f hf]
  by_cases hin : bname ∈ vs.map (fun v => v.1)
  · simp only [hin, if_true]; exact hnd
  · simp only [hin, if_false]
    rw [List.nodup_append]
    refine ⟨hnd, List.nodup_singleton _, ?_⟩
    intro a ha hb
    simp only [List.mem_singleton] at hb
    subst hb
    exact hin ha

theorem upsert_mem (vs : List (String × Int × Nat × Bool)) (bname : String)
    (f : String × Int × Nat × Bool → String × Int × Nat × Bool) (hf : ∀ v, (f v).1 = v.1) :
    bname ∈ (upsert vs bname f).map (fun v => v.1) := by
  rw [upsert_names vs bname f hf]
  by_cases hin : bname ∈ vs.map (fun v => v.1)
  · simp only [hin, if_true]
  · simp only [hin, if_false, List.mem_append, List.mem_singleton, or_true]

/-- Two upserts of the same name amount to one. -/
theorem upsert_upsert (vs : List (String × Int × Nat × Bool)) (bname : String)
    (f1 f2 : String × Int × Nat × Bool → String × Int × Nat × Bool)
    (hf1 : ∀ v, (f1 v).1 = v.1) :
    upsert (upsert vs bname f1) bname f2 = upsert vs bname (fun v => f2 (f1 v)) := by
  have hmem := upsert_mem vs bname f1 hf1
  rw [upsert, if_pos hmem]
  unfold upsert
  by_cases hin : bname ∈ vs.map (fun v => v.1)
  · simp only [hin, if_true, List.map_map]
    apply List.map_congr_left
    intro v _
    simp only [Function.comp]
    by_cases hv : v.1 = bname
    · simp only [hv, if_true]
      rw [if_pos (by rw [hf1]; exact hv)]
    · simp only [hv, if_false]
  · simp only [hin, if_false, List.map_append, List.map_cons, List.map_nil]
    rw [if_pos (hf1 _)]
    congr 1
    rw [List.map_congr_left]
    · exact List.map_id _
    · intro v hv
      have hne : ¬ v.1 = bname := by
        intro heq
        apply hin
        rw [← heq]
        exact List.mem_map_of_mem _ hv
      simp only [hne, if_false, id]

/-- `FindObject` followed by an update of the element found, or of a new element
added to the list, is an upsert on the views when no name occurs twice. -/
theorem updateStatus_view (bname : String) (f : TStatusElement → TStatusElement)
    (φ : String × Int × Nat × Bool → String × Int × Nat × Bool)
    (hf : ∀ e, (f e).view = φ e.view) :
    ∀ (st : List TStatusElement), (st.map fun e => e.fName).Nodup →
      (TChain.updateStatus st bname f).map TStatusElement.view
        = upsert (st.map TStatusElement.view) bname φ
  | [], _ => by
    simp only [TChain.updateStatus, upsert, List.map_nil, List.not_mem_nil, if_false,
      List.nil_append, List.map_cons, hf]
    rfl
  | e :: rest, hnd => by
    simp only [List.map_cons, List.nodup_cons] at hnd
    obtain ⟨hnot, hnd2⟩ := hnd
    unfold TChain.updateStatus
    by_cases he : e.fName = bname
    · have hin : bname ∈ ((e :: rest).map TStatusElement.view).map (fun v => v.1) := by
        rw [names_view]; simp [he]
      rw [if_pos he, upsert, if_pos hin]
      simp only [List.map_cons, hf]
      have h1 : e.view.1 = bname := he
      rw [if_pos h1]
      congr 1
      rw [List.map_map]
      apply List.map_congr_left
      intro e1 he1
      simp only [Function.comp]
      have hne : ¬ e1.view.1 = bname := by
        intro heq
        apply hnot
        rw [he, ← heq]
        exact List.mem_map_of_mem _ he1
      rw [if_neg hne]
    · rw [if_neg he]
      simp only [List.map_cons]
      rw [updateStatus_view bname f φ hf rest hnd2]
      unfold upsert
      have hne : ¬ e.view.1 = bname := he
      by_cases hin : bname ∈ (rest.map TStatusElement.view).map (fun v => v.1)
      · have hin2 : bname ∈ e.view.1 :: (rest.map TStatusElement.view).map (fun v => v.1) :=
          List.mem_cons_of_mem _ hin
        simp only [List.map_cons, hin, hin2, if_true, hne, if_false]
      · have hin2 : ¬ bname ∈ e.view.1 :: (rest.map TStatusElement.view).map (fun v => v.1) := by
          intro h
          rcases List.mem_cons.mp h with h1 | h1
          · exact hne h1.symm
          · exact hin h1
        simp only [List.map_cons, hin, hin2, if_false, List.cons_append]

/-! ## `SetBranchAddress` -/

/-- `TChain::SetBranchAddress(bname, add, ptr)`, when it has a defined result, is an upsert
on the list `fStatus` without repeated names: the element named `bname` keeps its
status and records `add` and whether a pointer was passed; the others are as
they were. -/
theorem SetBranchAddress_view (E : Env) (s : TChain) (bname : String) (add : Nat) (ptr : Bool)
    (s1 : TChain) (hnd : (s.fStatus.map fun e => e.fName).Nodup)
    (h : TChain.SetBranchAddress E s bname add ptr = some s1) :
    s1.fStatus.map TStatusElement.view
      = upsert (s.fStatus.map TStatusElement.view) bname (fun v => (v.1, v.2.1, add, ptr)) := by
  have h0 := updateStatus_view bname
    (fun e => { e with fBaddress := add, fBranchPtr := if ptr then some none else none })
    (fun v => (v.1, v.2.1, add, ptr))
    (by intro e; cases ptr <;> rfl) s.fStatus hnd
  have hnd0 : ((TChain.updateStatus s.fStatus bname
      (fun e => { e with fBaddress := add, fBranchPtr := if ptr then some none else none })).map
        fun e => e.fName).Nodup := by
    rw [← names_view, h0]
    exact upsert_nodup _ _ _ (fun _ => rfl) (by rw [names_view]; exact hnd)
  -- the second update, of the slot of the pointer
  have hslot : ∀ (st : List TStatusElement) (x : Option String),
      st.map TStatusElement.view
        = upsert (s.fStatus.map TStatusElement.view) bname (fun v => (v.1, v.2.1, add, ptr)) →
      (if ptr then TChain.updateStatus st bname (fun e => { e with fBranchPtr := some x })
        else st).map TStatusElement.view
        = upsert (s.fStatus.map TStatusElement.view) bname (fun v => (v.1, v.2.1, add, ptr)) := by
    intro st x hst
    cases ptr with
    | false => exact hst
    | true =>
      simp only [if_true]
      have hnd1 : (st.map fun e => e.fName).Nodup := by
        rw [← names_view, hst]
        exact upsert_nodup _ _ _ (fun _ => rfl) (by rw [names_view]; exact hnd)
      rw [updateStatus_view bname (fun e => { e with fBranchPtr := some x })
        (fun v => (v.1, v.2.1, v.2.2.1, true)) (by intro e; rfl) st hnd1, hst,
        upsert_upsert (s.fStatus.map TStatusElement.view) bname
          (fun v => (v.1, v.2.1, add, true)) (fun v => (v.1, v.2.1, v.2.2.1, true))
          (fun _ => rfl)]
  have hchk : ∀ (st : List TStatusElement),
      st.map TStatusElement.view
        = upsert (s.fStatus.map TStatusElement.view) bname (fun v => (v.1, v.2.1, add, ptr)) →
      (TChain.updateStatus st bname (fun e => { e with fCheckedType := true })).map
          TStatusElement.view
        = upsert (s.fStatus.map TStatusElement.view) bname (fun v => (v.1, v.2.1, add, ptr)) := by
    intro st hst
    have hnd1 : (st.map fun e => e.fName).Nodup := by
      rw [← names_view, hst]
      exact upsert_nodup _ _ _ (fun _ => rfl) (by rw [names_view]; exact hnd)
    rw [updateStatus_view bname (fun e => { e with fCheckedType := true })
      (fun v => v) (by intro e; rfl) st hnd1, hst,
      upsert_upsert (s.fStatus.map TStatusElement.view) bname
        (fun v => (v.1, v.2.1, add, ptr)) (fun v => v) (fun _ => rfl)]
  unfold TChain.SetBranchAddress at h
  simp only at h
  obtain ⟨st0, hst0⟩ : ∃ st0, st0 = TChain.updateStatus s.fStatus bname
      (fun e => { e with fBaddress := add, fBranchPtr := if ptr then some none else none }) :=
    ⟨_, rfl⟩
  rw [← hst0] at h h0
  split at h
  · cases h
  · rename_i s2 hl
    have hs2 : s2.fStatus.map TStatusElement.view
        = upsert (s.fStatus.map TStatusElement.view) bname (fun v => (v.1, v.2.1, add, ptr)) := by
      split at hl
      · split at hl
        · cases hl
        · rename_i r s3 hL
          simp only [Option.some.injEq] at hl
          subst hl
          rw [LoadTree_view E _ 0 _ _ hL]
          exact h0
      · simp only [Option.some.injEq] at hl
        subst hl
        exact h0
    split at h
    · split at h
      · cases h
      · split at h <;>
          (simp only [Option.some.injEq] at h
           subst h
           first
             | exact hslot _ _ hs2
             | exact hchk _ (hslot _ _ hs2))
    · simp only [Option.some.injEq] at h
      subst h
      exact hslot _ _ hs2

theorem upsert_filter (vs : List (String × Int × Nat × Bool)) (bname : String)
    (f : String × Int × Nat × Bool → String × Int × Nat × Bool) (hf : ∀ v, (f v).1 = v.1) :
    (upsert vs bname f).filter (fun v => decide (v.1 ≠ bname))
      = vs.filter (fun v => decide (v.1 ≠ bname)) := by
  have hmap : ∀ (l : List (String × Int × Nat × Bool)),
      (l.map (fun v => if v.1 = bname then f v else v)).filter (fun v => decide (v.1 ≠ bname))
        = l.filter (fun v => decide (v.1 ≠ bname)) := by
    intro l
    induction l with
    | nil => rfl
    | cons v rest ih =>
      by_cases hv : v.1 = bname
      · have h1 : (f v).1 = bname := by rw [hf]; exact hv
        simp only [List.map_cons, hv, if_true, List.filter_cons, h1, ne_eq, not_true_eq_false,
          decide_False, Bool.false_eq_true, if_false]
        exact ih
      · simp only [List.map_cons, hv, if_false, List.filter_cons, ne_eq, not_false_eq_true,
          decide_True, if_true]
        rw [ih]
  unfold upsert
  by_cases hin : bname ∈ vs.map (fun v => v.1)
  · simp only [hin, if_true]
    exact hmap vs
  · simp only [hin, if_false, List.filter_append, List.filter_cons, hf, ne_eq,
      not_true_eq_false, decide_False, Bool.false_eq_true, if_false, List.filter_nil,
      List.append_nil]

theorem upsert_at (vs : List (String × Int × Nat × Bool)) (bname : String)
    (f : String × Int × Nat × Bool → String × Int × Nat × Bool)
    (v : String × Int × Nat × Bool) (hv : v ∈ upsert vs bname f) (hn : v.1 = bname) :
    ∃ v0, v = f v0 ∧ v0.1 = bname ∧
      (v0 ∈ vs ∨ (bname ∉ vs.map (fun v => v.1) ∧ v0 = (bname, -1, 0, false))) := by
  unfold upsert at hv
  by_cases hin : bname ∈ vs.map (fun v => v.1)
  · simp only [hin, if_true, List.mem_map] at hv
    obtain ⟨v0, hv0, heq⟩ := hv
    by_cases h0 : v0.1 = bname
    · rw [if_pos h0] at heq
      exact ⟨v0, heq.symm, h0, Or.inl hv0⟩
    · rw [if_neg h0] at heq
      subst heq
      exact absurd hn h0
  · simp only [hin, if_false, List.mem_append, List.mem_singleton] at hv
    rcases hv with h1 | h1
    · exact absurd (by rw [← hn]; exact List.mem_map_of_mem _ h1) hin
    · exact ⟨_, h1, rfl, Or.inr ⟨hin, rfl⟩⟩

theorem SetBranchAddressTyped_view (E : Env) (s : TChain) (bname : String) (add : Nat)
    (ptr : Bool) (s1 : TChain) (hnd : (s.fStatus.map fun e => e.fName).Nodup)
    (h : TChain.SetBranchAddressTyped E s bname add ptr = some s1) :
    s1.fStatus.map TStatusElement.view
      = upsert (s.fStatus.map TStatusElement.view) bname (fun v => (v.1, v.2.1, add, ptr)) := by
  have h0 := updateStatus_view bname
    (fun e => { e with fBranchPtr := if ptr then some none else none })
    (fun v => (v.1, v.2.1, v.2.2.1, ptr))
    (by intro e; cases ptr <;> rfl) s.fStatus hnd
  unfold TChain.SetBranchAddressTyped at h
  obtain ⟨st0, hst0⟩ : ∃ st0, st0 = TChain.updateStatus s.fStatus bname
      (fun e => { e with fBranchPtr := if ptr then some none else none }) := ⟨_, rfl⟩
  rw [← hst0] at h h0
  have hnd0 : (st0.map fun e => e.fName).Nodup := by
    rw [← names_view, h0]
    exact upsert_nodup _ _ _ (fun _ => rfl) (by rw [names_view]; exact hnd)
  have h1 := SetBranchAddress_view E { s with fStatus := st0 } bname add ptr s1 hnd0 h
  simp only at h1
  rw [h1, h0, upsert_upsert (s.fStatus.map TStatusElement.view) bname
    (fun v => (v.1, v.2.1, v.2.2.1, ptr)) (fun v => (v.1, v.2.1, add, ptr)) (fun _ => rfl)]

theorem SetBranchAddressDelayed_view (E : Env) (s : TChain) (bname : String) (add : Nat)
    (ptr : Bool) (s1 : TChain) (hnd : (s.fStatus.map fun e => e.fName).Nodup)
    (h : TChain.SetBranchAddressDelayed E s bname add ptr = some s1) :
    s1.fStatus.map TStatusElement.view
      = upsert (s.fStatus.map TStatusElement.view) bname (fun v => (v.1, v.2.1, add, ptr)) := by
  have h0 := updateStatus_view bname (fun e => e) (fun v => v) (by intro e; rfl) s.fStatus hnd
  unfold TChain.SetBranchAddressDelayed at h
  obtain ⟨st0, hst0⟩ : ∃ st0, st0 = TChain.updateStatus s.fStatus bname (fun e => e) := ⟨_, rfl⟩
  rw [← hst0] at h h0
  have hnd0 : (st0.map fun e => e.fName).Nodup := by
    rw [← names_view, h0]
    exact upsert_nodup _ _ _ (fun _ => rfl) (by rw [names_view]; exact hnd)
  have h1 := SetBranchAddressTyped_view E { s with fStatus := st0 } bname add ptr s1 hnd0 h
  simp only at h1
  rw [h1, h0, upsert_upsert (s.fStatus.map TStatusElement.view) bname
    (fun v => v) (fun v => (v.1, v.2.1, add, ptr)) (fun _ => rfl)]

/-! ## `SetBranchStatus` -/

/-- In a list without repeated names, taking out the element that `FindObject(bname)`
finds leaves the elements of the other names, in their order. -/
theorem removeStatus_filter (bname : String) :
    ∀ (st : List TStatusElement), (st.map fun e => e.fName).Nodup →
      TChain.removeStatus st bname = st.filter (fun e => decide (e.fName ≠ bname))
  | [], _ => rfl
  | e :: rest, hnd => by
    simp only [List.map_cons, List.nodup_cons] at hnd
    obtain ⟨hnot, hnd2⟩ := hnd
    unfold TChain.removeStatus
    by_cases he : e.fName = bname
    · simp only [he, if_true, List.filter_cons, ne_eq, not_true_eq_false, decide_False,
        Bool.false_eq_true, if_false]
      symm
      rw [List.filter_eq_self]
      intro e1 he1
      have hne : e1.fName ≠ bname := by
        intro heq
        apply hnot
        rw [he, ← heq]
        exact List.mem_map_of_mem _ he1
      simp [hne]
    · simp only [he, if_false, List.filter_cons, ne_eq, not_false_eq_true, decide_True, if_true]
      rw [removeStatus_filter bname rest hnd2]

/-- What `SetBranchStatus` leaves in `fStatus`: the list without the element found,
followed by that element, or a new one, with the status. -/
theorem SetBranchStatus_fStatus (s : TChain) (bname : String) (b : Bool) (s1 : TChain)
    (h : TChain.SetBranchStatus s bname b = some s1) :
    ∃ e1, s1.fStatus = TChain.removeStatus s.fStatus bname ++ [e1] ∧
      e1.fStatus = (if b then 1 else 0) ∧
      ((∃ e0, s.fStatus.find? (fun e => decide (e.fName = bname)) = some e0 ∧
          e1 = { e0 with fStatus := if b then 1 else 0 }) ∨
       (s.fStatus.find? (fun e => decide (e.fName = bname)) = none ∧
          e1 = ⟨bname, if b then 1 else 0, 0, none, false⟩)) := by
  unfold TChain.SetBranchStatus at h
  simp only at h
  have hel : ∃ e1 : TStatusElement, e1 = { (match s.fStatus.find? (fun e => decide (e.fName = bname)) with
        | some e => e
        | none => ({ fName := bname, fStatus := -1, fBaddress := 0, fBranchPtr := none } : TStatusElement))
        with fStatus := if b then 1 else 0 } ∧
      e1.fStatus = (if b then 1 else 0) ∧
      ((∃ e0, s.fStatus.find? (fun e => decide (e.fName = bname)) = some e0 ∧
          e1 = { e0 with fStatus := if b then 1 else 0 }) ∨
       (s.fStatus.find? (fun e => decide (e.fName = bname)) = none ∧
          e1 = ⟨bname, if b then 1 else 0, 0, none, false⟩)) := by
    refine ⟨_, rfl, rfl, ?_⟩
    cases hf : s.fStatus.find? (fun e => decide (e.fName = bname)) with
    | none => exact Or.inr ⟨rfl, rfl⟩
    | some e0 => exact Or.inl ⟨e0, rfl, rfl⟩
  obtain ⟨e1, he1, hs, hcase⟩ := hel
  rw [← he1] at h
  refine ⟨e1, ?_, hs, hcase⟩
  by_cases hnum : s.fTreeNumber ≥ 0
  · rw [if_pos hnum] at h
    cases hT : s.fTree with
    | none => rw [hT] at h; cases h
    | some t =>
      rw [hT] at h
      simp only [Option.some.injEq] at h
      rw [← h]
  · rw [if_neg hnum] at h
    simp only [Option.some.injEq] at h
    rw [← h]

theorem SetBranchStatus_name (s : TChain) (bname : String) (b : Bool) (s1 : TChain)
    (h : TChain.SetBranchStatus s bname b = some s1) :
    ∃ e1, s1.fStatus = TChain.removeStatus s.fStatus bname ++ [e1] ∧ e1.fName = bname ∧
      e1.fStatus = (if b then 1 else 0) := by
  obtain ⟨e1, h1, h2, hcase⟩ := SetBranchStatus_fStatus s bname b s1 h
  refine ⟨e1, h1, ?_, h2⟩
  rcases hcase with ⟨e0, hf, he⟩ | ⟨_, he⟩
  · have := List.find?_some hf
    simp only [decide_eq_true_eq] at this
    rw [he]
    exact this
  · rw [he]

theorem SetBranchStatus_nodup (s : TChain) (bname : String) (b : Bool) (s1 : TChain)
    (hnd : (s.fStatus.map fun e => e.fName).Nodup)
    (h : TChain.SetBranchStatus s bname b = some s1) :
    (s1.fStatus.map fun e => e.fName).Nodup := by
  obtain ⟨e1, h1, h2, _⟩ := SetBranchStatus_name s bname b s1 h
  rw [h1, removeStatus_filter bname s.fStatus hnd, List.map_append, List.nodup_append]
  refine ⟨hnd.sublist ((List.filter_sublist _).map _), List.nodup_singleton _, ?_⟩
  intro a ha hb
  simp only [List.map_cons, List.map_nil, List.mem_singleton] at hb
  simp only [List.mem_map, List.mem_filter, ne_eq, decide_eq_true_eq, decide_not,
    Bool.not_eq_true', decide_eq_false_iff_not] at ha
  obtain ⟨e, ⟨_, hne⟩, hea⟩ := ha
  rw [hb, h2] at hea
  exact hne hea

theorem view_nodup (st1 : List TStatusElement) (vs : List (String × Int × Nat × Bool))
    (h : st1.map TStatusElement.view = vs) (hnd : (vs.map fun v => v.1).Nodup) :
    (st1.map fun e => e.fName).Nodup := by
  rw [← names_view, h]
  exact hnd

/-- No call of `SetBranchAddress`, in any of its overloads, and no call of
`SetBranchStatus` puts a name into `fStatus` twice. -/
theorem StatusCall.nodup (E : Env) (s : TChain) (c : StatusCall) (s1 : TChain)
    (hnd : (s.fStatus.map fun e => e.fName).Nodup) (h : c.run E s = some s1) :
    (s1.fStatus.map fun e => e.fName).Nodup := by
  cases c with
  | address bname add ptr =>
    exact view_nodup s1.fStatus _ (SetBranchAddress_view E s bname add ptr s1 hnd h)
      (upsert_nodup _ _ _ (fun _ => rfl) (by rw [names_view]; exact hnd))
  | typed bname add ptr =>
    exact view_nodup s1.fStatus _ (SetBranchAddressTyped_view E s bname add ptr s1 hnd h)
      (upsert_nodup _ _ _ (fun _ => rfl) (by rw [names_view]; exact hnd))
  | delayed bname add ptr =>
    exact view_nodup s1.fStatus _
      (SetBranchAddressDelayed_view E s bname add ptr s1 hnd h)
      (upsert_nodup _ _ _ (fun _ => rfl) (by rw [names_view]; exact hnd))
  | status bname b => exact SetBranchStatus_nodup s bname b s1 hnd h

theorem runStatusCalls_nodup (E : Env) :
    ∀ (calls : List StatusCall) (s s1 : TChain), (s.fStatus.map fun e => e.fName).Nodup →
      runStatusCalls E s calls = some s1 → (s1.fStatus.map fun e => e.fName).Nodup
  | [], s, s1, hnd, h => by
    simp only [runStatusCalls, Option.some.injEq] at h
    rw [← h]; exact hnd
  | c :: rest, s, s1, hnd, h => by
    unfold runStatusCalls at h
    cases hc : c.run E s with
    | none => simp [hc] at h
    | some s2 =>
      simp only [hc] at h
      exact runStatusCalls_nodup E rest s2 s1 (StatusCall.nodup E s c s2 hnd hc) h

theorem filter_view (st : List TStatusElement) (bname : String) :
    (st.filter fun e => decide (e.fName ≠ bname)).map TStatusElement.view
      = (st.map TStatusElement.view).filter (fun v => decide (v.1 ≠ bname)) := by
  rw [List.filter_map]
  rfl

/-- What follows for the elements from the upsert on the views. -/
theorem upsert_consequences (st st1 : List TStatusElement) (bname : String) (add : Nat)
    (ptr : Bool) (hnd : (st.map fun e => e.fName).Nodup)
    (hv : st1.map TStatusElement.view
      = upsert (st.map TStatusElement.view) bname (fun v => (v.1, v.2.1, add, ptr))) :
    (st1.map fun e => e.fName).count bname = 1 ∧
    (∀ e ∈ st1, e.fName = bname →
      e.fBaddress = add ∧ ∀ e0 ∈ st, e0.fName = bname → e.fStatus = e0.fStatus) ∧
    (st1.filter fun e => decide (e.fName ≠ bname)).map TStatusElement.view
      = (st.filter fun e => decide (e.fName ≠ bname)).map TStatusElement.view := by
  have hnd1 : (st1.map fun e => e.fName).Nodup :=
    view_nodup st1 _ hv (upsert_nodup _ _ _ (fun _ => rfl) (by rw [names_view]; exact hnd))
  have hmem : bname ∈ st1.map fun e => e.fName := by
    rw [← names_view, hv]
    exact upsert_mem _ _ _ (fun _ => rfl)
  refine ⟨List.count_eq_one_of_mem hnd1 hmem, ?_, ?_⟩
  · intro e he hname
    have hin : e.view ∈ upsert (st.map TStatusElement.view) bname
        (fun v => (v.1, v.2.1, add, ptr)) := by
      rw [← hv]; exact List.mem_map_of_mem _ he
    obtain ⟨v0, heq, hv0, hcase⟩ := upsert_at _ _ _ _ hin hname
    have hadd : e.fBaddress = add := congrArg (fun v => v.2.2.1) heq
    have hstat : e.fStatus = v0.2.1 := congrArg (fun v => v.2.1) heq
    refine ⟨hadd, ?_⟩
    intro e0 he0 hname0
    rcases hcase with h1 | ⟨h1, _⟩
    · obtain ⟨e2, he2, hview⟩ := List.mem_map.mp h1
      have hname2 : e2.fName = bname := by
        have : e2.view.1 = v0.1 := by rw [hview]
        exact this.trans hv0
      have := List.inj_on_of_nodup_map hnd he2 he0 (hname2.trans hname0.symm)
      subst this
      rw [hstat, ← hview]
      rfl
    · exfalso
      apply h1
      rw [names_view, ← hname0]
      exact List.mem_map_of_mem _ he0
  · rw [filter_view, filter_view, hv]
    exact upsert_filter (st.map TStatusElement.view) bname (fun v => (v.1, v.2.1, add, ptr))
      (fun _ => rfl)

theorem updateStatus_others (bname : String) (f : TStatusElement → TStatusElement)
    (hf : ∀ e, (f e).fName = e.fName) :
    ∀ st : List TStatusElement,
      (TChain.updateStatus st bname f).filter (fun e => decide (e.fName ≠ bname))
        = st.filter (fun e => decide (e.fName ≠ bname))
  | [] => by simp [TChain.updateStatus, hf]
  | e :: rest => by
    unfold TChain.updateStatus
    by_cases he : e.fName = bname
    · simp [he, hf]
    · simp only [he, if_false]
      rw [List.filter_cons, List.filter_cons, updateStatus_others bname f hf rest]

/-- When `SetBranchAddress(bname, add, ptr)` does not load the first tree (something has been
loaded or read before), the elements of the other names are left as they
are, in every field. -/
theorem SetBranchAddress_others (E : Env) (s : TChain) (bname : String) (add : Nat) (ptr : Bool)
    (s1 : TChain) (hload : ¬ (s.fTree = none ∧ s.fReadEntry = -1 ∧ s.fTreeNumber = -1))
    (h : TChain.SetBranchAddress E s bname add ptr = some s1) :
    s1.fStatus.filter (fun e => decide (e.fName ≠ bname))
      = s.fStatus.filter (fun e => decide (e.fName ≠ bname)) := by
  have h0 := updateStatus_others bname
    (fun e => { e with fBaddress := add, fBranchPtr := if ptr then some none else none })
    (fun _ => rfl) s.fStatus
  have hslot : ∀ (st : List TStatusElement) (x : Option String),
      (if ptr then TChain.updateStatus st bname (fun e => { e with fBranchPtr := some x })
        else st).filter (fun e => decide (e.fName ≠ bname))
        = st.filter (fun e => decide (e.fName ≠ bname)) := by
    intro st x
    cases ptr with
    | false => rfl
    | true =>
      simp only [if_true]
      exact updateStatus_others bname (fun e => { e with fBranchPtr := some x }) (fun _ => rfl) st
  have hchk : ∀ (st : List TStatusElement),
      (TChain.updateStatus st bname (fun e => { e with fCheckedType := true })).filter
          (fun e => decide (e.fName ≠ bname))
        = st.filter (fun e => decide (e.fName ≠ bname)) :=
    fun st => updateStatus_others bname (fun e => { e with fCheckedType := true })
      (fun _ => rfl) st
  unfold TChain.SetBranchAddress at h
  simp only [hload, if_false] at h
  split at h
  · split at h
    · cases h
    · split at h <;>
        (simp only [Option.some.injEq] at h
         subst h
         simp only
         first
           | rw [hslot, h0]
           | rw [hchk, hslot, h0])
  · simp only [Option.some.injEq] at h
    subst h
    simp only
    rw [hslot, h0]

theorem SetBranchAddressTyped_others (E : Env) (s : TChain) (bname : String) (add : Nat)
    (ptr : Bool) (s1 : TChain)
    (hload : ¬ (s.fTree = none ∧ s.fReadEntry = -1 ∧ s.fTreeNumber = -1))
    (h : TChain.SetBranchAddressTyped E s bname add ptr = some s1) :
    s1.fStatus.filter (fun e => decide (e.fName ≠ bname))
      = s.fStatus.filter (fun e => decide (e.fName ≠ bname)) := by
  unfold TChain.SetBranchAddressTyped at h
  have h1 := SetBranchAddress_others E { s with fStatus := TChain.updateStatus s.fStatus bname (fun e => { e with fBranchPtr := if ptr then some none else none }) } bname add ptr s1 hload h
  rw [h1]
  exact updateStatus_others bname
    (fun e => { e with fBranchPtr := if ptr then some none else none }) (fun _ => rfl) s.fStatus

theorem SetBranchAddressDelayed_others (E : Env) (s : TChain) (bname : String) (add : Nat)
    (ptr : Bool) (s1 : TChain)
    (hload : ¬ (s.fTree = none ∧ s.fReadEntry = -1 ∧ s.fTreeNumber = -1))
    (h : TChain.SetBranchAddressDelayed E s bname add ptr = some s1) :
    s1.fStatus.filter (fun e => decide (e.fName ≠ bname))
      = s.fStatus.filter (fun e => decide (e.fName ≠ bname)) := by
  unfold TChain.SetBranchAddressDelayed at h
  have h1 := SetBranchAddressTyped_others E { s with fStatus := TChain.updateStatus s.fStatus bname (fun e => e) } bname add ptr s1 hload h
  rw [h1]
  exact updateStatus_others bname (fun e => e) (fun _ => rfl) s.fStatus

/-- C21 (as amended). On a list `fStatus` without repeated names, `SetBranchAddress(bname, add, ptr)` in
each of its overloads is an upsert, with or without a branch of that name in
the current tree: afterwards exactly one element is named `bname`, its address
is `add`, it has the status of the element that was there before (none, `-1`, when
it is new), and the elements of the other names keep their name, their
status, their address and their registered pointer, in their order.  They
are left as they are in every field when the call does not load the first
tree.  Hence no sequence of `SetBranchAddress` and `SetBranchStatus` calls puts a name into the
list twice. -/
theorem SetBranchAddress_is_upsert (E : Env) (s : TChain) (bname : String) (add : Nat)
    (ptr : Bool) (hnd : (s.fStatus.map fun e => e.fName).Nodup) :
    (∀ s1, (TChain.SetBranchAddress E s bname add ptr = some s1 ∨
            TChain.SetBranchAddressTyped E s bname add ptr = some s1 ∨
            TChain.SetBranchAddressDelayed E s bname add ptr = some s1) →
      s1.fStatus.map TStatusElement.view
        = upsert (s.fStatus.map TStatusElement.view) bname (fun v => (v.1, v.2.1, add, ptr)) ∧
      (s1.fStatus.map fun e => e.fName).count bname = 1 ∧
      (∀ e ∈ s1.fStatus, e.fName = bname →
        e.fBaddress = add ∧ ∀ e0 ∈ s.fStatus, e0.fName = bname → e.fStatus = e0.fStatus) ∧
      (s1.fStatus.filter fun e => decide (e.fName ≠ bname)).map TStatusElement.view
        = (s.fStatus.filter fun e => decide (e.fName ≠ bname)).map TStatusElement.view ∧
      (¬ (s.fTree = none ∧ s.fReadEntry = -1 ∧ s.fTreeNumber = -1) →
        s1.fStatus.filter (fun e => decide (e.fName ≠ bname))
          = s.fStatus.filter (fun e => decide (e.fName ≠ bname)))) ∧
    (∀ calls s1, runStatusCalls E s calls = some s1 →
      (s1.fStatus.map fun e => e.fName).Nodup) := by
  refine ⟨?_, fun calls s1 h => runStatusCalls_nodup E calls s s1 hnd h⟩
  intro s1 h
  have hv : s1.fStatus.map TStatusElement.view
      = upsert (s.fStatus.map TStatusElement.view) bname (fun v => (v.1, v.2.1, add, ptr)) := by
    rcases h with h | h | h
    · exact SetBranchAddress_view E s bname add ptr s1 hnd h
    · exact SetBranchAddressTyped_view E s bname add ptr s1 hnd h
    · exact SetBranchAddressDelayed_view E s bname add ptr s1 hnd h
  obtain ⟨h1, h2, h3⟩ := upsert_consequences s.fStatus s1.fStatus bname add ptr hnd hv
  refine ⟨hv, h1, h2, h3, fun hload => ?_⟩
  rcases h with h | h | h
  · exact SetBranchAddress_others E s bname add ptr s1 hload h
  · exact SetBranchAddressTyped_others E s bname add ptr s1 hload h
  · exact SetBranchAddressDelayed_others E s bname add ptr s1 hload h

/-- The chain `chainE4`, whose current tree has no branch `y`: `SetBranchAddress("y", 11, ptr)` finds no
branch to bind, and the element `y` records the address 11 all the same; the
element `x` is as it was.  A sequence of five calls leaves three names. -/
theorem SetBranchAddress_is_upsert_witness :
    (TChain.SetBranchAddress envB chainE4 "y" 11 true = some chainE4y ∧
      chainE4.fTree = some treeE4 ∧ treeE4.GetBranch "y" = none) ∧
    (chainE4y.fStatus.map TStatusElement.view
        = upsert (chainE4.fStatus.map TStatusElement.view) "y" (fun v => (v.1, v.2.1, 11, true)) ∧
      (chainE4y.fStatus.map fun e => e.fName).count "y" = 1 ∧
      (∀ e ∈ chainE4y.fStatus, e.fName = "y" →
        e.fBaddress = 11 ∧ ∀ e0 ∈ chainE4.fStatus, e0.fName = "y" → e.fStatus = e0.fStatus) ∧
      (chainE4y.fStatus.filter fun e => decide (e.fName ≠ "y")).map TStatusElement.view
        = (chainE4.fStatus.filter fun e => decide (e.fName ≠ "y")).map TStatusElement.view ∧
      (¬ (chainE4.fTree = none ∧ chainE4.fReadEntry = -1 ∧ chainE4.fTreeNumber = -1) →
        chainE4y.fStatus.filter (fun e => decide (e.fName ≠ "y"))
          = chainE4.fStatus.filter (fun e => decide (e.fName ≠ "y")))) ∧
    (runStatusCalls envB chainE4
        [StatusCall.status "x" false, StatusCall.delayed "z" 5 false, StatusCall.typed "y" 11 true,
         StatusCall.address "z" 6 true, StatusCall.status "z" true]).map
        (fun s1 => s1.fStatus.map fun e => e.fName) = some ["y", "x", "z"] :=
  ⟨⟨by decide, by decide, by decide⟩,
   (SetBranchAddress_is_upsert envB chainE4 "y" 11 true (by decide)).1 chainE4y
     (Or.inl (by decide)),
   by decide⟩

/-- C21, as stated, fails for the other entries when the call loads the first
tree.  In the chain of Scenario E nothing has been loaded; `SetBranchAddress("z", 5)` loads the
tree of `b0.root`, which binds the branches `x` and `y` and marks the elements `x`
and `y` as checked, before it finds that the tree has no branch `z`: the
elements `x` and `y` are not as they were. -/
theorem SetBranchAddress_marks_other_entries :
    chainE.fStatus = [⟨"x", -1, 7, some none, false⟩, ⟨"y", -1, 9, some none, false⟩] ∧
    (TChain.SetBranchAddress envB chainE "z" 5 false).map (fun s1 => s1.fStatus)
      = some [⟨"x", -1, 7, some (some "x"), true⟩, ⟨"y", -1, 9, some (some "y"), true⟩,
              ⟨"z", -1, 5, none, false⟩] ∧
    (TChain.SetBranchAddress envB chainE "z" 5 false).map
        (fun s1 => (s1.fTreeNumber, s1.fTree.map fun t => (t.GetBranch "z").isSome))
      = some (0, some false) := by
  refine ⟨by decide, by decide, by decide⟩

/-! ## The order in which the statuses are applied -/

theorem lastStatus_cons (a : TStatusElement) (rest : List TStatusElement) (bname : String) :
    lastStatus (a :: rest) bname
      = match lastStatus rest bname with
        | some v => some v
        | none =>
          if a.fStatus ≠ -1 ∧ (a.fName = "*" ∨ a.fName = bname) then some a.fStatus else none :=
  rfl

theorem lastStatus_append (e : TStatusElement) (bname : String) :
    ∀ (st : List TStatusElement),
      lastStatus (st ++ [e]) bname
        = if e.fStatus ≠ -1 ∧ (e.fName = "*" ∨ e.fName = bname) then some e.fStatus
          else lastStatus st bname
  | [] => by
    simp only [List.nil_append, lastStatus]
  | a :: rest => by
    rw [List.cons_append, lastStatus_cons, lastStatus_append e bname rest, lastStatus_cons]
    by_cases hc : e.fStatus ≠ -1 ∧ (e.fName = "*" ∨ e.fName = bname)
    · rw [if_pos hc, if_pos hc]
    · rw [if_neg hc, if_neg hc]

theorem lastStatus_removeStatus (bname n : String) (hn : ¬ (bname = "*" ∨ bname = n)) :
    ∀ (st : List TStatusElement),
      lastStatus (TChain.removeStatus st bname) n = lastStatus st n
  | [] => rfl
  | e :: rest => by
    unfold TChain.removeStatus
    by_cases he : e.fName = bname
    · rw [if_pos he]
      have hc : ¬ (e.fStatus ≠ -1 ∧ (e.fName = "*" ∨ e.fName = n)) := by
        rw [he]
        exact fun h => hn h.2
      rw [lastStatus_cons, if_neg hc]
      cases lastStatus rest n <;> rfl
    · rw [if_neg he, lastStatus_cons, lastStatus_cons, lastStatus_removeStatus bname n hn rest]

/-- The loop that sets the branch statuses gives every branch the status of the
last element that has one and is named `*` or as the branch; a branch that no
such element names keeps its status. -/
theorem setBranchStatuses_branches :
    ∀ (st : List TStatusElement) (t : TTree),
      (TChain.setBranchStatuses st t).branches
        = t.branches.map (fun br =>
            match lastStatus st br.fName with
            | some v => { br with processed := decide (v ≠ 0) }
            | none => br)
  | [], t => by
    simp only [TChain.setBranchStatuses, lastStatus, List.map_id']
  | e :: rest, t => by
    unfold TChain.setBranchStatuses
    rw [setBranchStatuses_branches rest]
    by_cases hs : e.fStatus ≠ -1
    · rw [if_pos hs]
      unfold TTree.SetBranchStatus
      simp only [List.map_map]
      apply List.map_congr_left
      intro br _
      simp only [Function.comp, lastStatus_cons]
      by_cases hm : e.fName = "*" ∨ br.fName = e.fName
      · have hm2 : e.fStatus ≠ -1 ∧ (e.fName = "*" ∨ e.fName = br.fName) :=
          ⟨hs, hm.imp id Eq.symm⟩
        rw [if_pos hm, if_pos hm2]
        cases lastStatus rest br.fName <;> rfl
      · have hm2 : ¬ (e.fStatus ≠ -1 ∧ (e.fName = "*" ∨ e.fName = br.fName)) :=
          fun h => hm (h.2.imp id Eq.symm)
        rw [if_neg hm, if_neg hm2]
        cases lastStatus rest br.fName <;> rfl
    · rw [if_neg hs]
      apply List.map_congr_left
      intro br _
      have hm2 : ¬ (e.fStatus ≠ -1 ∧ (e.fName = "*" ∨ e.fName = br.fName)) := fun h => hs h.1
      rw [lastStatus_cons, if_neg hm2]
      cases lastStatus rest br.fName <;> rfl

theorem processed_setAddressOf (brs : List TBranch) (n : String) (a : Nat) :
    (setAddressOf brs n a).map (fun br => (br.fName, br.processed))
      = brs.map (fun br => (br.fName, br.processed)) := by
  induction brs with
  | nil => rfl
  | cons br rest ih =>
    unfold setAddressOf
    split_ifs
    · rfl
    · simp only [List.map_cons, ih]

theorem processed_setBranchAddress (e : TStatusElement) (t : TTree) :
    (TChain.setBranchAddress e t).2.branches.map (fun br => (br.fName, br.processed))
      = t.branches.map (fun br => (br.fName, br.processed)) := by
  unfold TChain.setBranchAddress
  simp only
  split_ifs
  · exact processed_setAddressOf _ _ _
  · rfl

/-- The loop that sets the branch addresses changes no status. -/
theorem processed_setBranchAddresses :
    ∀ (st : List TStatusElement) (t : TTree),
      (TChain.setBranchAddresses st t).2.branches.map (fun br => (br.fName, br.processed))
        = t.branches.map (fun br => (br.fName, br.processed))
  | [], t => rfl
  | e :: rest, t => by
    unfold TChain.setBranchAddresses
    split_ifs
    · simp only
      rw [processed_setBranchAddresses rest, processed_setBranchAddress]
    · simp only
      rw [processed_setBranchAddresses rest]

/-- After a call of `LoadTree` that switched to a new tree and returned a local entry,
every branch of the tree that an element of `fStatus` with a status names, by `*`
or by its name, has the status of the last such element. -/
theorem LoadTree_applies_statuses (E : Env) (c : TChain) (g l : Int) (c1 : TChain) (t : TTree)
    (hlock : c.fFriendLockStatus = false) (h : TChain.LoadTree E c g = some (l, c1))
    (hl : 0 ≤ l) (hsw : c1.opens ≠ c.opens) (ht : c1.fTree = some t) :
    ∀ br ∈ t.branches, ∀ v, lastStatus c.fStatus br.fName = some v →
      br.processed = decide (v ≠ 0) := by
  rcases LoadTreeAux_switch E g l _ c c1 hlock h hl with ⟨hop, _⟩ | ⟨t1, h5, _⟩
  · exact absurd hop hsw
  · rw [ht, Option.some.injEq] at h5
    intro br hbr v hv
    have hmem : (br.fName, br.processed) ∈ t.branches.map (fun br => (br.fName, br.processed)) :=
      List.mem_map_of_mem _ hbr
    rw [h5, processed_setBranchAddresses, setBranchStatuses_branches, List.map_map] at hmem
    obtain ⟨br0, _, heq⟩ := List.mem_map.mp hmem
    simp only [Function.comp, Prod.mk.injEq] at heq
    cases h0 : lastStatus c.fStatus br0.fName with
    | none =>
      rw [h0] at heq
      simp only at heq
      rw [← heq.1, h0] at hv
      cases hv
    | some v0 =>
      rw [h0] at heq
      simp only at heq
      rw [← heq.1, h0] at hv
      cases hv
      exact heq.2.symm

/-- C25. On a list `fStatus` without repeated names, `SetBranchStatus(bname, b)` leaves exactly one
element named `bname` and makes it the last one, with the status `b`, the address and
the branch pointer it had (none when it is new); the other elements keep
their order.  Every call of `LoadTree` that switches to a new tree and returns a
local entry applies the statuses in the order of the list, so that a branch
has the status of the last element that names it, by `*` or by its name: after
`SetBranchStatus(bname, b)` that is `b` for the branches `bname` names, and what it was for the
others. -/
theorem SetBranchStatus_last_set_wins (E : Env) (s : TChain) (bname : String) (b : Bool)
    (s1 : TChain) (hnd : (s.fStatus.map fun e => e.fName).Nodup)
    (h : TChain.SetBranchStatus s bname b = some s1) :
    (∃ e1, s1.fStatus = s.fStatus.filter (fun e => decide (e.fName ≠ bname)) ++ [e1] ∧
      e1.fName = bname ∧ e1.fStatus = (if b then 1 else 0) ∧
      (∀ e0 ∈ s.fStatus, e0.fName = bname →
        e1.fBaddress = e0.fBaddress ∧ e1.fBranchPtr = e0.fBranchPtr) ∧
      (bname ∉ s.fStatus.map (fun e => e.fName) → e1.fBaddress = 0 ∧ e1.fBranchPtr = none)) ∧
    (s1.fStatus.map fun e => e.fName).count bname = 1 ∧
    (∀ n, bname = "*" ∨ bname = n → lastStatus s1.fStatus n = some (if b then 1 else 0)) ∧
    (∀ n, ¬ (bname = "*" ∨ bname = n) → lastStatus s1.fStatus n = lastStatus s.fStatus n) ∧
    (∀ (c : TChain) (g l : Int) (c1 : TChain) (t : TTree), c.fFriendLockStatus = false →
      TChain.LoadTree E c g = some (l, c1) → 0 ≤ l → c1.opens ≠ c.opens → c1.fTree = some t →
      ∀ br ∈ t.branches, ∀ v, lastStatus c.fStatus br.fName = some v →
        br.processed = decide (v ≠ 0)) := by
  obtain ⟨e1, h1, h2, hcase⟩ := SetBranchStatus_fStatus s bname b s1 h
  obtain ⟨e2, h3, hname, _⟩ := SetBranchStatus_name s bname b s1 h
  have he : e2 = e1 := by
    rw [h1] at h3
    have := List.append_cancel_left h3
    simp only [List.cons.injEq, and_true] at this
    exact this.symm
  subst he
  have hnd1 := SetBranchStatus_nodup s bname b s1 hnd h
  refine ⟨⟨e2, by rw [h1, removeStatus_filter bname s.fStatus hnd], hname, h2, ?_, ?_⟩, ?_, ?_, ?_,
    fun c g l c1 t hlock hL hl hsw ht =>
      LoadTree_applies_statuses E c g l c1 t hlock hL hl hsw ht⟩
  · intro e0 he0 hn0
    rcases hcase with ⟨e3, hf, heq⟩ | ⟨hf, _⟩
    · have hmem3 := List.mem_of_find?_eq_some hf
      have hp := List.find?_some hf
      simp only [decide_eq_true_eq] at hp
      have := List.inj_on_of_nodup_map hnd hmem3 he0 (hp.trans hn0.symm)
      subst this
      rw [heq]
      exact ⟨rfl, rfl⟩
    · rw [List.find?_eq_none] at hf
      have := hf e0 he0
      simp only [decide_eq_true_eq] at this
      exact absurd hn0 this
  · intro hnot
    rcases hcase with ⟨e3, hf, _⟩ | ⟨_, heq⟩
    · have hmem3 := List.mem_of_find?_eq_some hf
      have hp := List.find?_some hf
      simp only [decide_eq_true_eq] at hp
      exfalso
      apply hnot
      rw [← hp]
      exact List.mem_map_of_mem _ hmem3
    · rw [heq]
      exact ⟨rfl, rfl⟩
  · apply List.count_eq_one_of_mem hnd1
    rw [h1]
    simp only [List.map_append, List.map_cons, List.map_nil, List.mem_append, List.mem_singleton]
    exact Or.inr hname.symm
  · intro n hn
    rw [h1, lastStatus_append]
    have hc : e2.fStatus ≠ -1 ∧ (e2.fName = "*" ∨ e2.fName = n) := by
      rw [h2, hname]
      refine ⟨?_, hn⟩
      cases b <;> decide
    rw [if_pos hc, h2]
  · intro n hn
    rw [h1, lastStatus_append]
    have hc : ¬ (e2.fStatus ≠ -1 ∧ (e2.fName = "*" ∨ e2.fName = n)) := by
      rw [hname]
      exact fun hx => hn hx.2
    rw [if_neg hc, lastStatus_removeStatus bname n hn]

/-- The chain `chainS1`, in which `SetBranchStatus("*", false)` was the last call: `SetBranchStatus("x", true)` moves
the element `x` behind the element `*`; the following `LoadTree(0)` opens `b0.root` and leaves
its branch `x` processed and its branch `y` not. -/
theorem SetBranchStatus_last_set_wins_witness :
    TChain.SetBranchStatus chainS1 "x" true = some chainS2 ∧
    (∃ e1, chainS2.fStatus = chainS1.fStatus.filter (fun e => decide (e.fName ≠ "x")) ++ [e1] ∧
      e1.fName = "x" ∧ e1.fStatus = (if true then 1 else 0) ∧
      (∀ e0 ∈ chainS1.fStatus, e0.fName = "x" →
        e1.fBaddress = e0.fBaddress ∧ e1.fBranchPtr = e0.fBranchPtr) ∧
      ("x" ∉ chainS1.fStatus.map (fun e => e.fName) → e1.fBaddress = 0 ∧ e1.fBranchPtr = none)) ∧
    (chainS2.fStatus.map fun e => e.fName).count "x" = 1 ∧
    lastStatus chainS2.fStatus "x" = some 1 ∧
    lastStatus chainS2.fStatus "y" = lastStatus chainS1.fStatus "y" ∧
    lastStatus chainS1.fStatus "y" = some 0 ∧
    TChain.LoadTree envB chainS2 0 = some (0, chainS0) ∧ chainS0.fTree = some treeS0 ∧
    (∀ br ∈ treeS0.branches, ∀ v, lastStatus chainS2.fStatus br.fName = some v →
      br.processed = decide (v ≠ 0)) ∧
    treeS0.branches = [⟨"x", 7, true⟩, ⟨"y", 9, false⟩] :=
  ⟨by decide,
   (SetBranchStatus_last_set_wins envB chainS1 "x" true chainS2 (by decide) (by decide)).1,
   (SetBranchStatus_last_set_wins envB chainS1 "x" true chainS2 (by decide) (by decide)).2.1,
   (SetBranchStatus_last_set_wins envB chainS1 "x" true chainS2 (by decide) (by decide)).2.2.1
     "x" (Or.inr rfl),
   (SetBranchStatus_last_set_wins envB chainS1 "x" true chainS2 (by decide) (by decide)).2.2.2.1
     "y" (by decide),
   by decide, by decide, by decide,
   (SetBranchStatus_last_set_wins envB chainS1 "x" true chainS2 (by decide) (by decide)).2.2.2.2
     chainS2 0 0 chainS0 treeS0 (by decide) (by decide) (by decide) (by decide) (by decide),
   by decide⟩

/-- The other order of the two calls: with `SetBranchStatus("*", false)` last, the branch `x` is not
processed either. -/
theorem SetBranchStatus_wildcard_last :
    ((TChain.SetBranchStatus chainE "x" true).bind fun s =>
      (TChain.SetBranchStatus s "*" false).bind fun s =>
        (TChain.LoadTree envB s 0).map fun r =>
          (r.2.fStatus.map (fun e => e.fName), r.2.fTree.map (fun t => t.branches)))
      = some (["y", "x", "*"], some [⟨"x", 7, false⟩, ⟨"y", 9, false⟩]) := by
  decide

/-! ## The files a call opens -/

theorem titles_setLoadResult (fs : List TChainElement) (j : Nat) (r : Int) :
    (TChain.setLoadResult fs j r).map (fun e => e.fTitle) = fs.map (fun e => e.fTitle) := by
  apply List.ext_getElem?
  intro i
  simp only [List.getElem?_map, TChain.setLoadResult, List.getElem?_modify]
  cases fs[i]? with
  | none => rfl
  | some e => by_cases hji : j = i <;> simp [hji]

theorem titles_setNumberEntries (fs : List TChainElement) (j : Nat) (n : Int) :
    (TChain.setNumberEntries fs j n).map (fun e => e.fTitle) = fs.map (fun e => e.fTitle) := by
  apply List.ext_getElem?
  intro i
  simp only [List.getElem?_map, TChain.setNumberEntries, List.getElem?_modify]
  cases fs[i]? with
  | none => rfl
  | some e => by_cases hji : j = i <;> simp [hji]

theorem finishSwitch_titles (s : TChain) (g tre : Int) (eidx : Nat) (rc : Int) :
    (TChain.finishSwitch s g tre eidx rc).chain.fFiles.map (fun e => e.fTitle)
      = s.fFiles.map (fun e => e.fTitle) := by
  unfold TChain.finishSwitch
  cases s.fTree with
  | none => exact titles_setLoadResult _ _ _
  | some t =>
    simp only
    split_ifs <;> exact titles_setLoadResult _ _ _

theorem afterOpen_titles (s : TChain) (g tre : Int) (k eidx : Nat) (tree : Option TTree)
    (rc : Int) (r : TChain.Step) (h : TChain.afterOpen s g tre k eidx tree rc = some r) :
    r.chain.fFiles.map (fun e => e.fTitle) = s.fFiles.map (fun e => e.fTitle) := by
  unfold TChain.afterOpen at h
  cases hrep : TChain.repair
      { s with fTree := tree, fFile := tree.isSome, fTreeNumber := (k : Int) } g tre k eidx
      (TChain.entriesOf tree) rc with
  | none => simp [hrep] at h
  | some x =>
    obtain ⟨a, b, _, _, hcase⟩ := repair_cases _ g tre k eidx _ rc x hrep
    have hx : x.1.fFiles.map (fun e => e.fTitle) = s.fFiles.map (fun e => e.fTitle) := by
      rcases hcase with ⟨_, hres⟩ | ⟨_, total, _, hres | hres | hres⟩
      · cases hres; rfl
      · cases hres.1; exact titles_setNumberEntries _ _ _
      · cases hres.1
        exact (titles_setLoadResult _ _ _).trans (titles_setNumberEntries _ _ _)
      · cases hres.1; exact titles_setNumberEntries _ _ _
    obtain ⟨s2, tre2, b2⟩ := x
    simp only at hx
    simp only [hrep] at h
    cases b2 with
    | true =>
      simp only at h
      split_ifs at h <;> cases h <;> exact hx
    | false =>
      simp only [Option.some.injEq] at h
      rw [← h, finishSwitch_titles, hx]

/-- A pass of `LoadTree` changes no file name in `fFiles`. -/
theorem LoadTreeStep_titles (E : Env) (s : TChain) (g : Int) (r : TChain.Step)
    (h : TChain.LoadTreeStep E s g = some r) :
    r.chain.fFiles.map (fun e => e.fTitle) = s.fFiles.map (fun e => e.fTitle) := by
  rcases LoadTreeStep_cases E s g _ h with ⟨_, hr⟩ | ⟨_, _, hr⟩ | ⟨_, _, _, hr⟩ |
    ⟨_, _, _, k, a, _, _, hrest⟩
  · subst hr; rfl
  · subst hr; rfl
  · subst hr; rfl
  · rcases hrest with ⟨t, _, _, hsame⟩ | ⟨_, ⟨_, _, hr⟩ | ⟨eidx, e, _, _, hopen⟩⟩
    · obtain ⟨_, _, f3, _⟩ := sameTree_frame { s with fReadEntry := g } t g _ _ hsame
      rw [f3]
    · subst hr
      simp only [TChain.Step.chain, teardown_fFiles]
    · have hk := afterOpen_titles _ g (g - a) k eidx _ _ r hopen
      simp only [teardown_fFiles] at hk
      exact hk

/-- A pass of `LoadTree` opens no file, or it opens the file of the element of the
selected tree number (of the first element when there is no such element). -/
theorem LoadTreeStep_opened (E : Env) (s : TChain) (g : Int) (r : TChain.Step)
    (h : TChain.LoadTreeStep E s g = some r) :
    r.chain.opens = s.opens ∨
    ∃ (k eidx : Nat) (e : TChainElement), TChain.locate E s g = some k ∧
      (s.fTreeNumber ≠ (k : Int) ∨ s.fTree = none) ∧
      s.fFiles[eidx]? = some e ∧ (eidx = k ∨ s.fFiles[k]? = none) ∧
      r.chain.opens = s.opens ++ [e.fTitle] := by
  rcases LoadTreeStep_cases E s g _ h with ⟨_, hr⟩ | ⟨_, _, hr⟩ | ⟨_, _, _, hr⟩ |
    ⟨_, _, _, k, a, hloc, _, hrest⟩
  · subst hr; exact Or.inl rfl
  · subst hr; exact Or.inl rfl
  · subst hr; exact Or.inl rfl
  · rcases hrest with ⟨t, _, _, hsame⟩ | ⟨hsw, ⟨_, _, hr⟩ | ⟨eidx, e, he, hidx, hopen⟩⟩
    · obtain ⟨_, _, _, _, f5, _⟩ := sameTree_frame { s with fReadEntry := g } t g _ _ hsame
      exact Or.inl f5
    · subst hr
      exact Or.inl (teardown_opens _)
    · right
      obtain ⟨_, _, hop, _⟩ := afterOpen_frame E _ g (g - a) k eidx _ _ r hopen
      simp only [teardown_opens] at hop
      refine ⟨k, eidx, e, hloc, hsw, he, ?_, hop⟩
      rcases hidx with h1 | ⟨h1, _⟩
      · exact Or.inl h1
      · exact Or.inr h1

/-- A pass of `LoadTree` that returns a local entry while the friend lock is not held
leaves the selected tree number as the tree number. -/
theorem LoadTreeStep_selected (E : Env) (s : TChain) (g l : Int) (s1 : TChain)
    (h : TChain.LoadTreeStep E s g = some (Step.done l s1))
    (hlock : s.fFriendLockStatus = false) (hl : 0 ≤ l) :
    ∃ k : Nat, TChain.locate E s g = some k ∧ s1.fTreeNumber = (k : Int) := by
  rcases LoadTreeStep_cases E s g _ h with ⟨hlk, _⟩ | ⟨_, _, hr⟩ | ⟨_, _, _, hr⟩ |
    ⟨_, _, _, k, a, hloc, ha, hrest⟩
  · rw [hlock] at hlk; cases hlk
  · simp only [TChain.Step.done.injEq] at hr; omega
  · simp only [TChain.Step.done.injEq] at hr; omega
  · rcases hrest with ⟨t, hcur, ht, hsame⟩ | ⟨hsw, ⟨_, _, hr⟩ | ⟨eidx, e, he, hidx, hopen⟩⟩
    · obtain ⟨_, _, _, _, _, f6, _⟩ := sameTree_frame { s with fReadEntry := g } t g _ _ hsame
      simp only [TChain.Step.chain] at f6
      exact ⟨k, hloc, by rw [f6]; exact hcur⟩
    · simp only [TChain.Step.done.injEq] at hr; omega
    · obtain ⟨_, h2, _⟩ := afterOpen_entry _ g _ k eidx _ _ l s1 hopen hl
        (openElement_code E e)
      exact ⟨k, hloc, h2⟩

/-! ## A scan of the entries in increasing order -/

/-- During a scan, a pass that selects the tree `K` and opens a file opens the file
of the element `K`. -/
theorem Scanned.opensNext {E : Env} {counts : List Nat} {titles base : List String} {K : Nat}
    {s : TChain} (h : Scanned E counts titles base K s) (hK : K < counts.length)
    (g : Int) (r : TChain.Step) (hstep : TChain.LoadTreeStep E s g = some r)
    (hloc : TChain.locate E s g = some K) (hop : r.chain.opens ≠ s.opens) :
    r.chain.opens = base ++ titles.take (K + 1) := by
  rcases LoadTreeStep_opened E s g r hstep with h1 | ⟨k, eidx, e, hk, _, he, hidx, h1⟩
  · exact absurd h1 hop
  · rw [hloc] at hk
    have hkK : K = k := Option.some.inj hk
    subst hkK
    obtain ⟨e0, _, he0, _⟩ := h.res.files K hK
    have hid : eidx = K := by
      rcases hidx with h2 | h2
      · exact h2
      · rw [he0] at h2; cases h2
    subst hid
    have htitle : titles[eidx]? = some e.fTitle := by
      rw [← h.names, List.getElem?_map, he]
      rfl
    rw [h1, h.opened, List.take_succ, htitle, List.append_assoc]
    rfl

/-- One pass of `LoadTree` during a scan, for an entry owned by a tree `p` that is the
current tree or lies after it: either the pass returns the local entry, having
opened the file of `p` unless `p` was the current tree, or it has opened the file
of the tree `K` and the next tree is tried. -/
theorem Scanned.advance {E : Env} {counts : List Nat} {titles base : List String} {K : Nat}
    {s : TChain} (h : Scanned E counts titles base K s)
    (hsum : sumBefore counts counts.length < E.kMaxEntries - 1)
    (g : Int) (p : Nat) (hp : p < counts.length)
    (hlo : sumBefore counts p ≤ g) (hhi : g < sumBefore counts (p + 1)) (h0 : 0 ≤ g)
    (hKp : K ≤ p + 1) :
    (∃ s1, TChain.LoadTreeStep E s g = some (Step.done (g - sumBefore counts p) s1) ∧
        Scanned E counts titles base (p + 1) s1) ∨
    (K < p ∧ ∃ s1, TChain.LoadTreeStep E s g = some (Step.retry s1) ∧
        Scanned E counts titles base (K + 1) s1) := by
  have hloc := h.res.locate hsum g p hp hlo hhi
  rcases h.res.step hsum g p hp hlo hhi h0 with ⟨s1, h1, h2, h3⟩ | ⟨hKp2, s1, h1, h3⟩
  · left
    refine ⟨s1, h1, ?_⟩
    have htit := LoadTreeStep_titles E s g _ h1
    simp only [TChain.Step.chain] at htit
    obtain ⟨k, hk1, hk2⟩ := LoadTreeStep_selected E s g _ s1 h1 h.res.lock (by omega)
    rw [hloc] at hk1
    have hkmin : min p K = k := Option.some.inj hk1
    have hkp : k = p := by omega
    have hpK : p ≤ K := by
      rw [← hkp, ← hkmin]; exact Nat.min_le_right _ _
    refine ⟨h3.weaken (by omega), by rw [h2]; push_cast; omega, htit.trans h.names, ?_⟩
    rcases Nat.lt_or_ge p K with hlt | hge
    · -- the current tree
      have hpK1 : p + 1 = K := by omega
      rcases LoadTreeStep_opened E s g _ h1 with h4 | ⟨k2, _, _, hk3, hsw, _⟩
      · simp only [TChain.Step.chain] at h4
        rw [h4, h.opened, hpK1]
      · exfalso
        rw [hloc] at hk3
        have hk2p : min p K = k2 := Option.some.inj hk3
        have hfront := h.front
        rcases hsw with h5 | h5
        · apply h5; omega
        · rcases h.res.current with hc | ⟨_, _, _, hsome⟩
          · omega
          · rw [h5] at hsome; simp at hsome
    · -- the tree after the current one
      have hpeq : p = K := by omega
      subst hpeq
      have hlocK : TChain.locate E s g = some p := by
        rw [hloc]; congr 1; omega
      have hop : s1.opens ≠ s.opens := by
        obtain ⟨k3, a, e1, _, _, hcase⟩ := LoadTreeStep_entry E s g _ s1 h1 h.res.lock (by omega)
        rcases hcase with ⟨_, hcur, _⟩ | ⟨title, _, hopen, _⟩
        · exfalso
          have hfront := h.front
          omega
        · rw [hopen]
          intro heq
          have := congrArg List.length heq
          simp at this
      exact h.opensNext hp g _ h1 hlocK hop
  · right
    refine ⟨hKp2, s1, h1, ?_⟩
    have htit := LoadTreeStep_titles E s g _ h1
    simp only [TChain.Step.chain] at htit
    obtain ⟨k, _, _, hk1, _, _, _, _, _, _, hnum, _, _, _, _, _, _, title, hopen⟩ :=
      LoadTreeStep_retry E s g s1 h1
    rw [hloc] at hk1
    have hkmin : min p K = k := Option.some.inj hk1
    have hkK : k = K := by
      rw [← hkmin]; exact Nat.min_eq_right (by omega)
    subst hkK
    have hlocK : TChain.locate E s g = some k := by rw [hloc, hkmin]
    have hop : s1.opens ≠ s.opens := by
      rw [hopen]
      intro heq
      have := congrArg List.length heq
      simp at this
    exact ⟨h3, by rw [hnum]; push_cast; omega, htit.trans h.names,
      h.opensNext (by omega) g _ h1 hlocK hop⟩

/-- The passes of `LoadTree` during a scan end with the local entry of the owner `p`;
the files opened are then those of the elements up to `p`. -/
theorem Scanned.passes {E : Env} {counts : List Nat} {titles base : List String}
    (hsum : sumBefore counts counts.length < E.kMaxEntries - 1)
    (g : Int) (p : Nat) (hp : p < counts.length)
    (hlo : sumBefore counts p ≤ g) (hhi : g < sumBefore counts (p + 1)) (h0 : 0 ≤ g) :
    ∀ (fuel K : Nat) (s : TChain), Scanned E counts titles base K s → K ≤ p + 1 →
      counts.length - K < fuel →
      ∃ s1, TChain.LoadTreeAux E fuel s g = some (g - sumBefore counts p, s1) ∧
        Scanned E counts titles base (p + 1) s1 := by
  intro fuel
  induction fuel with
  | zero => intro K s _ _ hf; omega
  | succ f ih =>
    intro K s h hKp hf
    rcases h.advance hsum g p hp hlo hhi h0 hKp with ⟨s1, h1, h3⟩ | ⟨hKp2, s1, h1, h3⟩
    · exact ⟨s1, by simp [TChain.LoadTreeAux, h1], h3⟩
    · obtain ⟨s2, h4, h6⟩ := ih (K + 1) s1 h3 (by omega) (by omega)
      exact ⟨s2, by simp [TChain.LoadTreeAux, h1, h4], h6⟩

/-- A chain built by `AddFile` in which every count was declared unknown and every
file opens with its tree: no boundary is set, nothing is opened. -/
theorem Built.scanned {E : Env} {s : TChain} (h : Built E s)
    (hfiles : ∀ e ∈ s.fFiles, e.fEntries = E.kMaxEntries ∧ ∃ t, treeOf E e = some t) :
    Scanned E (s.fFiles.map (trueCount E)) (s.fFiles.map fun e => e.fTitle) s.opens 0 s := by
  have hN : (s.fFiles.map (trueCount E)).length = s.fNtrees := by simp [h.filesLen]
  refine ⟨?_, by rw [h.current]; rfl, rfl, by simp⟩
  exact
    { ntrees := hN.symm, hK := Nat.zero_le _,
      offLen := by rw [hN]; exact h.offLen,
      known := by
        intro i hi
        have : i = 0 := by omega
        subst this
        rw [sumBefore_zero]; exact h.off0
      unknown := by
        intro i h1 h2
        obtain ⟨m, hm⟩ : ∃ m, i = m + 1 := ⟨i - 1, by omega⟩
        subst hm
        have hmf : m < s.fFiles.length := by rw [h.filesLen, ← hN]; omega
        obtain ⟨a, _, hb⟩ := h.offs m s.fFiles[m] (List.getElem?_eq_getElem hmf)
        rw [if_pos (hfiles s.fFiles[m] (List.getElem_mem _)).1] at hb
        exact ⟨_, hb, le_refl _⟩
      total := by rw [hN]; exact h.total,
      filesLen := by rw [hN]; exact h.filesLen,
      files := by
        intro i hi
        have hif : i < s.fFiles.length := by simpa using hi
        obtain ⟨_, t, ht⟩ := hfiles s.fFiles[i] (List.getElem_mem _)
        exact ⟨s.fFiles[i], t, List.getElem?_eq_getElem hif, ht, by simp [trueCount, ht]⟩
      lock := h.lock, notify := h.notify, friends := h.friends,
      current := Or.inl h.current }

theorem runLoads_append (E : Env) :
    ∀ (l1 l2 : List Int) (s : TChain),
      runLoads E s (l1 ++ l2) = (runLoads E s l1).bind fun s1 => runLoads E s1 l2
  | [], l2, s => rfl
  | g :: rest, l2, s => by
    simp only [List.cons_append, runLoads]
    cases TChain.LoadTree E s g with
    | none => rfl
    | some r => exact runLoads_append E rest l2 r.2

/-- A scan: after `LoadTree(0)`, ..., `LoadTree(m - 1)` the files opened are those of the first `K`
elements, in their order, and each of these trees starts at or before the
entry `m - 1`. -/
theorem Scanned.scan {E : Env} {counts : List Nat} {titles base : List String} {s0 : TChain}
    (h : Scanned E counts titles base 0 s0)
    (hsum : sumBefore counts counts.length < E.kMaxEntries - 1) :
    ∀ m : Nat, (m : Int) ≤ sumBefore counts counts.length →
      ∃ s K, runLoads E s0 ((List.range m).map fun (i : Nat) => (i : Int)) = some s ∧
        Scanned E counts titles base K s ∧ ∀ i, i < K → sumBefore counts i < (m : Int) := by
  intro m
  induction m with
  | zero =>
    intro _
    exact ⟨s0, 0, rfl, h, fun i hi => by omega⟩
  | succ n ih =>
    intro hm
    obtain ⟨s, K, hrun, hS, hstart⟩ := ih (by push_cast at hm; omega)
    have hgN : (n : Int) < sumBefore counts counts.length := by push_cast at hm; omega
    obtain ⟨p, hp, hlo, hhi⟩ := owner_exists counts (n : Int) (by omega) counts.length hgN
    have hKp : K ≤ p + 1 := by
      by_contra hnot
      have h1 := hstart (K - 1) (by omega)
      have h2 := sumBefore_mono counts (p + 1) (K - 1) (by omega)
      omega
    obtain ⟨s1, hL, hS1⟩ := Scanned.passes hsum (n : Int) p hp hlo hhi (by omega)
      (s.fNtrees + 2) K s hS hKp (by rw [hS.res.ntrees]; omega)
    refine ⟨s1, p + 1, ?_, hS1, ?_⟩
    · rw [List.range_succ, List.map_append, runLoads_append, hrun]
      simp only [Option.some_bind, List.map_cons, List.map_nil, runLoads]
      have hL2 : TChain.LoadTree E s (n : Int) = some ((n : Int) - sumBefore counts p, s1) := hL
      rw [hL2]
    · intro i hi
      have := sumBefore_mono counts i p (by omega)
      push_cast
      omega

/-- C26. In a chain built by `AddFile` calls in which every count was declared unknown,
every file opens with its tree and the true counts sum up to `N < kMaxEntries - 1`, the
calls `LoadTree(0)`, `LoadTree(1)`, ..., `LoadTree(m - 1)` in this order, for any `m <= N`, open the files of
the first `K` elements, each once and in the order of the elements, and nothing
else; each of these `K` trees starts at or before the entry `m - 1`, the last one
requested. -/
theorem LoadTree_scan_opens_in_order (E : Env) (name : String)
    (calls : List (String × Int × String)) (s0 : TChain)
    (hbuild : addFiles E (TChain.init name) calls = some s0)
    (hfiles : ∀ e ∈ s0.fFiles, e.fEntries = E.kMaxEntries ∧ ∃ t, treeOf E e = some t)
    (hsum : sumBefore (s0.fFiles.map (trueCount E)) s0.fNtrees < E.kMaxEntries - 1)
    (m : Nat) (hm : (m : Int) ≤ sumBefore (s0.fFiles.map (trueCount E)) s0.fNtrees) :
    ∃ s K, runLoads E s0 ((List.range m).map fun (i : Nat) => (i : Int)) = some s ∧ K ≤ s0.fNtrees ∧
      s.opens = s0.opens ++ (s0.fFiles.take K).map (fun e => e.fTitle) ∧
      ∀ i, i < K → sumBefore (s0.fFiles.map (trueCount E)) i < (m : Int) := by
  obtain ⟨s0b, hb1, hB⟩ := Built.afterAddFiles calls (TChain.init name) (Built.init E name)
  rw [hbuild] at hb1
  have hs : s0 = s0b := Option.some.inj hb1
  subst hs
  have hS0 := hB.scanned hfiles
  have hN : (s0.fFiles.map (trueCount E)).length = s0.fNtrees := hS0.res.ntrees.symm
  rw [← hN] at hsum hm
  obtain ⟨s, K, hrun, hS, hstart⟩ := hS0.scan hsum m hm
  refine ⟨s, K, hrun, by rw [← hN]; exact hS.res.hK, ?_, hstart⟩
  rw [hS.opened, List.map_take]

theorem chainQ_files :
    ∀ e ∈ chainQ.fFiles, e.fEntries = envA.kMaxEntries ∧ ∃ t, treeOf envA e = some t := by
  intro e he
  simp only [chainQ, List.mem_cons, List.mem_singleton, List.not_mem_nil, or_false] at he
  rcases he with rfl | rfl | rfl
  · exact ⟨by decide, plainTree 3, by decide⟩
  · exact ⟨by decide, plainTree 0, by decide⟩
  · exact ⟨by decide, plainTree 2, by decide⟩

/-- The chain of `p0.root` (3 entries), `empty.root` (none) and `p1.root` (2), all declared unknown:
`LoadTree(0)`, `LoadTree(1)`, `LoadTree(2)` open `p0.root` only; `LoadTree(3)` then opens `empty.root` and `p1.root`, in
this order. -/
theorem LoadTree_scan_opens_in_order_witness :
    addFiles envA (TChain.init "T")
        [("p0.root", 1000000000000, ""), ("empty.root", 1000000000000, ""),
         ("p1.root", 1000000000000, "")] = some chainQ ∧
    (∃ s K, runLoads envA chainQ ((List.range 4).map fun (i : Nat) => (i : Int)) = some s ∧
      K ≤ chainQ.fNtrees ∧
      s.opens = chainQ.opens ++ (chainQ.fFiles.take K).map (fun e => e.fTitle) ∧
      ∀ i, i < K → sumBefore (chainQ.fFiles.map (trueCount envA)) i < ((4 : Nat) : Int)) ∧
    (runLoads envA chainQ [0, 1, 2]).map (fun s => s.opens) = some ["p0.root"] ∧
    (runLoads envA chainQ [0, 1, 2, 3]).map (fun s => (s.opens, s.fTreeNumber))
      = some (["p0.root", "empty.root", "p1.root"], 2) :=
  ⟨by decide,
   LoadTree_scan_opens_in_order envA "T"
     [("p0.root", 1000000000000, ""), ("empty.root", 1000000000000, ""),
      ("p1.root", 1000000000000, "")] chainQ (by decide) chainQ_files (by decide) 4 (by decide),
   by decide, by decide⟩

/-- Out of order a file is opened again: after `LoadTree(3)`, `LoadTree(0)` opens `p0.root` a second
time. -/
theorem LoadTree_reopens_out_of_order :
    (runLoads envA chainQ [0, 3, 0]).map (fun s => s.opens)
      = some ["p0.root", "empty.root", "p1.root", "p0.root"] := by
  decide
